import Mathlib

/-!
# The gamma board-game engine (`gamma.c`, `board_field_type.c`, `batch_mode.c`)

A shallow embedding of the engine and a verification of its specification.

Conventions of the embedding.

* A pointer to a grid cell `&g->fields[i][j]` is the pair `(i, j)` (row, column).
* The grid is a total map `Nat → Nat → field_t`; the code only ever reads and
  writes cells that pass `good_coords`.
* A `gamma_t *` argument is an `Option gamma_t`, with `none` for `NULL`.
* `uint32_t` and `uint64_t` values are natural numbers; every operation that
  can wrap carries an explicit `% 2^32` or `% 2^64`.
* `find_root` is recursive in C and does not return on a cyclic chain of
  representatives. It is embedded with a fuel argument and returns `none`
  when the fuel runs out; callers pass the number of cells of the board, and
  functions that call it return an `Option`.
-/

namespace Gamma

/-! ## `board_field_type.c` -/

/-- One cell of the board (`struct field`). -/
structure field_t where
  x : Nat
  y : Nat
  owner : Nat
  rep : Nat × Nat
  rank : Nat
deriving DecidableEq

/-- Source `initialize_field`: the value stored in the cell at address `field`. -/
def initialize_field (field : Nat × Nat) (x y player : Nat) : field_t :=
  { x := x, y := y, owner := player, rep := field, rank := 0 }

/-- Source `set_field`: only `x`, `y` and `owner` are written. -/
def set_field (field : field_t) (x y player : Nat) : field_t :=
  { field with x := x, y := y, owner := player }

/-- Store `v` in `fields[i][j]`. -/
def set_cell (fields : Nat → Nat → field_t) (i j : Nat) (v : field_t) :
    Nat → Nat → field_t :=
  fun a b => if a = i ∧ b = j then v else fields a b

/-- Store `v` in entry `p` of a per-player array. -/
def set_at {α : Type} (arr : Nat → α) (p : Nat) (v : α) : Nat → α :=
  fun q => if q = p then v else arr q

/-- Source `find_root`, on the address of a grid cell. -/
def find_root (fields : Nat → Nat → field_t) : Nat → Nat × Nat → Option (Nat × Nat)
  | 0, _ => none
  | fuel + 1, field =>
    if (fields field.1 field.2).rep = field then some field
    else find_root fields fuel (fields field.1 field.2).rep

/-- Source `unite`. The two cells are passed by value: `find_root(&first)` starts
from a copy on the stack, whose address is never equal to its `rep`, so the
search continues at `first.rep`. -/
def unite (fuel : Nat) (fields : Nat → Nat → field_t) (first second : field_t) :
    Option (Nat → Nat → field_t) :=
  match find_root fields fuel first.rep, find_root fields fuel second.rep with
  | some first_root, some second_root =>
    if first_root = second_root then some fields
    else if (fields first_root.1 first_root.2).rank >
        (fields second_root.1 second_root.2).rank then
      some (set_cell fields second_root.1 second_root.2
        { fields second_root.1 second_root.2 with rep := first_root })
    else if (fields first_root.1 first_root.2).rank <
        (fields second_root.1 second_root.2).rank then
      some (set_cell fields first_root.1 first_root.2
        { fields first_root.1 first_root.2 with rep := second_root })
    else
      let fields1 := set_cell fields second_root.1 second_root.2
        { fields second_root.1 second_root.2 with rep := first_root }
      some (set_cell fields1 first_root.1 first_root.2
        { fields1 first_root.1 first_root.2 with
          rank := ((fields1 first_root.1 first_root.2).rank + 1) % 2 ^ 64 })
  | _, _ => none

/-! ## `gamma.c` -/

/-- The number of the empty player. -/
def EMPTY : Nat := 0

/-- Base of the logarithm used by `gamma_board`. -/
def LOG_BASE : Nat := 10

/-- The largest `uint32_t`. -/
def UINT32_MAX : Nat := 4294967295

/-- The board (`struct gamma`). -/
structure gamma_t where
  height : Nat
  width : Nat
  fields : Nat → Nat → field_t
  areas : Nat
  players : Nat
  player_areas : Nat → Nat
  player_fields : Nat → Nat
  golden_used : Nat → Bool
  no_memory : Bool

/-- Fuel handed to `find_root`: the number of cells of the board. -/
def gamma_t.fuel (g : gamma_t) : Nat := g.height * g.width

/-- The array `int delta_x[] = {1, -1, 0, 0}`. -/
def delta_x : Nat → Int
  | 0 => 1
  | 1 => -1
  | _ => 0

/-- The array `int delta_y[] = {0, 0, 1, -1}`. -/
def delta_y : Nat → Int
  | 2 => 1
  | 3 => -1
  | _ => 0

/-- The sum `a + d` of a `uint32_t` and an `int`, taken in 32-bit unsigned arithmetic. -/
def add_u32 (a : Nat) (d : Int) : Nat := (((a : Int) + d) % 4294967296).toNat

/-- The contents of uninitialised memory, before `initialize_field` runs. -/
def blank_field : field_t := { x := 0, y := 0, owner := 0, rep := (0, 0), rank := 0 }

/-- Source `initialize_fields`: cell `[i][j]` is initialised with `x = i`, `y = j`. -/
def initialize_fields (height width : Nat) : Nat → Nat → field_t :=
  (List.range height).foldl (fun fields i =>
    (List.range width).foldl (fun fields j =>
      set_cell fields i j (initialize_field (i, j) i j EMPTY)) fields)
    (fun _ _ => blank_field)

/-- Source `gamma_new`, with every allocation succeeding. -/
def gamma_new (width height players areas : Nat) : Option gamma_t :=
  if width = 0 ∨ height = 0 ∨ players = 0 ∨ areas = 0 then none
  else if players = UINT32_MAX then none
  else some
    { height := height
      width := width
      players := players
      areas := areas
      no_memory := false
      fields := initialize_fields height width
      player_areas := fun _ => 0
      golden_used := fun _ => false
      player_fields := fun _ => 0 }

/-- Source `good_coords`. -/
def good_coords (g : gamma_t) (x y : Nat) : Bool :=
  decide (x < g.width) && decide (y < g.height)

/-- Source `movie_possible`. -/
def movie_possible (g : Option gamma_t) (player x y : Nat) : Bool :=
  match g with
  | none => false
  | some g =>
    if player = EMPTY ∨ player > g.players ∨ x ≥ g.width ∨ y ≥ g.height ∨
        (g.fields y x).owner ≠ EMPTY then false
    else if g.player_areas player = g.areas then
      (List.range 4).any (fun i =>
        good_coords g (add_u32 x (delta_x i)) (add_u32 y (delta_y i)) &&
        decide ((g.fields (add_u32 y (delta_y i)) (add_u32 x (delta_x i))).owner = player))
    else true

/-- The address of the root of `field`, then the `rep` stored there:
`find_root(field)->rep`. -/
def find_root_rep (fields : Nat → Nat → field_t) (fuel : Nat) (field : Nat × Nat) :
    Option (Nat × Nat) :=
  (find_root fields fuel field).map (fun r => (fields r.1 r.2).rep)

/-- One iteration of the neighbour loop of `gamma_move`; the state is the board
with the locals `connected` and `united_areas`. -/
def gamma_move_step (player x y : Nat) (s : gamma_t × Bool × Nat) (i : Nat) :
    Option (gamma_t × Bool × Nat) :=
  let g := s.1
  let nx := add_u32 x (delta_x i)
  let ny := add_u32 y (delta_y i)
  if good_coords g nx ny && decide ((g.fields ny nx).owner = player) then
    match find_root_rep g.fields g.fuel (y, x), find_root_rep g.fields g.fuel (ny, nx),
        unite g.fuel g.fields (g.fields y x) (g.fields ny nx) with
    | some a, some b, some fields =>
      some ({ g with fields := fields }, true, if a ≠ b then s.2.2 + 1 else s.2.2)
    | _, _, _ => none
  else some s

/-- The statement `g->player_areas[player] -= (united_areas - 1)`, for
`united_areas > 0`, in 32-bit unsigned arithmetic. -/
def sub_united (a united_areas : Nat) : Nat :=
  (a + 4294967296 - (united_areas - 1)) % 4294967296

/-- Source `gamma_move`. -/
def gamma_move (g : Option gamma_t) (player x y : Nat) : Option (Bool × Option gamma_t) :=
  if !movie_possible g player x y then some (false, g)
  else
    match g with
    | none => some (false, none)
    | some g =>
      let g1 := { g with fields := set_cell g.fields y x (set_field (g.fields y x) x y player) }
      match (List.range 4).foldlM (gamma_move_step player x y) (g1, false, 0) with
      | none => none
      | some (g2, connected, united_areas) =>
        let a1 := if !connected then (g2.player_areas player + 1) % 4294967296
          else g2.player_areas player
        let a2 := if united_areas > 0 then sub_united a1 united_areas else a1
        some (true, some
          { g2 with
            player_areas := set_at g2.player_areas player a2
            player_fields := set_at g2.player_fields player
              ((g2.player_fields player + 1) % 2 ^ 64) })

/-- Source `gamma_busy_fields`. -/
def gamma_busy_fields (g : Option gamma_t) (player : Nat) : Nat :=
  match g with
  | none => 0
  | some g => if player = EMPTY ∨ player > g.players then 0 else g.player_fields player

/-- Source `old_golden_possible`. -/
def old_golden_possible (g : Option gamma_t) (player : Nat) : Bool :=
  match g with
  | none => false
  | some g =>
    if player = EMPTY ∨ player > g.players ∨ g.golden_used player = true then false
    else (List.range (g.players + 1)).any (fun i =>
      decide (i ≠ player) && decide (g.player_fields i > 0))

/-- Source `free_fields_full_areas`. -/
def free_fields_full_areas (g : gamma_t) (player : Nat) : Nat :=
  (List.range g.height).foldl (fun free_count i =>
    (List.range g.width).foldl (fun free_count j =>
      if (g.fields i j).owner = EMPTY ∧
          (List.range 4).any (fun dir =>
            good_coords g (add_u32 j (delta_x dir)) (add_u32 i (delta_y dir)) &&
            decide ((g.fields (add_u32 i (delta_y dir)) (add_u32 j (delta_x dir))).owner
              = player)) = true
      then (free_count + 1) % 2 ^ 64 else free_count) free_count) 0

/-- Source `gamma_free_fields`; the subtraction is 64-bit unsigned. -/
def gamma_free_fields (g : Option gamma_t) (player : Nat) : Nat :=
  match g with
  | none => 0
  | some g =>
    if player = EMPTY ∨ player > g.players then 0
    else if g.player_areas player = g.areas then free_fields_full_areas g player
    else
      ((List.range g.players).foldl (fun free_fields k =>
        (free_fields + 2 ^ 64 - g.player_fields (k + 1)) % 2 ^ 64)
        ((g.height * g.width) % 2 ^ 64))

/-- Source `golden_reset_field_reps`. -/
def golden_reset_field_reps (g : gamma_t) (player : Nat) : gamma_t :=
  let fields := (List.range g.height).foldl (fun fields i =>
    (List.range g.width).foldl (fun fields j =>
      if (fields i j).owner = player then
        set_cell fields i j { fields i j with rep := (i, j), rank := 0 }
      else fields) fields) g.fields
  { g with
    fields := fields
    player_areas := set_at g.player_areas player 0
    player_fields := set_at g.player_fields player 0 }

/-- One iteration of the neighbour loop of `restore_move`; the state is the
board with the local `united_areas`. -/
def restore_move_step (player x y : Nat) (s : gamma_t × Nat) (i : Nat) :
    Option (gamma_t × Nat) :=
  let g := s.1
  let nx := add_u32 x (delta_x i)
  let ny := add_u32 y (delta_y i)
  if good_coords g nx ny && decide ((g.fields ny nx).owner = player) then
    match find_root g.fields g.fuel (y, x), find_root g.fields g.fuel (ny, nx),
        unite g.fuel g.fields (g.fields y x) (g.fields ny nx) with
    | some a, some b, some fields =>
      some ({ g with fields := fields }, if a ≠ b then s.2 + 1 else s.2)
    | _, _, _ => none
  else some s

/-- Source `restore_move`. -/
def restore_move (g : gamma_t) (player x y : Nat) : Option gamma_t :=
  let g1 := { g with fields := set_cell g.fields y x (set_field (g.fields y x) x y player) }
  match (List.range 4).foldlM (restore_move_step player x y) (g1, 0) with
  | none => none
  | some (g2, united_areas) =>
    let a1 := if united_areas = 0 then (g2.player_areas player + 1) % 4294967296
      else g2.player_areas player
    let a2 := if united_areas > 0 then sub_united a1 united_areas else a1
    some
      { g2 with
        player_areas := set_at g2.player_areas player a2
        player_fields := set_at g2.player_fields player
          ((g2.player_fields player + 1) % 2 ^ 64) }

/-- Source `golden_set_other_field_reps`. -/
def golden_set_other_field_reps (g : gamma_t) (player : Nat) : Option gamma_t :=
  (List.range g.height).foldlM (fun g i =>
    (List.range g.width).foldlM (fun g j =>
      if (g.fields i j).owner = player then restore_move g player j i else some g) g) g

/-- Source `gamma_golden_move`. -/
def gamma_golden_move (g : Option gamma_t) (player x y : Nat) :
    Option (Bool × Option gamma_t) :=
  match g with
  | none => some (false, none)
  | some g =>
    if !old_golden_possible (some g) player || !good_coords g x y ||
        decide ((g.fields y x).owner = EMPTY) || decide ((g.fields y x).owner = player) ||
        g.golden_used player then some (false, some g)
    else
      let changed_player := (g.fields y x).owner
      let g1 := golden_reset_field_reps g changed_player
      let g2 := { g1 with fields := set_cell g1.fields y x { g1.fields y x with owner := EMPTY } }
      match golden_set_other_field_reps g2 changed_player with
      | none => none
      | some g3 =>
        if g3.player_areas changed_player > g3.areas then
          (restore_move g3 changed_player x y).map (fun g4 => (false, some g4))
        else
          match gamma_move (some g3) player x y with
          | none => none
          | some (true, some g4) =>
            some (true, some { g4 with golden_used := set_at g4.golden_used player true })
          | some (true, none) => some (true, none)
          | some (false, some g4) =>
            (restore_move g4 changed_player x y).map (fun g5 => (false, some g5))
          | some (false, none) => some (false, none)

/-- The body of the two nested loops of `golden_wont_exceed_areas` at cell
`[i][j]`; the state is the board with the local `wont_exceed_max_areas`. -/
def golden_wont_exceed_areas_step (player i j : Nat) (s : gamma_t × Bool) :
    Option (gamma_t × Bool) :=
  let g := s.1
  if s.2 then some s
  else if (g.fields i j).owner = player ∨ (g.fields i j).owner = EMPTY then some s
  else
    let field_owner := (g.fields i j).owner
    match gamma_golden_move (some g) player j i with
    | some (true, some g1) =>
      let g2 := { g1 with golden_used := set_at g1.golden_used player false }
      let field_owner_golden_used := g2.golden_used field_owner
      let g3 := { g2 with golden_used := set_at g2.golden_used field_owner false }
      match gamma_golden_move (some g3) field_owner j i with
      | some (_, some g4) =>
        let golden_used := set_at g4.golden_used field_owner field_owner_golden_used
        some ({ g4 with golden_used := golden_used }, true)
      | _ => none
    | some (false, some g1) => some (g1, false)
    | _ => none

/-- Source `golden_wont_exceed_areas`. -/
def golden_wont_exceed_areas (g : gamma_t) (player : Nat) : Option (Bool × gamma_t) :=
  ((List.range g.height).foldlM (fun s i =>
    (List.range g.width).foldlM (fun s j =>
      golden_wont_exceed_areas_step player i j s) s) (g, false)).map
    (fun s => (s.2, s.1))

/-- Source `gamma_golden_possible`. -/
def gamma_golden_possible (g : Option gamma_t) (player : Nat) :
    Option (Bool × Option gamma_t) :=
  match g with
  | none => some (false, none)
  | some g =>
    if !old_golden_possible (some g) player then some (false, some g)
    else if g.player_areas player < g.areas then some (true, some g)
    else (golden_wont_exceed_areas g player).map (fun r => (r.1, some r.2))

/-- The loop of `logarithm`: `n` is divided by `LOG_BASE` until it is `0`. -/
def logarithm_loop : Nat → Nat → Nat → Nat
  | 0, _, counter => counter
  | fuel + 1, n, counter =>
    if n > 0 then logarithm_loop fuel (n / LOG_BASE) (counter + 1) else counter

/-- Source `logarithm`: the number of decimal digits of `n` (`0` for `n = 0`).
The loop runs at most `n` times. -/
def logarithm (n : Nat) : Nat := logarithm_loop n n 0

/-- The decimal digits of `n`, most significant first, in front of `acc`. -/
def decimal_loop : Nat → Nat → List Char → List Char
  | 0, _, acc => acc
  | fuel + 1, n, acc =>
    if n < 10 then Char.ofNat (n + 48) :: acc
    else decimal_loop fuel (n / 10) (Char.ofNat (n % 10 + 48) :: acc)

/-- The text that `%u` prints for `n`. -/
def decimal (n : Nat) : List Char := decimal_loop (n + 1) n []

/-- The text that `sprintf` prints for a conversion of field width `width`:
`text` right-justified, padded with spaces on the left. -/
def right_justify (width : Nat) (text : List Char) : List Char :=
  List.replicate (width - text.length) ' ' ++ text

/-- The field width of the format chosen by `print_many_players` for `size`. -/
def format_width (size : Nat) : Nat :=
  if size < 9 then size + 1 else if size = 9 then 10 else 11

/-- The characters stored from `position` on replace what the buffer held there. -/
def write_at (board : List Char) (position : Nat) (text : List Char) : List Char :=
  board.take position ++ text

/-- Source `print_many_players`; the state is the buffer with `position`. -/
def print_many_players (g : gamma_t) (size : Nat) (s : List Char × Nat) : List Char × Nat :=
  let s := (List.range g.height).foldl (fun s i =>
    let s := (List.range g.width).foldl (fun s j =>
      let player := (g.fields (g.height - 1 - i) j).owner
      let text := if player = EMPTY then right_justify (format_width size) ['.']
        else right_justify (format_width size) (decimal player)
      (write_at s.1 s.2 text, (s.2 + (size + 1)) % 2 ^ 64)) s
    (write_at s.1 s.2 ['\n'], (s.2 + 1) % 2 ^ 64)) s
  (s.1.take s.2, s.2)

/-- Source `print_little_players`; the state is the buffer with `position`. -/
def print_little_players (g : gamma_t) (s : List Char × Nat) : List Char × Nat :=
  let s := (List.range g.height).foldl (fun s i =>
    let s := (List.range g.width).foldl (fun s j =>
      let c := if (g.fields (g.height - 1 - i) j).owner ≠ EMPTY then
          Char.ofNat (((g.fields (g.height - 1 - i) j).owner + 48) % 256)
        else '.'
      (write_at s.1 s.2 [c], (s.2 + 1) % 2 ^ 64)) s
    (write_at s.1 s.2 ['\n'], (s.2 + 1) % 2 ^ 64)) s
  (s.1.take s.2, s.2)

/-- The size of the buffer requested by `gamma_board`: the product is taken in
32-bit unsigned arithmetic before it is widened to `size_t`. -/
def gamma_board_ptr_size (g : gamma_t) : Nat :=
  ((((g.width * g.height) % 4294967296) * (logarithm g.players + 1)) % 4294967296 * 1
    + 1 + g.height) % 2 ^ 64

/-- Source `gamma_board`, with every allocation succeeding: the text of the
board, and the board, whose `no_memory` is written by the allocation. The text
is what the printing functions write; the buffer that receives it has
`gamma_board_ptr_size` bytes, and the C program is defined only when the text
and its final `NUL` fit in it. -/
def gamma_board (g : Option gamma_t) : Option (List Char) × Option gamma_t :=
  match g with
  | none => (none, none)
  | some g =>
    if g.no_memory then (none, some g)
    else
      let size := logarithm g.players
      let g1 := { g with no_memory := false }
      if size > 1 then (some (print_many_players g1 size ([], 0)).1, some g1)
      else (some (print_little_players g1 ([], 0)).1, some g1)

/-- Source `gamma_get_players`. -/
def gamma_get_players (g : gamma_t) : Nat := g.players

/-- Source `gamma_get_width`. -/
def gamma_get_width (g : gamma_t) : Nat := g.width

/-- Source `gamma_get_height`. -/
def gamma_get_height (g : gamma_t) : Nat := g.height

/-! ## Sequences of public calls -/

/-- A call of one of the public functions that take a board. -/
inductive Call where
  | move (player x y : Nat)
  | golden_move (player x y : Nat)
  | golden_possible (player : Nat)
  | free_fields (player : Nat)
  | busy_fields (player : Nat)
  | board

/-- The board after one public call, `none` if the call does not return. -/
def call_state (g : Option gamma_t) : Call → Option (Option gamma_t)
  | Call.move player x y => (gamma_move g player x y).map (fun r => r.2)
  | Call.golden_move player x y => (gamma_golden_move g player x y).map (fun r => r.2)
  | Call.golden_possible player => (gamma_golden_possible g player).map (fun r => r.2)
  | Call.free_fields _ => some g
  | Call.busy_fields _ => some g
  | Call.board => some (gamma_board g).2

/-- The board after a sequence of public calls. -/
def run (g : Option gamma_t) (calls : List Call) : Option (Option gamma_t) :=
  calls.foldlM call_state g

/-! ## Notions used in the statements and proofs -/

/-- The representative stored in the cell at address `p`. -/
def repF (F : Nat → Nat → field_t) (p : Nat × Nat) : Nat × Nat := (F p.1 p.2).rep

/-- The owner stored in the cell at address `p`. -/
def ownF (F : Nat → Nat → field_t) (p : Nat × Nat) : Nat := (F p.1 p.2).owner

/-- The address `p = (row, column)` lies on a board of `h` rows and `w` columns. -/
def InGrid (h w : Nat) (p : Nat × Nat) : Prop := p.1 < h ∧ p.2 < w

instance (h w : Nat) (p : Nat × Nat) : Decidable (InGrid h w p) := by
  unfold InGrid; infer_instance

/-- The cell `r` is the root reached from `c` by following representatives. -/
def RootOf (F : Nat → Nat → field_t) (c r : Nat × Nat) : Prop :=
  ∃ n, (repF F)^[n] c = r ∧ repF F r = r

/-- Two cells have the same root. -/
def SameRoot (F : Nat → Nat → field_t) (p q : Nat × Nat) : Prop :=
  ∃ r, RootOf F p r ∧ RootOf F q r

/-- The finite set of the addresses of the cells of an `h × w` board. -/
def gridSet (h w : Nat) : Finset (Nat × Nat) := Finset.range h ×ˢ Finset.range w

/-- The relation `E` with the pair `(a, b)` added. -/
def addEdge (E : Nat × Nat → Nat × Nat → Prop) (a b : Nat × Nat) :
    Nat × Nat → Nat × Nat → Prop :=
  fun p q => E p q ∨ (p = a ∧ q = b)

/-- The forest of representatives `F` on an `h × w` board is well formed and its
trees are the classes of the equivalence generated by `E`. -/
structure UF (h w : Nat) (F : Nat → Nat → field_t)
    (E : Nat × Nat → Nat × Nat → Prop) : Prop where
  closed : ∀ p, InGrid h w p → InGrid h w (repF F p)
  acyc : ∀ p, InGrid h w p → ∃ r, RootOf F p r
  sound : ∀ p q, InGrid h w p → InGrid h w q → SameRoot F p q → Relation.EqvGen E p q
  complete : ∀ p q, E p q → SameRoot F p q
  egrid : ∀ p q, E p q → InGrid h w p ∧ InGrid h w q
  eown : ∀ p q, E p q → ownF F p = ownF F q ∧ ownF F p ≠ 0

/-- The roots owned by `pl` on the board. -/
def rootSet (h w : Nat) (F : Nat → Nat → field_t) (pl : Nat) : Finset (Nat × Nat) :=
  (gridSet h w).filter (fun p => ownF F p = pl ∧ repF F p = p)

/-- The number of trees of the forest whose cells are owned by `pl`. -/
def nroots (h w : Nat) (F : Nat → Nat → field_t) (pl : Nat) : Nat := (rootSet h w F pl).card

/-- What a step on the forest of player `pl` leaves alone: the owner and the
coordinates stored in every cell, and the whole of every cell that is off the
board or not owned by `pl`. -/
def FrameUF (h w pl : Nat) (F F' : Nat → Nat → field_t) : Prop :=
  (∀ i j, (F' i j).owner = (F i j).owner ∧ (F' i j).x = (F i j).x ∧ (F' i j).y = (F i j).y) ∧
  (∀ i j, ((F i j).owner ≠ pl ∨ ¬ InGrid h w (i, j)) → F' i j = F i j)

/-- The `i`-th cell examined around `c`, as an address `(row, column)`. -/
def nbr (c : Nat × Nat) (i : Nat) : Nat × Nat :=
  (add_u32 c.1 (delta_y i), add_u32 c.2 (delta_x i))

/-- The relation `E` with the edges from `c` to those of its first `k` examined
neighbours that are on the board and owned by `pl`. -/
def Estar (h w : Nat) (F : Nat → Nat → field_t) (pl : Nat) (c : Nat × Nat) (k : Nat)
    (E : Nat × Nat → Nat × Nat → Prop) : Nat × Nat → Nat × Nat → Prop :=
  fun p q => E p q ∨ (p = c ∧ ∃ i, i < k ∧ q = nbr c i ∧ InGrid h w q ∧ ownF F q = pl)

/-- The relation `E` with the pair `(a, b)` added when `cond` holds. -/
def addEdgeIf (E : Nat × Nat → Nat × Nat → Prop) (a b : Nat × Nat) (cond : Prop) :
    Nat × Nat → Nat × Nat → Prop :=
  fun p q => E p q ∨ (p = a ∧ q = b ∧ cond)

/-- State of the neighbour loop at cell `c` for player `pl` after `k` iterations,
started on the board `g` whose forest represents `E`: the forest is `F'` and
`u` pairs of distinct trees have been united. -/
structure NbInv (g : gamma_t) (E : Nat × Nat → Nat × Nat → Prop) (pl : Nat) (c : Nat × Nat)
    (k : Nat) (F' : Nat → Nat → field_t) (u : Nat) : Prop where
  uf : UF g.height g.width F' (Estar g.height g.width g.fields pl c k E)
  frame : FrameUF g.height g.width pl g.fields F'
  same : u = 0 → F' = g.fields
  le : u ≤ k
  count : ∀ pl', nroots g.height g.width F' pl' + (if pl = pl' then u else 0)
    = nroots g.height g.width g.fields pl'

/-- The test made on the `i`-th neighbour of `c`. -/
def nbCond (g : gamma_t) (pl : Nat) (c : Nat × Nat) (i : Nat) : Prop :=
  InGrid g.height g.width (nbr c i) ∧ ownF g.fields (nbr c i) = pl

instance (g : gamma_t) (pl : Nat) (c : Nat × Nat) (i : Nat) : Decidable (nbCond g pl c i) := by
  unfold nbCond; infer_instance

/-- Two addresses are 4-adjacent: they differ by one step in one coordinate. -/
def Adjacent (p q : Nat × Nat) : Prop :=
  (p.1 = q.1 ∧ (p.2 + 1 = q.2 ∨ q.2 + 1 = p.2)) ∨
  (p.2 = q.2 ∧ (p.1 + 1 = q.1 ∨ q.1 + 1 = p.1))

instance (p q : Nat × Nat) : Decidable (Adjacent p q) := by
  unfold Adjacent; infer_instance

/-- Two cells of the board are 4-adjacent and owned by the same player. -/
def Adj (h w : Nat) (F : Nat → Nat → field_t) : Nat × Nat → Nat × Nat → Prop :=
  fun p q => InGrid h w p ∧ InGrid h w q ∧ Adjacent p q ∧ ownF F p = ownF F q ∧ ownF F p ≠ 0

/-- The area counter after an insertion that united `u` pairs of trees. -/
def areas_after (a u : Nat) : Nat := (a + 1 + 4294967296 - u) % 4294967296

/-- The cells of the board owned by `pl`. -/
def cellSet (h w : Nat) (F : Nat → Nat → field_t) (pl : Nat) : Finset (Nat × Nat) :=
  (gridSet h w).filter (fun p => ownF F p = pl)

/-- The number of cells of the board owned by `pl`. -/
def ncells (h w : Nat) (F : Nat → Nat → field_t) (pl : Nat) : Nat := (cellSet h w F pl).card

/-- The invariant kept by every public call: the forest of representatives
represents 4-connectivity of same-owner cells, `player_areas` counts the trees
of each player in 32-bit arithmetic, and `player_fields` counts the cells. -/
structure Inv (g : gamma_t) : Prop where
  hlt : g.height < 4294967296
  wlt : g.width < 4294967296
  uf : UF g.height g.width g.fields (Adj g.height g.width g.fields)
  own_le : ∀ p, InGrid g.height g.width p → ownF g.fields p ≤ g.players
  areas : ∀ pl, pl ≠ 0 → g.player_areas pl = nroots g.height g.width g.fields pl % 4294967296
  fields : ∀ pl, pl ≠ 0 → g.player_fields pl = ncells g.height g.width g.fields pl
  fields0 : g.player_fields 0 = 0
  coords : ∀ p, InGrid g.height g.width p → ownF g.fields p ≠ 0 →
    (g.fields p.1 p.2).x = p.2 ∧ (g.fields p.1 p.2).y = p.1

/-- The board after the insertion of a token of `pl` at the empty cell `(y, x)`. -/
def inserted (g : gamma_t) (pl : Nat) (F' : Nat → Nat → field_t) (u : Nat) : gamma_t :=
  { g with
    fields := F'
    player_areas := set_at g.player_areas pl (areas_after (g.player_areas pl) u)
    player_fields := set_at g.player_fields pl ((g.player_fields pl + 1) % 2 ^ 64) }

/-- The forest after `golden_reset_field_reps`: every cell of `v` on the board
is a root of rank `0`, and nothing else is written. -/
def reset_fields (h w : Nat) (F : Nat → Nat → field_t) (v : Nat) : Nat → Nat → field_t :=
  fun i j => if InGrid h w (i, j) ∧ (F i j).owner = v then
    { F i j with rep := (i, j), rank := 0 } else F i j

/-- The relation `E` restricted to the cells not owned by `v`. -/
def notOwned (F : Nat → Nat → field_t) (v : Nat) (E : Nat × Nat → Nat × Nat → Prop) :
    Nat × Nat → Nat × Nat → Prop :=
  fun p q => E p q ∧ ownF F p ≠ v

/-- The adjacency edges of the board, those between cells of `v` only once one
endpoint is among the first `k` cells in row-major order. -/
def Erep (h w : Nat) (F : Nat → Nat → field_t) (v k : Nat) :
    Nat × Nat → Nat × Nat → Prop :=
  fun p q => Adj h w F p q ∧ (ownF F p = v → p.1 * w + p.2 < k ∨ q.1 * w + q.2 < k)

/-- The number of cells of `v` among the first `k` cells in row-major order. -/
def proc (h w : Nat) (F : Nat → Nat → field_t) (v k : Nat) : Nat :=
  ((gridSet h w).filter (fun p => ownF F p = v ∧ p.1 * w + p.2 < k)).card

/-- The number of cells of `v` after the first `k` cells in row-major order. -/
def unproc (h w : Nat) (F : Nat → Nat → field_t) (v k : Nat) : Nat :=
  ((gridSet h w).filter (fun p => ownF F p = v ∧ k ≤ p.1 * w + p.2)).card

/-- State of the replay after `k` cells: the board is `s`. -/
structure ReplayInv (g2 : gamma_t) (v k : Nat) (s : gamma_t) : Prop where
  shape : ∃ Fk A B, s = { g2 with fields := Fk, player_areas := A, player_fields := B }
  uf : UF g2.height g2.width s.fields (Erep g2.height g2.width g2.fields v k)
  frame : FrameUF g2.height g2.width v g2.fields s.fields
  pa_other : ∀ q, q ≠ v → s.player_areas q = g2.player_areas q
  pf_other : ∀ q, q ≠ v → s.player_fields q = g2.player_fields q
  pa : (s.player_areas v + unproc g2.height g2.width g2.fields v k) % 4294967296
    = nroots g2.height g2.width s.fields v % 4294967296
  pa_lt : s.player_areas v < 4294967296
  pf : s.player_fields v = proc g2.height g2.width g2.fields v k

/-- The board in the middle of `gamma_golden_move`: the territory of `v` reset
and the cell `(y, x)` cleared. -/
def cleared (g : gamma_t) (v x y : Nat) : gamma_t :=
  { golden_reset_field_reps g v with
    fields := set_cell (golden_reset_field_reps g v).fields y x
      { (golden_reset_field_reps g v).fields y x with owner := EMPTY } }

/-- What the rebuild of `gamma_golden_move` leaves: the board `g3` after the
territory of `v` has been reset, the cell `(y, x)` cleared and the other cells
of `v` replayed. -/
structure Rebuilt (g : gamma_t) (v x y : Nat) (g3 : gamma_t) : Prop where
  shape : ∃ F3 A B, g3 = { g with fields := F3, player_areas := A, player_fields := B }
  inv : Inv g3
  own : ∀ p, ownF g3.fields p = if p = (y, x) then 0 else ownF g.fields p
  coords : ∀ i j, (g3.fields i j).x = (g.fields i j).x ∧ (g3.fields i j).y = (g.fields i j).y
  other : ∀ i j, ((g.fields i j).owner ≠ v ∨ ¬ InGrid g.height g.width (i, j)) →
    g3.fields i j = g.fields i j
  pa_other : ∀ q, q ≠ v → g3.player_areas q = g.player_areas q
  pf_other : ∀ q, q ≠ v → g3.player_fields q = g.player_fields q
  pf : g3.player_fields v + 1 = g.player_fields v
  nr_other : ∀ q, q ≠ 0 → q ≠ v →
    nroots g.height g.width g3.fields q = nroots g.height g.width g.fields q

/-- The test with which `gamma_golden_move` rejects its arguments at once. -/
def golden_reject (g : gamma_t) (pl x y : Nat) : Bool :=
  !old_golden_possible (some g) pl || !good_coords g x y ||
    decide ((g.fields y x).owner = EMPTY) || decide ((g.fields y x).owner = pl) ||
    g.golden_used pl

/-- The board `g'` left by a golden move that fails after the rebuild of the
territory of `v`: only the forest may differ from `g`, and only in the
representatives and ranks of cells of `v`. -/
structure GoldenFail (g : gamma_t) (v : Nat) (g' : gamma_t) : Prop where
  shape : ∃ F', g' = { g with fields := F' }
  frame : FrameUF g.height g.width v g.fields g'.fields
  inv : Inv g'
  nr : ∀ q, nroots g.height g.width g'.fields q = nroots g.height g.width g.fields q

/-- The board `g'` left by a successful golden move of `pl` at `(x, y)`, where
`g3` is the board after the rebuild of the territory of the evicted player. -/
structure GoldenOk (g3 : gamma_t) (pl x y : Nat) (g' : gamma_t) : Prop where
  shape : ∃ F' u,
    NbInv { g3 with fields := set_cell g3.fields y x (set_field (g3.fields y x) x y pl) }
      (Adj g3.height g3.width g3.fields) pl (y, x) 4 F' u ∧
    g' = { inserted g3 pl F' u with golden_used := set_at g3.golden_used pl true }
  inv : Inv g'

/-- A property of boards kept by `gamma_move` and `gamma_golden_move`, which
return on every board that has it, and by every change of `golden_used`. -/
structure Stable (J : gamma_t → Prop) : Prop where
  move : ∀ g pl x y, J g → ∃ b g', gamma_move (some g) pl x y = some (b, some g') ∧ J g'
  golden : ∀ g pl x y, J g →
    ∃ b g', gamma_golden_move (some g) pl x y = some (b, some g') ∧ J g'
  used : ∀ g gu, J g → J { g with golden_used := gu }
  mem : ∀ g b, J g → J { g with no_memory := b }

/-- A cell is joined to the new cell `c` of `pl` through the old board: it is
`c` itself or it is connected to a neighbour of `c` that `pl` owns. -/
def Touch (h w : Nat) (F : Nat → Nat → field_t) (pl : Nat) (c p : Nat × Nat) : Prop :=
  p = c ∨ ∃ n, InGrid h w n ∧ Adjacent c n ∧ ownF F n = pl ∧
    Relation.EqvGen (Adj h w F) p n

/-- The 32-bit area counters cannot wrap during a rebuild: the limit leaves
room for three more areas, or the board has fewer than `2 ^ 32` cells. -/
def NoWrap (g : gamma_t) : Prop :=
  g.areas + 3 < 4294967296 ∨ g.height * g.width < 4294967296

/-- The invariant of boards on which no area counter can wrap: every player has
at most `areas` areas. -/
structure CapInv (g : gamma_t) : Prop where
  inv : Inv g
  alt : g.areas < 4294967296
  nowrap : NoWrap g
  cap : ∀ pl, pl ≠ 0 → nroots g.height g.width g.fields pl ≤ g.areas

/-- The owner grid `O` with the cell `c` given to `v`. -/
def upd (O : Nat × Nat → Nat) (c : Nat × Nat) (v : Nat) : Nat × Nat → Nat :=
  fun p => if p = c then v else O p

/-- The owner grid after the first `k` isolated stones of player 2: stone `i`
lies in row `2 * (i / 2147483646)` and column `4 + 2 * (i % 2147483646)`. -/
def isoOwn (k : Nat) : Nat × Nat → Nat :=
  fun p => if (p.1 = 0 ∨ p.1 = 2) ∧ 4 ≤ p.2 ∧ p.2 % 2 = 0 ∧ p.2 < 4294967295 ∧
    (p.1 / 2) * 2147483646 + (p.2 - 4) / 2 < k then 2 else 0

/-- The first `k` moves of player 2 on isolated cells. -/
def isoCalls (k : Nat) : List Call :=
  (List.range k).map (fun i => Call.move 2 (4 + 2 * (i % 2147483646)) (2 * (i / 2147483646)))

/-- The calls after which the area counter of player 2 has wrapped to `0`. -/
def wrapCalls : List Call :=
  isoCalls 4294967292 ++
    [Call.move 2 1 0, Call.move 2 1 1, Call.move 2 1 2, Call.move 2 0 1, Call.move 2 2 1,
      Call.golden_move 1 1 1]

/-- The set `R` holds exactly one cell of every area of player `p`: its cells
belong to `p`, no two of them are joined by a path of adjacent cells of `p`,
and every cell of `p` is joined to one of them. -/
def AreaReps (g : gamma_t) (p : Nat) (R : Finset (Nat × Nat)) : Prop :=
  (∀ c, c ∈ R → InGrid g.height g.width c ∧ (g.fields c.1 c.2).owner = p) ∧
  (∀ c, c ∈ R → ∀ d, d ∈ R →
    Relation.ReflTransGen (Adj g.height g.width g.fields) c d → c = d) ∧
  (∀ c, InGrid g.height g.width c → (g.fields c.1 c.2).owner = p →
    ∃ d, d ∈ R ∧ Relation.ReflTransGen (Adj g.height g.width g.fields) c d)

/-- What is known of the board while player 2 builds its position. -/
structure Track (g : gamma_t) (O : Nat × Nat → Nat) (f : Nat) : Prop where
  inv : Inv g
  h : g.height = 3
  w : g.width = 4294967295
  pl : g.players = 2
  ar : g.areas = 4294967293
  own : ∀ p, ownF g.fields p = O p
  pf1 : g.player_fields 1 = 0
  pf2 : g.player_fields 2 = f
  gu : g.golden_used 1 = false

/-- The owner grid after player 2 has built the area around `(1, 1)`. -/
def armsOwn : Nat × Nat → Nat :=
  upd (upd (upd (upd (upd (isoOwn 4294967292) (0, 1) 2) (1, 1) 2) (2, 1) 2) (1, 0) 2) (1, 2) 2

/-- The owner grid after the rebuild of the golden move on `(1, 1)`. -/
def splitOwn : Nat × Nat → Nat := upd armsOwn (1, 1) 0

/-- The owner grid after the golden move of player 1 on `(1, 1)`. -/
def wrapOwn : Nat × Nat → Nat := upd splitOwn (1, 1) 1

/-- What is known of the board after the golden move: player 2 owns `2 ^ 32`
cells and its area counter is `0`. -/
structure Wrapped (g : gamma_t) : Prop where
  inv : Inv g
  h : g.height = 3
  w : g.width = 4294967295
  pl : g.players = 2
  ar : g.areas = 4294967293
  own : ∀ p, ownF g.fields p = wrapOwn p
  pa2 : g.player_areas 2 = 0
  pf2 : g.player_fields 2 = 4294967296

/-- The set `D` holds exactly one neighbour of `(x, y)` from every area of
`player` that contains a 4-neighbour of `(x, y)`. -/
def TouchReps (g : gamma_t) (player x y : Nat) (D : Finset (Nat × Nat)) : Prop :=
  (∀ d, d ∈ D → InGrid g.height g.width d ∧ Adjacent (y, x) d ∧
    (g.fields d.1 d.2).owner = player) ∧
  (∀ d, d ∈ D → ∀ e, e ∈ D →
    Relation.ReflTransGen (Adj g.height g.width g.fields) d e → d = e) ∧
  (∀ n, InGrid g.height g.width n → Adjacent (y, x) n → (g.fields n.1 n.2).owner = player →
    ∃ d, d ∈ D ∧ Relation.ReflTransGen (Adj g.height g.width g.fields) n d)

/-- The board `g` with the stone at `(x, y)` taken away. -/
def del_cell (g : gamma_t) (x y : Nat) : gamma_t :=
  { g with fields := set_cell g.fields y x { g.fields y x with owner := EMPTY } }

/-- Two boards that an observer cannot tell apart: same dimensions, players and
limit, same owners, same counters and same golden flags. -/
structure SameObs (g g' : gamma_t) : Prop where
  height : g'.height = g.height
  width : g'.width = g.width
  players : g'.players = g.players
  areas : g'.areas = g.areas
  own : ∀ p, ownF g'.fields p = ownF g.fields p
  pa : ∀ q, g'.player_areas q = g.player_areas q
  pf : ∀ q, g'.player_fields q = g.player_fields q
  gu : ∀ q, g'.golden_used q = g.golden_used q

/-- Every player has at most `areas` areas, and the limit fits in 32 bits. -/
def Cap (g : gamma_t) : Prop :=
  g.areas < 4294967296 ∧ ∀ q, q ≠ 0 → nroots g.height g.width g.fields q ≤ g.areas

/-- The conditions under which `gamma_golden_move` returns `true`, in terms of
what an observer sees: the call passes the first checks, the number of areas
of the evicted player without the cell `(x, y)` is at most `areas` as a 32-bit
number, and the player may put a stone on `(x, y)`. -/
def GoldenCond (g : gamma_t) (pl x y : Nat) : Prop :=
  golden_reject g pl x y = false ∧
  (∀ R, AreaReps (del_cell g x y) (g.fields y x).owner R →
    R.card % 4294967296 ≤ g.areas) ∧
  (g.player_areas pl = g.areas → ∃ i, i < 4 ∧ nbCond g pl (y, x) i)

/-- State of the search loop of `golden_wont_exceed_areas` for `pl` on the board
`g` after `k` cells: the flags are those of `g`; as long as nothing was found
the board cannot be told from `g` and no visited cell admits a golden move;
once a cell was found, it admits a golden move on `g`, and the board cannot be
told from `g` when no player of `g` has more than `areas` areas. -/
structure ProbeInv (g : gamma_t) (pl k : Nat) (s : gamma_t × Bool) : Prop where
  inv : Inv s.1
  height : s.1.height = g.height
  width : s.1.width = g.width
  players : s.1.players = g.players
  areas : s.1.areas = g.areas
  gu : ∀ q, s.1.golden_used q = g.golden_used q
  none_yet : s.2 = false → SameObs g s.1 ∧
    ∀ i j, j < g.width → i * g.width + j < k → ¬ GoldenCond g pl j i
  found : s.2 = true → (∃ i j, GoldenCond g pl j i) ∧ (Cap g → SameObs g s.1)

/-- The owner grid after the move of player 2 to `(0, 5)` on the board with the
wrapped counter. -/
def overOwn : Nat × Nat → Nat := upd wrapOwn (0, 5) 2

/-- What is known of the board after the calls `wrapCalls` and the move of
player 2 to `(0, 5)`: the counter of player 2 is above the limit. -/
structure Over (g : gamma_t) : Prop where
  inv : Inv g
  h : g.height = 3
  w : g.width = 4294967295
  pl : g.players = 2
  ar : g.areas = 4294967293
  own : ∀ p, ownF g.fields p = overOwn p
  pa2 : g.player_areas 2 = 4294967295
  gu2 : g.golden_used 2 = false

/-- The cell `b` is reached from `a` by `n` steps of `E`. -/
def StepsTo {α : Type} (E : α → α → Prop) : Nat → α → α → Prop
  | 0, a, b => a = b
  | n + 1, a, b => ∃ m, StepsTo E n a m ∧ E m b

/-- The owner grid after the first `k` isolated stones of player 2: stone `i`
lies in row `2 * (i / 2147483644)` and column `8 + 2 * (i % 2147483644)`. -/
def duoBase (k : Nat) : Nat × Nat → Nat :=
  fun p => if (p.1 = 0 ∨ p.1 = 2) ∧ 8 ≤ p.2 ∧ p.2 % 2 = 0 ∧ p.2 < 4294967295 ∧
    (p.1 / 2) * 2147483644 + (p.2 - 8) / 2 < k then 2 else 0

/-- The first `k` moves of player 2 on isolated cells. -/
def duoCalls2 (k : Nat) : List Call :=
  (List.range k).map (fun i => Call.move 2 (8 + 2 * (i % 2147483644)) (2 * (i / 2147483644)))

/-- The owner grid after player 2 has built its position: `2 ^ 32 - 8` isolated
stones, four more at `(3, 0)`, `(4, 1)`, `(3, 3)`, `(4, 4)`, and the cross
around `(1, 5)`. -/
def duoOwnA : Nat × Nat → Nat :=
  upd (upd (upd (upd (upd (upd (upd (upd (upd (duoBase 4294967288)
    (3, 0) 2) (4, 1) 2) (3, 3) 2) (4, 4) 2) (0, 5) 2) (1, 5) 2) (2, 5) 2) (1, 4) 2) (1, 6) 2

/-- The owner grid after the first `k` isolated stones of player 1: stone `i`
lies in row `2 * (i / 2147483643)` and column `9 + 2 * (i % 2147483643)`. -/
def duoGrid (k : Nat) : Nat × Nat → Nat :=
  fun p => if (p.1 = 0 ∨ p.1 = 2 ∨ p.1 = 4) ∧ 9 ≤ p.2 ∧ p.2 % 2 = 1 ∧ p.2 < 4294967295 ∧
    (p.1 / 2) * 2147483643 + (p.2 - 9) / 2 < k then 1 else duoOwnA p

/-- The first `k` moves of player 1 on isolated cells. -/
def duoCalls1 (k : Nat) : List Call :=
  (List.range k).map (fun i => Call.move 1 (9 + 2 * (i % 2147483643)) (2 * (i / 2147483643)))

/-- The owner grid after the golden move of player 1 on `(1, 5)`. -/
def duoOwnB : Nat × Nat → Nat := upd (duoGrid 4294967291) (1, 5) 1

/-- The owner grid after player 1 has built the cross around `(1, 1)`. -/
def duoOwnC : Nat × Nat → Nat :=
  upd (upd (upd (upd (upd duoOwnB (0, 1) 1) (1, 1) 1) (2, 1) 1) (1, 0) 1) (1, 2) 1

/-- The owner grid after the golden move of player 2 on `(1, 1)`. -/
def duoOwnD : Nat × Nat → Nat := upd duoOwnC (1, 1) 2

/-- The final owner grid: player 2 has closed the squares at `(3, 0)` and `(3, 3)`. -/
def duoOwn : Nat × Nat → Nat :=
  upd (upd (upd (upd duoOwnD (3, 1) 2) (4, 0) 2) (3, 4) 2) (4, 3) 2

/-- The calls by which player 2 builds its position. -/
def duoCallsA : List Call :=
  duoCalls2 4294967288 ++
    [Call.move 2 0 3, Call.move 2 1 4, Call.move 2 3 3, Call.move 2 4 4, Call.move 2 5 0,
      Call.move 2 5 1, Call.move 2 5 2, Call.move 2 4 1, Call.move 2 6 1]

/-- The calls that lead to the final owner grid `duoOwn`. -/
def duoCalls : List Call :=
  (duoCallsA ++ duoCalls1 4294967291) ++
    [Call.golden_move 1 5 1, Call.move 1 1 0, Call.move 1 1 1, Call.move 1 1 2,
      Call.move 1 0 1, Call.move 1 2 1, Call.golden_move 2 1 1, Call.move 2 1 3,
      Call.move 2 0 4, Call.move 2 4 3, Call.move 2 3 4]

/-- The cells of player 2 that are pairwise non-adjacent. -/
def IsoSet2 (p : Nat × Nat) : Prop :=
  ((p.1 = 0 ∨ p.1 = 2) ∧ 8 ≤ p.2 ∧ p.2 % 2 = 0) ∨ p = (3, 0) ∨ p = (4, 1) ∨ p = (3, 3) ∨
    p = (4, 4) ∨ p = (0, 5) ∨ p = (2, 5) ∨ p = (1, 4) ∨ p = (1, 6) ∨ p = (1, 1)

/-- The cells of player 1 that are pairwise non-adjacent. -/
def IsoSet1 (p : Nat × Nat) : Prop :=
  ((p.1 = 0 ∨ p.1 = 2 ∨ p.1 = 4) ∧ 9 ≤ p.2 ∧ p.2 % 2 = 1) ∨ p = (1, 5) ∨ p = (0, 1) ∨
    p = (2, 1) ∨ p = (1, 0) ∨ p = (1, 2)

/-- What is known of the board along the calls `duoCalls`. -/
structure DuoC (g : gamma_t) (O : Nat × Nat → Nat) : Prop where
  inv : Inv g
  h : g.height = 5
  w : g.width = 4294967295
  pl : g.players = 3
  ar : g.areas = 4294967293
  own : ∀ p, ownF g.fields p = O p

/-- The cells of the two squares of player 2. -/
def DuoBlock (p : Nat × Nat) : Prop :=
  (p.1 = 3 ∨ p.1 = 4) ∧ (p.2 = 0 ∨ p.2 = 1 ∨ p.2 = 3 ∨ p.2 = 4)

/-- The empty cell `c` has a 4-neighbour on the board that is owned by `p`. -/
def free_cell (g : gamma_t) (p : Nat) (c : Nat × Nat) : Prop :=
  ownF g.fields c = 0 ∧
    ∃ n, n ∈ gridSet g.height g.width ∧ Adjacent c n ∧ ownF g.fields n = p

instance (g : gamma_t) (p : Nat) (c : Nat × Nat) : Decidable (free_cell g p c) := by
  unfold free_cell; infer_instance

/-- A board on which player 1 has one cell and is at the limit of one area. -/
def sampleBoard : gamma_t :=
  { height := 2
    width := 2
    fields := fun i j =>
      if i = 0 ∧ j = 0 then { x := 0, y := 0, owner := 1, rep := (0, 0), rank := 0 }
      else initialize_field (i, j) i j EMPTY
    areas := 1
    players := 1
    player_areas := fun q => if q = 1 then 1 else 0
    player_fields := fun q => if q = 1 then 1 else 0
    golden_used := fun _ => false
    no_memory := false }

/-- The invariant of the public calls, with the rank of the empty cells. -/
structure InvR (g : gamma_t) : Prop where
  inv : Inv g
  fresh : ∀ p, InGrid g.height g.width p → ownF g.fields p = 0 → (g.fields p.1 p.2).rank = 0

/-- The owner grid of the example after the four successful moves. -/
def exOwn : Nat × Nat → Nat :=
  upd (upd (upd (upd (fun _ => 0) (0, 0) 1) (4, 4) 2) (1, 0) 1) (2, 2) 1

/-- The calls of the example up to the rejected move. -/
def exCalls : List Call :=
  [Call.move 1 0 0, Call.move 2 4 4, Call.move 1 0 1, Call.move 1 2 2, Call.move 1 4 0]

/-- What is known of the board along the calls of the example. -/
structure ExC (g : gamma_t) (O : Nat × Nat → Nat) : Prop where
  inv : Inv g
  h : g.height = 5
  w : g.width = 5
  pl : g.players = 2
  ar : g.areas = 2
  own : ∀ p, ownF g.fields p = O p

/-- The text of a board as the specification describes it: one line for each
row, the row with the largest index first; a line holds the texts of the cells
of the row from left to right and ends with a newline. -/
def board_text (g : gamma_t) (cell : Nat → List Char) : List Char :=
  (List.range g.height).flatMap (fun i =>
    (List.range g.width).flatMap (fun j => cell (g.fields (g.height - 1 - i) j).owner)
      ++ ['\n'])

/-- The text of a cell when there are at most nine players: `.` for an empty
cell, the decimal digit of the owner otherwise. -/
def little_cell (owner : Nat) : List Char :=
  if owner = 0 then ['.'] else [Nat.digitChar owner]

/-- The text of a cell when the number of players has `d` decimal digits: `.`
or the decimal number of the owner, padded with spaces on the left to `d + 1`
characters. -/
def many_cell (d owner : Nat) : List Char :=
  if owner = 0 then List.replicate d ' ' ++ ['.']
  else List.replicate (d + 1 - (Nat.toDigits 10 owner).length) ' ' ++ Nat.toDigits 10 owner

/-- The rank stored in the cell at address `p`. -/
def rankF (F : Nat → Nat → field_t) (p : Nat × Nat) : Nat := (F p.1 p.2).rank

/-- The cells of an `h × w` board for which `find_root` returns `r`: the tree of `r`. -/
def treeSet (h w : Nat) (F : Nat → Nat → field_t) (r : Nat × Nat) : Finset (Nat × Nat) :=
  (gridSet h w).filter (fun p => find_root F (h * w) p = some r)

/-- The forest of an `h × w` board is balanced by rank: the chains of
representatives stay on the board, every cell reaches a root `r` in at most
`rank r` steps, and the tree of a root `r` has at least `2 ^ rank r` cells. -/
structure RankInv (h w : Nat) (F : Nat → Nat → field_t) : Prop where
  closed : ∀ p, InGrid h w p → InGrid h w (repF F p)
  depth : ∀ p, InGrid h w p → ∃ r n, (repF F)^[n] p = r ∧ repF F r = r ∧ n ≤ rankF F r
  size : ∀ r, InGrid h w r → repF F r = r → 2 ^ rankF F r ≤ (treeSet h w F r).card

/-- What `unite` leaves in the grid `F'`, given the roots `ra` and `rb` of its
two arguments in the grid `F`: nothing is written when the roots are equal;
otherwise the root of lower rank gets the other root as its representative,
on a tie the root `rb` gets `ra` and the rank of `ra` grows by one; no
other `rep` or `rank` and no `owner`, `x` or `y` is written. -/
structure UniteShape (F : Nat → Nat → field_t) (ra rb : Nat × Nat)
    (F' : Nat → Nat → field_t) : Prop where
  same : ra = rb → F' = F
  keep : ∀ i j, (F' i j).owner = (F i j).owner ∧ (F' i j).x = (F i j).x ∧
    (F' i j).y = (F i j).y
  rep : ra ≠ rb → ∀ p, repF F' p =
    if rankF F ra < rankF F rb then (if p = ra then rb else repF F p)
    else (if p = rb then ra else repF F p)
  rank : ra ≠ rb → ∀ p, rankF F' p =
    if p = ra ∧ rankF F ra = rankF F rb then rankF F ra + 1 else rankF F p

/-- The forest of the board `g`, of `H` rows and `W` columns, is balanced by rank. -/
def RankG (H W : Nat) (g : gamma_t) : Prop :=
  g.height = H ∧ g.width = W ∧ RankInv H W g.fields

/-- The invariant of the public calls, with the balance of the forest. -/
structure InvK (g : gamma_t) : Prop where
  inv : Inv g
  bal : RankInv g.height g.width g.fields

/-- Source `find_root` with the grid passed through the call: the root it
returns together with the grid after the call. No statement of the function
stores into a cell, so every recursive call hands on the grid it received. -/
def find_root_st (fields : Nat → Nat → field_t) :
    Nat → Nat × Nat → Option ((Nat × Nat) × (Nat → Nat → field_t))
  | 0, _ => none
  | fuel + 1, field =>
    if (fields field.1 field.2).rep = field then some (field, fields)
    else find_root_st fields fuel (fields field.1 field.2).rep

/-- The standard input: the bytes not read yet and the end-of-file indicator
of the stream. -/
structure stdin_t where
  input : List Nat
  eof : Bool

/-- The value `EOF` of `<stdio.h>`. -/
def EOF : Int := -1

/-- Base of the numbers read (`BASE`). -/
def BASE : Nat := 10

/-- The value of an empty parameter (`BLANK`). -/
def BLANK : Nat := 0

/-- The library function `getchar`: the next byte, or `EOF` at the end of the
input, which sets the end-of-file indicator. -/
def getchar (s : stdin_t) : Int × stdin_t :=
  match s.input with
  | [] => (EOF, { s with eof := true })
  | c :: rest => ((c : Int), { s with input := rest })

/-- The library function `ungetc`: the byte is pushed back and the end-of-file
indicator is cleared; pushing back `EOF` does nothing. -/
def ungetc (c : Int) (s : stdin_t) : stdin_t :=
  if c = EOF then s else { input := c.toNat :: s.input, eof := false }

/-- The library function `feof`. -/
def feof (s : stdin_t) : Bool := s.eof

/-- Source `is_white`: space, `\r`, `\t`, `\v` or `\f`. -/
def is_white (c : Int) : Bool :=
  c == 32 || c == 13 || c == 9 || c == 11 || c == 12

/-- The loop of `read_white_chars`; the state is the local `c` with the stream. -/
def read_white_loop : Nat → Int × stdin_t → Option (Int × stdin_t)
  | 0, _ => none
  | fuel + 1, (c, s) =>
    if !feof s && is_white c then read_white_loop fuel (getchar s) else some (c, s)

/-- Source `read_white_chars`. The loop reads one byte in each iteration, so it
runs at most as often as the input has bytes. -/
def read_white_chars (s : stdin_t) : Option stdin_t :=
  (read_white_loop (s.input.length + 2) (getchar s)).map
    (fun r => if !feof r.2 then ungetc r.1 r.2 else r.2)

/-- The statements `number *= BASE; number += c - '0';` on the 64-bit `number`. -/
def accumulate (number : Nat) (c : Int) : Nat :=
  ((number * BASE) % 2 ^ 64 + (c - 48).toNat) % 2 ^ 64

/-- The loop of `read_uint32`; the state is `number`, `*error`, `c` and the stream. -/
def read_uint32_loop : Nat → Nat × Bool × Int × stdin_t → Option (Nat × Bool × Int × stdin_t)
  | 0, _ => none
  | fuel + 1, (number, error, c, s) =>
    if !error && decide (c ≠ EOF) && !is_white c && decide (c ≠ 10) then
      if c ≥ 48 ∧ c ≤ 57 ∧ number ≤ UINT32_MAX then
        read_uint32_loop fuel (accumulate number c, error, (getchar s).1, (getchar s).2)
      else read_uint32_loop fuel (number, true, c, s)
    else some (number, error, c, s)

/-- Source `read_uint32`: the number returned, `*error` and the stream after the
call. Every iteration of the loop reads a byte or sets `*error`, which ends
the loop. -/
def read_uint32 (error : Bool) (s : stdin_t) : Option (Nat × Bool × stdin_t) :=
  if error then some (BLANK, error, s)
  else
    match read_white_chars s with
    | none => none
    | some s1 =>
      match read_uint32_loop ((getchar s1).2.input.length + 3)
          (0, error, (getchar s1).1, (getchar s1).2) with
      | none => none
      | some (number, error, c, s2) =>
        let s3 := if c = 10 then ungetc c s2 else s2
        let error := if number > UINT32_MAX then true else error
        if error then some (BLANK, error, s3) else some (number % 4294967296, error, s3)

/-- The byte is a decimal digit. -/
def is_digit (c : Nat) : Bool := decide (48 ≤ c) && decide (c ≤ 57)

/-- The number written by the decimal digits `token` after the digits of `number`. -/
def digits_from (number : Nat) (token : List Nat) : Nat :=
  token.foldl (fun n c => n * 10 + (c - 48)) number

/-- The number written in decimal by the bytes of `token`. -/
def digits_value (token : List Nat) : Nat := digits_from 0 token

/-- The cells of the board among `(x + 1, y)`, `(x - 1, y)`, `(x, y + 1)` and
`(x, y - 1)`, computed in integer arithmetic, as addresses `(row, column)`. -/
def neighbours (g : gamma_t) (x y : Nat) : List (Nat × Nat) :=
  ([((x : Int) + 1, (y : Int)), ((x : Int) - 1, (y : Int)), ((x : Int), (y : Int) + 1),
    ((x : Int), (y : Int) - 1)] : List (Int × Int)).filterMap (fun (p : Int × Int) =>
      if 0 ≤ p.1 ∧ p.1 < (g.width : Int) ∧ 0 ≤ p.2 ∧ p.2 < (g.height : Int) then
        some (p.2.toNat, p.1.toNat)
      else none)

/-- The cells `(x + delta_x[i], y + delta_y[i])`, `i = 0, ..., 3`, that pass the
test `good_coords` of the neighbour loops; the sums are 32-bit unsigned. -/
def examined (g : gamma_t) (x y : Nat) : List (Nat × Nat) :=
  (List.range 4).filterMap (fun i =>
    if good_coords g (add_u32 x (delta_x i)) (add_u32 y (delta_y i)) then
      some (add_u32 y (delta_y i), add_u32 x (delta_x i))
    else none)

/-- The body of the neighbour loop of `restore_move` for a cell `c` that
passed `good_coords`. -/
def restore_visit (player x y : Nat) (s : gamma_t × Nat) (c : Nat × Nat) :
    Option (gamma_t × Nat) :=
  let g := s.1
  if (g.fields c.1 c.2).owner = player then
    match find_root g.fields g.fuel (y, x), find_root g.fields g.fuel c,
        unite g.fuel g.fields (g.fields y x) (g.fields c.1 c.2) with
    | some a, some b, some fields =>
      some ({ g with fields := fields }, if a ≠ b then s.2 + 1 else s.2)
    | _, _, _ => none
  else some s

/-- The body of the neighbour loop of `gamma_move` for a cell `c` that passed
`good_coords`. -/
def gamma_visit (player x y : Nat) (s : gamma_t × Bool × Nat) (c : Nat × Nat) :
    Option (gamma_t × Bool × Nat) :=
  let g := s.1
  if (g.fields c.1 c.2).owner = player then
    match find_root_rep g.fields g.fuel (y, x), find_root_rep g.fields g.fuel c,
        unite g.fuel g.fields (g.fields y x) (g.fields c.1 c.2) with
    | some a, some b, some fields =>
      some ({ g with fields := fields }, true, if a ≠ b then s.2.2 + 1 else s.2.2)
    | _, _, _ => none
  else some s

/-! ## Theorems -/

/-! ## Notions used to state the properties of the forest of representatives -/

theorem RootOf.root {F c r} (h : RootOf F c r) : repF F r = r := by
  obtain ⟨_, _, hr⟩ := h
  exact hr

theorem RootOf.self {F r} (h : repF F r = r) : RootOf F r r := ⟨0, rfl, h⟩

theorem RootOf.unique {F c r r'} (h : RootOf F c r) (h' : RootOf F c r') : r = r' := by
  obtain ⟨n, hn, hr⟩ := h
  obtain ⟨m, hm, hr'⟩ := h'
  rcases Nat.le_total n m with hle | hle
  · obtain ⟨k, rfl⟩ := Nat.exists_eq_add_of_le hle
    rw [Nat.add_comm, Function.iterate_add_apply, hn, Function.iterate_fixed hr] at hm
    exact hm
  · obtain ⟨k, rfl⟩ := Nat.exists_eq_add_of_le hle
    rw [Nat.add_comm, Function.iterate_add_apply, hm, Function.iterate_fixed hr'] at hn
    exact hn.symm

theorem RootOf.of_rep {F c r} (h : RootOf F (repF F c) r) : RootOf F c r := by
  obtain ⟨n, hn, hr⟩ := h
  exact ⟨n + 1, by rw [Function.iterate_succ_apply]; exact hn, hr⟩

theorem RootOf.rep {F c r} (h : RootOf F c r) : RootOf F (repF F c) r := by
  obtain ⟨n, hn, hr⟩ := h
  cases n with
  | zero =>
    simp only [Function.iterate_zero, id_eq] at hn
    subst hn
    exact ⟨0, by simpa using hr, hr⟩
  | succ n => exact ⟨n, by rw [Function.iterate_succ_apply] at hn; exact hn, hr⟩

theorem RootOf.eq_of_root {F c r} (h : RootOf F c r) (hc : repF F c = c) : r = c :=
  h.unique (RootOf.self hc)

theorem SameRoot.symm_sr {F p q} (h : SameRoot F p q) : SameRoot F q p := by
  obtain ⟨r, h1, h2⟩ := h
  exact ⟨r, h2, h1⟩

theorem SameRoot.trans_sr {F p q s} (h : SameRoot F p q) (h' : SameRoot F q s) :
    SameRoot F p s := by
  obtain ⟨r, h1, h2⟩ := h
  obtain ⟨r', h3, h4⟩ := h'
  have := h2.unique h3
  subst this
  exact ⟨r, h1, h4⟩

/-- With enough fuel `find_root` returns the root. -/
theorem find_root_of_iterate {F : Nat → Nat → field_t} {r : Nat × Nat}
    (hr : repF F r = r) :
    ∀ (n fuel : Nat) (c : Nat × Nat), (repF F)^[n] c = r → n < fuel →
      find_root F fuel c = some r := by
  intro n
  induction n with
  | zero =>
    intro fuel c hc hf
    simp only [Function.iterate_zero, id_eq] at hc
    subst hc
    cases fuel with
    | zero => omega
    | succ fuel =>
      have : (F c.1 c.2).rep = c := hr
      simp [find_root, this]
  | succ n ih =>
    intro fuel c hc hf
    cases fuel with
    | zero => omega
    | succ fuel =>
      rw [Function.iterate_succ_apply] at hc
      by_cases hcc : (F c.1 c.2).rep = c
      · have h1 : repF F c = c := hcc
        rw [h1] at hc
        have h2 := ih fuel c hc (by omega)
        simp only [find_root, hcc, if_true]
        have : c = r := by
          have := (Function.iterate_fixed h1 n)
          rw [this] at hc; exact hc
        rw [this]
      · simp only [find_root, hcc, if_false]
        exact ih fuel _ hc (by omega)

/-- What `find_root` returns is a root reached from the start. -/
theorem find_root_sound {F : Nat → Nat → field_t} :
    ∀ (fuel : Nat) (c r : Nat × Nat), find_root F fuel c = some r → RootOf F c r := by
  intro fuel
  induction fuel with
  | zero => intro c r h; simp [find_root] at h
  | succ fuel ih =>
    intro c r h
    by_cases hcc : (F c.1 c.2).rep = c
    · simp only [find_root, hcc, if_true, Option.some.injEq] at h
      subst h
      exact RootOf.self hcc
    · simp only [find_root, hcc, if_false] at h
      exact (ih _ _ h).of_rep

theorem mem_gridSet {h w : Nat} {p : Nat × Nat} : p ∈ gridSet h w ↔ InGrid h w p := by
  simp [gridSet, InGrid]

theorem card_gridSet (h w : Nat) : (gridSet h w).card = h * w := by
  simp [gridSet]

theorem iterate_inGrid {h w : Nat} {F : Nat → Nat → field_t}
    (hclosed : ∀ p, InGrid h w p → InGrid h w (repF F p)) {c : Nat × Nat}
    (hc : InGrid h w c) (n : Nat) : InGrid h w ((repF F)^[n] c) := by
  induction n with
  | zero => simpa using hc
  | succ n ih => rw [Function.iterate_succ_apply']; exact hclosed _ ih

/-- A chain of representatives that stays on the board reaches its root in fewer
steps than the board has cells. -/
theorem depth_lt {h w : Nat} {F : Nat → Nat → field_t}
    (hclosed : ∀ p, InGrid h w p → InGrid h w (repF F p)) {c r : Nat × Nat}
    (hc : InGrid h w c) (hr : RootOf F c r) :
    ∃ n, n < h * w ∧ (repF F)^[n] c = r := by
  classical
  have hroot := hr.root
  have hex : ∃ n, (repF F)^[n] c = r := by
    obtain ⟨n, hn, _⟩ := hr
    exact ⟨n, hn⟩
  refine ⟨Nat.find hex, ?_, Nat.find_spec hex⟩
  have hmin : ∀ m, m < Nat.find hex → (repF F)^[m] c ≠ r := fun m hm => Nat.find_min hex hm
  have hinj : Set.InjOn (fun i => (repF F)^[i] c) (Finset.range (Nat.find hex + 1) : Set Nat) := by
    have key : ∀ i j, i < j → j ≤ Nat.find hex → (repF F)^[i] c ≠ (repF F)^[j] c := by
      intro i j hij hj heq
      have h1 : (repF F)^[(Nat.find hex - j) + i] c = r := by
        rw [Function.iterate_add_apply, heq, ← Function.iterate_add_apply]
        have : Nat.find hex - j + j = Nat.find hex := by omega
        rw [this]
        exact Nat.find_spec hex
      exact hmin _ (by omega) h1
    intro i hi j hj heq
    simp only [Finset.coe_range, Set.mem_Iio] at hi hj
    by_contra hne
    rcases Nat.lt_or_gt_of_ne hne with hlt | hlt
    · exact key i j hlt (by omega) heq
    · exact key j i hlt (by omega) heq.symm
  have hle := Finset.card_le_card_of_injOn (s := Finset.range (Nat.find hex + 1))
    (t := gridSet h w) (fun i => (repF F)^[i] c)
    (fun i _ => mem_gridSet.2 (iterate_inGrid hclosed hc i)) hinj
  rw [Finset.card_range, card_gridSet] at hle
  omega

/-- On a board whose chains of representatives stay on the board, `find_root`
with the number of cells as fuel returns the root. -/
theorem find_root_eq {h w : Nat} {F : Nat → Nat → field_t}
    (hclosed : ∀ p, InGrid h w p → InGrid h w (repF F p)) {c r : Nat × Nat}
    (hc : InGrid h w c) (hr : RootOf F c r) :
    find_root F (h * w) c = some r := by
  obtain ⟨n, hn, hi⟩ := depth_lt hclosed hc hr
  exact find_root_of_iterate hr.root n _ c hi hn

theorem RootOf.inGrid {h w : Nat} {F : Nat → Nat → field_t}
    (hclosed : ∀ p, InGrid h w p → InGrid h w (repF F p)) {c r : Nat × Nat}
    (hc : InGrid h w c) (hr : RootOf F c r) : InGrid h w r := by
  obtain ⟨n, hn, _⟩ := hr
  rw [← hn]
  exact iterate_inGrid hclosed hc n

theorem eqvGen_own {F : Nat → Nat → field_t} {E : Nat × Nat → Nat × Nat → Prop}
    (eown : ∀ p q, E p q → ownF F p = ownF F q ∧ ownF F p ≠ 0) {p q : Nat × Nat}
    (hpq : Relation.EqvGen E p q) : ownF F p = ownF F q := by
  induction hpq with
  | rel x y hxy => exact (eown x y hxy).1
  | refl x => rfl
  | symm x y _ ih => exact ih.symm
  | trans x y z _ _ ih1 ih2 => exact ih1.trans ih2

theorem eqvGen_eq_or {h w : Nat} {F : Nat → Nat → field_t}
    {E : Nat × Nat → Nat × Nat → Prop}
    (egrid : ∀ p q, E p q → InGrid h w p ∧ InGrid h w q)
    (eown : ∀ p q, E p q → ownF F p = ownF F q ∧ ownF F p ≠ 0) {p q : Nat × Nat}
    (hpq : Relation.EqvGen E p q) :
    p = q ∨ (ownF F p ≠ 0 ∧ ownF F q ≠ 0 ∧ InGrid h w p ∧ InGrid h w q) := by
  induction hpq with
  | rel x y hxy =>
    have h1 := eown x y hxy
    have h2 := egrid x y hxy
    exact Or.inr ⟨h1.2, h1.1 ▸ h1.2, h2.1, h2.2⟩
  | refl x => exact Or.inl rfl
  | symm x y _ ih =>
    rcases ih with ih | ih
    · exact Or.inl ih.symm
    · exact Or.inr ⟨ih.2.1, ih.1, ih.2.2.2, ih.2.2.1⟩
  | trans x y z _ _ ih1 ih2 =>
    rcases ih1 with ih1 | ih1
    · subst ih1; exact ih2
    · rcases ih2 with ih2 | ih2
      · subst ih2; exact Or.inr ih1
      · exact Or.inr ⟨ih1.1, ih2.2.1, ih1.2.2.1, ih2.2.2.2⟩

namespace UF

variable {h w : Nat} {F : Nat → Nat → field_t} {E : Nat × Nat → Nat × Nat → Prop}

theorem sameRoot_refl (U : UF h w F E) {p : Nat × Nat} (hp : InGrid h w p) :
    SameRoot F p p := by
  obtain ⟨r, hr⟩ := U.acyc p hp
  exact ⟨r, hr, hr⟩

theorem sameRoot_rep (U : UF h w F E) {p : Nat × Nat} (hp : InGrid h w p) :
    SameRoot F p (repF F p) := by
  obtain ⟨r, hr⟩ := U.acyc p hp
  exact ⟨r, hr, hr.rep⟩

theorem own_rep (U : UF h w F E) {p : Nat × Nat} (hp : InGrid h w p) :
    ownF F (repF F p) = ownF F p :=
  (eqvGen_own U.eown (U.sound _ _ hp (U.closed p hp) (U.sameRoot_rep hp))).symm

theorem empty_self (U : UF h w F E) {p : Nat × Nat} (hp : InGrid h w p)
    (h0 : ownF F p = 0) : repF F p = p := by
  rcases eqvGen_eq_or U.egrid U.eown (U.sound _ _ hp (U.closed p hp) (U.sameRoot_rep hp))
    with h1 | h1
  · exact h1.symm
  · exact absurd h0 h1.1

theorem own_root (U : UF h w F E) {p r : Nat × Nat} (hp : InGrid h w p)
    (hr : RootOf F p r) : ownF F r = ownF F p := by
  have hrg := hr.inGrid U.closed hp
  exact (eqvGen_own U.eown (U.sound _ _ hp hrg ⟨r, hr, RootOf.self hr.root⟩)).symm

/-- Cells related by the generated equivalence lie in the same tree. -/
theorem sameRoot_of_eqvGen (U : UF h w F E) {p q : Nat × Nat}
    (hpq : Relation.EqvGen E p q) :
    (InGrid h w p ↔ InGrid h w q) ∧ (InGrid h w p → SameRoot F p q) := by
  induction hpq with
  | rel x y hxy =>
    have := U.egrid x y hxy
    exact ⟨⟨fun _ => this.2, fun _ => this.1⟩, fun _ => U.complete x y hxy⟩
  | refl x => exact ⟨Iff.rfl, fun hx => U.sameRoot_refl hx⟩
  | symm x y _ ih => exact ⟨ih.1.symm, fun hy => (ih.2 (ih.1.2 hy)).symm_sr⟩
  | trans x y z _ _ ih1 ih2 =>
    exact ⟨ih1.1.trans ih2.1, fun hx => (ih1.2 hx).trans_sr (ih2.2 (ih1.1.1 hx))⟩

/-- The forest only depends on the equivalence that the relation generates. -/
theorem congr (U : UF h w F E) {E' : Nat × Nat → Nat × Nat → Prop}
    (h1 : ∀ p q, E p q → Relation.EqvGen E' p q)
    (h2 : ∀ p q, E' p q → Relation.EqvGen E p q)
    (h3 : ∀ p q, E' p q → InGrid h w p ∧ InGrid h w q)
    (h4 : ∀ p q, E' p q → ownF F p = ownF F q ∧ ownF F p ≠ 0) : UF h w F E' where
  closed := U.closed
  acyc := U.acyc
  sound := by
    intro p q hp hq hs
    have := U.sound p q hp hq hs
    clear hs hp hq
    induction this with
    | rel x y hxy => exact h1 x y hxy
    | refl x => exact Relation.EqvGen.refl x
    | symm x y _ ih => exact Relation.EqvGen.symm _ _ ih
    | trans x y z _ _ ih1 ih2 => exact Relation.EqvGen.trans _ _ _ ih1 ih2
  complete := by
    intro p q hpq
    exact (U.sameRoot_of_eqvGen (h2 p q hpq)).2 (h3 p q hpq).1
  egrid := h3
  eown := h4

end UF

/-- Roots after the root `rc` has been attached under the root `rp`. -/
theorem link_rootOf {F F' : Nat → Nat → field_t} {rc rp : Nat × Nat}
    (hrc : repF F rc = rc) (hrp : repF F rp = rp) (hne : rc ≠ rp)
    (hrep : ∀ p, repF F' p = if p = rc then rp else repF F p) :
    ∀ (n : Nat) (c r : Nat × Nat), (repF F)^[n] c = r → repF F r = r →
      RootOf F' c (if r = rc then rp else r) := by
  have hrp' : repF F' rp = rp := by rw [hrep, if_neg (Ne.symm hne), hrp]
  have hbase : ∀ c r n, c = rc → (repF F)^[n] c = r →
      RootOf F' c (if r = rc then rp else r) := by
    intro c r n hcr hc
    subst hcr
    rw [Function.iterate_fixed hrc] at hc
    subst hc
    rw [if_pos rfl]
    exact ⟨1, by simp [hrep], hrp'⟩
  intro n
  induction n with
  | zero =>
    intro c r hc hr
    by_cases hcr : c = rc
    · exact hbase c r 0 hcr hc
    · simp only [Function.iterate_zero, id_eq] at hc
      subst hc
      rw [if_neg hcr]
      exact RootOf.self (by rw [hrep, if_neg hcr, hr])
  | succ n ih =>
    intro c r hc hr
    by_cases hcr : c = rc
    · exact hbase c r _ hcr hc
    · rw [Function.iterate_succ_apply] at hc
      have := ih (repF F c) r hc hr
      have h' : repF F' c = repF F c := by rw [hrep, if_neg hcr]
      rw [← h'] at this
      exact this.of_rep

theorem link_rootOf' {F F' : Nat → Nat → field_t} {rc rp : Nat × Nat}
    (hrc : repF F rc = rc) (hrp : repF F rp = rp) (hne : rc ≠ rp)
    (hrep : ∀ p, repF F' p = if p = rc then rp else repF F p)
    {c r : Nat × Nat} (hr : RootOf F c r) :
    RootOf F' c (if r = rc then rp else r) := by
  obtain ⟨n, hn, hroot⟩ := hr
  exact link_rootOf hrc hrp hne hrep n c r hn hroot

theorem set_cell_apply (F : Nat → Nat → field_t) (i j : Nat) (v : field_t) (a b : Nat) :
    set_cell F i j v a b = if a = i ∧ b = j then v else F a b := rfl

theorem repF_set_cell (F : Nat → Nat → field_t) (i j : Nat) (v : field_t) (p : Nat × Nat) :
    repF (set_cell F i j v) p = if p = (i, j) then v.rep else repF F p := by
  unfold repF set_cell
  by_cases hp : p = (i, j)
  · subst hp; simp
  · have : ¬ (p.1 = i ∧ p.2 = j) := fun hh => hp (Prod.ext hh.1 hh.2)
    simp [hp, this]

theorem ownF_set_cell (F : Nat → Nat → field_t) (i j : Nat) (v : field_t) (p : Nat × Nat) :
    ownF (set_cell F i j v) p = if p = (i, j) then v.owner else ownF F p := by
  unfold ownF set_cell
  by_cases hp : p = (i, j)
  · subst hp; simp
  · have : ¬ (p.1 = i ∧ p.2 = j) := fun hh => hp (Prod.ext hh.1 hh.2)
    simp [hp, this]

theorem mem_rootSet {h w : Nat} {F : Nat → Nat → field_t} {pl : Nat} {p : Nat × Nat} :
    p ∈ rootSet h w F pl ↔ InGrid h w p ∧ ownF F p = pl ∧ repF F p = p := by
  simp [rootSet, mem_gridSet]

namespace UF

variable {h w : Nat} {F : Nat → Nat → field_t} {E : Nat × Nat → Nat × Nat → Prop}

/-- Attaching the root of one endpoint of a new edge under the root of the
other endpoint keeps the forest in step with the relation. -/
theorem link (U : UF h w F E) {F' : Nat → Nat → field_t} {a b ra rb rc rp : Nat × Nat}
    (ha : InGrid h w a) (hb : InGrid h w b) (hra : RootOf F a ra) (hrb : RootOf F b rb)
    (hcase : (rc = ra ∧ rp = rb) ∨ (rc = rb ∧ rp = ra)) (hne : ra ≠ rb)
    (hrep : ∀ p, repF F' p = if p = rc then rp else repF F p)
    (hown : ∀ p, ownF F' p = ownF F p)
    (hab : ownF F a = ownF F b) (ha0 : ownF F a ≠ 0) :
    UF h w F' (addEdge E a b) := by
  have hrc : repF F rc = rc := by
    rcases hcase with ⟨h1, _⟩ | ⟨h1, _⟩ <;> rw [h1]
    · exact hra.root
    · exact hrb.root
  have hrp : repF F rp = rp := by
    rcases hcase with ⟨_, h1⟩ | ⟨_, h1⟩ <;> rw [h1]
    · exact hrb.root
    · exact hra.root
  have hcp : rc ≠ rp := by
    rcases hcase with ⟨h1, h2⟩ | ⟨h1, h2⟩ <;> rw [h1, h2]
    · exact hne
    · exact hne.symm
  have hrpg : InGrid h w rp := by
    rcases hcase with ⟨_, h1⟩ | ⟨_, h1⟩ <;> rw [h1]
    · exact hrb.inGrid U.closed hb
    · exact hra.inGrid U.closed ha
  have hnew : ∀ {c r}, RootOf F c r → RootOf F' c (if r = rc then rp else r) :=
    fun hr => link_rootOf' hrc hrp hcp hrep hr
  have hab' : Relation.EqvGen (addEdge E a b) a b := Relation.EqvGen.rel _ _ (Or.inr ⟨rfl, rfl⟩)
  have hmono : ∀ {p q}, Relation.EqvGen E p q → Relation.EqvGen (addEdge E a b) p q :=
    fun hpq => Relation.EqvGen.mono (fun _ _ hh => Or.inl hh) hpq
  -- a cell with root `ra` is related to `a`, a cell with root `rb` to `b`
  have hto_a : ∀ {p}, InGrid h w p → RootOf F p ra → Relation.EqvGen (addEdge E a b) p a :=
    fun hp hr => hmono (U.sound _ _ hp ha ⟨ra, hr, hra⟩)
  have hto_b : ∀ {p}, InGrid h w p → RootOf F p rb → Relation.EqvGen (addEdge E a b) p b :=
    fun hp hr => hmono (U.sound _ _ hp hb ⟨rb, hr, hrb⟩)
  refine ⟨?_, ?_, ?_, ?_, ?_, ?_⟩
  · intro p hp
    rw [hrep]
    split
    · exact hrpg
    · exact U.closed p hp
  · intro p hp
    obtain ⟨r, hr⟩ := U.acyc p hp
    exact ⟨_, hnew hr⟩
  · intro p q hp hq hs
    obtain ⟨r, hr1, hr2⟩ := hs
    obtain ⟨r1, hp1⟩ := U.acyc p hp
    obtain ⟨r2, hq1⟩ := U.acyc q hq
    have e1 := hr1.unique (hnew hp1)
    have e2 := hr2.unique (hnew hq1)
    by_cases h12 : r1 = r2
    · subst h12
      exact hmono (U.sound _ _ hp hq ⟨r1, hp1, hq1⟩)
    · have hrr : (if r1 = rc then rp else r1) = (if r2 = rc then rp else r2) := by
        rw [← e1, ← e2]
      by_cases c1 : r1 = rc
      · have c2 : r2 ≠ rc := fun c2 => h12 (c1.trans c2.symm)
        rw [if_pos c1, if_neg c2] at hrr
        -- r1 = rc, r2 = rp
        rcases hcase with ⟨k1, k2⟩ | ⟨k1, k2⟩
        · have : RootOf F p ra := by rw [← k1, ← c1]; exact hp1
          have : RootOf F q rb := by rw [← k2, hrr]; exact hq1
          exact Relation.EqvGen.trans _ _ _ (hto_a hp ‹_›)
            (Relation.EqvGen.trans _ _ _ hab' (Relation.EqvGen.symm _ _ (hto_b hq ‹_›)))
        · have : RootOf F p rb := by rw [← k1, ← c1]; exact hp1
          have : RootOf F q ra := by rw [← k2, hrr]; exact hq1
          exact Relation.EqvGen.trans _ _ _ (hto_b hp ‹_›)
            (Relation.EqvGen.trans _ _ _ (Relation.EqvGen.symm _ _ hab')
              (Relation.EqvGen.symm _ _ (hto_a hq ‹_›)))
      · rw [if_neg c1] at hrr
        have c2 : r2 = rc := by
          by_contra c2
          rw [if_neg c2] at hrr
          exact h12 hrr
        rw [if_pos c2] at hrr
        rcases hcase with ⟨k1, k2⟩ | ⟨k1, k2⟩
        · have : RootOf F q ra := by rw [← k1, ← c2]; exact hq1
          have : RootOf F p rb := by rw [← k2, ← hrr]; exact hp1
          exact Relation.EqvGen.trans _ _ _ (hto_b hp ‹_›)
            (Relation.EqvGen.trans _ _ _ (Relation.EqvGen.symm _ _ hab')
              (Relation.EqvGen.symm _ _ (hto_a hq ‹_›)))
        · have : RootOf F q rb := by rw [← k1, ← c2]; exact hq1
          have : RootOf F p ra := by rw [← k2, ← hrr]; exact hp1
          exact Relation.EqvGen.trans _ _ _ (hto_a hp ‹_›)
            (Relation.EqvGen.trans _ _ _ hab' (Relation.EqvGen.symm _ _ (hto_b hq ‹_›)))
  · intro p q hpq
    rcases hpq with hpq | ⟨rfl, rfl⟩
    · obtain ⟨r, h1, h2⟩ := U.complete p q hpq
      exact ⟨_, hnew h1, hnew h2⟩
    · refine ⟨rp, ?_, ?_⟩
      · have := hnew hra
        rcases hcase with ⟨k1, k2⟩ | ⟨k1, k2⟩
        · rwa [if_pos k1.symm] at this
        · rwa [if_neg (by rw [k1]; exact hne), ← k2] at this
      · have := hnew hrb
        rcases hcase with ⟨k1, k2⟩ | ⟨k1, k2⟩
        · rwa [if_neg (by rw [k1]; exact hne.symm), ← k2] at this
        · rwa [if_pos k1.symm] at this
  · intro p q hpq
    rcases hpq with hpq | ⟨rfl, rfl⟩
    · exact U.egrid p q hpq
    · exact ⟨ha, hb⟩
  · intro p q hpq
    rw [hown, hown]
    rcases hpq with hpq | ⟨rfl, rfl⟩
    · exact U.eown p q hpq
    · exact ⟨hab, ha0⟩

/-- An edge between two cells of one tree can be added for free. -/
theorem addEdge_same (U : UF h w F E) {a b : Nat × Nat}
    (ha : InGrid h w a) (hb : InGrid h w b) (hs : SameRoot F a b)
    (hab : ownF F a = ownF F b) (ha0 : ownF F a ≠ 0) : UF h w F (addEdge E a b) := by
  refine U.congr (fun p q hpq => Relation.EqvGen.rel _ _ (Or.inl hpq)) ?_ ?_ ?_
  · intro p q hpq
    rcases hpq with hpq | ⟨rfl, rfl⟩
    · exact Relation.EqvGen.rel _ _ hpq
    · exact U.sound _ _ ha hb hs
  · intro p q hpq
    rcases hpq with hpq | ⟨rfl, rfl⟩
    · exact U.egrid p q hpq
    · exact ⟨ha, hb⟩
  · intro p q hpq
    rcases hpq with hpq | ⟨rfl, rfl⟩
    · exact U.eown p q hpq
    · exact ⟨hab, ha0⟩

end UF

/-- Attaching the root `rc` under another root removes exactly `rc` from the roots. -/
theorem nroots_link {h w : Nat} {F F' : Nat → Nat → field_t} {rc rp : Nat × Nat}
    (hrcg : InGrid h w rc) (hrc : repF F rc = rc) (hcp : rc ≠ rp)
    (hrep : ∀ p, repF F' p = if p = rc then rp else repF F p)
    (hown : ∀ p, ownF F' p = ownF F p) (pl : Nat) :
    nroots h w F' pl + (if ownF F rc = pl then 1 else 0) = nroots h w F pl := by
  unfold nroots
  have hset : rootSet h w F' pl = (rootSet h w F pl).erase rc := by
    ext p
    simp only [mem_rootSet, Finset.mem_erase, hown, hrep]
    by_cases hp : p = rc
    · subst hp
      simp [hcp.symm]
    · simp [hp]
  rw [hset]
  by_cases hpl : ownF F rc = pl
  · rw [if_pos hpl]
    have hmem : rc ∈ rootSet h w F pl := mem_rootSet.2 ⟨hrcg, hpl, hrc⟩
    rw [Finset.card_erase_of_mem hmem]
    have := Finset.card_pos.2 ⟨rc, hmem⟩
    omega
  · rw [if_neg hpl]
    have hmem : rc ∉ rootSet h w F pl := fun hm => hpl (mem_rootSet.1 hm).2.1
    rw [Finset.erase_eq_of_not_mem hmem]
    rfl

theorem FrameUF.refl (h w pl : Nat) (F : Nat → Nat → field_t) : FrameUF h w pl F F :=
  ⟨fun _ _ => ⟨rfl, rfl, rfl⟩, fun _ _ _ => rfl⟩

theorem FrameUF.trans_frame {h w pl : Nat} {F F' F'' : Nat → Nat → field_t}
    (h1 : FrameUF h w pl F F') (h2 : FrameUF h w pl F' F'') : FrameUF h w pl F F'' := by
  refine ⟨fun i j => ?_, fun i j hij => ?_⟩
  · have a := h1.1 i j
    have b := h2.1 i j
    exact ⟨b.1.trans a.1, b.2.1.trans a.2.1, b.2.2.trans a.2.2⟩
  · have a := h1.2 i j hij
    have b := h2.2 i j (by rw [(h1.1 i j).1]; exact hij)
    exact b.trans a

theorem FrameUF.ownF {h w pl : Nat} {F F' : Nat → Nat → field_t}
    (hf : FrameUF h w pl F F') (p : Nat × Nat) : ownF F' p = ownF F p := (hf.1 p.1 p.2).1

theorem find_root_rep_eq {h w : Nat} {F : Nat → Nat → field_t}
    (hclosed : ∀ p, InGrid h w p → InGrid h w (repF F p)) {c r : Nat × Nat}
    (hc : InGrid h w c) (hr : RootOf F c r) :
    find_root_rep F (h * w) c = some r := by
  unfold find_root_rep
  rw [find_root_eq hclosed hc hr]
  simp only [Option.map_some', Option.some.injEq]
  exact hr.root

/-- Source `unite` on the copies of two cells `a`, `b` of the board owned by the
same player: it returns, the forest stays well formed, and the edge `(a, b)` is
added to the relation that the forest represents. -/
theorem unite_spec {h w : Nat} {F : Nat → Nat → field_t}
    {E : Nat × Nat → Nat × Nat → Prop} (U : UF h w F E) {a b : Nat × Nat}
    (ha : InGrid h w a) (hb : InGrid h w b)
    (hab : ownF F a = ownF F b) (ha0 : ownF F a ≠ 0) :
    ∃ F', unite (h * w) F (F a.1 a.2) (F b.1 b.2) = some F' ∧
      UF h w F' (addEdge E a b) ∧ FrameUF h w (ownF F a) F F' ∧
      (SameRoot F a b → F' = F) ∧
      (¬ SameRoot F a b → ∀ pl,
        nroots h w F' pl + (if ownF F a = pl then 1 else 0) = nroots h w F pl) := by
  obtain ⟨ra, hra⟩ := U.acyc a ha
  obtain ⟨rb, hrb⟩ := U.acyc b hb
  have hrag := hra.inGrid U.closed ha
  have hrbg := hrb.inGrid U.closed hb
  have fa : find_root F (h * w) (F a.1 a.2).rep = some ra :=
    find_root_eq U.closed (U.closed a ha) hra.rep
  have fb : find_root F (h * w) (F b.1 b.2).rep = some rb :=
    find_root_eq U.closed (U.closed b hb) hrb.rep
  have oa : ownF F ra = ownF F a := U.own_root ha hra
  have ob : ownF F rb = ownF F a := (U.own_root hb hrb).trans hab.symm
  have hsame : SameRoot F a b ↔ ra = rb := by
    constructor
    · rintro ⟨r, h1, h2⟩
      exact (hra.unique h1).trans (h2.unique hrb)
    · intro e
      exact ⟨ra, hra, e ▸ hrb⟩
  unfold unite
  rw [fa, fb]
  simp only
  by_cases hne : ra = rb
  · rw [if_pos hne]
    refine ⟨F, rfl, U.addEdge_same ha hb (hsame.2 hne) hab ha0, FrameUF.refl _ _ _ _,
      fun _ => rfl, fun hns => absurd (hsame.2 hne) hns⟩
  · rw [if_neg hne]
    -- the three ways of attaching one root under the other
    have main : ∀ (F' : Nat → Nat → field_t) (rc rp : Nat × Nat),
        ((rc = ra ∧ rp = rb) ∨ (rc = rb ∧ rp = ra)) →
        (∀ p, repF F' p = if p = rc then rp else repF F p) →
        (∀ i j, (F' i j).owner = (F i j).owner ∧ (F' i j).x = (F i j).x ∧
          (F' i j).y = (F i j).y) →
        (∀ i j, (i, j) ≠ ra → (i, j) ≠ rb → F' i j = F i j) →
        UF h w F' (addEdge E a b) ∧ FrameUF h w (ownF F a) F F' ∧
        (SameRoot F a b → F' = F) ∧
        (¬ SameRoot F a b → ∀ pl,
          nroots h w F' pl + (if ownF F a = pl then 1 else 0) = nroots h w F pl) := by
      intro F' rc rp hcase hrep hfr hother
      have hown : ∀ p, ownF F' p = ownF F p := fun p => (hfr p.1 p.2).1
      refine ⟨U.link ha hb hra hrb hcase hne hrep hown hab ha0, ⟨hfr, ?_⟩,
        fun hs => absurd (hsame.1 hs) hne, fun _ pl => ?_⟩
      · intro i j hij
        apply hother
        · rintro rfl
          rcases hij with hij | hij
          · exact hij oa
          · exact hij hrag
        · rintro rfl
          rcases hij with hij | hij
          · exact hij ob
          · exact hij hrbg
      · have hrcg : InGrid h w rc := by
          rcases hcase with ⟨k, _⟩ | ⟨k, _⟩ <;> rw [k] <;> assumption
        have hrc : repF F rc = rc := by
          rcases hcase with ⟨k, _⟩ | ⟨k, _⟩ <;> rw [k]
          · exact hra.root
          · exact hrb.root
        have hcp : rc ≠ rp := by
          rcases hcase with ⟨k1, k2⟩ | ⟨k1, k2⟩ <;> rw [k1, k2]
          · exact hne
          · exact fun e => hne e.symm
        have oc : ownF F rc = ownF F a := by
          rcases hcase with ⟨k, _⟩ | ⟨k, _⟩ <;> rw [k] <;> assumption
        have := nroots_link hrcg hrc hcp hrep hown pl
        rw [oc] at this
        exact this
    have hcell : ∀ (G : Nat → Nat → field_t) (r : Nat × Nat) (v : field_t) (i j : Nat),
        (i, j) ≠ r → set_cell G r.1 r.2 v i j = G i j := by
      intro G r v i j hij
      rw [set_cell_apply, if_neg]
      rintro ⟨rfl, rfl⟩
      exact hij rfl
    have hcell' : ∀ (G : Nat → Nat → field_t) (r : Nat × Nat) (v : field_t),
        set_cell G r.1 r.2 v r.1 r.2 = v := by
      intro G r v
      rw [set_cell_apply, if_pos ⟨rfl, rfl⟩]
    by_cases hgt : (F ra.1 ra.2).rank > (F rb.1 rb.2).rank
    · rw [if_pos hgt]
      refine ⟨_, rfl, main _ rb ra (Or.inr ⟨rfl, rfl⟩) ?_ ?_ ?_⟩
      · intro p
        rw [repF_set_cell]
      · intro i j
        by_cases hij : (i, j) = rb
        · rw [← hij]; simp [set_cell_apply]
        · rw [hcell _ _ _ _ _ hij]; exact ⟨rfl, rfl, rfl⟩
      · intro i j _ h2
        exact hcell _ _ _ _ _ h2
    · rw [if_neg hgt]
      by_cases hlt : (F ra.1 ra.2).rank < (F rb.1 rb.2).rank
      · rw [if_pos hlt]
        refine ⟨_, rfl, main _ ra rb (Or.inl ⟨rfl, rfl⟩) ?_ ?_ ?_⟩
        · intro p
          rw [repF_set_cell]
        · intro i j
          by_cases hij : (i, j) = ra
          · rw [← hij]; simp [set_cell_apply]
          · rw [hcell _ _ _ _ _ hij]; exact ⟨rfl, rfl, rfl⟩
        · intro i j h1 _
          exact hcell _ _ _ _ _ h1
      · rw [if_neg hlt]
        refine ⟨_, rfl, main _ rb ra (Or.inr ⟨rfl, rfl⟩) ?_ ?_ ?_⟩
        · intro p
          rw [repF_set_cell, repF_set_cell]
          by_cases hp : p = ra
          · subst hp
            have : ¬ p = rb := hne
            simp only [Prod.mk.eta, if_true, this, if_false]
            rw [hcell _ _ _ _ _ (by simpa using hne)]
            rfl
          · simp [hp]
        · intro i j
          by_cases hij : (i, j) = ra
          · rw [← hij]
            simp only [set_cell_apply, and_self, if_true]
            have : ¬ (i = rb.1 ∧ j = rb.2) := by
              rintro ⟨rfl, rfl⟩
              exact hne hij.symm
            simp [this]
          · rw [hcell _ _ _ _ _ hij]
            by_cases hij' : (i, j) = rb
            · rw [← hij']; simp [set_cell_apply]
            · rw [hcell _ _ _ _ _ hij']; exact ⟨rfl, rfl, rfl⟩
        · intro i j h1 h2
          rw [hcell _ _ _ _ _ h1, hcell _ _ _ _ _ h2]

/-! ## Loops -/

theorem foldlM_range_inv {σ : Type} (f : σ → Nat → Option σ) (P : Nat → σ → Prop) :
    ∀ (n : Nat) (init : σ), P 0 init →
      (∀ k s, k < n → P k s → ∃ s', f s k = some s' ∧ P (k + 1) s') →
      ∃ s', (List.range n).foldlM f init = some s' ∧ P n s' := by
  intro n
  induction n with
  | zero =>
    intro init h0 _
    exact ⟨init, by simp, h0⟩
  | succ n ih =>
    intro init h0 hstep
    obtain ⟨s1, hs1, hp1⟩ := ih init h0 (fun k s hk hp => hstep k s (by omega) hp)
    obtain ⟨s2, hs2, hp2⟩ := hstep n s1 (by omega) hp1
    refine ⟨s2, ?_, hp2⟩
    rw [List.range_succ, List.foldlM_append, hs1]
    simp [hs2]

theorem foldl_range_inv {σ : Type} (f : σ → Nat → σ) (P : Nat → σ → Prop) :
    ∀ (n : Nat) (init : σ), P 0 init →
      (∀ k s, k < n → P k s → P (k + 1) (f s k)) →
      P n ((List.range n).foldl f init) := by
  intro n
  induction n with
  | zero =>
    intro init h0 _
    simpa using h0
  | succ n ih =>
    intro init h0 hstep
    rw [List.range_succ, List.foldl_append]
    simp only [List.foldl_cons, List.foldl_nil]
    exact hstep n _ (by omega) (ih init h0 (fun k s hk hp => hstep k s (by omega) hp))

/-- Invariant rule for a double loop over the rows and columns of a board; the
invariant is indexed by the number `i * w + j` of cells already visited. -/
theorem grid_foldlM_inv {σ : Type} (f : σ → Nat → Nat → Option σ) (P : Nat → σ → Prop)
    (h w : Nat) (init : σ) (h0 : P 0 init)
    (hstep : ∀ i j s, i < h → j < w → P (i * w + j) s →
      ∃ s', f s i j = some s' ∧ P (i * w + j + 1) s') :
    ∃ s', (List.range h).foldlM (fun s i => (List.range w).foldlM (fun s j => f s i j) s) init
      = some s' ∧ P (h * w) s' := by
  refine foldlM_range_inv _ (fun i s => P (i * w) s) h init (by simpa using h0) ?_
  intro i s hi hp
  have := foldlM_range_inv (fun s j => f s i j) (fun j s => P (i * w + j) s) w s
    (by simpa using hp) (fun j s hj hp => hstep i j s hi hj hp)
  obtain ⟨s', hs', hp'⟩ := this
  refine ⟨s', hs', ?_⟩
  have : (i + 1) * w = i * w + w := by ring
  show P ((i + 1) * w) s'
  rw [this]
  exact hp'

theorem grid_foldl_inv {σ : Type} (f : σ → Nat → Nat → σ) (P : Nat → σ → Prop)
    (h w : Nat) (init : σ) (h0 : P 0 init)
    (hstep : ∀ i j s, i < h → j < w → P (i * w + j) s → P (i * w + j + 1) (f s i j)) :
    P (h * w) ((List.range h).foldl (fun s i => (List.range w).foldl (fun s j => f s i j) s) init)
      := by
  refine foldl_range_inv _ (fun i s => P (i * w) s) h init (by simpa using h0) ?_
  intro i s hi hp
  have := foldl_range_inv (fun s j => f s i j) (fun j s => P (i * w + j) s) w s
    (by simpa using hp) (fun j s hj hp => hstep i j s hi hj hp)
  have e : (i + 1) * w = i * w + w := by ring
  show P ((i + 1) * w) _
  rw [e]
  exact this

/-! ## The neighbour loop of `gamma_move` and `restore_move` -/

theorem UF.of_iff {h w : Nat} {F : Nat → Nat → field_t} {E E' : Nat × Nat → Nat × Nat → Prop}
    (U : UF h w F E) (hiff : ∀ p q, E p q ↔ E' p q) : UF h w F E' := by
  have : E = E' := by
    funext p q
    exact propext (hiff p q)
  rw [← this]
  exact U

theorem find_root_rep_eq_find_root (F : Nat → Nat → field_t) (fuel : Nat) (c : Nat × Nat) :
    find_root_rep F fuel c = find_root F fuel c := by
  unfold find_root_rep
  cases hf : find_root F fuel c with
  | none => rfl
  | some r =>
    simp only [Option.map_some', Option.some.injEq]
    exact (find_root_sound fuel c r hf).root

theorem good_coords_iff (g : gamma_t) (x y : Nat) :
    good_coords g x y = true ↔ InGrid g.height g.width (y, x) := by
  simp [good_coords, InGrid, and_comm]

/-- One iteration of the neighbour loop of `restore_move`. -/
theorem restore_move_step_spec {g : gamma_t} {E : Nat × Nat → Nat × Nat → Prop}
    {pl x y u i : Nat} (U : UF g.height g.width g.fields E)
    (hc : InGrid g.height g.width (y, x)) (hown : ownF g.fields (y, x) = pl) (hpl : pl ≠ 0) :
    ∃ F' du, restore_move_step pl x y (g, u) i = some ({ g with fields := F' }, u + du) ∧
      UF g.height g.width F'
        (addEdgeIf E (y, x) (nbr (y, x) i)
          (InGrid g.height g.width (nbr (y, x) i) ∧ ownF g.fields (nbr (y, x) i) = pl)) ∧
      FrameUF g.height g.width pl g.fields F' ∧ (du = 0 → F' = g.fields) ∧ du ≤ 1 ∧
      ∀ pl', nroots g.height g.width F' pl' + (if pl = pl' then du else 0)
        = nroots g.height g.width g.fields pl' := by
  by_cases hcond : InGrid g.height g.width (nbr (y, x) i) ∧ ownF g.fields (nbr (y, x) i) = pl
  · obtain ⟨hn, hno⟩ := hcond
    have hab : ownF g.fields (y, x) = ownF g.fields (nbr (y, x) i) := hown.trans hno.symm
    have ha0 : ownF g.fields (y, x) ≠ 0 := by rw [hown]; exact hpl
    obtain ⟨F', hF', hU, hfr, hsame, hdiff⟩ := unite_spec U hc hn hab ha0
    obtain ⟨ra, hra⟩ := U.acyc _ hc
    obtain ⟨rb, hrb⟩ := U.acyc _ hn
    have fa := find_root_eq U.closed hc hra
    have fb := find_root_eq U.closed hn hrb
    have hsr : SameRoot g.fields (y, x) (nbr (y, x) i) ↔ ra = rb := by
      constructor
      · rintro ⟨r, h1, h2⟩
        exact (hra.unique h1).trans (h2.unique hrb)
      · intro e
        exact ⟨ra, hra, e ▸ hrb⟩
    have hgc : good_coords g (add_u32 x (delta_x i)) (add_u32 y (delta_y i)) = true :=
      (good_coords_iff g _ _).2 hn
    have hno' : (g.fields (add_u32 y (delta_y i)) (add_u32 x (delta_x i))).owner = pl := hno
    refine ⟨F', if ra ≠ rb then 1 else 0, ?_, ?_, ?_, ?_, ?_, ?_⟩
    · unfold restore_move_step
      simp only [hgc, hno', decide_True, Bool.and_self, if_true]
      have fa' : find_root g.fields g.fuel (y, x) = some ra := fa
      have fb' : find_root g.fields g.fuel (add_u32 y (delta_y i), add_u32 x (delta_x i))
          = some rb := fb
      have hF'' : unite g.fuel g.fields (g.fields y x)
          (g.fields (add_u32 y (delta_y i)) (add_u32 x (delta_x i))) = some F' := hF'
      rw [fa', fb', hF'']
      simp only [Option.some.injEq, Prod.mk.injEq, true_and]
      split <;> simp
    · refine hU.of_iff ?_
      intro p q
      simp only [addEdge, addEdgeIf]
      constructor
      · rintro (h1 | ⟨h1, h2⟩)
        · exact Or.inl h1
        · exact Or.inr ⟨h1, h2, hn, hno⟩
      · rintro (h1 | ⟨h1, h2, _⟩)
        · exact Or.inl h1
        · exact Or.inr ⟨h1, h2⟩
    · rw [hown] at hfr; exact hfr
    · intro hdu
      apply hsame
      rw [hsr]
      by_contra hne
      simp [hne] at hdu
    · split <;> omega
    · intro pl'
      by_cases hne : ra = rb
      · have := hsame (hsr.2 hne)
        rw [this]
        simp [hne]
      · have := hdiff (fun hs => hne (hsr.1 hs)) pl'
        rw [hown] at this
        simp only [ne_eq, hne, not_false_eq_true, if_true]
        exact this
  · refine ⟨g.fields, 0, ?_, ?_, FrameUF.refl _ _ _ _, fun _ => rfl, by omega, ?_⟩
    · unfold restore_move_step
      have : (good_coords g (add_u32 x (delta_x i)) (add_u32 y (delta_y i)) &&
          decide ((g.fields (add_u32 y (delta_y i)) (add_u32 x (delta_x i))).owner = pl))
          = false := by
        rw [Bool.eq_false_iff]
        intro hh
        simp only [Bool.and_eq_true, decide_eq_true_eq] at hh
        exact hcond ⟨(good_coords_iff g _ _).1 hh.1, hh.2⟩
      simp only [this]
      rfl
    · refine U.of_iff ?_
      intro p q
      simp only [addEdgeIf]
      constructor
      · exact fun h1 => Or.inl h1
      · rintro (h1 | ⟨_, _, h3⟩)
        · exact h1
        · exact absurd h3 hcond
    · intro pl'
      simp

theorem NbInv.init {g : gamma_t} {E : Nat × Nat → Nat × Nat → Prop} {pl : Nat}
    {c : Nat × Nat} (U : UF g.height g.width g.fields E) : NbInv g E pl c 0 g.fields 0 where
  uf := U.of_iff (by
    intro p q
    simp only [Estar]
    constructor
    · exact fun hh => Or.inl hh
    · rintro (hh | ⟨_, i, hi, _⟩)
      · exact hh
      · omega)
  frame := FrameUF.refl _ _ _ _
  same := fun _ => rfl
  le := Nat.le_refl 0
  count := by intro pl'; simp

theorem NbInv.step {g : gamma_t} {E : Nat × Nat → Nat × Nat → Prop} {pl x y k u : Nat}
    {F1 : Nat → Nat → field_t} (hc : InGrid g.height g.width (y, x))
    (hown : ownF g.fields (y, x) = pl) (hpl : pl ≠ 0)
    (I : NbInv g E pl (y, x) k F1 u) :
    ∃ F2 u2, restore_move_step pl x y ({ g with fields := F1 }, u) k
        = some ({ g with fields := F2 }, u2) ∧ NbInv g E pl (y, x) (k + 1) F2 u2 := by
  have hown1 : ownF F1 (y, x) = pl := (I.frame.ownF _).trans hown
  obtain ⟨F2, du, hstep, hU, hfr, hsame, hdu, hcount⟩ :=
    restore_move_step_spec (g := { g with fields := F1 }) (u := u) (i := k) I.uf hc hown1 hpl
  have hle := I.le
  refine ⟨F2, u + du, hstep, ?_, I.frame.trans_frame hfr, ?_, by omega, ?_⟩
  · refine hU.of_iff ?_
    intro p q
    simp only [addEdgeIf, Estar]
    constructor
    · rintro ((h1 | ⟨h1, i, hi, h2⟩) | ⟨h1, h2, h3, h4⟩)
      · exact Or.inl h1
      · exact Or.inr ⟨h1, i, by omega, h2⟩
      · refine Or.inr ⟨h1, k, by omega, h2, ?_, ?_⟩
        · rw [h2]; exact h3
        · rw [h2, ← I.frame.ownF]; exact h4
    · rintro (h1 | ⟨h1, i, hi, h2, h3, h4⟩)
      · exact Or.inl (Or.inl h1)
      · by_cases hik : i = k
        · subst hik
          refine Or.inr ⟨h1, h2, ?_, ?_⟩
          · rw [← h2]; exact h3
          · show ownF F1 _ = pl
            rw [I.frame.ownF, ← h2]; exact h4
        · exact Or.inl (Or.inr ⟨h1, i, by omega, h2, h3, h4⟩)
  · intro hu
    have h1 : u = 0 := by omega
    have h2 : du = 0 := by omega
    rw [hsame h2]
    exact I.same h1
  · intro pl'
    have a := hcount pl'
    have b := I.count pl'
    simp only at a
    split at a <;> split at b <;> simp_all <;> omega

/-- The neighbour loop of `restore_move`. -/
theorem restore_loop_spec {g : gamma_t} {E : Nat × Nat → Nat × Nat → Prop} {pl x y : Nat}
    (U : UF g.height g.width g.fields E) (hc : InGrid g.height g.width (y, x))
    (hown : ownF g.fields (y, x) = pl) (hpl : pl ≠ 0) :
    ∃ F' u, (List.range 4).foldlM (restore_move_step pl x y) (g, 0)
        = some ({ g with fields := F' }, u) ∧ NbInv g E pl (y, x) 4 F' u := by
  have := foldlM_range_inv (restore_move_step pl x y)
    (fun k s => ∃ F' u, s = ({ g with fields := F' }, u) ∧ NbInv g E pl (y, x) k F' u)
    4 (g, 0) ⟨g.fields, 0, rfl, NbInv.init U⟩ (by
      rintro k s _ ⟨F1, u, rfl, I⟩
      obtain ⟨F2, u2, h1, h2⟩ := I.step hc hown hpl
      exact ⟨_, h1, F2, u2, rfl, h2⟩)
  obtain ⟨s', hs', F', u, rfl, I⟩ := this
  exact ⟨F', u, hs', I⟩

theorem gamma_move_step_eq (pl x y : Nat) (g : gamma_t) (conn : Bool) (u i : Nat) :
    gamma_move_step pl x y (g, conn, u) i =
      (restore_move_step pl x y (g, u) i).map (fun r =>
        (r.1, conn || decide (nbCond g pl (y, x) i), r.2)) := by
  unfold gamma_move_step restore_move_step
  simp only [find_root_rep_eq_find_root]
  by_cases hcond : nbCond g pl (y, x) i
  · have h1 : (good_coords g (add_u32 x (delta_x i)) (add_u32 y (delta_y i)) &&
        decide ((g.fields (add_u32 y (delta_y i)) (add_u32 x (delta_x i))).owner = pl)) = true := by
      simp only [Bool.and_eq_true, decide_eq_true_eq]
      exact ⟨(good_coords_iff g _ _).2 hcond.1, hcond.2⟩
    simp only [h1, if_true, hcond, decide_True, Bool.or_true]
    cases find_root g.fields g.fuel (y, x) <;>
      cases find_root g.fields g.fuel (add_u32 y (delta_y i), add_u32 x (delta_x i)) <;>
      cases unite g.fuel g.fields (g.fields y x)
        (g.fields (add_u32 y (delta_y i)) (add_u32 x (delta_x i))) <;> rfl
  · have h1 : (good_coords g (add_u32 x (delta_x i)) (add_u32 y (delta_y i)) &&
        decide ((g.fields (add_u32 y (delta_y i)) (add_u32 x (delta_x i))).owner = pl)) = false := by
      rw [Bool.eq_false_iff]
      intro hh
      simp only [Bool.and_eq_true, decide_eq_true_eq] at hh
      exact hcond ⟨(good_coords_iff g _ _).1 hh.1, hh.2⟩
    simp [h1, hcond]

/-- The neighbour loop of `gamma_move`. -/
theorem gamma_move_loop_spec {g : gamma_t} {E : Nat × Nat → Nat × Nat → Prop} {pl x y : Nat}
    (U : UF g.height g.width g.fields E) (hc : InGrid g.height g.width (y, x))
    (hown : ownF g.fields (y, x) = pl) (hpl : pl ≠ 0) :
    ∃ F' u conn, (List.range 4).foldlM (gamma_move_step pl x y) (g, false, 0)
        = some ({ g with fields := F' }, conn, u) ∧ NbInv g E pl (y, x) 4 F' u ∧
        (conn = true ↔ ∃ i, i < 4 ∧ nbCond g pl (y, x) i) := by
  have := foldlM_range_inv (gamma_move_step pl x y)
    (fun k s => ∃ F' u conn, s = ({ g with fields := F' }, conn, u) ∧
      NbInv g E pl (y, x) k F' u ∧ (conn = true ↔ ∃ i, i < k ∧ nbCond g pl (y, x) i))
    4 (g, false, 0) ⟨g.fields, 0, false, rfl, NbInv.init U, by simp⟩ (by
      rintro k s _ ⟨F1, u, conn, rfl, I, hconn⟩
      obtain ⟨F2, u2, h1, h2⟩ := I.step hc hown hpl
      rw [gamma_move_step_eq, h1]
      refine ⟨_, rfl, F2, u2, _, rfl, h2, ?_⟩
      have hc' : nbCond { g with fields := F1 } pl (y, x) k ↔ nbCond g pl (y, x) k := by
        unfold nbCond
        rw [I.frame.ownF]
      simp only [Bool.or_eq_true, decide_eq_true_eq, hconn, hc']
      constructor
      · rintro (⟨i, hi, h⟩ | h)
        · exact ⟨i, by omega, h⟩
        · exact ⟨k, by omega, h⟩
      · rintro ⟨i, hi, h⟩
        by_cases hik : i = k
        · subst hik; exact Or.inr h
        · exact Or.inl ⟨i, by omega, h⟩)
  obtain ⟨s', hs', F', u, conn, rfl, I, hconn⟩ := this
  exact ⟨F', u, conn, hs', I, hconn⟩

/-! ## Adjacency on the board -/

theorem Adjacent.symm_adj {p q : Nat × Nat} (h : Adjacent p q) : Adjacent q p := by
  unfold Adjacent at *
  omega

theorem Adjacent.ne {p q : Nat × Nat} (h : Adjacent p q) : p ≠ q := by
  rintro rfl
  unfold Adjacent at h
  omega

theorem Adj.symm_edge {h w : Nat} {F : Nat → Nat → field_t} {p q : Nat × Nat}
    (hpq : Adj h w F p q) : Adj h w F q p :=
  ⟨hpq.2.1, hpq.1, hpq.2.2.1.symm_adj, hpq.2.2.2.1.symm, hpq.2.2.2.1 ▸ hpq.2.2.2.2⟩

theorem nbr_0 (c : Nat × Nat) : nbr c 0 = (add_u32 c.1 0, add_u32 c.2 1) := rfl
theorem nbr_1 (c : Nat × Nat) : nbr c 1 = (add_u32 c.1 0, add_u32 c.2 (-1)) := rfl
theorem nbr_2 (c : Nat × Nat) : nbr c 2 = (add_u32 c.1 1, add_u32 c.2 0) := rfl
theorem nbr_3 (c : Nat × Nat) : nbr c 3 = (add_u32 c.1 (-1), add_u32 c.2 0) := rfl

/-- On a board whose sides fit in 32 bits, the four cells examined around a
cell of the board are, among the cells of the board, exactly its 4-adjacent
cells: the wrapped `x - 1` at `x = 0` falls outside the board. -/
theorem adjacent_iff_nbr {h w : Nat} (hh : h < 4294967296) (hw : w < 4294967296)
    {c q : Nat × Nat} (hc : InGrid h w c) (hq : InGrid h w q) :
    Adjacent c q ↔ ∃ i, i < 4 ∧ q = nbr c i := by
  obtain ⟨c1, c2⟩ := c
  obtain ⟨q1, q2⟩ := q
  simp only [InGrid] at hc hq
  constructor
  · intro hadj
    simp only [Adjacent] at hadj
    rcases hadj with ⟨e, h1 | h1⟩ | ⟨e, h1 | h1⟩
    · exact ⟨0, by omega, by rw [nbr_0]; simp only [Prod.mk.injEq, add_u32]; omega⟩
    · exact ⟨1, by omega, by rw [nbr_1]; simp only [Prod.mk.injEq, add_u32]; omega⟩
    · exact ⟨2, by omega, by rw [nbr_2]; simp only [Prod.mk.injEq, add_u32]; omega⟩
    · exact ⟨3, by omega, by rw [nbr_3]; simp only [Prod.mk.injEq, add_u32]; omega⟩
  · rintro ⟨i, hi, hqi⟩
    have : i = 0 ∨ i = 1 ∨ i = 2 ∨ i = 3 := by omega
    simp only [Adjacent]
    rcases this with rfl | rfl | rfl | rfl
    · rw [nbr_0] at hqi; simp only [Prod.mk.injEq, add_u32] at hqi; omega
    · rw [nbr_1] at hqi; simp only [Prod.mk.injEq, add_u32] at hqi; omega
    · rw [nbr_2] at hqi; simp only [Prod.mk.injEq, add_u32] at hqi; omega
    · rw [nbr_3] at hqi; simp only [Prod.mk.injEq, add_u32] at hqi; omega

theorem eqvGen_isolated {E : Nat × Nat → Nat × Nat → Prop} {c : Nat × Nat}
    (hiso : ∀ p q, E p q → p ≠ c ∧ q ≠ c) {p q : Nat × Nat}
    (hpq : Relation.EqvGen E p q) : p = c ↔ q = c := by
  induction hpq with
  | rel x y hxy =>
    have := hiso x y hxy
    exact ⟨fun e => absurd e this.1, fun e => absurd e this.2⟩
  | refl x => exact Iff.rfl
  | symm x y _ ih => exact ih.symm
  | trans x y z _ _ ih1 ih2 => exact ih1.trans ih2

/-! ## `restore_move` and `gamma_move` on a well-formed forest -/

/-- Source `restore_move` returns, and runs the neighbour loop at `(y, x)`. -/
theorem restore_move_spec {g : gamma_t} {E : Nat × Nat → Nat × Nat → Prop} {pl x y : Nat}
    (hc : InGrid g.height g.width (y, x)) (hpl : pl ≠ 0)
    (U : UF g.height g.width (set_cell g.fields y x (set_field (g.fields y x) x y pl)) E) :
    ∃ F' u, restore_move g pl x y = some
        { g with
          fields := F'
          player_areas := set_at g.player_areas pl (areas_after (g.player_areas pl) u)
          player_fields := set_at g.player_fields pl ((g.player_fields pl + 1) % 2 ^ 64) } ∧
      NbInv { g with fields := set_cell g.fields y x (set_field (g.fields y x) x y pl) }
        E pl (y, x) 4 F' u := by
  have hown : ownF (set_cell g.fields y x (set_field (g.fields y x) x y pl)) (y, x) = pl := by
    rw [ownF_set_cell, if_pos rfl]; rfl
  obtain ⟨F', u, hloop, I⟩ := restore_loop_spec
    (g := { g with fields := set_cell g.fields y x (set_field (g.fields y x) x y pl) })
    U hc hown hpl
  refine ⟨F', u, ?_, I⟩
  unfold restore_move
  simp only [hloop]
  have hle := I.le
  congr 2
  funext q
  unfold set_at areas_after sub_united
  by_cases hq : q = pl
  · simp only [hq, if_true]
    by_cases hu : u = 0
    · subst hu; simp
    · have : u > 0 := by omega
      simp only [hu, this, if_true, if_false]
      omega
  · simp [hq]

/-! ## Counting cells and roots -/

theorem mem_cellSet {h w : Nat} {F : Nat → Nat → field_t} {pl : Nat} {p : Nat × Nat} :
    p ∈ cellSet h w F pl ↔ InGrid h w p ∧ ownF F p = pl := by
  simp [cellSet, mem_gridSet]

theorem ncells_le (h w : Nat) (F : Nat → Nat → field_t) (pl : Nat) : ncells h w F pl ≤ h * w := by
  unfold ncells cellSet
  calc _ ≤ (gridSet h w).card := Finset.card_filter_le _ _
    _ = h * w := card_gridSet h w

theorem nroots_le_ncells (h w : Nat) (F : Nat → Nat → field_t) (pl : Nat) :
    nroots h w F pl ≤ ncells h w F pl := by
  unfold nroots ncells
  apply Finset.card_le_card
  intro p hp
  rw [mem_rootSet] at hp
  rw [mem_cellSet]
  exact ⟨hp.1, hp.2.1⟩

theorem card_filter_add_one {α : Type} [DecidableEq α] {S : Finset α} {P P' : α → Prop}
    [DecidablePred P] [DecidablePred P'] {c : α} (hc : c ∈ S) (hP : ¬ P c) (hP' : P' c)
    (hother : ∀ p, p ≠ c → (P' p ↔ P p)) :
    (S.filter P').card = (S.filter P).card + 1 := by
  have : S.filter P' = insert c (S.filter P) := by
    ext p
    simp only [Finset.mem_filter, Finset.mem_insert]
    by_cases hp : p = c
    · subst hp; simp [hc, hP']
    · simp [hp, hother p hp]
  rw [this, Finset.card_insert_of_not_mem]
  simp [hP]

theorem card_filter_same {α : Type} {S : Finset α} {P P' : α → Prop}
    [DecidablePred P] [DecidablePred P'] (hiff : ∀ p, p ∈ S → (P' p ↔ P p)) :
    (S.filter P').card = (S.filter P).card := by
  rw [Finset.filter_congr hiff]

/-- How the counts change when the owner of the cell `c`, a root, changes. -/
theorem counts_set_owner {h w : Nat} {F G : Nat → Nat → field_t} {c : Nat × Nat} {a : Nat}
    (hc : InGrid h w c) (hrep : ∀ p, repF G p = repF F p)
    (hown : ∀ p, ownF G p = if p = c then a else ownF F p)
    (hne : ownF F c ≠ a) :
    ncells h w G a = ncells h w F a + 1 ∧
    ncells h w G (ownF F c) + 1 = ncells h w F (ownF F c) ∧
    (∀ q, q ≠ a → q ≠ ownF F c → ncells h w G q = ncells h w F q) ∧
    (repF F c = c → nroots h w G a = nroots h w F a + 1) ∧
    (repF F c = c → nroots h w G (ownF F c) + 1 = nroots h w F (ownF F c)) ∧
    (∀ q, q ≠ a → q ≠ ownF F c → nroots h w G q = nroots h w F q) := by
  have hcm : c ∈ gridSet h w := mem_gridSet.2 hc
  refine ⟨?_, ?_, ?_, ?_, ?_, ?_⟩
  · unfold ncells cellSet
    apply card_filter_add_one hcm hne
    · rw [hown, if_pos rfl]
    · intro p hp; rw [hown, if_neg hp]
  · unfold ncells cellSet
    symm
    apply card_filter_add_one hcm
    · rw [hown, if_pos rfl]; exact fun e => hne e.symm
    · rfl
    · intro p hp; rw [hown, if_neg hp]
  · intro q hq1 hq2
    unfold ncells cellSet
    apply card_filter_same
    intro p _
    rw [hown]
    by_cases hp : p = c
    · subst hp
      simp only [if_true]
      exact ⟨fun e => absurd e.symm hq1, fun e => absurd e.symm hq2⟩
    · rw [if_neg hp]
  · intro hroot
    unfold nroots rootSet
    apply card_filter_add_one hcm
    · exact fun hh => hne hh.1
    · rw [hown, if_pos rfl, hrep]; exact ⟨rfl, hroot⟩
    · intro p hp; rw [hown, if_neg hp, hrep]
  · intro hroot
    unfold nroots rootSet
    symm
    apply card_filter_add_one hcm
    · rw [hown, if_pos rfl]; exact fun hh => hne hh.1.symm
    · exact ⟨rfl, hroot⟩
    · intro p hp; rw [hown, if_neg hp, hrep]
  · intro q hq1 hq2
    unfold nroots rootSet
    apply card_filter_same
    intro p _
    rw [hown, hrep]
    by_cases hp : p = c
    · subst hp
      simp only [if_true]
      exact ⟨fun e => absurd e.1.symm hq1, fun e => absurd e.1.symm hq2⟩
    · rw [if_neg hp]

theorem counts_frame {h w pl : Nat} {F F' : Nat → Nat → field_t}
    (hf : FrameUF h w pl F F') (q : Nat) : ncells h w F' q = ncells h w F q := by
  unfold ncells cellSet
  apply card_filter_same
  intro p _
  rw [hf.ownF]

theorem nroots_frame {h w pl : Nat} {F F' : Nat → Nat → field_t}
    (hf : FrameUF h w pl F F') {q : Nat} (hq : q ≠ pl) : nroots h w F' q = nroots h w F q := by
  unfold nroots rootSet
  apply card_filter_same
  intro p _
  rw [hf.ownF]
  constructor
  · rintro ⟨h1, h2⟩
    have : F' p.1 p.2 = F p.1 p.2 := hf.2 p.1 p.2 (Or.inl (by
      show ownF F p ≠ pl
      rw [h1]; exact hq))
    refine ⟨h1, ?_⟩
    unfold repF at *
    rw [← this]; exact h2
  · rintro ⟨h1, h2⟩
    have : F' p.1 p.2 = F p.1 p.2 := hf.2 p.1 p.2 (Or.inl (by
      show ownF F p ≠ pl
      rw [h1]; exact hq))
    refine ⟨h1, ?_⟩
    unfold repF at *
    rw [this]; exact h2

/-- A forest is determined, as far as `UF` goes, by its representatives and owners. -/
theorem UF.of_rep_eq {h w : Nat} {F F' : Nat → Nat → field_t}
    {E : Nat × Nat → Nat × Nat → Prop} (U : UF h w F E) (hrep : ∀ p, repF F' p = repF F p)
    (hown : ∀ p q, E p q → ownF F' p = ownF F' q ∧ ownF F' p ≠ 0) : UF h w F' E := by
  have e : repF F' = repF F := funext hrep
  have hroot : ∀ c r, RootOf F' c r ↔ RootOf F c r := by
    intro c r; unfold RootOf; rw [e]
  have hsame : ∀ p q, SameRoot F' p q ↔ SameRoot F p q := by
    intro p q; unfold SameRoot; simp only [hroot]
  refine ⟨?_, ?_, ?_, ?_, U.egrid, hown⟩
  · intro p hp; rw [hrep]; exact U.closed p hp
  · intro p hp
    obtain ⟨r, hr⟩ := U.acyc p hp
    exact ⟨r, (hroot _ _).2 hr⟩
  · intro p q hp hq hs
    exact U.sound p q hp hq ((hsame _ _).1 hs)
  · intro p q hpq
    exact (hsame _ _).2 (U.complete p q hpq)

/-! ## The invariant of the board -/

theorem ownF_set_field (F : Nat → Nat → field_t) (x y pl : Nat) (p : Nat × Nat) :
    ownF (set_cell F y x (set_field (F y x) x y pl)) p = if p = (y, x) then pl else ownF F p := by
  rw [ownF_set_cell]; rfl

theorem repF_set_field (F : Nat → Nat → field_t) (x y pl : Nat) (p : Nat × Nat) :
    repF (set_cell F y x (set_field (F y x) x y pl)) p = repF F p := by
  rw [repF_set_cell]
  by_cases hp : p = (y, x)
  · subst hp; simp [set_field, repF]
  · simp [hp]

/-- Writing an owner into an empty cell leaves the forest in step with the old
adjacency relation. -/
theorem uf_set_field_empty {h w : Nat} {F : Nat → Nat → field_t} {x y a : Nat}
    (U : UF h w F (Adj h w F)) (hempty : ownF F (y, x) = 0) :
    UF h w (set_cell F y x (set_field (F y x) x y a)) (Adj h w F) := by
  refine U.of_rep_eq (repF_set_field F x y a) ?_
  intro p q hpq
  have hp : p ≠ (y, x) := by
    rintro rfl
    exact hpq.2.2.2.2 hempty
  have hq : q ≠ (y, x) := by
    rintro rfl
    exact hpq.2.2.2.2 (hpq.2.2.2.1.trans hempty)
  rw [ownF_set_field, ownF_set_field, if_neg hp, if_neg hq]
  exact ⟨hpq.2.2.2.1, hpq.2.2.2.2⟩

/-- After the neighbour loop at a cell that was empty, the forest represents
the adjacency relation of the new owners, and the counts are as expected. -/
theorem insert_post {g : gamma_t} (hh : g.height < 4294967296) (hw : g.width < 4294967296)
    (U : UF g.height g.width g.fields (Adj g.height g.width g.fields))
    {pl x y : Nat} (hc : InGrid g.height g.width (y, x))
    (hempty : ownF g.fields (y, x) = 0) (hpl : pl ≠ 0)
    {F' : Nat → Nat → field_t} {u : Nat}
    (N : NbInv { g with fields := set_cell g.fields y x (set_field (g.fields y x) x y pl) }
      (Adj g.height g.width g.fields) pl (y, x) 4 F' u) :
    UF g.height g.width F' (Adj g.height g.width F') ∧
    (∀ p, ownF F' p = if p = (y, x) then pl else ownF g.fields p) ∧
    nroots g.height g.width F' pl + u = nroots g.height g.width g.fields pl + 1 ∧
    (∀ q, q ≠ 0 → q ≠ pl → nroots g.height g.width F' q = nroots g.height g.width g.fields q) ∧
    ncells g.height g.width F' pl = ncells g.height g.width g.fields pl + 1 ∧
    (∀ q, q ≠ 0 → q ≠ pl → ncells g.height g.width F' q = ncells g.height g.width g.fields q) := by
  have hown : ∀ p, ownF F' p = if p = (y, x) then pl else ownF g.fields p := by
    intro p
    rw [N.frame.ownF]
    exact ownF_set_field _ _ _ _ _
  have hne : ownF g.fields (y, x) ≠ pl := by rw [hempty]; exact fun e => hpl e.symm
  have hcnt := counts_set_owner (h := g.height) (w := g.width) (F := g.fields)
    (G := set_cell g.fields y x (set_field (g.fields y x) x y pl)) (c := (y, x)) (a := pl)
    hc (repF_set_field _ _ _ _) (ownF_set_field _ _ _ _) hne
  obtain ⟨c1, _, c3, c4, _, c6⟩ := hcnt
  have hroot : repF g.fields (y, x) = (y, x) := U.empty_self hc hempty
  refine ⟨?_, hown, ?_, ?_, ?_, ?_⟩
  · refine N.uf.congr ?_ ?_ ?_ ?_
    · -- generators of the loop relation are adjacency edges of the new owners
      intro p q hpq
      apply Relation.EqvGen.rel
      rcases hpq with hpq | ⟨rfl, i, hi, rfl, hin, hio⟩
      · have hp : p ≠ (y, x) := by
          rintro rfl
          exact hpq.2.2.2.2 hempty
        have hq : q ≠ (y, x) := by
          rintro rfl
          exact hpq.2.2.2.2 (hpq.2.2.2.1.trans hempty)
        refine ⟨hpq.1, hpq.2.1, hpq.2.2.1, ?_, ?_⟩
        · rw [hown, hown, if_neg hp, if_neg hq]; exact hpq.2.2.2.1
        · rw [hown, if_neg hp]; exact hpq.2.2.2.2
      · refine ⟨hc, hin, (adjacent_iff_nbr hh hw hc hin).2 ⟨i, hi, rfl⟩, ?_, ?_⟩
        · rw [hown, if_pos rfl, N.frame.ownF]; exact hio.symm
        · rw [hown, if_pos rfl]; exact hpl
    · -- adjacency edges of the new owners are generated by the loop relation
      intro p q hpq
      obtain ⟨hp, hq, hadj, ho, ho0⟩ := hpq
      have star : ∀ n, InGrid g.height g.width n → Adjacent (y, x) n → ownF F' n = pl →
          Estar g.height g.width (set_cell g.fields y x (set_field (g.fields y x) x y pl))
            pl (y, x) 4 (Adj g.height g.width g.fields) (y, x) n := by
        intro n hn hadj hno
        obtain ⟨i, hi, hni⟩ := (adjacent_iff_nbr hh hw hc hn).1 hadj
        refine Or.inr ⟨rfl, i, hi, hni, hn, ?_⟩
        rw [← N.frame.ownF]; exact hno
      by_cases hpc : p = (y, x)
      · subst hpc
        apply Relation.EqvGen.rel
        refine star q hq hadj ?_
        rw [← ho, hown, if_pos rfl]
      · by_cases hqc : q = (y, x)
        · subst hqc
          apply Relation.EqvGen.symm
          apply Relation.EqvGen.rel
          refine star p hp hadj.symm_adj ?_
          rw [ho, hown, if_pos rfl]
        · apply Relation.EqvGen.rel
          refine Or.inl ⟨hp, hq, hadj, ?_, ?_⟩
          · rw [hown, hown, if_neg hpc, if_neg hqc] at ho; exact ho
          · rw [hown, if_neg hpc] at ho0; exact ho0
    · intro p q hpq; exact ⟨hpq.1, hpq.2.1⟩
    · intro p q hpq; exact ⟨hpq.2.2.2.1, hpq.2.2.2.2⟩
  · have := N.count pl
    simp only [if_true] at this
    rw [this, c4 hroot]
  · intro q hq0 hq
    have := N.count q
    rw [if_neg (fun e => hq e.symm)] at this
    simp only [Nat.add_zero] at this
    rw [this]
    exact c6 q hq (by rw [hempty]; exact hq0)
  · rw [counts_frame N.frame, c1]
  · intro q hq0 hq
    rw [counts_frame N.frame]
    exact c3 q hq (by rw [hempty]; exact hq0)

/-! ## The number of trees is the number of classes -/

/-- A set of cells of `pl` that are pairwise unrelated has at most as many
elements as `pl` has trees. -/
theorem card_le_nroots {h w : Nat} {F : Nat → Nat → field_t}
    {E : Nat × Nat → Nat × Nat → Prop} (U : UF h w F E) {pl : Nat} {R : Finset (Nat × Nat)}
    (hR : ∀ p, p ∈ R → InGrid h w p ∧ ownF F p = pl)
    (hsep : ∀ p, p ∈ R → ∀ q, q ∈ R → Relation.EqvGen E p q → p = q) :
    R.card ≤ nroots h w F pl := by
  classical
  have hex : ∀ p, ∃ r, p ∈ R → RootOf F p r := by
    intro p
    by_cases hp : p ∈ R
    · obtain ⟨r, hr⟩ := U.acyc p (hR p hp).1
      exact ⟨r, fun _ => hr⟩
    · exact ⟨p, fun hh => absurd hh hp⟩
  choose f hf using hex
  unfold nroots
  apply Finset.card_le_card_of_injOn f
  · intro p hp
    have hr := hf p hp
    have hg := (hR p hp).1
    exact mem_rootSet.2 ⟨hr.inGrid U.closed hg, (U.own_root hg hr).trans (hR p hp).2, hr.root⟩
  · intro p hp q hq hpq
    have hp' : p ∈ R := hp
    have hq' : q ∈ R := hq
    apply hsep p hp' q hq'
    apply U.sound p q (hR p hp').1 (hR q hq').1
    exact ⟨f p, hf p hp', by simp only [hpq]; exact hf q hq'⟩

/-- A set of cells that meets the class of every cell of `pl` has at least as
many elements as `pl` has trees. -/
theorem nroots_le_card {h w : Nat} {F : Nat → Nat → field_t}
    {E : Nat × Nat → Nat × Nat → Prop} (U : UF h w F E) {pl : Nat} {R : Finset (Nat × Nat)}
    (hcov : ∀ p, InGrid h w p → ownF F p = pl → ∃ q, q ∈ R ∧ Relation.EqvGen E p q) :
    nroots h w F pl ≤ R.card := by
  classical
  have hex : ∀ p, ∃ q, p ∈ rootSet h w F pl → q ∈ R ∧ Relation.EqvGen E p q := by
    intro p
    by_cases hp : p ∈ rootSet h w F pl
    · obtain ⟨q, hq⟩ := hcov p (mem_rootSet.1 hp).1 (mem_rootSet.1 hp).2.1
      exact ⟨q, fun _ => hq⟩
    · exact ⟨p, fun hh => absurd hh hp⟩
  choose f hf using hex
  unfold nroots
  apply Finset.card_le_card_of_injOn f
  · intro p hp
    exact (hf p hp).1
  · intro p hp q hq hpq
    have hp' := mem_rootSet.1 hp
    have hq' := mem_rootSet.1 hq
    have e1 := (hf p hp).2
    have e2 := (hf q hq).2
    simp only [hpq] at e1
    have e3 : Relation.EqvGen E p q :=
      Relation.EqvGen.trans _ _ _ e1 (Relation.EqvGen.symm _ _ e2)
    obtain ⟨r, h1, h2⟩ := (U.sameRoot_of_eqvGen e3).2 hp'.1
    exact (h1.eq_of_root hp'.2.2).symm.trans (h2.eq_of_root hq'.2.2)

/-- Two forests for the same relation and owners have the same numbers of trees. -/
theorem nroots_unique {h w : Nat} {F F' : Nat → Nat → field_t}
    {E : Nat × Nat → Nat × Nat → Prop} (U : UF h w F E) (U' : UF h w F' E)
    (hown : ∀ p, ownF F' p = ownF F p) (pl : Nat) :
    nroots h w F pl = nroots h w F' pl := by
  apply Nat.le_antisymm
  · apply card_le_nroots U'
    · intro p hp
      have := mem_rootSet.1 hp
      exact ⟨this.1, (hown p).trans this.2.1⟩
    · intro p hp q hq hpq
      have hp' := mem_rootSet.1 hp
      have hq' := mem_rootSet.1 hq
      obtain ⟨r, h1, h2⟩ := (U.sameRoot_of_eqvGen hpq).2 hp'.1
      exact (h1.eq_of_root hp'.2.2).symm.trans (h2.eq_of_root hq'.2.2)
  · apply card_le_nroots U
    · intro p hp
      have := mem_rootSet.1 hp
      exact ⟨this.1, (hown p).symm.trans this.2.1⟩
    · intro p hp q hq hpq
      have hp' := mem_rootSet.1 hp
      have hq' := mem_rootSet.1 hq
      obtain ⟨r, h1, h2⟩ := (U'.sameRoot_of_eqvGen hpq).2 hp'.1
      exact (h1.eq_of_root hp'.2.2).symm.trans (h2.eq_of_root hq'.2.2)

theorem set_at_apply {α : Type} (arr : Nat → α) (p : Nat) (v : α) (q : Nat) :
    set_at arr p v q = if q = p then v else arr q := rfl

/-- The invariant after the insertion of a token at an empty cell. -/
theorem inv_after_insert {g : gamma_t} (I : Inv g) {pl x y : Nat}
    (hc : InGrid g.height g.width (y, x)) (hempty : ownF g.fields (y, x) = 0)
    (hpl : pl ≠ 0) (hple : pl ≤ g.players) {F' : Nat → Nat → field_t} {u : Nat}
    (N : NbInv { g with fields := set_cell g.fields y x (set_field (g.fields y x) x y pl) }
      (Adj g.height g.width g.fields) pl (y, x) 4 F' u) :
    Inv (inserted g pl F' u) ∧ (g.player_fields pl + 1) % 2 ^ 64 = g.player_fields pl + 1 := by
  obtain ⟨hU, hown, hr1, hr2, hc1, hc2⟩ := insert_post I.hlt I.wlt I.uf hc hempty hpl N
  have hfle : g.player_fields pl + 1 ≤ g.height * g.width := by
    rw [I.fields pl hpl, ← hc1]
    exact ncells_le _ _ _ _
  have hbound : g.height * g.width < 2 ^ 64 := by
    have h1 := I.hlt
    have h2 := I.wlt
    calc g.height * g.width ≤ 4294967295 * 4294967295 :=
          Nat.mul_le_mul (by omega) (by omega)
      _ < 2 ^ 64 := by norm_num
  have hmod : (g.player_fields pl + 1) % 2 ^ 64 = g.player_fields pl + 1 :=
    Nat.mod_eq_of_lt (by omega)
  refine ⟨⟨I.hlt, I.wlt, hU, ?_, ?_, ?_, ?_, ?_⟩, hmod⟩
  · intro p hp
    show ownF F' p ≤ g.players
    rw [hown]
    split
    · exact hple
    · exact I.own_le p hp
  · intro q hq
    show set_at g.player_areas pl (areas_after (g.player_areas pl) u) q
      = nroots g.height g.width F' q % 4294967296
    rw [set_at_apply]
    by_cases hqp : q = pl
    · subst hqp
      rw [if_pos rfl, I.areas q hq]
      unfold areas_after
      have hle := N.le
      omega
    · rw [if_neg hqp, I.areas q hq, hr2 q hq hqp]
  · intro q hq
    show set_at g.player_fields pl ((g.player_fields pl + 1) % 2 ^ 64) q
      = ncells g.height g.width F' q
    rw [set_at_apply]
    by_cases hqp : q = pl
    · subst hqp
      rw [if_pos rfl, hmod, hc1, I.fields q hq]
    · rw [if_neg hqp, I.fields q hq, hc2 q hq hqp]
  · show set_at g.player_fields pl ((g.player_fields pl + 1) % 2 ^ 64) 0 = 0
    rw [set_at_apply, if_neg (fun e => hpl e.symm)]
    exact I.fields0
  · intro p hp hp0
    show (F' p.1 p.2).x = p.2 ∧ (F' p.1 p.2).y = p.1
    have hxy := N.frame.1 p.1 p.2
    rw [hxy.2.1, hxy.2.2]
    show (set_cell g.fields y x (set_field (g.fields y x) x y pl) p.1 p.2).x = p.2 ∧
      (set_cell g.fields y x (set_field (g.fields y x) x y pl) p.1 p.2).y = p.1
    rw [set_cell_apply]
    by_cases hpc : p.1 = y ∧ p.2 = x
    · rw [if_pos hpc]
      exact ⟨hpc.2.symm, hpc.1.symm⟩
    · rw [if_neg hpc]
      apply I.coords p hp
      have hne : p ≠ (y, x) := fun e => hpc (by rw [e]; exact ⟨rfl, rfl⟩)
      have : ownF F' p ≠ 0 := hp0
      rw [hown, if_neg hne] at this
      exact this

/-- When the cell was empty and some examined neighbour is owned by the player,
the neighbour loop unites at least one pair of trees. -/
theorem nb_united_pos {g : gamma_t} (hh : g.height < 4294967296) (hw : g.width < 4294967296)
    (U : UF g.height g.width g.fields (Adj g.height g.width g.fields))
    {pl x y : Nat} (hc : InGrid g.height g.width (y, x))
    (hempty : ownF g.fields (y, x) = 0)
    {F' : Nat → Nat → field_t} {u : Nat}
    (N : NbInv { g with fields := set_cell g.fields y x (set_field (g.fields y x) x y pl) }
      (Adj g.height g.width g.fields) pl (y, x) 4 F' u)
    (hnb : ∃ i, i < 4 ∧
      nbCond { g with fields := set_cell g.fields y x (set_field (g.fields y x) x y pl) }
        pl (y, x) i) : 1 ≤ u := by
  by_contra hu
  have hu0 : u = 0 := by omega
  obtain ⟨i, hi, hin, hio⟩ := hnb
  have hF := N.same hu0
  have hs : SameRoot F' (y, x) (nbr (y, x) i) :=
    N.uf.complete _ _ (Or.inr ⟨rfl, i, hi, rfl, hin, hio⟩)
  rw [hF] at hs
  have U0 := uf_set_field_empty (a := pl) U hempty
  have he := U0.sound _ _ hc hin hs
  have hiso : ∀ p q, Adj g.height g.width g.fields p q → p ≠ (y, x) ∧ q ≠ (y, x) := by
    intro p q hpq
    constructor
    · rintro rfl
      exact hpq.2.2.2.2 hempty
    · rintro rfl
      exact hpq.2.2.2.2 (hpq.2.2.2.1.trans hempty)
  have := (eqvGen_isolated hiso he).1 rfl
  have hadj : Adjacent (y, x) (nbr (y, x) i) := (adjacent_iff_nbr hh hw hc hin).2 ⟨i, hi, rfl⟩
  exact hadj.ne this.symm

theorem gamma_move_false {s : Option gamma_t} {pl x y : Nat}
    (h : movie_possible s pl x y = false) : gamma_move s pl x y = some (false, s) := by
  unfold gamma_move
  simp [h]

theorem movie_possible_iff (g : gamma_t) (pl x y : Nat) :
    movie_possible (some g) pl x y = true ↔
      pl ≠ 0 ∧ pl ≤ g.players ∧ x < g.width ∧ y < g.height ∧ (g.fields y x).owner = 0 ∧
      (g.player_areas pl = g.areas → ∃ i, i < 4 ∧ nbCond g pl (y, x) i) := by
  unfold movie_possible
  simp only [EMPTY]
  by_cases h1 : pl = 0 ∨ pl > g.players ∨ x ≥ g.width ∨ y ≥ g.height ∨ (g.fields y x).owner ≠ 0
  · rw [if_pos h1]
    simp only [Bool.false_eq_true, false_iff]
    rintro ⟨a, b, c, d, e, _⟩
    rcases h1 with h1 | h1 | h1 | h1 | h1
    · exact a h1
    · omega
    · omega
    · omega
    · exact h1 e
  · rw [if_neg h1]
    simp only [not_or, not_lt, ge_iff_le, not_le, ne_eq, not_not, gt_iff_lt] at h1
    obtain ⟨a, b, c, d, e⟩ := h1
    by_cases h2 : g.player_areas pl = g.areas
    · rw [if_pos h2]
      simp only [List.any_eq_true, List.mem_range, Bool.and_eq_true, decide_eq_true_eq]
      constructor
      · rintro ⟨i, hi, h3, h4⟩
        exact ⟨a, b, c, d, e, fun _ => ⟨i, hi, (good_coords_iff g _ _).1 h3, h4⟩⟩
      · rintro ⟨_, _, _, _, _, h3⟩
        obtain ⟨i, hi, h4, h5⟩ := h3 h2
        exact ⟨i, hi, (good_coords_iff g _ _).2 h4, h5⟩
    · rw [if_neg h2]
      simp only [true_iff]
      exact ⟨a, b, c, d, e, fun hh => absurd hh h2⟩

/-- A possible move on a board that satisfies the invariant: `gamma_move`
returns `true`, and the new board satisfies the invariant. -/
theorem gamma_move_ok {g : gamma_t} (I : Inv g) {pl x y : Nat}
    (hmp : movie_possible (some g) pl x y = true) :
    ∃ F' u, gamma_move (some g) pl x y = some (true, some (inserted g pl F' u)) ∧
      NbInv { g with fields := set_cell g.fields y x (set_field (g.fields y x) x y pl) }
        (Adj g.height g.width g.fields) pl (y, x) 4 F' u ∧
      Inv (inserted g pl F' u) ∧
      (g.player_fields pl + 1) % 2 ^ 64 = g.player_fields pl + 1 := by
  obtain ⟨hpl, hple, hx, hy, hemp, _⟩ := (movie_possible_iff g pl x y).1 hmp
  have hc : InGrid g.height g.width (y, x) := ⟨hy, hx⟩
  have hempty : ownF g.fields (y, x) = 0 := hemp
  have U0 := uf_set_field_empty (a := pl) I.uf hempty
  have hown : ownF (set_cell g.fields y x (set_field (g.fields y x) x y pl)) (y, x) = pl := by
    rw [ownF_set_field, if_pos rfl]
  obtain ⟨F', u, conn, hloop, N, hconn⟩ := gamma_move_loop_spec
    (g := { g with fields := set_cell g.fields y x (set_field (g.fields y x) x y pl) })
    U0 hc hown hpl
  obtain ⟨hI, hmod⟩ := inv_after_insert I hc hempty hpl hple N
  refine ⟨F', u, ?_, N, hI, hmod⟩
  unfold gamma_move
  simp only [hmp, Bool.not_true, Bool.false_eq_true, if_false, hloop]
  have hle := N.le
  have hpos : conn = true → 1 ≤ u := fun hcn =>
    nb_united_pos I.hlt I.wlt I.uf hc hempty N (hconn.1 hcn)
  have hzero : conn = false → u = 0 := by
    intro hcn
    by_contra hu
    -- with no owned neighbour the loop relation adds no edge, so no tree is united
    have hnone : ¬ ∃ i, i < 4 ∧
        nbCond { g with fields := set_cell g.fields y x (set_field (g.fields y x) x y pl) }
          pl (y, x) i := by
      rw [← hconn, hcn]; simp
    have hcount := N.count pl
    simp only [if_true] at hcount
    -- the roots of `F'` owned by `pl` are those of the start: the forest is unchanged
    have U' : UF g.height g.width F' (Adj g.height g.width g.fields) := by
      refine N.uf.of_iff ?_
      intro p q
      simp only [Estar]
      constructor
      · rintro (h1 | ⟨_, i, hi, rfl, h3, h4⟩)
        · exact h1
        · exact absurd ⟨i, hi, h3, h4⟩ hnone
      · exact fun h1 => Or.inl h1
    have := nroots_unique U0 U' (fun p => N.frame.ownF p) pl
    omega
  congr 3
  unfold inserted
  congr 1
  funext q
  simp only [set_at_apply]
  by_cases hq : q = pl
  · simp only [hq, if_true]
    unfold areas_after sub_united
    cases conn with
    | true =>
      have := hpos rfl
      simp only [Bool.not_true, Bool.false_eq_true, if_false]
      have hu : u > 0 := by omega
      simp only [hu, if_true]
      omega
    | false =>
      have := hzero rfl
      subst this
      simp
  · simp [hq]

/-- Source `restore_move` at an empty cell of a board that satisfies the
invariant: it returns, and the new board satisfies the invariant. -/
theorem restore_insert_ok {g : gamma_t} (I : Inv g) {pl x y : Nat}
    (hc : InGrid g.height g.width (y, x)) (hempty : ownF g.fields (y, x) = 0)
    (hpl : pl ≠ 0) (hple : pl ≤ g.players) :
    ∃ F' u, restore_move g pl x y = some (inserted g pl F' u) ∧
      NbInv { g with fields := set_cell g.fields y x (set_field (g.fields y x) x y pl) }
        (Adj g.height g.width g.fields) pl (y, x) 4 F' u ∧
      Inv (inserted g pl F' u) ∧
      (g.player_fields pl + 1) % 2 ^ 64 = g.player_fields pl + 1 := by
  have U0 := uf_set_field_empty (a := pl) I.uf hempty
  obtain ⟨F', u, hr, N⟩ := restore_move_spec hc hpl U0
  obtain ⟨hI, hmod⟩ := inv_after_insert I hc hempty hpl hple N
  exact ⟨F', u, hr, N, hI, hmod⟩

/-! ## `golden_reset_field_reps` -/

theorem idx_inj {w a b i j : Nat} (hb : b < w) (hj : j < w) (h : a * w + b = i * w + j) :
    a = i ∧ b = j := by
  have hw : 0 < w := by omega
  have h1 : (a * w + b) / w = a := by
    rw [Nat.add_comm, Nat.add_mul_div_right _ _ hw, Nat.div_eq_of_lt hb, Nat.zero_add]
  have h2 : (i * w + j) / w = i := by
    rw [Nat.add_comm, Nat.add_mul_div_right _ _ hw, Nat.div_eq_of_lt hj, Nat.zero_add]
  have e : a = i := by rw [← h1, ← h2, h]
  subst e
  exact ⟨rfl, by omega⟩

theorem idx_lt {h w i j : Nat} (hi : i < h) (hj : j < w) : i * w + j < h * w := by
  have : (i + 1) * w ≤ h * w := Nat.mul_le_mul_right w (by omega)
  have e : (i + 1) * w = i * w + w := by ring
  omega

theorem golden_reset_fields (g : gamma_t) (v : Nat) :
    (golden_reset_field_reps g v).fields = reset_fields g.height g.width g.fields v := by
  unfold golden_reset_field_reps
  simp only
  have := grid_foldl_inv
    (fun (fields : Nat → Nat → field_t) i j =>
      if (fields i j).owner = v then
        set_cell fields i j { fields i j with rep := (i, j), rank := 0 }
      else fields)
    (fun k F' => ∀ a b, F' a b =
      if InGrid g.height g.width (a, b) ∧ a * g.width + b < k ∧ (g.fields a b).owner = v then
        { g.fields a b with rep := (a, b), rank := 0 } else g.fields a b)
    g.height g.width g.fields (by intro a b; simp) (by
      intro i j F' hi hj hP a b
      have hij : F' i j = g.fields i j := by
        rw [hP i j, if_neg]
        rintro ⟨_, h2, _⟩
        omega
      simp only [hij]
      by_cases hab : a = i ∧ b = j
      · obtain ⟨rfl, rfl⟩ := hab
        by_cases ho : (g.fields a b).owner = v
        · rw [if_pos ho, set_cell_apply, if_pos ⟨rfl, rfl⟩, if_pos ⟨⟨hi, hj⟩, by omega, ho⟩]
        · rw [if_neg ho, hij, if_neg (fun hh => ho hh.2.2)]
      · have hstep : (InGrid g.height g.width (a, b) ∧ a * g.width + b < i * g.width + j + 1 ∧
            (g.fields a b).owner = v) ↔ (InGrid g.height g.width (a, b) ∧
            a * g.width + b < i * g.width + j ∧ (g.fields a b).owner = v) := by
          constructor
          · rintro ⟨h1, h2, h3⟩
            refine ⟨h1, ?_, h3⟩
            by_contra hlt
            have : a * g.width + b = i * g.width + j := by omega
            exact hab (idx_inj h1.2 hj this)
          · rintro ⟨h1, h2, h3⟩
            exact ⟨h1, by omega, h3⟩
        have hnew : (if (g.fields i j).owner = v then
            set_cell F' i j { g.fields i j with rep := (i, j), rank := 0 } else F') a b
            = F' a b := by
          split
          · rw [set_cell_apply, if_neg hab]
          · rfl
        rw [hnew, hP a b]
        simp only [hstep])
  funext a b
  rw [this a b]
  unfold reset_fields
  by_cases hab : InGrid g.height g.width (a, b)
  · have : a * g.width + b < g.height * g.width := idx_lt hab.1 hab.2
    simp [hab, this]
  · simp [hab]

theorem golden_reset_eq (g : gamma_t) (v : Nat) :
    golden_reset_field_reps g v =
      { g with
        fields := reset_fields g.height g.width g.fields v
        player_areas := set_at g.player_areas v 0
        player_fields := set_at g.player_fields v 0 } := by
  have := golden_reset_fields g v
  unfold golden_reset_field_reps at *
  simp only at this ⊢
  rw [this]

theorem ownF_reset (h w : Nat) (F : Nat → Nat → field_t) (v : Nat) (p : Nat × Nat) :
    ownF (reset_fields h w F v) p = ownF F p := by
  unfold ownF reset_fields
  split <;> rfl

theorem repF_reset (h w : Nat) (F : Nat → Nat → field_t) (v : Nat) (p : Nat × Nat) :
    repF (reset_fields h w F v) p = if InGrid h w p ∧ ownF F p = v then p else repF F p := by
  unfold repF reset_fields ownF
  split <;> rfl

/-- After the reset the forest represents adjacency among the other players' cells. -/
theorem uf_reset {h w : Nat} {F : Nat → Nat → field_t} {v : Nat}
    (U : UF h w F (Adj h w F)) :
    UF h w (reset_fields h w F v) (notOwned F v (Adj h w F)) := by
  have hkeep : ∀ n c r, InGrid h w c → ownF F c ≠ v → (repF F)^[n] c = r → repF F r = r →
      RootOf (reset_fields h w F v) c r := by
    intro n
    induction n with
    | zero =>
      intro c r hc hcv hn hr
      simp only [Function.iterate_zero, id_eq] at hn
      subst hn
      exact RootOf.self (by rw [repF_reset, if_neg (fun hh => hcv hh.2)]; exact hr)
    | succ n ih =>
      intro c r hc hcv hn hr
      rw [Function.iterate_succ_apply] at hn
      have h1 := ih (repF F c) r (U.closed c hc) (by rw [U.own_rep hc]; exact hcv) hn hr
      have h2 : repF (reset_fields h w F v) c = repF F c := by
        rw [repF_reset, if_neg (fun hh => hcv hh.2)]
      rw [← h2] at h1
      exact h1.of_rep
  have hkeep' : ∀ {c r}, InGrid h w c → ownF F c ≠ v → RootOf F c r →
      RootOf (reset_fields h w F v) c r := by
    intro c r hc hcv hr
    obtain ⟨n, hn, hroot⟩ := hr
    exact hkeep n c r hc hcv hn hroot
  have hself : ∀ {c}, InGrid h w c → ownF F c = v → RootOf (reset_fields h w F v) c c := by
    intro c hc hcv
    exact RootOf.self (by rw [repF_reset, if_pos ⟨hc, hcv⟩])
  have hrestrict : ∀ {p q}, Relation.EqvGen (Adj h w F) p q → ownF F p ≠ v →
      Relation.EqvGen (notOwned F v (Adj h w F)) p q := by
    intro p q hpq
    induction hpq with
    | rel x y hxy => exact fun hx => Relation.EqvGen.rel _ _ ⟨hxy, hx⟩
    | refl x => exact fun _ => Relation.EqvGen.refl _
    | symm x y hxy ih =>
      intro hy
      have := eqvGen_own U.eown hxy
      exact Relation.EqvGen.symm _ _ (ih (by rw [this]; exact hy))
    | trans x y z hxy _ ih1 ih2 =>
      intro hx
      have := eqvGen_own U.eown hxy
      exact Relation.EqvGen.trans _ _ _ (ih1 hx) (ih2 (by rw [← this]; exact hx))
  refine ⟨?_, ?_, ?_, ?_, ?_, ?_⟩
  · intro p hp
    rw [repF_reset]
    split
    · exact hp
    · exact U.closed p hp
  · intro p hp
    by_cases hpv : ownF F p = v
    · exact ⟨p, hself hp hpv⟩
    · obtain ⟨r, hr⟩ := U.acyc p hp
      exact ⟨r, hkeep' hp hpv hr⟩
  · intro p q hp hq hs
    obtain ⟨r, h1, h2⟩ := hs
    by_cases hpv : ownF F p = v
    · have e1 := h1.unique (hself hp hpv)
      by_cases hqv : ownF F q = v
      · have e2 := h2.unique (hself hq hqv)
        rw [← e1, e2]
        exact Relation.EqvGen.refl _
      · obtain ⟨r', hr'⟩ := U.acyc q hq
        have e2 := h2.unique (hkeep' hq hqv hr')
        have : ownF F r' = ownF F q := U.own_root hq hr'
        rw [← e2, e1, hpv] at this
        exact absurd this.symm hqv
    · obtain ⟨r1, hr1⟩ := U.acyc p hp
      have e1 := h1.unique (hkeep' hp hpv hr1)
      by_cases hqv : ownF F q = v
      · have e2 := h2.unique (hself hq hqv)
        have : ownF F r1 = ownF F p := U.own_root hp hr1
        rw [← e1, e2, hqv] at this
        exact absurd this.symm hpv
      · obtain ⟨r2, hr2⟩ := U.acyc q hq
        have e2 := h2.unique (hkeep' hq hqv hr2)
        have : SameRoot F p q := ⟨r1, hr1, by rw [← e1, e2]; exact hr2⟩
        exact hrestrict (U.sound p q hp hq this) hpv
  · intro p q hpq
    obtain ⟨hadj, hpv⟩ := hpq
    obtain ⟨r, h1, h2⟩ := U.complete p q hadj
    have hqv : ownF F q ≠ v := by rw [← hadj.2.2.2.1]; exact hpv
    exact ⟨r, hkeep' hadj.1 hpv h1, hkeep' hadj.2.1 hqv h2⟩
  · intro p q hpq
    exact ⟨hpq.1.1, hpq.1.2.1⟩
  · intro p q hpq
    rw [ownF_reset, ownF_reset]
    exact ⟨hpq.1.2.2.2.1, hpq.1.2.2.2.2⟩

/-- After the reset every cell of `v` is a root; the other players keep their roots. -/
theorem nroots_reset {h w : Nat} {F : Nat → Nat → field_t} (v : Nat) :
    nroots h w (reset_fields h w F v) v = ncells h w F v ∧
    ∀ q, q ≠ v → nroots h w (reset_fields h w F v) q = nroots h w F q := by
  constructor
  · unfold nroots ncells rootSet cellSet
    apply card_filter_same
    intro p hp
    rw [ownF_reset, repF_reset]
    constructor
    · exact fun hh => hh.1
    · intro hh
      exact ⟨hh, by rw [if_pos ⟨mem_gridSet.1 hp, hh⟩]⟩
  · intro q hq
    unfold nroots rootSet
    apply card_filter_same
    intro p _
    rw [ownF_reset, repF_reset]
    constructor
    · rintro ⟨h1, h2⟩
      rw [if_neg (fun hh => hq (h1.symm.trans hh.2))] at h2
      exact ⟨h1, h2⟩
    · rintro ⟨h1, h2⟩
      rw [if_neg (fun hh => hq (h1.symm.trans hh.2))]
      exact ⟨h1, h2⟩

/-! ## The replay of `golden_set_other_field_reps` -/

theorem proc_zero (h w : Nat) (F : Nat → Nat → field_t) (v : Nat) : proc h w F v 0 = 0 := by
  unfold proc
  rw [Finset.card_eq_zero, Finset.filter_eq_empty_iff]
  intro p _
  omega

theorem unproc_zero (h w : Nat) (F : Nat → Nat → field_t) (v : Nat) :
    unproc h w F v 0 = ncells h w F v := by
  unfold unproc ncells cellSet
  apply card_filter_same
  intro p _
  simp

theorem proc_all (h w : Nat) (F : Nat → Nat → field_t) (v : Nat) :
    proc h w F v (h * w) = ncells h w F v := by
  unfold proc ncells cellSet
  apply card_filter_same
  intro p hp
  have := mem_gridSet.1 hp
  have := idx_lt this.1 this.2
  simp [this]

theorem unproc_all (h w : Nat) (F : Nat → Nat → field_t) (v : Nat) :
    unproc h w F v (h * w) = 0 := by
  unfold unproc
  rw [Finset.card_eq_zero, Finset.filter_eq_empty_iff]
  intro p hp
  have := mem_gridSet.1 hp
  have := idx_lt this.1 this.2
  omega

theorem proc_step {h w : Nat} {F : Nat → Nat → field_t} {v i j : Nat}
    (hi : i < h) (hj : j < w) :
    (ownF F (i, j) = v → proc h w F v (i * w + j + 1) = proc h w F v (i * w + j) + 1 ∧
      unproc h w F v (i * w + j) = unproc h w F v (i * w + j + 1) + 1) ∧
    (ownF F (i, j) ≠ v → proc h w F v (i * w + j + 1) = proc h w F v (i * w + j) ∧
      unproc h w F v (i * w + j) = unproc h w F v (i * w + j + 1)) := by
  have hmem : (i, j) ∈ gridSet h w := mem_gridSet.2 ⟨hi, hj⟩
  have hne : ∀ p : Nat × Nat, p ∈ gridSet h w → p ≠ (i, j) → p.1 * w + p.2 ≠ i * w + j := by
    intro p hp hpc e
    have := idx_inj (mem_gridSet.1 hp).2 hj e
    exact hpc (Prod.ext this.1 this.2)
  constructor
  · intro hv
    constructor
    · unfold proc
      have : ((gridSet h w).filter (fun p => ownF F p = v ∧ p.1 * w + p.2 < i * w + j + 1))
          = insert (i, j)
            ((gridSet h w).filter (fun p => ownF F p = v ∧ p.1 * w + p.2 < i * w + j)) := by
        ext p
        simp only [Finset.mem_filter, Finset.mem_insert]
        by_cases hp : p = (i, j)
        · subst hp; simp [hmem, hv]
        · simp only [hp, false_or]
          constructor
          · rintro ⟨h1, h2, h3⟩
            have := hne p h1 hp
            exact ⟨h1, h2, by omega⟩
          · rintro ⟨h1, h2, h3⟩
            exact ⟨h1, h2, by omega⟩
      rw [this, Finset.card_insert_of_not_mem]
      simp
    · unfold unproc
      have : ((gridSet h w).filter (fun p => ownF F p = v ∧ i * w + j ≤ p.1 * w + p.2))
          = insert (i, j)
            ((gridSet h w).filter (fun p => ownF F p = v ∧ i * w + j + 1 ≤ p.1 * w + p.2)) := by
        ext p
        simp only [Finset.mem_filter, Finset.mem_insert]
        by_cases hp : p = (i, j)
        · subst hp; simp [hmem, hv]
        · simp only [hp, false_or]
          constructor
          · rintro ⟨h1, h2, h3⟩
            have := hne p h1 hp
            exact ⟨h1, h2, by omega⟩
          · rintro ⟨h1, h2, h3⟩
            exact ⟨h1, h2, by omega⟩
      rw [this, Finset.card_insert_of_not_mem]
      simp
  · intro hv
    constructor
    · unfold proc
      apply card_filter_same
      intro p hp
      by_cases hpc : p = (i, j)
      · subst hpc; simp [hv]
      · have := hne p hp hpc
        constructor
        · rintro ⟨h2, h3⟩; exact ⟨h2, by omega⟩
        · rintro ⟨h2, h3⟩; exact ⟨h2, by omega⟩
    · unfold unproc
      apply card_filter_same
      intro p hp
      by_cases hpc : p = (i, j)
      · subst hpc; simp [hv]
      · have := hne p hp hpc
        constructor
        · rintro ⟨h2, h3⟩; exact ⟨h2, by omega⟩
        · rintro ⟨h2, h3⟩; exact ⟨h2, by omega⟩

theorem areas_after_lt (a u : Nat) : areas_after a u < 4294967296 := by
  unfold areas_after
  omega

/-- One cell of the replay. -/
theorem replay_step {g2 : gamma_t} {v i j : Nat} {s : gamma_t}
    (hh : g2.height < 4294967296) (hw : g2.width < 4294967296) (hv : v ≠ 0)
    (hcoords : ∀ p, InGrid g2.height g2.width p → ownF g2.fields p = v →
      (g2.fields p.1 p.2).x = p.2 ∧ (g2.fields p.1 p.2).y = p.1)
    (hi : i < g2.height) (hj : j < g2.width)
    (R : ReplayInv g2 v (i * g2.width + j) s) :
    ∃ s', (if (s.fields i j).owner = v then restore_move s v j i else some s) = some s' ∧
      ReplayInv g2 v (i * g2.width + j + 1) s' := by
  obtain ⟨Fk, A, B, rfl⟩ := R.shape
  have hown : ∀ p, ownF Fk p = ownF g2.fields p := R.frame.ownF
  have hps := proc_step (F := g2.fields) (v := v) hi hj
  by_cases hc : (Fk i j).owner = v
  · have hcv : ownF g2.fields (i, j) = v := by rw [← hown]; exact hc
    simp only [hc, if_true]
    have hin : InGrid g2.height g2.width (i, j) := ⟨hi, hj⟩
    have hsame : set_cell Fk i j (set_field (Fk i j) j i v) = Fk := by
      funext a b
      rw [set_cell_apply]
      split
      · next hab =>
        obtain ⟨rfl, rfl⟩ := hab
        have hxy := hcoords (a, b) hin hcv
        have hfr := R.frame.1 a b
        simp only at hfr hxy
        unfold set_field
        cases hcell : Fk a b with
        | mk x0 y0 o0 r0 k0 =>
          rw [hcell] at hfr hc
          simp only at hfr hc
          simp only [field_t.mk.injEq, and_true, true_and]
          refine ⟨?_, ?_, hc.symm⟩
          · rw [hfr.2.1, hxy.1]
          · rw [hfr.2.2, hxy.2]
      · rfl
    have U0 : UF g2.height g2.width (set_cell Fk i j (set_field (Fk i j) j i v))
        (Erep g2.height g2.width g2.fields v (i * g2.width + j)) := by
      rw [hsame]; exact R.uf
    obtain ⟨F', u, hr, N⟩ := restore_move_spec
      (g := { g2 with fields := Fk, player_areas := A, player_fields := B }) hin hv U0
    refine ⟨_, hr, ⟨⟨F', _, _, rfl⟩, ?_, ?_, ?_, ?_, ?_, ?_, ?_⟩⟩
    · -- the forest now represents the edges of the next stage
      simp only [hsame] at N
      refine N.uf.congr ?_ ?_ ?_ ?_
      · intro p q hpq
        apply Relation.EqvGen.rel
        rcases hpq with hpq | ⟨rfl, n, hn, rfl, hin', hio⟩
        · refine ⟨hpq.1, fun hp => ?_⟩
          rcases hpq.2 hp with h1 | h1
          · exact Or.inl (by omega)
          · exact Or.inr (by omega)
        · refine ⟨⟨hin, hin', (adjacent_iff_nbr hh hw hin hin').2 ⟨n, hn, rfl⟩, ?_, ?_⟩,
            fun _ => Or.inl (by simp)⟩
          · rw [hcv, ← hown]; exact hio.symm
          · rw [hcv]; exact hv
      · intro p q hpq
        obtain ⟨hadj, hk⟩ := hpq
        by_cases hpv : ownF g2.fields p = v
        · rcases hk hpv with h1 | h1
          · by_cases hpc : p.1 * g2.width + p.2 < i * g2.width + j
            · exact Relation.EqvGen.rel _ _ (Or.inl ⟨hadj, fun _ => Or.inl hpc⟩)
            · have e : p.1 * g2.width + p.2 = i * g2.width + j := by omega
              have hp := idx_inj hadj.1.2 hj e
              have hpe : p = (i, j) := Prod.ext hp.1 hp.2
              subst hpe
              obtain ⟨n, hn, hqn⟩ := (adjacent_iff_nbr hh hw hin hadj.2.1).1 hadj.2.2.1
              apply Relation.EqvGen.rel
              refine Or.inr ⟨rfl, n, hn, hqn, hadj.2.1, ?_⟩
              show ownF Fk q = v
              rw [hown, ← hadj.2.2.2.1]; exact hpv
          · by_cases hqc : q.1 * g2.width + q.2 < i * g2.width + j
            · exact Relation.EqvGen.rel _ _ (Or.inl ⟨hadj, fun _ => Or.inr hqc⟩)
            · have e : q.1 * g2.width + q.2 = i * g2.width + j := by omega
              have hq := idx_inj hadj.2.1.2 hj e
              have hqe : q = (i, j) := Prod.ext hq.1 hq.2
              subst hqe
              obtain ⟨n, hn, hpn⟩ := (adjacent_iff_nbr hh hw hin hadj.1).1 hadj.2.2.1.symm_adj
              apply Relation.EqvGen.symm
              apply Relation.EqvGen.rel
              refine Or.inr ⟨rfl, n, hn, hpn, hadj.1, ?_⟩
              show ownF Fk p = v
              rw [hown]; exact hpv
        · exact Relation.EqvGen.rel _ _ (Or.inl ⟨hadj, fun hh => absurd hh hpv⟩)
      · intro p q hpq; exact ⟨hpq.1.1, hpq.1.2.1⟩
      · intro p q hpq
        rw [N.frame.ownF, N.frame.ownF]
        show ownF Fk p = ownF Fk q ∧ ownF Fk p ≠ 0
        rw [hown, hown]
        exact ⟨hpq.1.2.2.2.1, hpq.1.2.2.2.2⟩
    · simp only [hsame] at N
      exact R.frame.trans_frame N.frame
    · intro q hq
      show set_at A v _ q = _
      rw [set_at_apply, if_neg hq]
      exact R.pa_other q hq
    · intro q hq
      show set_at B v _ q = _
      rw [set_at_apply, if_neg hq]
      exact R.pf_other q hq
    · show (set_at A v (areas_after (A v) u) v + _) % 4294967296 = nroots _ _ F' v % 4294967296
      rw [set_at_apply, if_pos rfl]
      simp only [hsame] at N
      have hcount := N.count v
      simp only [if_true] at hcount
      have hpa := R.pa
      simp only at hpa hcount
      have hle := N.le
      have := (hps.1 hcv).2
      unfold areas_after
      omega
    · show set_at A v (areas_after (A v) u) v < 4294967296
      rw [set_at_apply, if_pos rfl]
      exact areas_after_lt _ _
    · show set_at B v ((B v + 1) % 2 ^ 64) v = _
      rw [set_at_apply, if_pos rfl]
      have hpf : B v = proc g2.height g2.width g2.fields v (i * g2.width + j) := R.pf
      rw [(hps.1 hcv).1, ← hpf]
      apply Nat.mod_eq_of_lt
      have h1 : proc g2.height g2.width g2.fields v (i * g2.width + j + 1)
          ≤ g2.height * g2.width := by
        unfold proc
        calc _ ≤ (gridSet g2.height g2.width).card := Finset.card_filter_le _ _
          _ = _ := card_gridSet _ _
      have h2 : g2.height * g2.width < 2 ^ 64 := by
        calc g2.height * g2.width ≤ 4294967295 * 4294967295 :=
              Nat.mul_le_mul (by omega) (by omega)
          _ < 2 ^ 64 := by norm_num
      rw [(hps.1 hcv).1, ← hpf] at h1
      omega
  · have hcv : ownF g2.fields (i, j) ≠ v := by rw [← hown]; exact hc
    simp only [hc, if_false]
    refine ⟨_, rfl, ⟨⟨Fk, A, B, rfl⟩, ?_, R.frame, R.pa_other, R.pf_other, ?_, R.pa_lt, ?_⟩⟩
    · refine R.uf.of_iff ?_
      intro p q
      simp only [Erep]
      constructor
      · rintro ⟨h1, h2⟩
        exact ⟨h1, fun hp => (h2 hp).imp (fun hh => by omega) (fun hh => by omega)⟩
      · rintro ⟨h1, h2⟩
        refine ⟨h1, fun hp => ?_⟩
        have hq : ownF g2.fields q = v := by rw [← h1.2.2.2.1]; exact hp
        have hpn : p.1 * g2.width + p.2 ≠ i * g2.width + j := by
          intro e
          have := idx_inj h1.1.2 hj e
          have hpe : p = (i, j) := Prod.ext this.1 this.2
          rw [hpe] at hp
          exact hcv hp
        have hqn : q.1 * g2.width + q.2 ≠ i * g2.width + j := by
          intro e
          have := idx_inj h1.2.1.2 hj e
          have hqe : q = (i, j) := Prod.ext this.1 this.2
          rw [hqe] at hq
          exact hcv hq
        exact (h2 hp).imp (fun hh => by omega) (fun hh => by omega)
    · have := R.pa
      rw [← (hps.2 hcv).2]
      exact this
    · have := R.pf
      rw [(hps.2 hcv).1]
      exact this

/-- Invariant rule for a double loop whose inner bound is read from the state. -/
theorem grid_foldlM_inv' {σ : Type} (f : σ → Nat → Nat → Option σ) (P : Nat → σ → Prop)
    (wf : σ → Nat) (h w : Nat) (init : σ) (h0 : P 0 init)
    (hwf : ∀ k s, P k s → wf s = w)
    (hstep : ∀ i j s, i < h → j < w → P (i * w + j) s →
      ∃ s', f s i j = some s' ∧ P (i * w + j + 1) s') :
    ∃ s', (List.range h).foldlM
        (fun s i => (List.range (wf s)).foldlM (fun s j => f s i j) s) init
      = some s' ∧ P (h * w) s' := by
  refine foldlM_range_inv _ (fun i s => P (i * w) s) h init (by simpa using h0) ?_
  intro i s hi hp
  have := foldlM_range_inv (fun s j => f s i j) (fun j s => P (i * w + j) s) w s
    (by simpa using hp) (fun j s hj hp => hstep i j s hi hj hp)
  obtain ⟨s', hs', hp'⟩ := this
  refine ⟨s', ?_, ?_⟩
  · simp only [hwf _ _ hp]
    exact hs'
  · have : (i + 1) * w = i * w + w := by ring
    show P ((i + 1) * w) s'
    rw [this]
    exact hp'

theorem cleared_eq (g : gamma_t) (v x y : Nat) :
    cleared g v x y =
      { g with
        fields := set_cell (reset_fields g.height g.width g.fields v) y x
          { reset_fields g.height g.width g.fields v y x with owner := 0 }
        player_areas := set_at g.player_areas v 0
        player_fields := set_at g.player_fields v 0 } := by
  unfold cleared
  rw [golden_reset_eq]
  rfl

/-- The whole replay. -/
theorem replay_spec {g : gamma_t} {v : Nat}
    (hh : g.height < 4294967296) (hw : g.width < 4294967296) (hv : v ≠ 0)
    (hcoords : ∀ p, InGrid g.height g.width p → ownF g.fields p = v →
      (g.fields p.1 p.2).x = p.2 ∧ (g.fields p.1 p.2).y = p.1)
    (R0 : ReplayInv g v 0 g) :
    ∃ g3, golden_set_other_field_reps g v = some g3 ∧
      ReplayInv g v (g.height * g.width) g3 := by
  unfold golden_set_other_field_reps
  refine grid_foldlM_inv'
    (fun s i j => if (s.fields i j).owner = v then restore_move s v j i else some s)
    (fun k s => ReplayInv g v k s) (fun s => s.width) g.height g.width g R0 ?_ ?_
  · intro k s R
    obtain ⟨Fk, A, B, rfl⟩ := R.shape
    rfl
  · intro i j s hi hj R
    exact replay_step hh hw hv hcoords hi hj R

theorem rebuild_spec {g : gamma_t} (I : Inv g) {x y : Nat}
    (hc : InGrid g.height g.width (y, x)) (hv : ownF g.fields (y, x) ≠ 0) :
    ∃ g3, golden_set_other_field_reps (cleared g (ownF g.fields (y, x)) x y)
        (ownF g.fields (y, x)) = some g3 ∧ Rebuilt g (ownF g.fields (y, x)) x y g3 := by
  generalize hvdef : ownF g.fields (y, x) = v at hv ⊢
  rw [cleared_eq]
  -- the forest after the reset and after clearing the cell
  have U1 := uf_reset (v := v) I.uf
  have hown2 : ∀ p, ownF (set_cell (reset_fields g.height g.width g.fields v) y x
      { reset_fields g.height g.width g.fields v y x with owner := 0 }) p
      = if p = (y, x) then 0 else ownF g.fields p := by
    intro p
    rw [ownF_set_cell]
    split
    · rfl
    · exact ownF_reset _ _ _ _ _
  have hrep2 : ∀ p, repF (set_cell (reset_fields g.height g.width g.fields v) y x
      { reset_fields g.height g.width g.fields v y x with owner := 0 }) p
      = repF (reset_fields g.height g.width g.fields v) p := by
    intro p
    rw [repF_set_cell]
    split
    · next hp => subst hp; rfl
    · rfl
  have hedge : ∀ p q, Adj g.height g.width g.fields p q → ownF g.fields p ≠ v →
      p ≠ (y, x) ∧ q ≠ (y, x) := by
    intro p q hpq hpv
    constructor
    · rintro rfl; exact hpv hvdef
    · rintro rfl; exact hpv (hpq.2.2.2.1.trans hvdef)
  have U2 : UF g.height g.width (set_cell (reset_fields g.height g.width g.fields v) y x
      { reset_fields g.height g.width g.fields v y x with owner := 0 })
      (notOwned g.fields v (Adj g.height g.width g.fields)) := by
    refine U1.of_rep_eq hrep2 ?_
    intro p q hpq
    have := hedge p q hpq.1 hpq.2
    rw [hown2, hown2, if_neg this.1, if_neg this.2]
    exact ⟨hpq.1.2.2.2.1, hpq.1.2.2.2.2⟩
  -- counts after the reset and after clearing the cell
  have hcroot : repF (reset_fields g.height g.width g.fields v) (y, x) = (y, x) := by
    rw [repF_reset, if_pos ⟨hc, hvdef⟩]
  have hcnt := counts_set_owner (h := g.height) (w := g.width)
    (F := reset_fields g.height g.width g.fields v)
    (G := set_cell (reset_fields g.height g.width g.fields v) y x
      { reset_fields g.height g.width g.fields v y x with owner := 0 })
    (c := (y, x)) (a := 0) hc hrep2
    (by intro p; rw [hown2]; split
        · rfl
        · exact (ownF_reset _ _ _ _ _).symm)
    (by rw [ownF_reset, hvdef]; exact hv)
  rw [ownF_reset, hvdef] at hcnt
  obtain ⟨_, k2, k3, _, k5, k6⟩ := hcnt
  have hnr := nroots_reset (h := g.height) (w := g.width) (F := g.fields) v
  have hnc1 : ∀ q, ncells g.height g.width (reset_fields g.height g.width g.fields v) q
      = ncells g.height g.width g.fields q := by
    intro q
    unfold ncells cellSet
    apply card_filter_same
    intro p _
    rw [ownF_reset]
  set F2 := set_cell (reset_fields g.height g.width g.fields v) y x
      { reset_fields g.height g.width g.fields v y x with owner := 0 } with hF2
  set g2 : gamma_t := { g with
        fields := F2
        player_areas := set_at g.player_areas v 0
        player_fields := set_at g.player_fields v 0 } with hg2
  have hcoords2 : ∀ i j, (F2 i j).x = (g.fields i j).x ∧ (F2 i j).y = (g.fields i j).y := by
    intro i j
    rw [hF2, set_cell_apply]
    unfold reset_fields
    split <;> split <;> simp_all
  have R0 : ReplayInv g2 v 0 g2 := by
    refine ⟨⟨F2, _, _, rfl⟩, ?_, FrameUF.refl _ _ _ _, fun _ _ => rfl, fun _ _ => rfl, ?_,
      ?_, ?_⟩
    · refine U2.of_iff ?_
      intro p q
      simp only [notOwned, Erep, Adj]
      constructor
      · rintro ⟨⟨h1, h2, h3, h4, h5⟩, h6⟩
        have := hedge p q ⟨h1, h2, h3, h4, h5⟩ h6
        refine ⟨⟨h1, h2, h3, ?_, ?_⟩, ?_⟩
        · show ownF F2 p = ownF F2 q
          rw [hown2, hown2, if_neg this.1, if_neg this.2]; exact h4
        · show ownF F2 p ≠ 0
          rw [hown2, if_neg this.1]; exact h5
        · intro hp
          have hp' : ownF F2 p = v := hp
          rw [hown2, if_neg this.1] at hp'
          exact absurd hp' h6
      · rintro ⟨⟨h1, h2, h3, h4, h5⟩, h6⟩
        have h4' : ownF F2 p = ownF F2 q := h4
        have h5' : ownF F2 p ≠ 0 := h5
        have hp : p ≠ (y, x) := by
          intro e
          rw [hown2, if_pos e] at h5'
          exact h5' rfl
        have hq : q ≠ (y, x) := by
          intro e
          rw [h4', hown2, if_pos e] at h5'
          exact h5' rfl
        rw [hown2, hown2, if_neg hp, if_neg hq] at h4'
        rw [hown2, if_neg hp] at h5'
        refine ⟨⟨h1, h2, h3, h4', h5'⟩, ?_⟩
        intro hpv
        have : ownF F2 p = v := by rw [hown2, if_neg hp]; exact hpv
        rcases h6 this with hh | hh <;> omega
    · show (set_at g.player_areas v 0 v + unproc g.height g.width F2 v 0) % 4294967296
        = nroots g.height g.width F2 v % 4294967296
      rw [set_at_apply, if_pos rfl, unproc_zero]
      have e1 := k5 hcroot
      have e2 := hnc1 v
      have e3 := hnr.1
      omega
    · show set_at g.player_areas v 0 v < 4294967296
      rw [set_at_apply, if_pos rfl]; omega
    · show set_at g.player_fields v 0 v = proc g.height g.width F2 v 0
      rw [set_at_apply, if_pos rfl, proc_zero]
  have hcoordsv : ∀ p, InGrid g2.height g2.width p → ownF g2.fields p = v →
      (g2.fields p.1 p.2).x = p.2 ∧ (g2.fields p.1 p.2).y = p.1 := by
    intro p hp hpv
    have hpv' : ownF F2 p = v := hpv
    have h1 := hcoords2 p.1 p.2
    show (F2 p.1 p.2).x = p.2 ∧ (F2 p.1 p.2).y = p.1
    rw [h1.1, h1.2]
    apply I.coords p hp
    rw [hown2] at hpv'
    split at hpv'
    · exact absurd hpv'.symm hv
    · rw [hpv']; exact hv
  obtain ⟨g3, hg3, R⟩ := replay_spec (g := g2) I.hlt I.wlt hv hcoordsv R0
  refine ⟨g3, hg3, ?_⟩
  obtain ⟨F3, A, B, rfl⟩ := R.shape
  have hown3 : ∀ p, ownF F3 p = if p = (y, x) then 0 else ownF g.fields p := by
    intro p
    rw [← hown2]
    exact R.frame.ownF p
  have U3 : UF g.height g.width F3 (Adj g.height g.width F3) := by
    refine R.uf.of_iff ?_
    intro p q
    simp only [Erep, Adj]
    constructor
    · rintro ⟨⟨h1, h2, h3, h4, h5⟩, _⟩
      refine ⟨h1, h2, h3, ?_, ?_⟩
      · rw [R.frame.ownF, R.frame.ownF]; exact h4
      · rw [R.frame.ownF]; exact h5
    · rintro ⟨h1, h2, h3, h4, h5⟩
      rw [R.frame.ownF, R.frame.ownF] at h4
      rw [R.frame.ownF] at h5
      exact ⟨⟨h1, h2, h3, h4, h5⟩, fun _ => Or.inl (idx_lt h1.1 h1.2)⟩
  have hpa := R.pa
  have hpalt := R.pa_lt
  have hpf := R.pf
  have hpao := R.pa_other
  have hpfo := R.pf_other
  simp only at hpa hpalt hpf hpao hpfo
  rw [unproc_all] at hpa
  rw [proc_all] at hpf
  have hvv : ncells g.height g.width F3 v = ncells g.height g.width F2 v := counts_frame R.frame v
  refine ⟨⟨F3, A, B, rfl⟩, ⟨I.hlt, I.wlt, U3, ?_, ?_, ?_, ?_, ?_⟩, hown3, ?_, ?_, ?_, ?_, ?_,
    ?_⟩
  · intro p hp
    show ownF F3 p ≤ g.players
    rw [hown3]
    split
    · omega
    · exact I.own_le p hp
  · intro q hq
    show A q = nroots g.height g.width F3 q % 4294967296
    by_cases hqv : q = v
    · subst hqv
      omega
    · rw [hpao q hqv]
      show set_at g.player_areas v 0 q = _
      rw [set_at_apply, if_neg hqv, I.areas q hq, nroots_frame R.frame hqv,
        k6 q hq hqv, hnr.2 q hqv]
  · intro q hq
    show B q = ncells g.height g.width F3 q
    by_cases hqv : q = v
    · subst hqv
      rw [hpf, hvv]
    · rw [hpfo q hqv]
      show set_at g.player_fields v 0 q = _
      rw [set_at_apply, if_neg hqv, I.fields q hq, counts_frame R.frame, k3 q hq hqv, hnc1]
  · show B 0 = 0
    rw [hpfo 0 (fun e => hv e.symm)]
    show set_at g.player_fields v 0 0 = 0
    rw [set_at_apply, if_neg (fun e => hv e.symm)]
    exact I.fields0
  · intro p hp hp0
    show (F3 p.1 p.2).x = p.2 ∧ (F3 p.1 p.2).y = p.1
    have h1 := R.frame.1 p.1 p.2
    have h2 := hcoords2 p.1 p.2
    simp only at h1
    rw [h1.2.1, h1.2.2, h2.1, h2.2]
    apply I.coords p hp
    have : ownF F3 p ≠ 0 := hp0
    rw [hown3] at this
    split at this
    · exact absurd rfl this
    · exact this
  · intro i j
    have h1 := R.frame.1 i j
    have h2 := hcoords2 i j
    simp only at h1
    show (F3 i j).x = _ ∧ (F3 i j).y = _
    rw [h1.2.1, h1.2.2, h2.1, h2.2]
    exact ⟨rfl, rfl⟩
  · intro i j hij
    show F3 i j = g.fields i j
    have hne : (i, j) ≠ (y, x) := by
      rintro e
      rw [Prod.mk.injEq] at e
      obtain ⟨rfl, rfl⟩ := e
      rcases hij with hij | hij
      · exact hij hvdef
      · exact hij hc
    have h2 : F2 i j = g.fields i j := by
      rw [hF2, set_cell_apply, if_neg (fun hh => hne (by rw [hh.1, hh.2]))]
      unfold reset_fields
      rw [if_neg]
      rintro ⟨h1, h3⟩
      rcases hij with hij | hij
      · exact hij h3
      · exact hij h1
    rw [← h2]
    apply R.frame.2 i j
    show (F2 i j).owner ≠ v ∨ ¬ InGrid g.height g.width (i, j)
    rw [h2]
    exact hij
  · intro q hq
    show A q = g.player_areas q
    rw [hpao q hq]
    show set_at g.player_areas v 0 q = _
    rw [set_at_apply, if_neg hq]
  · intro q hq
    show B q = g.player_fields q
    rw [hpfo q hq]
    show set_at g.player_fields v 0 q = _
    rw [set_at_apply, if_neg hq]
  · show B v + 1 = g.player_fields v
    rw [hpf, I.fields v hv, ← hnc1 v]
    have := hvv
    omega
  · intro q hq hqv
    show nroots g.height g.width F3 q = nroots g.height g.width g.fields q
    rw [nroots_frame R.frame hqv, k6 q hq hqv, hnr.2 q hqv]

/-! ## `gamma_golden_move` -/

theorem adj_congr {h w : Nat} {F F' : Nat → Nat → field_t} (hown : ∀ p, ownF F' p = ownF F p) :
    Adj h w F' = Adj h w F := by
  funext p q
  unfold Adj
  rw [hown, hown]

/-- Restoring the evicted cell after the rebuild gives back the board, up to
the forest of the evicted player. -/
theorem restore_after_rebuild {g : gamma_t} (I : Inv g) {x y : Nat}
    (hc : InGrid g.height g.width (y, x)) (hv : ownF g.fields (y, x) ≠ 0)
    {g3 : gamma_t} (R : Rebuilt g (ownF g.fields (y, x)) x y g3) :
    ∃ g4, restore_move g3 (ownF g.fields (y, x)) x y = some g4 ∧
      GoldenFail g (ownF g.fields (y, x)) g4 ∧
      nroots g.height g.width g3.fields (ownF g.fields (y, x))
        ≤ nroots g.height g.width g.fields (ownF g.fields (y, x)) + 3 := by
  generalize hvdef : ownF g.fields (y, x) = v at hv R ⊢
  obtain ⟨F3, A, B, rfl⟩ := R.shape
  have hown3 := R.own
  have hemp : ownF F3 (y, x) = 0 := by
    have := hown3 (y, x)
    simp only [if_true] at this
    exact this
  have hvle : v ≤ g.players := by rw [← hvdef]; exact I.own_le _ hc
  obtain ⟨F', u, hr, N, hI, hmod⟩ := restore_insert_ok R.inv hc hemp hv hvle
  refine ⟨_, hr, ?_⟩
  obtain ⟨hU, hown4, hnr4, _, _, _⟩ := insert_post
    (g := { g with fields := F3, player_areas := A, player_fields := B })
    I.hlt I.wlt R.inv.uf hc hemp hv N
  simp only at hown4 hU hnr4
  have hle4 := N.le
  have hownF : ∀ p, ownF F' p = ownF g.fields p := by
    intro p
    rw [hown4, hown3]
    by_cases hp : p = (y, x)
    · rw [if_pos hp, hp, hvdef]
    · rw [if_neg hp, if_neg hp]
  have hfr : FrameUF g.height g.width v g.fields F' := by
    refine ⟨fun i j => ⟨hownF (i, j), ?_⟩, fun i j hij => ?_⟩
    · have h1 := N.frame.1 i j
      have h2 := R.coords i j
      simp only at h1 h2
      rw [h1.2.1, h1.2.2, set_cell_apply]
      by_cases hij : i = y ∧ j = x
      · rw [if_pos hij]
        obtain ⟨rfl, rfl⟩ := hij
        have := I.coords (i, j) hc (by rw [hvdef]; exact hv)
        simp only at this
        simp only [set_field]
        exact ⟨this.1.symm, this.2.symm⟩
      · rw [if_neg hij]
        exact h2
    · have hne : ¬ (i = y ∧ j = x) := by
        rintro ⟨rfl, rfl⟩
        rcases hij with hij | hij
        · exact hij hvdef
        · exact hij hc
      have h3 : F3 i j = g.fields i j := R.other i j hij
      have h0 : set_cell F3 y x (set_field (F3 y x) x y v) i j = g.fields i j := by
        rw [set_cell_apply, if_neg hne, h3]
      rw [← h0]
      apply N.frame.2 i j
      simp only
      rw [h0]
      exact hij
  have U4 : UF g.height g.width F' (Adj g.height g.width g.fields) := by
    rw [← adj_congr hownF]; exact hU
  have hnr : ∀ q, nroots g.height g.width F' q = nroots g.height g.width g.fields q :=
    fun q => (nroots_unique I.uf U4 hownF q).symm
  have hareas : set_at A v (areas_after (A v) u) = g.player_areas := by
    funext q
    by_cases hq : q = v
    · subst hq
      have h1 := hI.areas q hv
      have h2 := I.areas q hv
      simp only [inserted] at h1
      rw [h1, h2, hnr q]
    · rw [set_at_apply, if_neg hq]
      exact R.pa_other q hq
  have hfields : set_at B v ((B v + 1) % 2 ^ 64) = g.player_fields := by
    funext q
    by_cases hq : q = v
    · subst hq
      rw [set_at_apply, if_pos rfl]
      have := R.pf
      simp only at this hmod
      rw [hmod, this]
    · rw [set_at_apply, if_neg hq]
      exact R.pf_other q hq
  have hshape : inserted { g with fields := F3, player_areas := A, player_fields := B } v F' u
      = { g with fields := F' } := by
    unfold inserted
    simp only [hareas, hfields]
  rw [hshape] at hI ⊢
  refine ⟨⟨⟨F', rfl⟩, hfr, hI, hnr⟩, ?_⟩
  show nroots g.height g.width F3 v ≤ nroots g.height g.width g.fields v + 3
  rw [← hnr v]
  omega

/-- The three ways in which `gamma_golden_move` ends on a board that satisfies
the invariant; in each of them it returns. -/
theorem golden_move_cases {g : gamma_t} (I : Inv g) (pl x y : Nat) :
    (golden_reject g pl x y = true ∧
      gamma_golden_move (some g) pl x y = some (false, some g)) ∨
    (golden_reject g pl x y = false ∧
      ∃ g3, Rebuilt g (g.fields y x).owner x y g3 ∧
        nroots g.height g.width g3.fields (g.fields y x).owner
          ≤ nroots g.height g.width g.fields (g.fields y x).owner + 3 ∧
        (((g3.player_areas (g.fields y x).owner > g3.areas ∨
            movie_possible (some g3) pl x y = false) ∧
          ∃ g', gamma_golden_move (some g) pl x y = some (false, some g') ∧
            GoldenFail g (g.fields y x).owner g') ∨
         ((g3.player_areas (g.fields y x).owner ≤ g3.areas ∧
            movie_possible (some g3) pl x y = true) ∧
          ∃ g', gamma_golden_move (some g) pl x y = some (true, some g') ∧
            GoldenOk g3 pl x y g'))) := by
  by_cases hrej : golden_reject g pl x y = true
  · left
    refine ⟨hrej, ?_⟩
    unfold gamma_golden_move
    unfold golden_reject at hrej
    simp only [hrej, if_true]
  · right
    have hrej' : golden_reject g pl x y = false := by simpa using hrej
    refine ⟨hrej', ?_⟩
    have hrej2 := hrej'
    unfold golden_reject at hrej2
    simp only [Bool.or_eq_false_iff, Bool.not_eq_false', decide_eq_false_iff_not, EMPTY]
      at hrej2
    obtain ⟨⟨⟨⟨hogp, hgc⟩, hne0⟩, hnepl⟩, hgu⟩ := hrej2
    have hc : InGrid g.height g.width (y, x) := (good_coords_iff g x y).1 hgc
    have hv : ownF g.fields (y, x) ≠ 0 := hne0
    obtain ⟨g3, hg3, R⟩ := rebuild_spec I hc hv
    have hg3' : golden_set_other_field_reps
        { golden_reset_field_reps g (g.fields y x).owner with
          fields := set_cell (golden_reset_field_reps g (g.fields y x).owner).fields y x
            { (golden_reset_field_reps g (g.fields y x).owner).fields y x with owner := EMPTY } }
        (g.fields y x).owner = some g3 := hg3
    have hstart : gamma_golden_move (some g) pl x y =
        (if g3.player_areas (g.fields y x).owner > g3.areas then
          (restore_move g3 (g.fields y x).owner x y).map (fun g4 => (false, some g4))
        else
          match gamma_move (some g3) pl x y with
          | none => none
          | some (true, some g4) =>
            some (true, some { g4 with golden_used := set_at g4.golden_used pl true })
          | some (true, none) => some (true, none)
          | some (false, some g4) =>
            (restore_move g4 (g.fields y x).owner x y).map (fun g5 => (false, some g5))
          | some (false, none) => some (false, none)) := by
      unfold gamma_golden_move
      have : (!old_golden_possible (some g) pl || !good_coords g x y ||
          decide ((g.fields y x).owner = EMPTY) || decide ((g.fields y x).owner = pl) ||
          g.golden_used pl) = false := hrej'
      simp only [this, Bool.false_eq_true, if_false, hg3'] <;> rfl
    obtain ⟨g4, hr4, hfail, hle3⟩ := restore_after_rebuild I hc hv R
    have hr4' : restore_move g3 (g.fields y x).owner x y = some g4 := hr4
    refine ⟨g3, R, hle3, ?_⟩
    by_cases hcap : g3.player_areas (g.fields y x).owner > g3.areas
    · left
      refine ⟨Or.inl hcap, g4, ?_, hfail⟩
      rw [hstart, if_pos hcap, hr4']
      rfl
    · by_cases hmp : movie_possible (some g3) pl x y = true
      · right
        obtain ⟨F', u, hmove, N, hI, _⟩ := gamma_move_ok R.inv hmp
        refine ⟨⟨by omega, hmp⟩, _, ?_, ⟨⟨F', u, N, rfl⟩, ?_⟩⟩
        · rw [hstart, if_neg hcap, hmove]
          rfl
        · exact ⟨hI.hlt, hI.wlt, hI.uf, hI.own_le, hI.areas, hI.fields, hI.fields0, hI.coords⟩
      · left
        have hmp' : movie_possible (some g3) pl x y = false := by simpa using hmp
        refine ⟨Or.inr hmp', g4, ?_, hfail⟩
        rw [hstart, if_neg hcap, gamma_move_false hmp']
        simp only [hr4']
        rfl

/-! ## `gamma_new` -/

theorem initialize_fields_eq (h w : Nat) :
    initialize_fields h w = fun i j =>
      if InGrid h w (i, j) then initialize_field (i, j) i j EMPTY else blank_field := by
  unfold initialize_fields
  have := grid_foldl_inv
    (fun (fields : Nat → Nat → field_t) i j =>
      set_cell fields i j (initialize_field (i, j) i j EMPTY))
    (fun k F' => ∀ a b, F' a b =
      if InGrid h w (a, b) ∧ a * w + b < k then initialize_field (a, b) a b EMPTY
      else blank_field)
    h w (fun _ _ => blank_field) (by intro a b; simp) (by
      intro i j F' hi hj hP a b
      show set_cell F' i j (initialize_field (i, j) i j EMPTY) a b = _
      rw [set_cell_apply]
      by_cases hab : a = i ∧ b = j
      · obtain ⟨rfl, rfl⟩ := hab
        rw [if_pos ⟨rfl, rfl⟩, if_pos ⟨⟨hi, hj⟩, by omega⟩]
      · rw [if_neg hab, hP a b]
        have : (InGrid h w (a, b) ∧ a * w + b < i * w + j + 1) ↔
            (InGrid h w (a, b) ∧ a * w + b < i * w + j) := by
          constructor
          · rintro ⟨h1, h2⟩
            refine ⟨h1, ?_⟩
            by_contra hlt
            have e : a * w + b = i * w + j := by omega
            exact hab (idx_inj h1.2 hj e)
          · rintro ⟨h1, h2⟩
            exact ⟨h1, by omega⟩
        simp only [this])
  funext a b
  rw [this a b]
  by_cases hab : InGrid h w (a, b)
  · have := idx_lt hab.1 hab.2
    simp [hab, this]
  · simp [hab]

theorem ownF_init_fields (h w : Nat) (p : Nat × Nat) : ownF (initialize_fields h w) p = 0 := by
  rw [initialize_fields_eq]
  unfold ownF
  simp only
  split <;> rfl

theorem repF_init_fields {h w : Nat} {p : Nat × Nat} (hp : InGrid h w p) :
    repF (initialize_fields h w) p = p := by
  rw [initialize_fields_eq]
  unfold repF
  simp only
  rw [if_pos hp]
  rfl

/-- The board made by `gamma_new` satisfies the invariant. -/
theorem gamma_new_inv {width height players areas : Nat} {g : gamma_t}
    (hw : width < 4294967296) (hh : height < 4294967296)
    (hg : gamma_new width height players areas = some g) : Inv g := by
  unfold gamma_new at hg
  split at hg
  · exact absurd hg (by simp)
  · split at hg
    · exact absurd hg (by simp)
    · simp only [Option.some.injEq] at hg
      subst hg
      have hnr : ∀ pl, pl ≠ 0 → nroots height width (initialize_fields height width) pl = 0 := by
        intro pl hpl
        unfold nroots rootSet
        rw [Finset.card_eq_zero, Finset.filter_eq_empty_iff]
        intro p _ hh
        rw [ownF_init_fields] at hh
        exact hpl hh.1.symm
      have hnc : ∀ pl, pl ≠ 0 → ncells height width (initialize_fields height width) pl = 0 := by
        intro pl hpl
        unfold ncells cellSet
        rw [Finset.card_eq_zero, Finset.filter_eq_empty_iff]
        intro p _ hh
        rw [ownF_init_fields] at hh
        exact hpl hh.symm
      refine ⟨hh, hw, ⟨?_, ?_, ?_, ?_, ?_, ?_⟩, ?_, ?_, ?_, rfl, ?_⟩
      · intro p hp
        show InGrid height width (repF (initialize_fields height width) p)
        rw [repF_init_fields hp]; exact hp
      · intro p hp
        exact ⟨p, RootOf.self (repF_init_fields hp)⟩
      · intro p q hp hq hs
        obtain ⟨r, h1, h2⟩ := hs
        have e1 := h1.eq_of_root (repF_init_fields hp)
        have e2 := h2.eq_of_root (repF_init_fields hq)
        rw [← e1, e2]
        exact Relation.EqvGen.refl _
      · intro p q hpq
        have := hpq.2.2.2.2
        rw [ownF_init_fields] at this
        exact absurd rfl this
      · intro p q hpq; exact ⟨hpq.1, hpq.2.1⟩
      · intro p q hpq; exact ⟨hpq.2.2.2.1, hpq.2.2.2.2⟩
      · intro p _
        show ownF (initialize_fields height width) p ≤ players
        rw [ownF_init_fields]; omega
      · intro pl hpl
        show 0 = nroots height width (initialize_fields height width) pl % 4294967296
        rw [hnr pl hpl]
      · intro pl hpl
        show 0 = ncells height width (initialize_fields height width) pl
        rw [hnc pl hpl]
      · intro p _ hp0
        have : ownF (initialize_fields height width) p ≠ 0 := hp0
        rw [ownF_init_fields] at this
        exact absurd rfl this

/-! ## Invariants of sequences of public calls -/

theorem Stable.wont_exceed_step {J : gamma_t → Prop} (S : Stable J) (pl i j : Nat)
    (s : gamma_t × Bool) (hs : J s.1) :
    ∃ s', golden_wont_exceed_areas_step pl i j s = some s' ∧ J s'.1 := by
  unfold golden_wont_exceed_areas_step
  simp only
  split
  · exact ⟨s, rfl, hs⟩
  · split
    · exact ⟨s, rfl, hs⟩
    · obtain ⟨b, g1, h1, hJ1⟩ := S.golden s.1 pl j i hs
      rw [h1]
      cases b with
      | false => exact ⟨_, rfl, hJ1⟩
      | true =>
        simp only
        have hJ2 := S.used _ (set_at (set_at g1.golden_used pl false) (s.1.fields i j).owner false)
          (S.used _ (set_at g1.golden_used pl false) hJ1)
        obtain ⟨b', g4, h4, hJ4⟩ := S.golden _ (s.1.fields i j).owner j i hJ2
        simp only at h4
        rw [h4]
        exact ⟨_, rfl, S.used _ _ hJ4⟩

theorem Stable.golden_possible {J : gamma_t → Prop} (S : Stable J) (g : gamma_t) (pl : Nat)
    (hg : J g) : ∃ b g', gamma_golden_possible (some g) pl = some (b, some g') ∧ J g' := by
  unfold gamma_golden_possible
  simp only
  split
  · exact ⟨_, _, rfl, hg⟩
  · split
    · exact ⟨_, _, rfl, hg⟩
    · unfold golden_wont_exceed_areas
      obtain ⟨s', hs', hJ⟩ := grid_foldlM_inv
        (fun s i j => golden_wont_exceed_areas_step pl i j s) (fun _ s => J s.1)
        g.height g.width (g, false) hg
        (fun i j s _ _ hs => S.wont_exceed_step pl i j s hs)
      rw [hs']
      exact ⟨_, _, rfl, hJ⟩

theorem Stable.call {J : gamma_t → Prop} (S : Stable J) (g : gamma_t) (c : Call)
    (hg : J g) : ∃ g', call_state (some g) c = some (some g') ∧ J g' := by
  cases c with
  | move pl x y =>
    obtain ⟨b, g', h, hJ⟩ := S.move g pl x y hg
    exact ⟨g', by simp [call_state, h], hJ⟩
  | golden_move pl x y =>
    obtain ⟨b, g', h, hJ⟩ := S.golden g pl x y hg
    exact ⟨g', by simp [call_state, h], hJ⟩
  | golden_possible pl =>
    obtain ⟨b, g', h, hJ⟩ := S.golden_possible g pl hg
    exact ⟨g', by simp [call_state, h], hJ⟩
  | free_fields pl => exact ⟨g, rfl, hg⟩
  | busy_fields pl => exact ⟨g, rfl, hg⟩
  | board =>
    unfold call_state gamma_board
    simp only
    split
    · exact ⟨g, rfl, hg⟩
    · split
      · exact ⟨_, rfl, S.mem g false hg⟩
      · exact ⟨_, rfl, S.mem g false hg⟩

/-- Every sequence of public calls on a board with a stable property returns,
and ends on a board with that property. -/
theorem Stable.run {J : gamma_t → Prop} (S : Stable J) (calls : List Call) :
    ∀ (g : gamma_t), J g → ∃ g', run (some g) calls = some (some g') ∧ J g' := by
  induction calls with
  | nil => intro g hg; exact ⟨g, rfl, hg⟩
  | cons c cs ih =>
    intro g hg
    obtain ⟨g1, h1, hJ1⟩ := S.call g c hg
    obtain ⟨g2, h2, hJ2⟩ := ih g1 hJ1
    refine ⟨g2, ?_, hJ2⟩
    unfold Gamma.run at h2 ⊢
    rw [List.foldlM_cons, h1]
    exact h2

theorem inv_stable : Stable Inv where
  move := by
    intro g pl x y I
    by_cases hmp : movie_possible (some g) pl x y = true
    · obtain ⟨F', u, h, _, hI, _⟩ := gamma_move_ok I hmp
      exact ⟨_, _, h, hI⟩
    · refine ⟨false, g, ?_, I⟩
      unfold gamma_move
      simp [hmp]
  golden := by
    intro g pl x y I
    rcases golden_move_cases I pl x y with
      ⟨_, h⟩ | ⟨_, g3, _, _, ⟨_, g', h, hf⟩ | ⟨_, g', h, hok⟩⟩
    · exact ⟨_, _, h, I⟩
    · exact ⟨_, _, h, hf.inv⟩
    · exact ⟨_, _, h, hok.inv⟩
  used := fun g gu I =>
    ⟨I.hlt, I.wlt, I.uf, I.own_le, I.areas, I.fields, I.fields0, I.coords⟩
  mem := fun g b I =>
    ⟨I.hlt, I.wlt, I.uf, I.own_le, I.areas, I.fields, I.fields0, I.coords⟩

/-! ## Boards reached from `gamma_new` -/

theorem run_none (calls : List Call) : run none calls = some none := by
  induction calls with
  | nil => rfl
  | cons c cs ih =>
    unfold Gamma.run at ih ⊢
    rw [List.foldlM_cons]
    have : call_state none c = some none := by
      cases c <;> rfl
    rw [this]
    exact ih

/-- Every sequence of public calls on the result of `gamma_new` returns, and a
board it ends on has every stable property of the fresh board. -/
theorem reach_stable {J : gamma_t → Prop} (S : Stable J) {width height players areas : Nat}
    (h0 : ∀ g, gamma_new width height players areas = some g → J g) (calls : List Call) :
    ∃ s, run (gamma_new width height players areas) calls = some s ∧
      ∀ g, s = some g → J g := by
  cases hg : gamma_new width height players areas with
  | none => exact ⟨none, run_none calls, fun g h => absurd h (by simp)⟩
  | some g0 =>
    obtain ⟨g', h1, h2⟩ := S.run calls g0 (h0 g0 hg)
    refine ⟨some g', h1, ?_⟩
    intro g hgg
    simp only [Option.some.injEq] at hgg
    subst hgg
    exact h2

theorem reach_inv (width height players areas : Nat)
    (hw : width < 4294967296) (hh : height < 4294967296) (calls : List Call) :
    ∃ s, run (gamma_new width height players areas) calls = some s ∧
      ∀ g, s = some g → Inv g :=
  reach_stable inv_stable (fun _ hg => gamma_new_inv hw hh hg) calls

/-! ## Paths of adjacent cells -/

theorem adj_symmetric (h w : Nat) (F : Nat → Nat → field_t) : Symmetric (Adj h w F) :=
  fun _ _ hpq => hpq.symm_edge

theorem eqvGen_iff_path {h w : Nat} {F : Nat → Nat → field_t} {p q : Nat × Nat} :
    Relation.EqvGen (Adj h w F) p q ↔ Relation.ReflTransGen (Adj h w F) p q := by
  constructor
  · intro hpq
    induction hpq with
    | rel x y hxy => exact Relation.ReflTransGen.single hxy
    | refl x => exact Relation.ReflTransGen.refl
    | symm x y _ ih => exact Relation.ReflTransGen.symmetric (adj_symmetric h w F) ih
    | trans x y z _ _ ih1 ih2 => exact ih1.trans ih2
  · intro hpq
    induction hpq with
    | refl => exact Relation.EqvGen.refl _
    | tail _ hbc ih => exact Relation.EqvGen.trans _ _ _ ih (Relation.EqvGen.rel _ _ hbc)

/-- On a board that satisfies the invariant, `find_root` returns on every cell
of the board, and two cells get the same root exactly when a path of adjacent
same-owner cells joins them. -/
theorem find_root_iff_path {g : gamma_t} (I : Inv g) {p q : Nat × Nat}
    (hp : InGrid g.height g.width p) (hq : InGrid g.height g.width q) :
    ∃ rp rq, find_root g.fields g.fuel p = some rp ∧ find_root g.fields g.fuel q = some rq ∧
      (rp = rq ↔ Relation.ReflTransGen (Adj g.height g.width g.fields) p q) := by
  obtain ⟨rp, hrp⟩ := I.uf.acyc p hp
  obtain ⟨rq, hrq⟩ := I.uf.acyc q hq
  refine ⟨rp, rq, find_root_eq I.uf.closed hp hrp, find_root_eq I.uf.closed hq hrq, ?_⟩
  rw [← eqvGen_iff_path]
  constructor
  · intro e
    exact I.uf.sound p q hp hq ⟨rp, hrp, e ▸ hrq⟩
  · intro e
    obtain ⟨r, h1, h2⟩ := (I.uf.sameRoot_of_eqvGen e).2 hp
    exact (hrp.unique h1).trans (h2.unique hrq)

theorem gamma_move_true_inv {s s' : Option gamma_t} {pl x y : Nat}
    (h : gamma_move s pl x y = some (true, s')) :
    ∃ g, s = some g ∧ movie_possible (some g) pl x y = true := by
  cases hmp : movie_possible s pl x y with
  | false =>
    rw [gamma_move_false hmp] at h
    simp at h
  | true =>
    cases s with
    | none => simp [movie_possible] at hmp
    | some g => exact ⟨g, rfl, hmp⟩

/-- C3. In every board state reached from `gamma_new` by public calls, which
always return, `player_fields[p]` is the number of cells of the board whose
owner is `p`, for every player `p` in `1..players`, and `player_fields[0]` is `0`. -/
theorem C3_player_fields_count (width height players areas : Nat)
    (hw : width < 4294967296) (hh : height < 4294967296) (calls : List Call) :
    ∃ s, run (gamma_new width height players areas) calls = some s ∧
      ∀ g, s = some g →
        (∀ p, 1 ≤ p → p ≤ g.players →
          g.player_fields p = ncells g.height g.width g.fields p) ∧
        g.player_fields 0 = 0 := by
  obtain ⟨s, hs, hI⟩ := reach_inv width height players areas hw hh calls
  refine ⟨s, hs, fun g hg => ⟨fun p hp _ => ?_, (hI g hg).fields0⟩⟩
  exact (hI g hg).fields p (by omega)

theorem C3_player_fields_count_witness :
    ∃ s, run (gamma_new 3 2 2 2) [Call.move 1 0 0, Call.move 2 1 0, Call.golden_move 1 1 0]
        = some s ∧
      ∀ g, s = some g →
        (∀ p, 1 ≤ p → p ≤ g.players →
          g.player_fields p = ncells g.height g.width g.fields p) ∧
        g.player_fields 0 = 0 :=
  C3_player_fields_count 3 2 2 2 (by norm_num) (by norm_num) _

/-- C4. After any sequence of public calls on a fresh board (in particular any
sequence of `gamma_move` and `gamma_golden_move` calls, successful or not),
`find_root` returns the same root for every two 4-adjacent cells of the board
with the same non-empty owner. -/
theorem C4_adjacent_same_root (width height players areas : Nat)
    (hw : width < 4294967296) (hh : height < 4294967296) (calls : List Call) :
    ∃ s, run (gamma_new width height players areas) calls = some s ∧
      ∀ g, s = some g → ∀ p q, InGrid g.height g.width p → InGrid g.height g.width q →
        Adjacent p q → (g.fields p.1 p.2).owner = (g.fields q.1 q.2).owner →
        (g.fields p.1 p.2).owner ≠ EMPTY →
        ∃ r, find_root g.fields g.fuel p = some r ∧ find_root g.fields g.fuel q = some r := by
  obtain ⟨s, hs, hI⟩ := reach_inv width height players areas hw hh calls
  refine ⟨s, hs, fun g hg p q hp hq hadj ho ho0 => ?_⟩
  obtain ⟨rp, rq, h1, h2, h3⟩ := find_root_iff_path (hI g hg) hp hq
  have : rp = rq := h3.2 (Relation.ReflTransGen.single ⟨hp, hq, hadj, ho, ho0⟩)
  subst this
  exact ⟨rp, h1, h2⟩

theorem C4_adjacent_same_root_witness :
    ∃ s, run (gamma_new 3 2 2 2) [Call.move 1 0 0, Call.move 1 1 0, Call.golden_move 2 1 0]
        = some s ∧
      ∀ g, s = some g → ∀ p q, InGrid g.height g.width p → InGrid g.height g.width q →
        Adjacent p q → (g.fields p.1 p.2).owner = (g.fields q.1 q.2).owner →
        (g.fields p.1 p.2).owner ≠ EMPTY →
        ∃ r, find_root g.fields g.fuel p = some r ∧ find_root g.fields g.fuel q = some r :=
  C4_adjacent_same_root 3 2 2 2 (by norm_num) (by norm_num) _

/-- C5. In every board state reached from `gamma_new` by public calls the
forest never over-merges: `find_root` returns on every cell, two owned cells
with the same root have the same owner and are joined by a path of 4-adjacent
cells all owned by that owner, and two cells with the same owner have the
same root exactly when such a path joins them. -/
theorem C5_same_root_iff_connected (width height players areas : Nat)
    (hw : width < 4294967296) (hh : height < 4294967296) (calls : List Call) :
    ∃ s, run (gamma_new width height players areas) calls = some s ∧
      ∀ g, s = some g → ∀ p q, InGrid g.height g.width p → InGrid g.height g.width q →
        (g.fields p.1 p.2).owner ≠ EMPTY → (g.fields q.1 q.2).owner ≠ EMPTY →
        ∃ rp rq, find_root g.fields g.fuel p = some rp ∧
          find_root g.fields g.fuel q = some rq ∧
          (rp = rq → (g.fields p.1 p.2).owner = (g.fields q.1 q.2).owner ∧
            Relation.ReflTransGen (Adj g.height g.width g.fields) p q) ∧
          ((g.fields p.1 p.2).owner = (g.fields q.1 q.2).owner →
            (rp = rq ↔ Relation.ReflTransGen (Adj g.height g.width g.fields) p q)) := by
  obtain ⟨s, hs, hI⟩ := reach_inv width height players areas hw hh calls
  refine ⟨s, hs, fun g hg p q hp hq _ _ => ?_⟩
  obtain ⟨rp, rq, h1, h2, h3⟩ := find_root_iff_path (hI g hg) hp hq
  refine ⟨rp, rq, h1, h2, fun e => ⟨?_, h3.1 e⟩, fun _ => h3⟩
  exact eqvGen_own (hI g hg).uf.eown (eqvGen_iff_path.2 (h3.1 e))

theorem C5_same_root_iff_connected_witness :
    ∃ s, run (gamma_new 3 2 2 2) [Call.move 1 0 0, Call.move 1 1 0, Call.golden_move 2 1 0]
        = some s ∧
      ∀ g, s = some g → ∀ p q, InGrid g.height g.width p → InGrid g.height g.width q →
        (g.fields p.1 p.2).owner ≠ EMPTY → (g.fields q.1 q.2).owner ≠ EMPTY →
        ∃ rp rq, find_root g.fields g.fuel p = some rp ∧
          find_root g.fields g.fuel q = some rq ∧
          (rp = rq → (g.fields p.1 p.2).owner = (g.fields q.1 q.2).owner ∧
            Relation.ReflTransGen (Adj g.height g.width g.fields) p q) ∧
          ((g.fields p.1 p.2).owner = (g.fields q.1 q.2).owner →
            (rp = rq ↔ Relation.ReflTransGen (Adj g.height g.width g.fields) p q)) :=
  C5_same_root_iff_connected 3 2 2 2 (by norm_num) (by norm_num) _

/-- C6. On a board whose sides are 32-bit numbers, `movie_possible(g, player, x, y)`
is true exactly when `g` is not `NULL`, `1 ≤ player ≤ players`, `x < width`,
`y < height`, the cell `(x, y)` is empty, and `player_areas[player] ≠ areas` or
some 4-neighbour of `(x, y)` on the board is owned by `player`; otherwise it is false. -/
theorem C6_movie_possible_iff (g : Option gamma_t) (player x y : Nat)
    (hg : ∀ g0, g = some g0 → g0.width < 4294967296 ∧ g0.height < 4294967296) :
    movie_possible g player x y = true ↔
      ∃ g0, g = some g0 ∧ 1 ≤ player ∧ player ≤ g0.players ∧ x < g0.width ∧ y < g0.height ∧
        (g0.fields y x).owner = EMPTY ∧
        (g0.player_areas player ≠ g0.areas ∨
          ∃ q, InGrid g0.height g0.width q ∧ Adjacent (y, x) q ∧
            (g0.fields q.1 q.2).owner = player) := by
  cases g with
  | none => simp [movie_possible]
  | some g0 =>
    obtain ⟨hw, hh⟩ := hg g0 rfl
    rw [movie_possible_iff]
    simp only [Option.some.injEq, exists_eq_left', EMPTY]
    constructor
    · rintro ⟨h1, h2, h3, h4, h5, h6⟩
      refine ⟨by omega, h2, h3, h4, h5, ?_⟩
      by_cases ha : g0.player_areas player = g0.areas
      · obtain ⟨i, hi, hin, hio⟩ := h6 ha
        exact Or.inr ⟨nbr (y, x) i, hin,
          (adjacent_iff_nbr hh hw ⟨h4, h3⟩ hin).2 ⟨i, hi, rfl⟩, hio⟩
      · exact Or.inl ha
    · rintro ⟨h1, h2, h3, h4, h5, h6⟩
      refine ⟨by omega, h2, h3, h4, h5, fun ha => ?_⟩
      rcases h6 with h6 | ⟨q, hq, hadj, hqo⟩
      · exact absurd ha h6
      · obtain ⟨i, hi, hqi⟩ := (adjacent_iff_nbr hh hw ⟨h4, h3⟩ hq).1 hadj
        subst hqi
        exact ⟨i, hi, hq, hqo⟩

theorem C6_movie_possible_iff_witness :
    movie_possible (gamma_new 2 2 2 2) 1 0 0 = true ↔
      ∃ g0, gamma_new 2 2 2 2 = some g0 ∧ 1 ≤ 1 ∧ 1 ≤ g0.players ∧ 0 < g0.width ∧
        0 < g0.height ∧ (g0.fields 0 0).owner = EMPTY ∧
        (g0.player_areas 1 ≠ g0.areas ∨
          ∃ q, InGrid g0.height g0.width q ∧ Adjacent (0, 0) q ∧
            (g0.fields q.1 q.2).owner = 1) :=
  C6_movie_possible_iff (gamma_new 2 2 2 2) 1 0 0 (by
    intro g0 h0
    simp [gamma_new, UINT32_MAX] at h0
    rw [← h0]
    exact ⟨by norm_num, by norm_num⟩)

/-- C7. On every board reached from `gamma_new` by public calls (and on `NULL`),
`gamma_move(g, player, x, y)` returns; it returns `true` exactly when
`movie_possible(g, player, x, y)` holds, and when it returns `false` the whole
board is the board before the call. -/
theorem C7_move_iff_possible (width height players areas : Nat)
    (hw : width < 4294967296) (hh : height < 4294967296) (calls : List Call) :
    ∃ s, run (gamma_new width height players areas) calls = some s ∧
      ∀ player x y, ∃ b s', gamma_move s player x y = some (b, s') ∧
        (b = true ↔ movie_possible s player x y = true) ∧ (b = false → s' = s) := by
  obtain ⟨s, hs, hI⟩ := reach_inv width height players areas hw hh calls
  refine ⟨s, hs, fun player x y => ?_⟩
  cases hmp : movie_possible s player x y with
  | false =>
    exact ⟨false, s, gamma_move_false hmp, by simp, fun _ => rfl⟩
  | true =>
    cases s with
    | none => simp [movie_possible] at hmp
    | some g =>
      obtain ⟨F', u, h, _⟩ := gamma_move_ok (hI g rfl) hmp
      exact ⟨true, _, h, by simp, by simp⟩

theorem C7_move_iff_possible_witness :
    ∃ s, run (gamma_new 3 2 2 2) [Call.move 1 0 0, Call.move 1 1 0, Call.golden_move 2 1 0]
        = some s ∧
      ∀ player x y, ∃ b s', gamma_move s player x y = some (b, s') ∧
        (b = true ↔ movie_possible s player x y = true) ∧ (b = false → s' = s) :=
  C7_move_iff_possible 3 2 2 2 (by norm_num) (by norm_num) _

/-- What a successful `gamma_move` of `pl` at `(x, y)` changes on a board that
satisfies the invariant. -/
theorem gamma_move_frame {g : gamma_t} (I : Inv g) {pl x y : Nat} {s' : Option gamma_t}
    (h : gamma_move (some g) pl x y = some (true, s')) :
    ∃ g' u, s' = some g' ∧ Inv g' ∧ u ≤ 4 ∧
      g'.height = g.height ∧ g'.width = g.width ∧ g'.areas = g.areas ∧
      g'.players = g.players ∧ g'.golden_used = g.golden_used ∧
      (∀ p, ownF g'.fields p = if p = (y, x) then pl else ownF g.fields p) ∧
      g'.player_fields = set_at g.player_fields pl (g.player_fields pl + 1) ∧
      g'.player_areas = set_at g.player_areas pl (areas_after (g.player_areas pl) u) ∧
      nroots g.height g.width g'.fields pl + u = nroots g.height g.width g.fields pl + 1 := by
  obtain ⟨g0, hg0, hmp⟩ := gamma_move_true_inv h
  simp only [Option.some.injEq] at hg0
  subst hg0
  obtain ⟨F', u, hm, N, hI, hmod⟩ := gamma_move_ok I hmp
  rw [hm] at h
  simp only [Option.some.injEq, Prod.mk.injEq, true_and] at h
  obtain ⟨hpl, _, hx, hy, hemp, _⟩ := (movie_possible_iff _ pl x y).1 hmp
  obtain ⟨_, hown, hr1, _, _, _⟩ := insert_post I.hlt I.wlt I.uf ⟨hy, hx⟩ hemp hpl N
  refine ⟨_, u, h.symm, hI, N.le, rfl, rfl, rfl, rfl, rfl, hown, ?_, rfl, hr1⟩
  show set_at g.player_fields pl ((g.player_fields pl + 1) % 2 ^ 64) = _
  rw [hmod]

/-- C8. When `gamma_move(g, player, x, y)` returns `true` on a board reached from
`gamma_new` by public calls: the owner of `(x, y)` becomes `player`, the owner
of every other cell is unchanged, `player_fields[player]` increases by exactly
`1`, `player_fields[q]` and `player_areas[q]` are unchanged for every
`q ≠ player`, and `golden_used[q]` is unchanged for every `q`. -/
theorem C8_move_frame (width height players areas : Nat)
    (hw : width < 4294967296) (hh : height < 4294967296) (calls : List Call) :
    ∃ s, run (gamma_new width height players areas) calls = some s ∧
      ∀ player x y s', gamma_move s player x y = some (true, s') →
        ∃ g g', s = some g ∧ s' = some g' ∧
          (g'.fields y x).owner = player ∧
          (∀ i j, (i, j) ≠ (y, x) → (g'.fields i j).owner = (g.fields i j).owner) ∧
          g'.player_fields player = g.player_fields player + 1 ∧
          (∀ q, q ≠ player → g'.player_fields q = g.player_fields q ∧
            g'.player_areas q = g.player_areas q) ∧
          (∀ q, g'.golden_used q = g.golden_used q) := by
  obtain ⟨s, hs, hI⟩ := reach_inv width height players areas hw hh calls
  refine ⟨s, hs, fun player x y s' hm => ?_⟩
  obtain ⟨g, hg, _⟩ := gamma_move_true_inv hm
  subst hg
  obtain ⟨g', u, hs', _, _, _, _, _, _, hgu, hown, hpf, hpa, _⟩ :=
    gamma_move_frame (hI g rfl) hm
  refine ⟨g, g', rfl, hs', ?_, ?_, ?_, ?_, ?_⟩
  · have := hown (y, x)
    rw [if_pos rfl] at this
    exact this
  · intro i j hij
    have := hown (i, j)
    rw [if_neg hij] at this
    exact this
  · rw [hpf, set_at_apply, if_pos rfl]
  · intro q hq
    rw [hpf, hpa, set_at_apply, set_at_apply, if_neg hq, if_neg hq]
    exact ⟨rfl, rfl⟩
  · intro q
    rw [hgu]

theorem C8_move_frame_witness :
    ∃ s, run (gamma_new 3 2 2 2) [Call.move 1 0 0, Call.move 1 1 0, Call.golden_move 2 1 0]
        = some s ∧
      ∀ player x y s', gamma_move s player x y = some (true, s') →
        ∃ g g', s = some g ∧ s' = some g' ∧
          (g'.fields y x).owner = player ∧
          (∀ i j, (i, j) ≠ (y, x) → (g'.fields i j).owner = (g.fields i j).owner) ∧
          g'.player_fields player = g.player_fields player + 1 ∧
          (∀ q, q ≠ player → g'.player_fields q = g.player_fields q ∧
            g'.player_areas q = g.player_areas q) ∧
          (∀ q, g'.golden_used q = g.golden_used q) :=
  C8_move_frame 3 2 2 2 (by norm_num) (by norm_num) _

/-- C10 as stated fails: on the `3 × 1` board with area limit `1`, after
player 1 took the cells `1`, `0`, `2` in this order, the golden move of
player 2 on the middle cell returns `false` (it would split the area of
player 1), and the representative of the cell `(0, 0)` is no longer what it was. -/
theorem C10_golden_fail_changes_forest :
    ∃ g g', run (gamma_new 3 1 2 1) [Call.move 1 1 0, Call.move 1 0 0, Call.move 1 2 0]
        = some (some g) ∧
      gamma_golden_move (some g) 2 1 0 = some (false, some g') ∧
      (g'.fields 0 0).rep ≠ (g.fields 0 0).rep := by
  have key : (match run (gamma_new 3 1 2 1) [Call.move 1 1 0, Call.move 1 0 0, Call.move 1 2 0]
      with
      | some (some g) =>
        (match gamma_golden_move (some g) 2 1 0 with
          | some (false, some g') => decide ((g'.fields 0 0).rep ≠ (g.fields 0 0).rep)
          | _ => false)
      | _ => false) = true := by decide
  split at key
  · next g hg =>
    split at key
    · next g' hg' =>
      exact ⟨g, g', hg, hg', by simpa using key⟩
    · exact absurd key (by simp)
  · exact absurd key (by simp)

/-- A golden move that returns false leaves the board as follows: dimensions,
players, area limit, counters, golden flags and the owner and coordinates of
every cell are as before, and so are all fields of the cells that do not
belong to the owner of the attacked cell; nothing at all changes when the
move is rejected by the checks made before the rebuild. -/
theorem golden_fail_frame {g : gamma_t} (I : Inv g) {pl x y : Nat} {s' : Option gamma_t}
    (h : gamma_golden_move (some g) pl x y = some (false, s')) :
    ∃ g', s' = some g' ∧
      g'.height = g.height ∧ g'.width = g.width ∧ g'.players = g.players ∧
      g'.areas = g.areas ∧ g'.no_memory = g.no_memory ∧
      g'.player_areas = g.player_areas ∧ g'.player_fields = g.player_fields ∧
      g'.golden_used = g.golden_used ∧
      (∀ i j, (g'.fields i j).owner = (g.fields i j).owner ∧
        (g'.fields i j).x = (g.fields i j).x ∧ (g'.fields i j).y = (g.fields i j).y) ∧
      (∀ i j, (g.fields i j).owner ≠ (g.fields y x).owner → g'.fields i j = g.fields i j) ∧
      (golden_reject g pl x y = true → g' = g) ∧ Inv g' := by
  rcases golden_move_cases I pl x y with
    ⟨_, h1⟩ | ⟨hrej, g3, _, _, ⟨_, g', h1, hf⟩ | ⟨_, g', h1, _⟩⟩
  · rw [h1] at h
    simp only [Option.some.injEq, Prod.mk.injEq, true_and] at h
    subst h
    exact ⟨g, rfl, rfl, rfl, rfl, rfl, rfl, rfl, rfl, rfl, fun _ _ => ⟨rfl, rfl, rfl⟩,
      fun _ _ _ => rfl, fun _ => rfl, I⟩
  · rw [h1] at h
    simp only [Option.some.injEq, Prod.mk.injEq, true_and] at h
    subst h
    obtain ⟨F', hF'⟩ := hf.shape
    have hfr := hf.frame
    have hinv := hf.inv
    subst hF'
    refine ⟨_, rfl, rfl, rfl, rfl, rfl, rfl, rfl, rfl, rfl, ?_, ?_, ?_, hinv⟩
    · intro i j
      exact hfr.1 i j
    · intro i j hij
      exact hfr.2 i j (Or.inl hij)
    · intro hr
      rw [hrej] at hr
      exact absurd hr (by simp)
  · rw [h1] at h
    simp at h

/-- C10 (amended). From every state reached from `gamma_new` by public calls,
`gamma_golden_move` returns; when it returns false the board keeps its
dimensions, the number of players, the area limit, `player_areas`,
`player_fields`, `golden_used` and the owner and coordinates of every cell;
every cell that does not belong to the owner of the attacked cell `(x, y)`
keeps its representative and rank as well; and when the call is rejected by
the checks made before the rebuild, the whole board is identical. -/
theorem C10_golden_fail_restores (width height players areas : Nat)
    (hw : width < 4294967296) (hh : height < 4294967296) (calls : List Call) :
    ∃ s, run (gamma_new width height players areas) calls = some s ∧
      ∀ player x y, ∃ b s', gamma_golden_move s player x y = some (b, s') ∧
        (b = false →
          (s = none ∧ s' = none) ∨
          ∃ g g', s = some g ∧ s' = some g' ∧
            g'.height = g.height ∧ g'.width = g.width ∧ g'.players = g.players ∧
            g'.areas = g.areas ∧
            g'.player_areas = g.player_areas ∧ g'.player_fields = g.player_fields ∧
            g'.golden_used = g.golden_used ∧
            (∀ i j, (g'.fields i j).owner = (g.fields i j).owner ∧
              (g'.fields i j).x = (g.fields i j).x ∧ (g'.fields i j).y = (g.fields i j).y) ∧
            (∀ i j, (g.fields i j).owner ≠ (g.fields y x).owner →
              g'.fields i j = g.fields i j) ∧
            (golden_reject g player x y = true → g' = g)) := by
  obtain ⟨s, hs, hI⟩ := reach_inv width height players areas hw hh calls
  refine ⟨s, hs, fun player x y => ?_⟩
  cases s with
  | none => exact ⟨false, none, rfl, fun _ => Or.inl ⟨rfl, rfl⟩⟩
  | some g =>
    have I := hI g rfl
    have hret : ∃ b s', gamma_golden_move (some g) player x y = some (b, s') := by
      rcases golden_move_cases I player x y with
        ⟨_, h1⟩ | ⟨_, g3, _, _, ⟨_, g', h1, _⟩ | ⟨_, g', h1, _⟩⟩
      · exact ⟨_, _, h1⟩
      · exact ⟨_, _, h1⟩
      · exact ⟨_, _, h1⟩
    obtain ⟨b, s', hb⟩ := hret
    refine ⟨b, s', hb, fun hbf => Or.inr ?_⟩
    subst hbf
    obtain ⟨g', hs', a1, a2, a3, a4, _, a6, a7, a8, a9, a10, a11, _⟩ := golden_fail_frame I hb
    exact ⟨g, g', rfl, hs', a1, a2, a3, a4, a6, a7, a8, a9, a10, a11⟩

theorem C10_golden_fail_restores_witness :
    ∃ s, run (gamma_new 3 1 2 1) [Call.move 1 1 0, Call.move 1 0 0, Call.move 1 2 0] = some s ∧
      ∀ player x y, ∃ b s', gamma_golden_move s player x y = some (b, s') ∧
        (b = false →
          (s = none ∧ s' = none) ∨
          ∃ g g', s = some g ∧ s' = some g' ∧
            g'.height = g.height ∧ g'.width = g.width ∧ g'.players = g.players ∧
            g'.areas = g.areas ∧
            g'.player_areas = g.player_areas ∧ g'.player_fields = g.player_fields ∧
            g'.golden_used = g.golden_used ∧
            (∀ i j, (g'.fields i j).owner = (g.fields i j).owner ∧
              (g'.fields i j).x = (g.fields i j).x ∧ (g'.fields i j).y = (g.fields i j).y) ∧
            (∀ i j, (g.fields i j).owner ≠ (g.fields y x).owner →
              g'.fields i j = g.fields i j) ∧
            (golden_reject g player x y = true → g' = g)) :=
  C10_golden_fail_restores 3 1 2 1 (by norm_num) (by norm_num) _

/-! ## Counting the areas that a new cell touches -/

/-- Two roots of `pl` that are related are equal. -/
theorem rootSet_sep {h w : Nat} {F : Nat → Nat → field_t}
    {E : Nat × Nat → Nat × Nat → Prop} (U : UF h w F E) {pl : Nat} {p q : Nat × Nat}
    (hp : p ∈ rootSet h w F pl) (hq : q ∈ rootSet h w F pl)
    (hpq : Relation.EqvGen E p q) : p = q := by
  have hp' := mem_rootSet.1 hp
  have hq' := mem_rootSet.1 hq
  obtain ⟨r, h1, h2⟩ := (U.sameRoot_of_eqvGen hpq).2 hp'.1
  exact (h1.eq_of_root hp'.2.2).symm.trans (h2.eq_of_root hq'.2.2)

/-- Every cell of `pl` is related to a root of `pl`. -/
theorem rootSet_cov {h w : Nat} {F : Nat → Nat → field_t}
    {E : Nat × Nat → Nat × Nat → Prop} (U : UF h w F E) {pl : Nat} {p : Nat × Nat}
    (hp : InGrid h w p) (ho : ownF F p = pl) :
    ∃ r, r ∈ rootSet h w F pl ∧ Relation.EqvGen E p r := by
  obtain ⟨r, hr⟩ := U.acyc p hp
  have hrg := hr.inGrid U.closed hp
  refine ⟨r, mem_rootSet.2 ⟨hrg, (U.own_root hp hr).trans ho, hr.root⟩, ?_⟩
  exact U.sound p r hp hrg ⟨r, hr, RootOf.self hr.root⟩

/-- No edge of the board ends in an empty cell. -/
theorem adj_avoids_empty {h w : Nat} {F : Nat → Nat → field_t} {c : Nat × Nat}
    (hemp : ownF F c = 0) : ∀ p q, Adj h w F p q → p ≠ c ∧ q ≠ c := by
  intro p q hpq
  obtain ⟨_, _, _, h1, h2⟩ := hpq
  constructor
  · intro hp; subst hp; exact h2 hemp
  · intro hq; subst hq; rw [hemp] at h1; exact h2 h1

/-- Putting a stone on an empty cell keeps every edge of the board. -/
theorem adj_mono_insert {h w : Nat} {F F' : Nat → Nat → field_t} {pl : Nat} {c : Nat × Nat}
    (hemp : ownF F c = 0)
    (hown : ∀ p, ownF F' p = if p = c then pl else ownF F p) :
    ∀ p q, Adj h w F p q → Adj h w F' p q := by
  intro p q hpq
  have hne := adj_avoids_empty hemp p q hpq
  obtain ⟨a, b, d, h1, h2⟩ := hpq
  refine ⟨a, b, d, ?_, ?_⟩
  · rw [hown p, hown q, if_neg hne.1, if_neg hne.2]; exact h1
  · rw [hown p, if_neg hne.1]; exact h2

/-- Connections on the board after a stone was put on `c` are old connections
or pass through `c`. -/
theorem eqvGen_insert_cases {h w : Nat} {F F' : Nat → Nat → field_t} {pl : Nat}
    {c : Nat × Nat} (hc : InGrid h w c) (hemp : ownF F c = 0)
    (hown : ∀ p, ownF F' p = if p = c then pl else ownF F p) {p q : Nat × Nat}
    (hpq : Relation.EqvGen (Adj h w F') p q) :
    Relation.EqvGen (Adj h w F) p q ∨ (Touch h w F pl c p ∧ Touch h w F pl c q) := by
  have hiso := adj_avoids_empty (h := h) (w := w) hemp
  have htouch : ∀ a b, Relation.EqvGen (Adj h w F) a b → Touch h w F pl c b →
      Touch h w F pl c a := by
    intro a b hab hb
    rcases hb with hb | ⟨n, h1, h2, h3, h4⟩
    · left
      exact (eqvGen_isolated hiso hab).2 hb
    · right
      exact ⟨n, h1, h2, h3, Relation.EqvGen.trans _ _ _ hab h4⟩
  induction hpq with
  | rel a b hab =>
    obtain ⟨ga, gb, hadj, ho, hne⟩ := hab
    by_cases ha : a = c
    · right
      subst ha
      have hbne : b ≠ a := fun hb => hadj.ne hb.symm
      have hob : ownF F b = pl := by
        have h1 := hown a
        have h2 := hown b
        rw [if_pos rfl] at h1
        rw [if_neg hbne] at h2
        rw [← h2, ← ho, h1]
      exact ⟨Or.inl rfl, Or.inr ⟨b, gb, hadj, hob, Relation.EqvGen.refl _⟩⟩
    · by_cases hb : b = c
      · right
        subst hb
        have hoa : ownF F a = pl := by
          have h1 := hown b
          have h2 := hown a
          rw [if_pos rfl] at h1
          rw [if_neg ha] at h2
          rw [← h2, ho, h1]
        exact ⟨Or.inr ⟨a, ga, hadj.symm_adj, hoa, Relation.EqvGen.refl _⟩, Or.inl rfl⟩
      · left
        apply Relation.EqvGen.rel
        refine ⟨ga, gb, hadj, ?_, ?_⟩
        · have h1 := hown a
          have h2 := hown b
          rw [if_neg ha] at h1
          rw [if_neg hb] at h2
          rw [← h1, ← h2]; exact ho
        · have h1 := hown a
          rw [if_neg ha] at h1
          rw [← h1]; exact hne
  | refl a => exact Or.inl (Relation.EqvGen.refl _)
  | symm a b _ ih =>
    rcases ih with ih | ih
    · exact Or.inl (Relation.EqvGen.symm _ _ ih)
    · exact Or.inr ⟨ih.2, ih.1⟩
  | trans a b d _ _ ih1 ih2 =>
    rcases ih1 with ih1 | ih1
    · rcases ih2 with ih2 | ih2
      · exact Or.inl (Relation.EqvGen.trans _ _ _ ih1 ih2)
      · exact Or.inr ⟨htouch a b ih1 ih2.1, ih2.2⟩
    · rcases ih2 with ih2 | ih2
      · exact Or.inr ⟨ih1.1, htouch d b (Relation.EqvGen.symm _ _ ih2) ih1.2⟩
      · exact Or.inr ⟨ih1.1, ih2.2⟩

/-- On the board after the stone, every cell that touches `c` is connected to it. -/
theorem touch_connected {h w : Nat} {F F' : Nat → Nat → field_t} {pl : Nat}
    {c : Nat × Nat} (hc : InGrid h w c) (hemp : ownF F c = 0) (hpl : pl ≠ 0)
    (hown : ∀ p, ownF F' p = if p = c then pl else ownF F p) {p : Nat × Nat}
    (hp : Touch h w F pl c p) : Relation.EqvGen (Adj h w F') p c := by
  rcases hp with hp | ⟨n, h1, h2, h3, h4⟩
  · rw [hp]; exact Relation.EqvGen.refl _
  · have hnc : n ≠ c := fun e => h2.ne e.symm
    have e1 : Relation.EqvGen (Adj h w F') p n :=
      Relation.EqvGen.mono (adj_mono_insert hemp hown) h4
    have e2 : Adj h w F' n c := by
      refine ⟨h1, hc, h2.symm_adj, ?_, ?_⟩
      · rw [hown n, hown c, if_neg hnc, if_pos rfl]; exact h3
      · rw [hown n, if_neg hnc, h3]; exact hpl
    exact Relation.EqvGen.trans _ _ _ e1 (Relation.EqvGen.rel _ _ e2)

/-- A stone of `pl` put on the empty cell `c` merges the areas of `pl` that
touch `c` into one: if `D` holds one neighbour of `c` from each of them, the
number of trees of `pl` changes from `n` to `n + 1 - D.card`. -/
theorem touching_count {h w : Nat} {F F' : Nat → Nat → field_t} {pl : Nat} {c : Nat × Nat}
    (U : UF h w F (Adj h w F)) (U' : UF h w F' (Adj h w F'))
    (hc : InGrid h w c) (hemp : ownF F c = 0) (hpl : pl ≠ 0)
    (hown : ∀ p, ownF F' p = if p = c then pl else ownF F p)
    (D : Finset (Nat × Nat))
    (hD : ∀ d, d ∈ D → InGrid h w d ∧ Adjacent c d ∧ ownF F d = pl)
    (hsep : ∀ d, d ∈ D → ∀ e, e ∈ D → Relation.EqvGen (Adj h w F) d e → d = e)
    (hcov : ∀ n, InGrid h w n → Adjacent c n → ownF F n = pl →
      ∃ d, d ∈ D ∧ Relation.EqvGen (Adj h w F) n d) :
    nroots h w F' pl + D.card = nroots h w F pl + 1 := by
  classical
  let R := rootSet h w F pl
  let T := R.filter (fun r => ∃ d, d ∈ D ∧ Relation.EqvGen (Adj h w F) r d)
  have hTR : T ⊆ R := Finset.filter_subset _ _
  have hmemT : ∀ r, r ∈ T ↔ r ∈ R ∧ ∃ d, d ∈ D ∧ Relation.EqvGen (Adj h w F) r d := by
    intro r
    exact Finset.mem_filter
  -- the touched roots correspond to the elements of `D`
  have hTD : T.card = D.card := by
    apply Nat.le_antisymm
    · have hex : ∀ r, ∃ d, r ∈ T → d ∈ D ∧ Relation.EqvGen (Adj h w F) r d := by
        intro r
        by_cases hr : r ∈ T
        · obtain ⟨d, hd⟩ := ((hmemT r).1 hr).2
          exact ⟨d, fun _ => hd⟩
        · exact ⟨r, fun hh => absurd hh hr⟩
      choose f hf using hex
      apply Finset.card_le_card_of_injOn f
      · intro r hr
        exact (hf r hr).1
      · intro r1 h1 r2 h2 he
        have e1 := (hf r1 h1).2
        have e2 := (hf r2 h2).2
        simp only [he] at e1
        exact rootSet_sep U ((hmemT r1).1 h1).1 ((hmemT r2).1 h2).1
          (Relation.EqvGen.trans _ _ _ e1 (Relation.EqvGen.symm _ _ e2))
    · have hex : ∀ d, ∃ r, d ∈ D → r ∈ R ∧ Relation.EqvGen (Adj h w F) d r := by
        intro d
        by_cases hd : d ∈ D
        · obtain ⟨r, hr⟩ := rootSet_cov U (hD d hd).1 (hD d hd).2.2
          exact ⟨r, fun _ => hr⟩
        · exact ⟨d, fun hh => absurd hh hd⟩
      choose f hf using hex
      apply Finset.card_le_card_of_injOn f
      · intro d hd
        have := hf d hd
        exact (hmemT _).2 ⟨this.1, d, hd, Relation.EqvGen.symm _ _ this.2⟩
      · intro d1 h1 d2 h2 he
        have e1 := (hf d1 h1).2
        have e2 := (hf d2 h2).2
        simp only [he] at e1
        exact hsep d1 h1 d2 h2
          (Relation.EqvGen.trans _ _ _ e1 (Relation.EqvGen.symm _ _ e2))
  -- a touching cell of `R` lies in `T`
  have hRne : ∀ r, r ∈ R → r ≠ c := by
    intro r hr e
    have := (mem_rootSet.1 hr).2.1
    rw [e, hemp] at this
    exact hpl this.symm
  have htouchT : ∀ r, r ∈ R → Touch h w F pl c r → r ∈ T := by
    intro r hr ht
    rcases ht with ht | ⟨n, h1, h2, h3, h4⟩
    · exact absurd ht (hRne r hr)
    · obtain ⟨d, hd, hnd⟩ := hcov n h1 h2 h3
      exact (hmemT r).2 ⟨hr, d, hd, Relation.EqvGen.trans _ _ _ h4 hnd⟩
  have hcR : c ∉ R \ T := by
    intro hcm
    exact hRne c (Finset.mem_sdiff.1 hcm).1 rfl
  have hiso := adj_avoids_empty (h := h) (w := w) hemp
  have hnew : nroots h w F' pl = (insert c (R \ T)).card := by
    apply Nat.le_antisymm
    · apply nroots_le_card U'
      intro p hp ho
      by_cases hpc : p = c
      · exact ⟨c, Finset.mem_insert_self _ _, by rw [hpc]; exact Relation.EqvGen.refl _⟩
      · have hoF : ownF F p = pl := by
          have := hown p
          rw [if_neg hpc] at this
          rw [← this]; exact ho
        obtain ⟨r, hr, hpr⟩ := rootSet_cov U hp hoF
        by_cases hrT : r ∈ T
        · obtain ⟨d, hd, hrd⟩ := ((hmemT r).1 hrT).2
          have hdD := hD d hd
          refine ⟨c, Finset.mem_insert_self _ _, ?_⟩
          apply touch_connected hc hemp hpl hown
          exact Or.inr ⟨d, hdD.1, hdD.2.1, hdD.2.2, Relation.EqvGen.trans _ _ _ hpr hrd⟩
        · refine ⟨r, Finset.mem_insert_of_mem (Finset.mem_sdiff.2 ⟨hr, hrT⟩), ?_⟩
          exact Relation.EqvGen.mono (adj_mono_insert hemp hown) hpr
    · apply card_le_nroots U'
      · intro p hp
        rcases Finset.mem_insert.1 hp with hp | hp
        · rw [hp]
          refine ⟨hc, ?_⟩
          rw [hown c, if_pos rfl]
        · have hpR := (Finset.mem_sdiff.1 hp).1
          have := mem_rootSet.1 hpR
          refine ⟨this.1, ?_⟩
          rw [hown p, if_neg (hRne p hpR)]
          exact this.2.1
      · intro p hp q hq hpq
        have hcase := eqvGen_insert_cases hc hemp hown hpq
        rcases Finset.mem_insert.1 hp with hp | hp
        · rcases Finset.mem_insert.1 hq with hq | hq
          · rw [hp, hq]
          · exfalso
            have hq' := Finset.mem_sdiff.1 hq
            rcases hcase with h1 | h1
            · exact hRne q hq'.1 ((eqvGen_isolated hiso h1).1 hp)
            · exact hq'.2 (htouchT q hq'.1 h1.2)
        · have hp' := Finset.mem_sdiff.1 hp
          rcases Finset.mem_insert.1 hq with hq | hq
          · exfalso
            rcases hcase with h1 | h1
            · exact hRne p hp'.1 ((eqvGen_isolated hiso h1).2 hq)
            · exact hp'.2 (htouchT p hp'.1 h1.1)
          · have hq' := Finset.mem_sdiff.1 hq
            rcases hcase with h1 | h1
            · exact rootSet_sep U hp'.1 hq'.1 h1
            · exact absurd (htouchT p hp'.1 h1.1) hp'.2
  have h1 : (insert c (R \ T)).card = (R \ T).card + 1 := Finset.card_insert_of_not_mem hcR
  have h2 : (R \ T).card = R.card - T.card := Finset.card_sdiff hTR
  have h3 : T.card ≤ R.card := Finset.card_le_card hTR
  have h4 : nroots h w F pl = R.card := rfl
  omega

/-! ## Boards on which no area counter can wrap -/

theorem CapInv.counter {g : gamma_t} (C : CapInv g) (pl : Nat) (hpl : pl ≠ 0) :
    g.player_areas pl = nroots g.height g.width g.fields pl := by
  rw [C.inv.areas pl hpl]
  exact Nat.mod_eq_of_lt (lt_of_le_of_lt (C.cap pl hpl) C.alt)

theorem nbCond_set_field {g : gamma_t} {pl x y i : Nat} (h : nbCond g pl (y, x) i) :
    nbCond { g with fields := set_cell g.fields y x (set_field (g.fields y x) x y pl) }
      pl (y, x) i := by
  refine ⟨h.1, ?_⟩
  show ownF (set_cell g.fields y x (set_field (g.fields y x) x y pl)) (nbr (y, x) i) = pl
  rw [ownF_set_field]
  split
  · rfl
  · exact h.2

/-- The insertion of a token by a possible move keeps the bound on the areas. -/
theorem cap_insert {g : gamma_t} (C : CapInv g) {pl x y : Nat}
    (hmp : movie_possible (some g) pl x y = true) {F' : Nat → Nat → field_t} {u : Nat}
    (N : NbInv { g with fields := set_cell g.fields y x (set_field (g.fields y x) x y pl) }
      (Adj g.height g.width g.fields) pl (y, x) 4 F' u) :
    CapInv (inserted g pl F' u) := by
  obtain ⟨hpl, hple, hx, hy, hemp, hnb⟩ := (movie_possible_iff g pl x y).1 hmp
  have hc : InGrid g.height g.width (y, x) := ⟨hy, hx⟩
  obtain ⟨hI, _⟩ := inv_after_insert C.inv hc hemp hpl hple N
  obtain ⟨_, _, hr1, hr2, _, _⟩ := insert_post C.inv.hlt C.inv.wlt C.inv.uf hc hemp hpl N
  refine ⟨hI, C.alt, C.nowrap, ?_⟩
  intro q hq
  show nroots g.height g.width F' q ≤ g.areas
  by_cases hqp : q = pl
  · subst hqp
    have hcap := C.cap q hq
    by_cases hlt : nroots g.height g.width g.fields q < g.areas
    · omega
    · have heq : g.player_areas q = g.areas := by rw [C.counter q hq]; omega
      obtain ⟨i, hi, hcond⟩ := hnb heq
      have := nb_united_pos C.inv.hlt C.inv.wlt C.inv.uf hc hemp N
        ⟨i, hi, nbCond_set_field hcond⟩
      omega
  · rw [hr2 q hq hqp]
    exact C.cap q hq

theorem CapInv.used {g : gamma_t} (C : CapInv g) (gu : Nat → Bool) :
    CapInv { g with golden_used := gu } :=
  ⟨⟨C.inv.hlt, C.inv.wlt, C.inv.uf, C.inv.own_le, C.inv.areas, C.inv.fields, C.inv.fields0,
    C.inv.coords⟩, C.alt, C.nowrap, C.cap⟩

/-- The board after the rebuild, when the evicted player passed the limit check. -/
theorem cap_rebuilt {g : gamma_t} (C : CapInv g) {v x y : Nat} {g3 : gamma_t} (hv : v ≠ 0)
    (R : Rebuilt g v x y g3)
    (hle3 : nroots g.height g.width g3.fields v ≤ nroots g.height g.width g.fields v + 3)
    (hcheck : g3.player_areas v ≤ g3.areas) : CapInv g3 := by
  have hinv := R.inv
  have hnr := R.nr_other
  obtain ⟨F3, A, B, hg3⟩ := R.shape
  subst hg3
  refine ⟨hinv, C.alt, C.nowrap, ?_⟩
  intro q hq
  show nroots g.height g.width F3 q ≤ g.areas
  by_cases hqv : q = v
  · subst hqv
    have h1 := hinv.areas q hq
    have h1' : A q = nroots g.height g.width F3 q % 4294967296 := h1
    have h2 : A q ≤ g.areas := hcheck
    have h3 : nroots g.height g.width F3 q < 4294967296 := by
      rcases C.nowrap with hn | hn
      · have := C.cap q hq
        have hle3' : nroots g.height g.width F3 q
            ≤ nroots g.height g.width g.fields q + 3 := hle3
        omega
      · have := nroots_le_ncells g.height g.width F3 q
        have := ncells_le g.height g.width F3 q
        omega
    rw [Nat.mod_eq_of_lt h3] at h1'
    omega
  · have := hnr q hq hqv
    have h4 : nroots g.height g.width F3 q = nroots g.height g.width g.fields q := this
    rw [h4]
    exact C.cap q hq

theorem capInv_stable : Stable CapInv where
  move := by
    intro g pl x y C
    by_cases hmp : movie_possible (some g) pl x y = true
    · obtain ⟨F', u, h, N, _, _⟩ := gamma_move_ok C.inv hmp
      exact ⟨_, _, h, cap_insert C hmp N⟩
    · refine ⟨false, g, ?_, C⟩
      unfold gamma_move
      simp [hmp]
  golden := by
    intro g pl x y C
    rcases golden_move_cases C.inv pl x y with
      ⟨_, h⟩ | ⟨hrej, g3, R, hle3, ⟨_, g', h, hf⟩ | ⟨⟨hchk, hmp⟩, g', h, hok⟩⟩
    · exact ⟨_, _, h, C⟩
    · refine ⟨_, _, h, ?_⟩
      obtain ⟨F', hF'⟩ := hf.shape
      have hnr := hf.nr
      have hinv := hf.inv
      subst hF'
      refine ⟨hinv, C.alt, C.nowrap, ?_⟩
      intro q hq
      have := hnr q
      have h4 : nroots g.height g.width F' q = nroots g.height g.width g.fields q := this
      show nroots g.height g.width F' q ≤ g.areas
      rw [h4]
      exact C.cap q hq
    · refine ⟨_, _, h, ?_⟩
      have hv : (g.fields y x).owner ≠ 0 := by
        unfold golden_reject at hrej
        simp only [Bool.or_eq_false_iff, decide_eq_false_iff_not, EMPTY] at hrej
        exact hrej.1.1.2
      have C3 := cap_rebuilt C hv R hle3 hchk
      obtain ⟨F', u, N, hg'⟩ := hok.shape
      rw [hg']
      exact (cap_insert C3 hmp N).used _
  used := fun g gu C => C.used gu
  mem := fun g b C =>
    ⟨⟨C.inv.hlt, C.inv.wlt, C.inv.uf, C.inv.own_le, C.inv.areas, C.inv.fields, C.inv.fields0,
      C.inv.coords⟩, C.alt, C.nowrap, C.cap⟩

/-- The fresh board has no areas. -/
theorem gamma_new_capInv {width height players areas : Nat} {g : gamma_t}
    (hw : width < 4294967296) (hh : height < 4294967296) (ha : areas < 4294967296)
    (hn : areas + 3 < 4294967296 ∨ height * width < 4294967296)
    (hg : gamma_new width height players areas = some g) : CapInv g := by
  have I := gamma_new_inv hw hh hg
  unfold gamma_new at hg
  split at hg
  · exact absurd hg (by simp)
  · split at hg
    · exact absurd hg (by simp)
    · simp only [Option.some.injEq] at hg
      subst hg
      refine ⟨I, ha, hn, ?_⟩
      intro pl hpl
      have h1 := nroots_le_ncells height width (initialize_fields height width) pl
      have h2 := I.fields pl hpl
      have h3 : (0 : Nat) = ncells height width (initialize_fields height width) pl := h2
      show nroots height width (initialize_fields height width) pl ≤ areas
      omega

/-- Every sequence of public calls on a fresh board on which no counter can wrap
returns and ends on a board that satisfies the stronger invariant. -/
theorem reach_capInv (width height players areas : Nat)
    (hw : width < 4294967296) (hh : height < 4294967296) (ha : areas < 4294967296)
    (hn : areas + 3 < 4294967296 ∨ height * width < 4294967296) (calls : List Call) :
    ∃ s, run (gamma_new width height players areas) calls = some s ∧
      ∀ g, s = some g → CapInv g :=
  reach_stable capInv_stable (fun _ hg => gamma_new_capInv hw hh ha hn hg) calls

/-! ## A board on which an area counter wraps

The board has `3` rows and `2 ^ 32 - 1` columns, two players and the area limit
`2 ^ 32 - 3`.  Player 2 takes `2 ^ 32 - 4` pairwise non-adjacent cells in the
rows `0` and `2`, then the cell `(0, 1)`, which is its area number
`2 ^ 32 - 3`, and extends this last area by `(1, 1)`, `(2, 1)`, `(1, 0)` and
`(1, 2)`.  The golden move of player 1 on `(1, 1)` splits that area into four:
player 2 then has `2 ^ 32` areas and its 32-bit counter is `0`. -/

theorem run_append (s : Option gamma_t) (l1 l2 : List Call) :
    run s (l1 ++ l2) = (run s l1).bind (fun s' => run s' l2) := by
  unfold run
  rw [List.foldlM_append]
  rfl

theorem isoCalls_succ (k : Nat) :
    isoCalls (k + 1) = isoCalls k ++
      [Call.move 2 (4 + 2 * (k % 2147483646)) (2 * (k / 2147483646))] := by
  unfold isoCalls
  rw [List.range_succ, List.map_append]
  rfl

/-- A player whose cells are pairwise non-adjacent has as many trees as cells. -/
theorem nroots_eq_ncells_of_isolated {h w : Nat} {F : Nat → Nat → field_t}
    (U : UF h w F (Adj h w F)) {pl : Nat}
    (hiso : ∀ p q, Adjacent p q → ownF F p = pl → ownF F q = pl → False) :
    nroots h w F pl = ncells h w F pl := by
  apply Nat.le_antisymm (nroots_le_ncells h w F pl)
  unfold ncells
  apply card_le_nroots U
  · intro p hp
    exact mem_cellSet.1 hp
  · intro p hp q _ hpq
    have hp' := mem_cellSet.1 hp
    have hE : ∀ a b, Adj h w F a b → a ≠ p ∧ b ≠ p := by
      intro a b hab
      obtain ⟨_, _, hadj, ho, _⟩ := hab
      constructor
      · intro ha
        subst ha
        exact hiso a b hadj hp'.2 (ho ▸ hp'.2)
      · intro hb
        subst hb
        exact hiso a b hadj (ho.trans hp'.2) hp'.2
    exact ((eqvGen_isolated hE hpq).1 rfl).symm

/-- The counter of a player whose cells are pairwise non-adjacent is the number
of its cells modulo `2 ^ 32`. -/
theorem iso_counter {g : gamma_t} (I : Inv g) {pl : Nat} (hpl : pl ≠ 0)
    (hiso : ∀ p q, Adjacent p q → ownF g.fields p = pl → ownF g.fields q = pl → False) :
    g.player_areas pl = g.player_fields pl % 4294967296 := by
  rw [I.areas pl hpl, I.fields pl hpl, nroots_eq_ncells_of_isolated I.uf hiso]

/-- A possible move of player 2 on the tracked board. -/
theorem track_move {g : gamma_t} {O : Nat × Nat → Nat} {f : Nat} (T : Track g O f)
    {x y : Nat} (hx : x < 4294967295) (hy : y < 3) (hemp : O (y, x) = 0)
    (hcap : g.player_areas 2 = 4294967293 → ∃ i, i < 4 ∧ nbCond g 2 (y, x) i) :
    ∃ g', gamma_move (some g) 2 x y = some (true, some g') ∧
      Track g' (upd O (y, x) 2) (f + 1) := by
  have hmp : movie_possible (some g) 2 x y = true := by
    rw [movie_possible_iff]
    refine ⟨by decide, by rw [T.pl], by rw [T.w]; exact hx, by rw [T.h]; exact hy, ?_, ?_⟩
    · have := T.own (y, x)
      rw [hemp] at this
      exact this
    · intro hh
      rw [T.ar] at hh
      exact hcap hh
  obtain ⟨F', u, hm, _, _, _⟩ := gamma_move_ok T.inv hmp
  obtain ⟨g', u', hs', hI', _, hh, hw, ha, hp, hgu, hown, hpf, hpa, _⟩ :=
    gamma_move_frame T.inv hm
  refine ⟨g', by rw [hm, hs'], hI', by rw [hh, T.h], by rw [hw, T.w], by rw [hp, T.pl],
    by rw [ha, T.ar], ?_, ?_, ?_, by rw [hgu, T.gu]⟩
  · intro p
    rw [hown p]
    unfold upd
    split
    · rfl
    · exact T.own p
  · rw [hpf, set_at_apply, if_neg (by decide), T.pf1]
  · rw [hpf, set_at_apply, if_pos rfl, T.pf2]

theorem run_single (s : Option gamma_t) (c : Call) : run s [c] = call_state s c := by
  unfold run
  simp only [List.foldlM_cons, List.foldlM_nil]
  cases call_state s c <;> rfl

/-- One more call after a sequence of calls that ends on the board `g`. -/
theorem run_snoc {s0 : Option gamma_t} {l : List Call} {g : gamma_t}
    (hs : run s0 l = some (some g)) (c : Call) :
    run s0 (l ++ [c]) = call_state (some g) c := by
  rw [run_append, hs]
  exact run_single (some g) c

theorem call_move_true {g g' : gamma_t} {pl x y : Nat}
    (hm : gamma_move (some g) pl x y = some (true, some g')) :
    call_state (some g) (Call.move pl x y) = some (some g') := by
  show (gamma_move (some g) pl x y).map (fun r => r.2) = _
  rw [hm]
  rfl

theorem isoOwn_isolated (k : Nat) (p q : Nat × Nat) (hadj : Adjacent p q)
    (hp : isoOwn k p = 2) (hq : isoOwn k q = 2) : False := by
  unfold isoOwn at hp hq
  unfold Adjacent at hadj
  split at hp
  · split at hq
    · omega
    · exact absurd hq (by decide)
  · exact absurd hp (by decide)

theorem isoOwn_succ (k : Nat) (hk : k < 4294967292) :
    upd (isoOwn k) (2 * (k / 2147483646), 4 + 2 * (k % 2147483646)) 2 = isoOwn (k + 1) := by
  funext p
  obtain ⟨r, c⟩ := p
  simp only [upd, isoOwn, Prod.mk.injEq]
  split_ifs <;> first | rfl | (exfalso; omega)

theorem isoOwn_zero (p : Nat × Nat) : isoOwn 0 p = 0 := by
  unfold isoOwn
  split
  · omega
  · rfl

theorem gamma_new_some {width height players areas : Nat} {g : gamma_t}
    (hg : gamma_new width height players areas = some g) :
    g.height = height ∧ g.width = width ∧ g.players = players ∧ g.areas = areas ∧
      g.fields = initialize_fields height width ∧ (∀ q, g.player_areas q = 0) ∧
      (∀ q, g.player_fields q = 0) ∧ (∀ q, g.golden_used q = false) := by
  unfold gamma_new at hg
  split at hg
  · exact absurd hg (by simp)
  · split at hg
    · exact absurd hg (by simp)
    · simp only [Option.some.injEq] at hg
      subst hg
      exact ⟨rfl, rfl, rfl, rfl, rfl, fun _ => rfl, fun _ => rfl, fun _ => rfl⟩

theorem track_new : ∃ g, gamma_new 4294967295 3 2 4294967293 = some g ∧ Track g (isoOwn 0) 0 := by
  have hex : ∃ g, gamma_new 4294967295 3 2 4294967293 = some g := by
    simp [gamma_new, UINT32_MAX]
  obtain ⟨g, hg⟩ := hex
  refine ⟨g, hg, ?_⟩
  have I := gamma_new_inv (by norm_num) (by norm_num) hg
  obtain ⟨h1, h2, h3, h4, h5, _, h7, h8⟩ := gamma_new_some hg
  refine ⟨I, h1, h2, h3, h4, ?_, h7 1, h7 2, h8 1⟩
  intro p
  rw [h5, isoOwn_zero]
  exact ownF_init_fields _ _ p

/-- The board after the first `k` isolated stones of player 2. -/
theorem track_iso (k : Nat) (hk : k ≤ 4294967292) :
    ∃ g, run (gamma_new 4294967295 3 2 4294967293) (isoCalls k) = some (some g) ∧
      Track g (isoOwn k) k := by
  induction k with
  | zero =>
    obtain ⟨g, hg, T⟩ := track_new
    refine ⟨g, ?_, T⟩
    rw [hg]
    rfl
  | succ k ih =>
    obtain ⟨g, hrun, T⟩ := ih (by omega)
    have hcnt : g.player_areas 2 = k := by
      rw [iso_counter T.inv (by decide), T.pf2]
      · omega
      · intro p q hadj hp hq
        rw [T.own] at hp hq
        exact isoOwn_isolated k p q hadj hp hq
    obtain ⟨g', hm, T'⟩ := track_move T
      (x := 4 + 2 * (k % 2147483646)) (y := 2 * (k / 2147483646))
      (by omega) (by omega)
      (by unfold isoOwn; split
          · omega
          · rfl)
      (by intro h; omega)
    refine ⟨g', ?_, ?_⟩
    · rw [isoCalls_succ, run_snoc hrun]
      exact call_move_true hm
    · rw [isoOwn_succ k (by omega)] at T'
      exact T'

theorem run_cons (s : Option gamma_t) (c : Call) (l : List Call) :
    run s (c :: l) = (call_state s c).bind (fun s' => run s' l) := by
  unfold run
  rw [List.foldlM_cons]
  rfl

/-- The cells of player 2 on the grid without the centre of the cross. -/
theorem splitOwn_two {p : Nat × Nat} (hp : splitOwn p = 2) :
    ((p.1 = 0 ∨ p.1 = 2) ∧ 4 ≤ p.2 ∧ p.2 % 2 = 0) ∨
      p = (0, 1) ∨ p = (2, 1) ∨ p = (1, 0) ∨ p = (1, 2) := by
  obtain ⟨r, c⟩ := p
  simp only [splitOwn, armsOwn, upd, isoOwn, Prod.mk.injEq] at hp ⊢
  split_ifs at hp <;> omega

theorem wrapOwn_two {p : Nat × Nat} (hp : wrapOwn p = 2) : splitOwn p = 2 := by
  unfold wrapOwn upd at hp
  split at hp
  · exact absurd hp (by decide)
  · exact hp

theorem splitOwn_isolated (p q : Nat × Nat) (hadj : Adjacent p q)
    (hp : splitOwn p = 2) (hq : splitOwn q = 2) : False := by
  have h1 := splitOwn_two hp
  have h2 := splitOwn_two hq
  obtain ⟨r, c⟩ := p
  obtain ⟨r', c'⟩ := q
  simp only [Prod.mk.injEq] at h1 h2
  unfold Adjacent at hadj
  simp only at hadj
  omega

theorem wrapOwn_isolated (p q : Nat × Nat) (hadj : Adjacent p q)
    (hp : wrapOwn p = 2) (hq : wrapOwn q = 2) : False :=
  splitOwn_isolated p q hadj (wrapOwn_two hp) (wrapOwn_two hq)

/-- The board after player 2 has built its position. -/
theorem track_arms :
    ∃ g, run (gamma_new 4294967295 3 2 4294967293)
        (isoCalls 4294967292 ++ [Call.move 2 1 0, Call.move 2 1 1, Call.move 2 1 2,
          Call.move 2 0 1, Call.move 2 2 1]) = some (some g) ∧
      Track g armsOwn 4294967297 := by
  obtain ⟨g0, hrun, T0⟩ := track_iso 4294967292 (le_refl _)
  have hcnt : g0.player_areas 2 = 4294967292 := by
    rw [iso_counter T0.inv (by decide), T0.pf2]
    intro p q hadj hp hq
    rw [T0.own] at hp hq
    exact isoOwn_isolated _ p q hadj hp hq
  obtain ⟨g1, hm1, T1⟩ := track_move T0 (x := 1) (y := 0) (by norm_num) (by norm_num)
    (by decide) (by intro h; omega)
  obtain ⟨g2, hm2, T2⟩ := track_move T1 (x := 1) (y := 1) (by norm_num) (by norm_num)
    (by decide)
    (fun _ => ⟨3, by norm_num, by
      have hn : nbr (1, 1) 3 = (0, 1) := by decide
      refine ⟨?_, ?_⟩
      · rw [hn, T1.h, T1.w]; exact ⟨by norm_num, by norm_num⟩
      · rw [hn, T1.own]; decide⟩)
  obtain ⟨g3, hm3, T3⟩ := track_move T2 (x := 1) (y := 2) (by norm_num) (by norm_num)
    (by decide)
    (fun _ => ⟨3, by norm_num, by
      have hn : nbr (2, 1) 3 = (1, 1) := by decide
      refine ⟨?_, ?_⟩
      · rw [hn, T2.h, T2.w]; exact ⟨by norm_num, by norm_num⟩
      · rw [hn, T2.own]; decide⟩)
  obtain ⟨g4, hm4, T4⟩ := track_move T3 (x := 0) (y := 1) (by norm_num) (by norm_num)
    (by decide)
    (fun _ => ⟨0, by norm_num, by
      have hn : nbr (1, 0) 0 = (1, 1) := by decide
      refine ⟨?_, ?_⟩
      · rw [hn, T3.h, T3.w]; exact ⟨by norm_num, by norm_num⟩
      · rw [hn, T3.own]; decide⟩)
  obtain ⟨g5, hm5, T5⟩ := track_move T4 (x := 2) (y := 1) (by norm_num) (by norm_num)
    (by decide)
    (fun _ => ⟨1, by norm_num, by
      have hn : nbr (1, 2) 1 = (1, 1) := by decide
      refine ⟨?_, ?_⟩
      · rw [hn, T4.h, T4.w]; exact ⟨by norm_num, by norm_num⟩
      · rw [hn, T4.own]; decide⟩)
  refine ⟨g5, ?_, T5⟩
  rw [run_append, hrun]
  show run (some g0) _ = _
  rw [run_cons, call_move_true hm1]
  show run (some g1) _ = _
  rw [run_cons, call_move_true hm2]
  show run (some g2) _ = _
  rw [run_cons, call_move_true hm3]
  show run (some g3) _ = _
  rw [run_cons, call_move_true hm4]
  show run (some g4) _ = _
  rw [run_cons, call_move_true hm5]
  rfl

/-- The golden move of player 1 on the centre of the cross succeeds and leaves
the area counter of player 2 at `0`. -/
theorem golden_wraps {g : gamma_t} (T : Track g armsOwn 4294967297) :
    ∃ g', gamma_golden_move (some g) 1 1 1 = some (true, some g') ∧ Wrapped g' := by
  have I := T.inv
  have hown11 : (g.fields 1 1).owner = 2 := by
    have := T.own (1, 1)
    rw [show armsOwn (1, 1) = 2 by decide] at this
    exact this
  have hogp : old_golden_possible (some g) 1 = true := by
    unfold old_golden_possible
    simp only [EMPTY, T.pl, T.gu]
    rw [if_neg (by simp)]
    rw [List.any_eq_true]
    exact ⟨2, by simp, by simp [T.pf2]⟩
  have hrej : golden_reject g 1 1 1 = false := by
    unfold golden_reject
    simp [hogp, good_coords, T.h, T.w, hown11, EMPTY, T.gu]
  rcases golden_move_cases I 1 1 1 with ⟨hr, _⟩ | ⟨_, g3, R, _, hcases⟩
  · rw [hrej] at hr
    exact absurd hr (by simp)
  rw [hown11] at R hcases
  have hI3 := R.inv
  have hown3 : ∀ p, ownF g3.fields p = splitOwn p := by
    intro p
    rw [R.own p]
    unfold splitOwn upd
    split
    · rfl
    · exact T.own p
  have hpf3 : g3.player_fields 2 = 4294967296 := by
    have := R.pf
    rw [T.pf2] at this
    omega
  have hshape : g3.height = 3 ∧ g3.width = 4294967295 ∧ g3.players = 2 ∧
      g3.areas = 4294967293 ∧ g3.golden_used = g.golden_used := by
    obtain ⟨F3, A, B, hg3⟩ := R.shape
    rw [hg3]
    exact ⟨T.h, T.w, T.pl, T.ar, rfl⟩
  obtain ⟨h3h, h3w, h3p, h3a, _⟩ := hshape
  have hpa3 : g3.player_areas 2 = 0 := by
    rw [iso_counter hI3 (by decide), hpf3]
    intro p q hadj hp hq
    rw [hown3] at hp hq
    exact splitOwn_isolated p q hadj hp hq
  have hpa1 : g3.player_areas 1 = 0 := by
    rw [R.pa_other 1 (by decide), I.areas 1 (by decide)]
    have h1 := nroots_le_ncells g.height g.width g.fields 1
    have h2 := I.fields 1 (by decide)
    rw [T.pf1] at h2
    have h3 : nroots g.height g.width g.fields 1 = 0 := by omega
    rw [h3]
  have hemp3 : (g3.fields 1 1).owner = 0 := by
    have := hown3 (1, 1)
    rw [show splitOwn (1, 1) = 0 by decide] at this
    exact this
  have hmp3 : movie_possible (some g3) 1 1 1 = true := by
    rw [movie_possible_iff]
    refine ⟨by decide, by rw [h3p]; norm_num, by rw [h3w]; norm_num, by rw [h3h]; norm_num,
      hemp3, ?_⟩
    intro hh
    rw [hpa1, h3a] at hh
    exact absurd hh (by norm_num)
  rcases hcases with ⟨hbad, _⟩ | ⟨_, g', hgm, hok⟩
  · exfalso
    rcases hbad with hbad | hbad
    · rw [hpa3] at hbad
      exact absurd hbad (by omega)
    · rw [hmp3] at hbad
      exact absurd hbad (by simp)
  refine ⟨g', hgm, ?_⟩
  have hI' := hok.inv
  obtain ⟨F', u, N, hg'⟩ := hok.shape
  have hc : InGrid g3.height g3.width (1, 1) := by
    rw [h3h, h3w]; exact ⟨by norm_num, by norm_num⟩
  obtain ⟨_, hownF', _, _, _, _⟩ :=
    insert_post hI3.hlt hI3.wlt hI3.uf hc hemp3 (by decide : (1 : Nat) ≠ 0) N
  subst hg'
  refine ⟨hI', h3h, h3w, h3p, h3a, ?_, ?_, ?_⟩
  · intro p
    show ownF F' p = wrapOwn p
    rw [hownF' p]
    unfold wrapOwn upd
    split
    · rfl
    · exact hown3 p
  · show set_at g3.player_areas 1 (areas_after (g3.player_areas 1) u) 2 = 0
    rw [set_at_apply, if_neg (by decide)]
    exact hpa3
  · show set_at g3.player_fields 1 ((g3.player_fields 1 + 1) % 2 ^ 64) 2 = 4294967296
    rw [set_at_apply, if_neg (by decide)]
    exact hpf3

theorem call_golden_true {g g' : gamma_t} {pl x y : Nat}
    (hm : gamma_golden_move (some g) pl x y = some (true, some g')) :
    call_state (some g) (Call.golden_move pl x y) = some (some g') := by
  show (gamma_golden_move (some g) pl x y).map (fun r => r.2) = _
  rw [hm]
  rfl

theorem isoCalls_assoc (l1 l2 : List Call) (c : Call) : l1 ++ (l2 ++ [c]) = (l1 ++ l2) ++ [c] :=
  (List.append_assoc l1 l2 [c]).symm

/-- The calls `wrapCalls` return and end on the board with the wrapped counter. -/
theorem wrapped_reach :
    ∃ g, run (gamma_new 4294967295 3 2 4294967293) wrapCalls = some (some g) ∧ Wrapped g := by
  obtain ⟨g5, hrun, T5⟩ := track_arms
  obtain ⟨g', hgm, W⟩ := golden_wraps T5
  refine ⟨g', ?_, W⟩
  have hsplit : wrapCalls = (isoCalls 4294967292 ++ [Call.move 2 1 0, Call.move 2 1 1,
      Call.move 2 1 2, Call.move 2 0 1, Call.move 2 2 1]) ++ [Call.golden_move 1 1 1] := by
    unfold wrapCalls
    rw [← isoCalls_assoc]
    rfl
  rw [hsplit, run_snoc hrun]
  exact call_golden_true hgm

/-- A cell of a player whose cells are pairwise non-adjacent is connected to
itself only. -/
theorem isolated_eqv {h w : Nat} {F : Nat → Nat → field_t} {pl : Nat}
    (hiso : ∀ p q, Adjacent p q → ownF F p = pl → ownF F q = pl → False)
    {p q : Nat × Nat} (hp : ownF F p = pl) (hpq : Relation.EqvGen (Adj h w F) p q) :
    p = q := by
  have hE : ∀ a b, Adj h w F a b → a ≠ p ∧ b ≠ p := by
    intro a b hab
    obtain ⟨_, _, hadj, ho, _⟩ := hab
    constructor
    · intro ha
      subst ha
      exact hiso a b hadj hp (ho ▸ hp)
    · intro hb
      subst hb
      exact hiso a b hadj (ho.trans hp) hp
  exact ((eqvGen_isolated hE hpq).1 rfl).symm

/-- A set of representatives of the areas of `q` has as many elements as `q`
has trees in the forest. -/
theorem areaReps_card {g : gamma_t} (I : Inv g) {q : Nat} {R : Finset (Nat × Nat)}
    (hR : AreaReps g q R) : R.card = nroots g.height g.width g.fields q := by
  obtain ⟨h1, h2, h3⟩ := hR
  apply Nat.le_antisymm
  · apply card_le_nroots I.uf
    · intro p hp
      exact h1 p hp
    · intro p hp r hr hpr
      exact h2 p hp r hr (eqvGen_iff_path.1 hpr)
  · apply nroots_le_card I.uf
    intro p hp ho
    obtain ⟨d, hd, hpd⟩ := h3 p hp ho
    exact ⟨d, hd, eqvGen_iff_path.2 hpd⟩

/-- On every board reached from `gamma_new`, the area counter of a player is
the number of its areas modulo `2 ^ 32`. -/
theorem counter_mod_areas (width height players areas : Nat)
    (hw : width < 4294967296) (hh : height < 4294967296) (calls : List Call) :
    ∃ s, run (gamma_new width height players areas) calls = some s ∧
      ∀ g, s = some g → ∀ q, 1 ≤ q → ∀ R, AreaReps g q R →
        g.player_areas q = R.card % 4294967296 := by
  obtain ⟨s, hs, hI⟩ := reach_inv width height players areas hw hh calls
  refine ⟨s, hs, fun g hg q hq R hR => ?_⟩
  rw [areaReps_card (hI g hg) hR]
  exact (hI g hg).areas q (by omega)

/-- When no counter can wrap (the limit is at most `2 ^ 32 - 4` or the board has
fewer than `2 ^ 32` cells), every area counter is at most the limit. -/
theorem areas_le_limit_of_noWrap (width height players areas : Nat)
    (hw : width < 4294967296) (hh : height < 4294967296) (ha : areas < 4294967296)
    (hn : areas + 3 < 4294967296 ∨ height * width < 4294967296) (calls : List Call) :
    ∃ s, run (gamma_new width height players areas) calls = some s ∧
      ∀ g, s = some g → ∀ q, 1 ≤ q → q ≤ g.players → g.player_areas q ≤ g.areas := by
  obtain ⟨s, hs, hC⟩ := reach_capInv width height players areas hw hh ha hn calls
  refine ⟨s, hs, fun g hg q hq _ => ?_⟩
  have C := hC g hg
  rw [C.counter q (by omega)]
  exact C.cap q (by omega)

/-- When no counter can wrap, every area counter is the number of areas of the
player, counted on the owner grid. -/
theorem areas_count_of_noWrap (width height players areas : Nat)
    (hw : width < 4294967296) (hh : height < 4294967296) (ha : areas < 4294967296)
    (hn : areas + 3 < 4294967296 ∨ height * width < 4294967296) (calls : List Call) :
    ∃ s, run (gamma_new width height players areas) calls = some s ∧
      ∀ g, s = some g → ∀ q, 1 ≤ q → q ≤ g.players → ∀ R, AreaReps g q R →
        g.player_areas q = R.card := by
  obtain ⟨s, hs, hC⟩ := reach_capInv width height players areas hw hh ha hn calls
  refine ⟨s, hs, fun g hg q hq _ R hR => ?_⟩
  have C := hC g hg
  rw [C.counter q (by omega), areaReps_card C.inv hR]

/-- The update of the area counter by a successful move, in terms of the areas
that the new cell touches. -/
theorem move_counter_update {g : gamma_t} (I : Inv g) {pl x y : Nat} {s' : Option gamma_t}
    (h : gamma_move (some g) pl x y = some (true, s')) :
    ∃ g', s' = some g' ∧ Inv g' ∧ ∀ D, TouchReps g pl x y D →
      D.card ≤ 4 ∧
      g'.player_areas pl = (g.player_areas pl + 1 + 4294967296 - D.card) % 4294967296 ∧
      nroots g.height g.width g'.fields pl + D.card
        = nroots g.height g.width g.fields pl + 1 := by
  obtain ⟨g0, hg0, hmp⟩ := gamma_move_true_inv h
  simp only [Option.some.injEq] at hg0
  subst hg0
  obtain ⟨hpl, _, hx, hy, hemp, _⟩ := (movie_possible_iff _ pl x y).1 hmp
  obtain ⟨g', u, hs', hI', hu4, hh, hw, _, _, _, hown, _, hpa, hnr⟩ := gamma_move_frame I h
  refine ⟨g', hs', hI', fun D hD => ?_⟩
  have U' := hI'.uf
  rw [hh, hw] at U'
  obtain ⟨d1, d2, d3⟩ := hD
  have hcount := touching_count I.uf U' (c := (y, x)) ⟨hy, hx⟩ hemp hpl hown D d1
    (fun d hd e he hde => d2 d hd e he (eqvGen_iff_path.1 hde))
    (fun n hn hadj ho => by
      obtain ⟨d, hd, hnd⟩ := d3 n hn hadj ho
      exact ⟨d, hd, eqvGen_iff_path.2 hnd⟩)
  have hu : u = D.card := by omega
  subst hu
  refine ⟨hu4, ?_, hcount⟩
  rw [hpa, set_at_apply, if_pos rfl]
  rfl

/-- On the board with the wrapped counter, the cells of player 2 are one cell
of each of its `2 ^ 32` areas. -/
theorem wrapped_reps {g : gamma_t} (W : Wrapped g) :
    AreaReps g 2 (cellSet g.height g.width g.fields 2) ∧
      (cellSet g.height g.width g.fields 2).card = 4294967296 := by
  have hiso : ∀ p q, Adjacent p q → ownF g.fields p = 2 → ownF g.fields q = 2 → False := by
    intro p q hadj hp hq
    rw [W.own] at hp hq
    exact wrapOwn_isolated p q hadj hp hq
  refine ⟨⟨?_, ?_, ?_⟩, ?_⟩
  · intro c hc
    exact mem_cellSet.1 hc
  · intro c hc d _ hcd
    exact isolated_eqv hiso (mem_cellSet.1 hc).2 (eqvGen_iff_path.2 hcd)
  · intro c hc ho
    exact ⟨c, mem_cellSet.2 ⟨hc, ho⟩, Relation.ReflTransGen.refl⟩
  · have := W.inv.fields 2 (by decide)
    rw [W.pf2] at this
    exact this.symm

/-- The two neighbours of `(0, 5)` that player 2 owns lie in two areas. -/
theorem wrapped_touch {g : gamma_t} (W : Wrapped g) :
    TouchReps g 2 5 0 {(0, 4), (0, 6)} := by
  have hiso : ∀ p q, Adjacent p q → ownF g.fields p = 2 → ownF g.fields q = 2 → False := by
    intro p q hadj hp hq
    rw [W.own] at hp hq
    exact wrapOwn_isolated p q hadj hp hq
  have h4 : ownF g.fields (0, 4) = 2 := by rw [W.own]; decide
  have h6 : ownF g.fields (0, 6) = 2 := by rw [W.own]; decide
  refine ⟨?_, ?_, ?_⟩
  · intro d hd
    rw [W.h, W.w]
    simp only [Finset.mem_insert, Finset.mem_singleton] at hd
    rcases hd with hd | hd
    · subst hd
      exact ⟨⟨by norm_num, by norm_num⟩, by decide, h4⟩
    · subst hd
      exact ⟨⟨by norm_num, by norm_num⟩, by decide, h6⟩
  · intro d hd e _ hde
    simp only [Finset.mem_insert, Finset.mem_singleton] at hd
    have hod : ownF g.fields d = 2 := by
      rcases hd with hd | hd
      · rw [hd]; exact h4
      · rw [hd]; exact h6
    exact isolated_eqv hiso hod (eqvGen_iff_path.2 hde)
  · intro n _ hadj ho
    have ho' : wrapOwn n = 2 := by rw [← W.own]; exact ho
    have h2 := splitOwn_two (wrapOwn_two ho')
    have hn : n = (0, 4) ∨ n = (0, 6) := by
      obtain ⟨r, c⟩ := n
      unfold Adjacent at hadj
      simp only [Prod.mk.injEq] at h2 hadj ⊢
      omega
    refine ⟨n, ?_, Relation.ReflTransGen.refl⟩
    simp only [Finset.mem_insert, Finset.mem_singleton]
    exact hn

/-- On the board with the wrapped counter, the move of player 2 to `(0, 5)`
joins two areas and sets the counter to `2 ^ 32 - 1`. -/
theorem bridge_move {g : gamma_t} (W : Wrapped g) :
    ∃ g', gamma_move (some g) 2 5 0 = some (true, some g') ∧ g'.players = 2 ∧
      g'.areas = 4294967293 ∧ g'.player_areas 2 = 4294967295 := by
  have hmp : movie_possible (some g) 2 5 0 = true := by
    rw [movie_possible_iff]
    refine ⟨by decide, by rw [W.pl], by rw [W.w]; norm_num, by rw [W.h]; norm_num, ?_, ?_⟩
    · have := W.own (0, 5)
      rw [show wrapOwn (0, 5) = 0 by decide] at this
      exact this
    · intro hh
      rw [W.pa2, W.ar] at hh
      exact absurd hh (by norm_num)
  obtain ⟨F', u, hm, _, _, _⟩ := gamma_move_ok W.inv hmp
  obtain ⟨g', u', hs', _, _, _, _, ha, hp, _, _, _, _, _⟩ := gamma_move_frame W.inv hm
  obtain ⟨g'', hs'', _, hD⟩ := move_counter_update W.inv hm
  rw [hs'] at hs''
  simp only [Option.some.injEq] at hs''
  subst hs''
  obtain ⟨_, hpa, _⟩ := hD _ (wrapped_touch W)
  refine ⟨g', by rw [hm, hs'], by rw [hp, W.pl], by rw [ha, W.ar], ?_⟩
  rw [hpa, W.pa2]
  decide

/-- A finite set has a subset whose elements are pairwise unrelated and which
holds, for every element of the set, an element related to it. -/
theorem exists_reps {α : Type} [DecidableEq α] (r : α → α → Prop)
    (hrefl : ∀ a, r a a) (hsymm : ∀ a b, r a b → r b a) (S : Finset α) :
    ∃ D, D ⊆ S ∧ (∀ d, d ∈ D → ∀ e, e ∈ D → r d e → d = e) ∧
      (∀ n, n ∈ S → ∃ d, d ∈ D ∧ r n d) := by
  classical
  induction S using Finset.induction_on with
  | empty =>
    exact ⟨∅, Finset.Subset.refl _, fun d hd => absurd hd (Finset.not_mem_empty d),
      fun n hn => absurd hn (Finset.not_mem_empty n)⟩
  | insert ha ih =>
    rename_i a S
    obtain ⟨D, hDS, hsep, hcov⟩ := ih
    by_cases hex : ∃ d, d ∈ D ∧ r a d
    · refine ⟨D, fun d hd => Finset.mem_insert_of_mem (hDS hd), hsep, ?_⟩
      intro n hn
      rcases Finset.mem_insert.1 hn with hn | hn
      · rw [hn]; exact hex
      · exact hcov n hn
    · refine ⟨insert a D, Finset.insert_subset_insert a hDS, ?_, ?_⟩
      · intro d hd e he hde
        rcases Finset.mem_insert.1 hd with hd | hd
        · rcases Finset.mem_insert.1 he with he | he
          · rw [hd, he]
          · exact absurd ⟨e, he, hd ▸ hde⟩ hex
        · rcases Finset.mem_insert.1 he with he | he
          · exact absurd ⟨d, hd, hsymm _ _ (he ▸ hde)⟩ hex
          · exact hsep d hd e he hde
      · intro n hn
        rcases Finset.mem_insert.1 hn with hn | hn
        · exact ⟨a, Finset.mem_insert_self a D, hn ▸ hrefl a⟩
        · obtain ⟨d, hd, hnd⟩ := hcov n hn
          exact ⟨d, Finset.mem_insert_of_mem hd, hnd⟩

/-- The areas of a player that touch a cell of the board have a set of
representatives among the neighbours of the cell. -/
theorem touchReps_exists (g : gamma_t) (pl x y : Nat) : ∃ D, TouchReps g pl x y D := by
  classical
  let S : Finset (Nat × Nat) := (gridSet g.height g.width).filter
    (fun n => Adjacent (y, x) n ∧ (g.fields n.1 n.2).owner = pl)
  have hS : ∀ n, n ∈ S ↔ InGrid g.height g.width n ∧ Adjacent (y, x) n ∧
      (g.fields n.1 n.2).owner = pl := by
    intro n
    simp only [S, Finset.mem_filter, mem_gridSet]
  obtain ⟨D, hDS, hsep, hcov⟩ := exists_reps
    (Relation.ReflTransGen (Adj g.height g.width g.fields))
    (fun _ => Relation.ReflTransGen.refl)
    (fun a b hab => eqvGen_iff_path.1 (Relation.EqvGen.symm _ _ (eqvGen_iff_path.2 hab))) S
  refine ⟨D, fun d hd => (hS d).1 (hDS hd), hsep, ?_⟩
  intro n hn hadj ho
  exact hcov n ((hS n).2 ⟨hn, hadj, ho⟩)

/-- The roots of the trees of a player are one cell of each of its areas. -/
theorem areaReps_rootSet {g : gamma_t} (I : Inv g) (q : Nat) :
    AreaReps g q (rootSet g.height g.width g.fields q) := by
  refine ⟨?_, ?_, ?_⟩
  · intro c hc
    have := mem_rootSet.1 hc
    exact ⟨this.1, this.2.1⟩
  · intro c hc d hd hcd
    exact rootSet_sep I.uf hc hd (eqvGen_iff_path.2 hcd)
  · intro c hc ho
    obtain ⟨r, hr, hcr⟩ := rootSet_cov I.uf hc ho
    exact ⟨r, hr, eqvGen_iff_path.1 hcr⟩

/-- C1 fails on a board of `3` rows and `2 ^ 32 - 1` columns with two players
and the area limit `2 ^ 32 - 3`: after the calls `wrapCalls`, which bring
player 2 to `2 ^ 32` single-cell areas with the 32-bit counter wrapped to `0`,
the move of player 2 to `(x, y) = (5, 0)` joins two of these areas, and
`player_areas[2]` is `2 ^ 32 - 1`, above the limit `areas = 2 ^ 32 - 3`. -/
theorem C1_area_counter_exceeds_limit :
    ∃ g, run (gamma_new 4294967295 3 2 4294967293) (wrapCalls ++ [Call.move 2 5 0])
        = some (some g) ∧
      g.players = 2 ∧ g.areas = 4294967293 ∧ g.player_areas 2 = 4294967295 ∧
      ¬ g.player_areas 2 ≤ g.areas := by
  obtain ⟨g, hrun, W⟩ := wrapped_reach
  obtain ⟨g', hm, hp, ha, hpa⟩ := bridge_move W
  refine ⟨g', ?_, hp, ha, hpa, ?_⟩
  · rw [run_snoc hrun]
    exact call_move_true hm
  · rw [hpa, ha]
    norm_num

/-- C2 fails on a board of `3` rows and `2 ^ 32 - 1` columns with two players
and the area limit `2 ^ 32 - 3`: after the calls `wrapCalls` (player 2 takes
`2 ^ 32 - 4` isolated cells and a cross of five cells, then player 1 makes a
golden move on the centre of the cross) player 2 has `2 ^ 32` areas, one for
each cell of the set `R`, and `player_areas[2]` is `0`. -/
theorem C2_area_counter_wraps :
    ∃ g R, run (gamma_new 4294967295 3 2 4294967293) wrapCalls = some (some g) ∧
      g.players = 2 ∧ AreaReps g 2 R ∧ R.card = 4294967296 ∧ g.player_areas 2 = 0 := by
  obtain ⟨g, hrun, W⟩ := wrapped_reach
  obtain ⟨hR, hcard⟩ := wrapped_reps W
  exact ⟨g, _, hrun, W.pl, hR, hcard, W.pa2⟩

/-- C9 fails on a board of `3` rows and `2 ^ 32 - 1` columns with two players
and the area limit `2 ^ 32 - 3`: after the calls `wrapCalls` player 2 has
`2 ^ 32` areas and the 32-bit counter `player_areas[2]` has wrapped to `0`; the
move of player 2 to `(x, y) = (5, 0)` returns `true` and bridges `d = 2` areas,
those of the cells `(0, 4)` and `(0, 6)`, and the new counter is `2 ^ 32 - 1`,
not `old + 1 - d`. -/
theorem C9_update_from_wrapped_counter :
    ∃ g g', run (gamma_new 4294967295 3 2 4294967293) wrapCalls = some (some g) ∧
      gamma_move (some g) 2 5 0 = some (true, some g') ∧
      TouchReps g 2 5 0 {(0, 4), (0, 6)} ∧
      g.player_areas 2 = 0 ∧ g'.player_areas 2 = 4294967295 := by
  obtain ⟨g, hrun, W⟩ := wrapped_reach
  obtain ⟨g', hm, _, _, hpa⟩ := bridge_move W
  exact ⟨g, g', hrun, hm, wrapped_touch W, W.pa2, hpa⟩

/-- The counter update of a successful `gamma_move` where the counter has not
wrapped. When `gamma_move(g, player, x, y)` returns `true` on a board reached
from `gamma_new` by public calls, let `D` hold one neighbour of `(x, y)` from
each area of `player` that contains a 4-neighbour of `(x, y)` before the move
(such a set exists), and let `d` be its number of elements. Then `d ≤ 4`, the
code stores `(old + 1 + 2 ^ 32 - d) % 2 ^ 32`, and this is the integer
`old + 1 - d` whenever that number lies in the range `0 .. 2 ^ 32 - 1`. -/
theorem move_counter_in_range (width height players areas : Nat)
    (hw : width < 4294967296) (hh : height < 4294967296) (calls : List Call) :
    ∃ s, run (gamma_new width height players areas) calls = some s ∧
      ∀ player x y s', gamma_move s player x y = some (true, s') →
        ∃ g g', s = some g ∧ s' = some g' ∧
          (∃ D, TouchReps g player x y D) ∧
          ∀ D, TouchReps g player x y D →
            D.card ≤ 4 ∧
            g'.player_areas player
              = (g.player_areas player + 1 + 4294967296 - D.card) % 4294967296 ∧
            (D.card ≤ g.player_areas player + 1 →
              g.player_areas player + 1 - D.card < 4294967296 →
              g'.player_areas player + D.card = g.player_areas player + 1) := by
  obtain ⟨s, hs, hI⟩ := reach_inv width height players areas hw hh calls
  refine ⟨s, hs, fun player x y s' hm => ?_⟩
  obtain ⟨g, hg, _⟩ := gamma_move_true_inv hm
  subst hg
  obtain ⟨g', hs', _, hD⟩ := move_counter_update (hI g rfl) hm
  refine ⟨g, g', rfl, hs', touchReps_exists g player x y, fun D hDr => ?_⟩
  obtain ⟨h4, hpa, _⟩ := hD D hDr
  refine ⟨h4, hpa, fun h1 h2 => ?_⟩
  rw [hpa]
  omega

theorem move_counter_in_range_example :
    ∃ s, run (gamma_new 3 2 2 2) [Call.move 1 0 0, Call.move 1 2 0] = some s ∧
      ∀ player x y s', gamma_move s player x y = some (true, s') →
        ∃ g g', s = some g ∧ s' = some g' ∧
          (∃ D, TouchReps g player x y D) ∧
          ∀ D, TouchReps g player x y D →
            D.card ≤ 4 ∧
            g'.player_areas player
              = (g.player_areas player + 1 + 4294967296 - D.card) % 4294967296 ∧
            (D.card ≤ g.player_areas player + 1 →
              g.player_areas player + 1 - D.card < 4294967296 →
              g'.player_areas player + D.card = g.player_areas player + 1) :=
  move_counter_in_range 3 2 2 2 (by norm_num) (by norm_num) _

/-! ## What depends on the owners only -/

theorem ownF_del_cell (g : gamma_t) (x y : Nat) (p : Nat × Nat) :
    ownF (del_cell g x y).fields p = if p = (y, x) then 0 else ownF g.fields p := by
  unfold del_cell
  simp only
  rw [ownF_set_cell]
  rfl

theorem SameObs.refl_obs (g : gamma_t) : SameObs g g :=
  ⟨rfl, rfl, rfl, rfl, fun _ => rfl, fun _ => rfl, fun _ => rfl, fun _ => rfl⟩

theorem SameObs.trans_obs {g g' g'' : gamma_t} (h1 : SameObs g g') (h2 : SameObs g' g'') :
    SameObs g g'' :=
  ⟨h2.height.trans h1.height, h2.width.trans h1.width, h2.players.trans h1.players,
    h2.areas.trans h1.areas, fun p => (h2.own p).trans (h1.own p),
    fun q => (h2.pa q).trans (h1.pa q), fun q => (h2.pf q).trans (h1.pf q),
    fun q => (h2.gu q).trans (h1.gu q)⟩

theorem SameObs.symm_obs {g g' : gamma_t} (h1 : SameObs g g') : SameObs g' g :=
  ⟨h1.height.symm, h1.width.symm, h1.players.symm, h1.areas.symm, fun p => (h1.own p).symm,
    fun q => (h1.pa q).symm, fun q => (h1.pf q).symm, fun q => (h1.gu q).symm⟩

/-- A connection between cells of `pl` uses cells of `pl` only, so it is a
connection on every board on which `pl` owns the same cells. -/
theorem eqvGen_congr_player {h w : Nat} {F F' : Nat → Nat → field_t} {pl : Nat}
    (hown : ∀ p, ownF F p = pl ↔ ownF F' p = pl) {p q : Nat × Nat}
    (hpq : Relation.EqvGen (Adj h w F) p q) :
    (ownF F p = pl ∨ ownF F q = pl) → Relation.EqvGen (Adj h w F') p q := by
  have heown : ∀ a b, Adj h w F a b → ownF F a = ownF F b ∧ ownF F a ≠ 0 :=
    fun a b hab => ⟨hab.2.2.2.1, hab.2.2.2.2⟩
  induction hpq with
  | rel a b hab =>
    intro ho
    obtain ⟨ga, gb, hadj, hoab, hne⟩ := hab
    have ha : ownF F a = pl := by
      rcases ho with ho | ho
      · exact ho
      · rw [hoab]; exact ho
    have hb : ownF F b = pl := by rw [← hoab]; exact ha
    apply Relation.EqvGen.rel
    refine ⟨ga, gb, hadj, ?_, ?_⟩
    · rw [(hown a).1 ha, (hown b).1 hb]
    · rw [(hown a).1 ha, ← ha]; exact hne
  | refl a => intro _; exact Relation.EqvGen.refl _
  | symm a b _ ih =>
    intro ho
    exact Relation.EqvGen.symm _ _ (ih ho.symm)
  | trans a b c hab hbc ih1 ih2 =>
    intro ho
    have e1 := eqvGen_own heown hab
    have e2 := eqvGen_own heown hbc
    have hb : ownF F b = pl := by
      rcases ho with ho | ho
      · rw [← e1]; exact ho
      · rw [e2]; exact ho
    exact Relation.EqvGen.trans _ _ _ (ih1 (Or.inr hb)) (ih2 (Or.inl hb))

/-- The number of trees of `pl` depends only on the cells that `pl` owns. -/
theorem nroots_congr_player {h w : Nat} {F F' : Nat → Nat → field_t} {pl : Nat}
    (U : UF h w F (Adj h w F)) (U' : UF h w F' (Adj h w F'))
    (hown : ∀ p, ownF F p = pl ↔ ownF F' p = pl) :
    nroots h w F pl = nroots h w F' pl := by
  apply Nat.le_antisymm
  · apply card_le_nroots U'
    · intro p hp
      have := mem_rootSet.1 hp
      exact ⟨this.1, (hown p).1 this.2.1⟩
    · intro p hp q hq hpq
      have hp' := mem_rootSet.1 hp
      apply rootSet_sep U hp hq
      exact eqvGen_congr_player (fun r => (hown r).symm) hpq (Or.inl ((hown p).1 hp'.2.1))
  · apply card_le_nroots U
    · intro p hp
      have := mem_rootSet.1 hp
      exact ⟨this.1, (hown p).2 this.2.1⟩
    · intro p hp q hq hpq
      have hp' := mem_rootSet.1 hp
      apply rootSet_sep U' hp hq
      exact eqvGen_congr_player hown hpq (Or.inl ((hown p).2 hp'.2.1))

/-- The number of cells of `pl` depends only on the cells that `pl` owns. -/
theorem ncells_congr_player {h w : Nat} {F F' : Nat → Nat → field_t} {pl : Nat}
    (hown : ∀ p, ownF F p = pl ↔ ownF F' p = pl) :
    ncells h w F pl = ncells h w F' pl := by
  unfold ncells cellSet
  congr 1
  apply Finset.filter_congr
  intro p _
  exact hown p

/-- A set of representatives of the areas of `q` is one on every board of the
same size on which `q` owns the same cells. -/
theorem areaReps_congr {a b : gamma_t} {q : Nat} {R : Finset (Nat × Nat)}
    (hh : b.height = a.height) (hw : b.width = a.width)
    (hown : ∀ p, ownF a.fields p = q ↔ ownF b.fields p = q)
    (hR : AreaReps a q R) : AreaReps b q R := by
  obtain ⟨h1, h2, h3⟩ := hR
  unfold AreaReps
  rw [hh, hw]
  refine ⟨?_, ?_, ?_⟩
  · intro c hc
    exact ⟨(h1 c hc).1, (hown c).1 (h1 c hc).2⟩
  · intro c hc d hd hcd
    apply h2 c hc d hd
    apply eqvGen_iff_path.1
    exact eqvGen_congr_player (fun r => (hown r).symm) (eqvGen_iff_path.2 hcd)
      (Or.inl ((hown c).1 (h1 c hc).2))
  · intro c hc ho
    obtain ⟨d, hd, hcd⟩ := h3 c hc ((hown c).2 ho)
    refine ⟨d, hd, ?_⟩
    apply eqvGen_iff_path.1
    exact eqvGen_congr_player hown (eqvGen_iff_path.2 hcd) (Or.inl ((hown c).2 ho))

/-- Two boards with the invariant, the same size and the same owners have the
same numbers of cells and of trees for every player. -/
theorem counters_of_owners {g g' : gamma_t} (I : Inv g) (I' : Inv g')
    (hh : g'.height = g.height) (hw : g'.width = g.width)
    (hown : ∀ p, ownF g'.fields p = ownF g.fields p) (q : Nat) (hq : q ≠ 0) :
    g'.player_fields q = g.player_fields q ∧ g'.player_areas q = g.player_areas q ∧
      nroots g.height g.width g'.fields q = nroots g.height g.width g.fields q := by
  have U' := I'.uf
  rw [hh, hw] at U'
  have hiff : ∀ p, ownF g'.fields p = q ↔ ownF g.fields p = q := fun p => by rw [hown p]
  have hnr := nroots_congr_player U' I.uf hiff
  refine ⟨?_, ?_, hnr⟩
  · rw [I'.fields q hq, I.fields q hq, hh, hw]
    exact ncells_congr_player hiff
  · rw [I'.areas q hq, I.areas q hq, hh, hw, hnr]

/-! ## When a golden move succeeds -/

theorem old_golden_possible_iff (g : gamma_t) (pl : Nat) :
    old_golden_possible (some g) pl = true ↔
      pl ≠ 0 ∧ pl ≤ g.players ∧ g.golden_used pl = false ∧
      ∃ i, i ≤ g.players ∧ i ≠ pl ∧ 0 < g.player_fields i := by
  unfold old_golden_possible
  simp only [EMPTY]
  by_cases h : pl = 0 ∨ pl > g.players ∨ g.golden_used pl = true
  · rw [if_pos h]
    simp only [Bool.false_eq_true, false_iff]
    rintro ⟨h1, h2, h3, _⟩
    rcases h with h | h | h
    · exact h1 h
    · omega
    · rw [h3] at h; exact absurd h (by simp)
  · rw [if_neg h]
    rw [List.any_eq_true]
    have h1 : pl ≠ 0 := fun e => h (Or.inl e)
    have h2 : pl ≤ g.players := by
      by_contra hc
      exact h (Or.inr (Or.inl (by omega)))
    have h3 : g.golden_used pl = false := by
      cases hb : g.golden_used pl with
      | false => rfl
      | true => exact absurd (Or.inr (Or.inr hb)) h
    constructor
    · rintro ⟨i, hi, hc⟩
      simp only [Bool.and_eq_true, decide_eq_true_eq] at hc
      exact ⟨h1, h2, h3, i, by have := List.mem_range.1 hi; omega, hc.1, hc.2⟩
    · rintro ⟨_, _, _, i, hi, hne, hpos⟩
      refine ⟨i, List.mem_range.2 (by omega), ?_⟩
      simp only [Bool.and_eq_true, decide_eq_true_eq]
      exact ⟨hne, hpos⟩

theorem golden_reject_false_iff (g : gamma_t) (pl x y : Nat) :
    golden_reject g pl x y = false ↔
      old_golden_possible (some g) pl = true ∧ x < g.width ∧ y < g.height ∧
      (g.fields y x).owner ≠ 0 ∧ (g.fields y x).owner ≠ pl ∧ g.golden_used pl = false := by
  unfold golden_reject good_coords
  simp only [Bool.or_eq_false_iff, Bool.not_eq_false', decide_eq_false_iff_not, EMPTY,
    Bool.and_eq_true, decide_eq_true_eq]
  constructor
  · rintro ⟨⟨⟨⟨a, b, c⟩, d⟩, e⟩, f⟩
    exact ⟨a, b, c, d, e, f⟩
  · rintro ⟨a, b, c, d, e, f⟩
    exact ⟨⟨⟨⟨a, b, c⟩, d⟩, e⟩, f⟩

theorem old_golden_possible_congr {g g' : gamma_t} (S : SameObs g g') (pl : Nat) :
    old_golden_possible (some g') pl = old_golden_possible (some g) pl := by
  apply Bool.eq_iff_iff.2
  rw [old_golden_possible_iff, old_golden_possible_iff, S.players, S.gu]
  simp only [S.pf]

theorem golden_reject_congr {g g' : gamma_t} (S : SameObs g g') (pl x y : Nat) :
    golden_reject g' pl x y = golden_reject g pl x y := by
  have ho : (g'.fields y x).owner = (g.fields y x).owner := S.own (y, x)
  cases h : golden_reject g pl x y with
  | false =>
    rw [golden_reject_false_iff] at h ⊢
    rw [old_golden_possible_congr S, S.width, S.height, ho, S.gu]
    exact h
  | true =>
    cases h' : golden_reject g' pl x y with
    | true => rfl
    | false =>
      rw [golden_reject_false_iff] at h'
      rw [old_golden_possible_congr S, S.width, S.height, ho, S.gu] at h'
      rw [(golden_reject_false_iff g pl x y).2 h'] at h
      exact absurd h (by simp)

theorem nbCond_congr {g g' : gamma_t} (S : SameObs g g') (pl : Nat) (c : Nat × Nat) (i : Nat) :
    nbCond g' pl c i ↔ nbCond g pl c i := by
  unfold nbCond
  rw [S.height, S.width, S.own]

theorem goldenCond_congr {g g' : gamma_t} (S : SameObs g g') {pl x y : Nat}
    (h : GoldenCond g pl x y) : GoldenCond g' pl x y := by
  obtain ⟨h1, h2, h3⟩ := h
  have ho : (g'.fields y x).owner = (g.fields y x).owner := S.own (y, x)
  refine ⟨by rw [golden_reject_congr S]; exact h1, ?_, ?_⟩
  · intro R hR
    rw [S.areas, ho] at *
    apply h2 R
    refine areaReps_congr (a := del_cell g' x y) (b := del_cell g x y) S.height.symm S.width.symm ?_ hR
    intro p
    rw [ownF_del_cell, ownF_del_cell, S.own]
  · intro he
    rw [S.pa, S.areas] at he
    obtain ⟨i, hi, hc⟩ := h3 he
    exact ⟨i, hi, (nbCond_congr S pl (y, x) i).2 hc⟩

/-- The rebuilt board shows the owners of the board without the stone. -/
theorem rebuilt_reps {g : gamma_t} {v x y : Nat} {g3 : gamma_t} (R : Rebuilt g v x y g3)
    (hv : v ≠ 0) :
    AreaReps (del_cell g x y) v (rootSet g.height g.width g3.fields v) ∧
    (∀ D, AreaReps (del_cell g x y) v D →
      D.card = nroots g.height g.width g3.fields v) ∧
    g3.player_areas v = nroots g.height g.width g3.fields v % 4294967296 ∧
    g3.height = g.height ∧ g3.width = g.width ∧ g3.areas = g.areas ∧
    g3.players = g.players ∧ g3.golden_used = g.golden_used := by
  have hinv := R.inv
  have hown := R.own
  obtain ⟨F3, A, B, hg3⟩ := R.shape
  subst hg3
  have hiff : ∀ p, ownF F3 p = v ↔ ownF (del_cell g x y).fields p = v := by
    intro p
    rw [ownF_del_cell]
    have := hown p
    rw [show ownF F3 p = if p = (y, x) then 0 else ownF g.fields p from this]
  refine ⟨?_, ?_, hinv.areas v hv, rfl, rfl, rfl, rfl, rfl⟩
  · exact areaReps_congr (a := { g with fields := F3, player_areas := A, player_fields := B })
      (b := del_cell g x y) rfl rfl hiff (areaReps_rootSet hinv v)
  · intro D hD
    have hD' := areaReps_congr (a := del_cell g x y)
      (b := { g with fields := F3, player_areas := A, player_fields := B }) rfl rfl
      (fun p => (hiff p).symm) hD
    exact areaReps_card hinv hD'

/-- On a board that satisfies the invariant, `gamma_golden_move` returns `true`
exactly under the conditions `GoldenCond`. -/
theorem golden_move_true_iff {g : gamma_t} (I : Inv g) (pl x y : Nat) :
    (∃ s', gamma_golden_move (some g) pl x y = some (true, s')) ↔ GoldenCond g pl x y := by
  rcases golden_move_cases I pl x y with
    ⟨hr, h1⟩ | ⟨hrej, g3, R, _, ⟨hbad, g', h1, _⟩ | ⟨⟨hchk, hmp⟩, g', h1, _⟩⟩
  · constructor
    · rintro ⟨s', hs'⟩
      rw [h1] at hs'
      simp at hs'
    · rintro ⟨hc, _⟩
      rw [hr] at hc
      exact absurd hc (by simp)
  · have hrej' := (golden_reject_false_iff g pl x y).1 hrej
    obtain ⟨hogp, hx, hy, hv, hvp, _⟩ := hrej'
    obtain ⟨hpl, hple, _, _⟩ := (old_golden_possible_iff g pl).1 hogp
    obtain ⟨hreps, _, hpa, h3h, h3w, h3a, h3p, _⟩ := rebuilt_reps R hv
    constructor
    · rintro ⟨s', hs'⟩
      rw [h1] at hs'
      simp at hs'
    · rintro ⟨_, hc2, hc3⟩
      exfalso
      rcases hbad with hbad | hbad
      · have := hc2 _ hreps
        have e : (rootSet g.height g.width g3.fields (g.fields y x).owner).card
            = nroots g.height g.width g3.fields (g.fields y x).owner := rfl
        rw [e, ← hpa] at this
        rw [h3a] at hbad
        omega
      · have hmp : movie_possible (some g3) pl x y = true := by
          rw [movie_possible_iff]
          refine ⟨hpl, by rw [h3p]; exact hple, by rw [h3w]; exact hx, by rw [h3h]; exact hy,
            ?_, ?_⟩
          · have := R.own (y, x)
            rw [if_pos rfl] at this
            exact this
          · intro he
            rw [R.pa_other pl (fun e => hvp e.symm), h3a] at he
            obtain ⟨i, hi, hin, hio⟩ := hc3 he
            refine ⟨i, hi, ?_, ?_⟩
            · rw [h3h, h3w]; exact hin
            · rw [R.own]
              split
              · next hc =>
                rw [hc] at hio
                exact absurd hio hvp
              · exact hio
        rw [hmp] at hbad
        exact absurd hbad (by simp)
  · have hrej' := (golden_reject_false_iff g pl x y).1 hrej
    obtain ⟨hogp, hx, hy, hv, hvp, _⟩ := hrej'
    obtain ⟨hpl, hple, _, _⟩ := (old_golden_possible_iff g pl).1 hogp
    obtain ⟨_, hcard, hpa, h3h, h3w, h3a, h3p, _⟩ := rebuilt_reps R hv
    constructor
    · intro _
      refine ⟨hrej, ?_, ?_⟩
      · intro D hD
        rw [hcard D hD, ← hpa, ← h3a]
        exact hchk
      · intro he
        obtain ⟨_, _, _, _, _, hnb⟩ := (movie_possible_iff g3 pl x y).1 hmp
        rw [R.pa_other pl (fun e => hvp e.symm), h3a] at hnb
        obtain ⟨i, hi, hin, hio⟩ := hnb he
        refine ⟨i, hi, ?_, ?_⟩
        · rw [h3h, h3w] at hin; exact hin
        · rw [R.own] at hio
          split at hio
          · exact absurd hio.symm hpl
          · exact hio
    · intro _
      exact ⟨_, h1⟩

/-- What a successful `gamma_golden_move` of `pl` at `(x, y)` changes on a board
that satisfies the invariant. -/
theorem golden_move_frame {g : gamma_t} (I : Inv g) {pl x y : Nat} {s' : Option gamma_t}
    (h : gamma_golden_move (some g) pl x y = some (true, s')) :
    ∃ g', s' = some g' ∧ Inv g' ∧ g'.height = g.height ∧ g'.width = g.width ∧
      g'.players = g.players ∧ g'.areas = g.areas ∧ golden_reject g pl x y = false ∧
      (∀ p, ownF g'.fields p = if p = (y, x) then pl else ownF g.fields p) ∧
      g'.player_fields (g.fields y x).owner + 1 = g.player_fields (g.fields y x).owner ∧
      g'.player_fields pl = g.player_fields pl + 1 ∧
      (∀ r, r ≠ pl → r ≠ (g.fields y x).owner →
        g'.player_fields r = g.player_fields r ∧ g'.player_areas r = g.player_areas r) ∧
      (∀ r, g'.golden_used r = if r = pl then true else g.golden_used r) := by
  rcases golden_move_cases I pl x y with
    ⟨_, h1⟩ | ⟨hrej, g3, R, _, ⟨_, g', h1, _⟩ | ⟨⟨_, hmp⟩, g', h1, hok⟩⟩
  · rw [h1] at h
    simp at h
  · rw [h1] at h
    simp at h
  rw [h1] at h
  simp only [Option.some.injEq, Prod.mk.injEq, true_and] at h
  obtain ⟨_, _, _, hv, hvp, _⟩ := (golden_reject_false_iff g pl x y).1 hrej
  obtain ⟨hpl, hple, hx, hy, hemp, _⟩ := (movie_possible_iff g3 pl x y).1 hmp
  have hI' := hok.inv
  obtain ⟨F', u, N, hg'⟩ := hok.shape
  have hc : InGrid g3.height g3.width (y, x) := ⟨hy, hx⟩
  obtain ⟨_, hmod⟩ := inv_after_insert R.inv hc hemp hpl hple N
  obtain ⟨_, hownF', _, _, _, _⟩ := insert_post R.inv.hlt R.inv.wlt R.inv.uf hc hemp hpl N
  have hown3 := R.own
  have hpao := R.pa_other
  have hpfo := R.pf_other
  have hpf := R.pf
  obtain ⟨F3, A, B, hg3⟩ := R.shape
  subst hg3
  subst hg'
  refine ⟨_, h.symm, hI', rfl, rfl, rfl, rfl, hrej, ?_, ?_, ?_, ?_, ?_⟩
  · intro p
    show ownF F' p = _
    rw [hownF' p]
    split
    · rfl
    · next hp =>
      have := hown3 p
      rw [if_neg hp] at this
      exact this
  · show set_at B pl ((B pl + 1) % 2 ^ 64) (g.fields y x).owner + 1 = _
    rw [set_at_apply, if_neg hvp]
    exact hpf
  · show set_at B pl ((B pl + 1) % 2 ^ 64) pl = _
    rw [set_at_apply, if_pos rfl]
    have e : (B pl + 1) % 2 ^ 64 = B pl + 1 := hmod
    rw [e]
    have := hpfo pl (fun e => hvp e.symm)
    have e2 : B pl = g.player_fields pl := this
    rw [e2]
  · intro r hr hrv
    constructor
    · show set_at B pl ((B pl + 1) % 2 ^ 64) r = _
      rw [set_at_apply, if_neg hr]
      exact hpfo r hrv
    · show set_at A pl (areas_after (A pl) u) r = _
      rw [set_at_apply, if_neg hr]
      exact hpao r hrv
  · intro r
    show set_at g.golden_used pl true r = _
    rw [set_at_apply]

/-- The outcome of `gamma_golden_move` on a board that satisfies the invariant:
the call returns; a `false` leaves a board that an observer cannot tell from
the old one. -/
theorem golden_move_outcome {g : gamma_t} (I : Inv g) (pl x y : Nat) :
    ∃ b g', gamma_golden_move (some g) pl x y = some (b, some g') ∧ Inv g' ∧
      (b = true ↔ GoldenCond g pl x y) ∧ (b = false → SameObs g g') := by
  have hiff := golden_move_true_iff I pl x y
  rcases golden_move_cases I pl x y with
    ⟨_, h1⟩ | ⟨_, g3, _, _, ⟨_, g', h1, _⟩ | ⟨_, g', h1, hok⟩⟩
  · refine ⟨false, g, h1, I, ?_, fun _ => SameObs.refl_obs g⟩
    rw [← hiff, h1]
    simp
  · obtain ⟨g'', hs, a1, a2, a3, a4, _, a6, a7, a8, a9, _, _, a12⟩ := golden_fail_frame I h1
    simp only [Option.some.injEq] at hs
    subst hs
    refine ⟨false, g', h1, a12, ?_, fun _ => ?_⟩
    · rw [← hiff, h1]
      simp
    · exact ⟨a1, a2, a3, a4, fun p => (a9 p.1 p.2).1, fun q => by rw [a6],
        fun q => by rw [a7], fun q => by rw [a8]⟩
  · refine ⟨true, g', h1, hok.inv, ?_, fun hb => absurd hb (by simp)⟩
    rw [← hiff]
    simp only [true_iff]
    exact ⟨_, h1⟩

/-! ## The search loop of `gamma_golden_possible` -/

/-- After a probe of `pl` at `(x, y)` succeeded, the golden move of the evicted
player on the same cell returns; it leaves the flags of the other players
alone; and when no player of the board `gk` before the probe had more than
`areas` areas, it succeeds and gives back the owners and counters of `gk`. -/
theorem probe_revert {gk : gamma_t} (I : Inv gk) {pl x y : Nat} {g1 : gamma_t}
    (h1 : gamma_golden_move (some gk) pl x y = some (true, some g1)) {g3 : gamma_t}
    (hI3 : Inv g3) (e1 : g3.height = g1.height) (e2 : g3.width = g1.width)
    (e3 : g3.players = g1.players) (e4 : g3.areas = g1.areas) (e5 : g3.fields = g1.fields)
    (e6 : g3.player_areas = g1.player_areas) (e7 : g3.player_fields = g1.player_fields)
    (e8 : g3.golden_used (gk.fields y x).owner = false) :
    ∃ b g4, gamma_golden_move (some g3) (gk.fields y x).owner x y = some (b, some g4) ∧
      Inv g4 ∧ g4.height = gk.height ∧ g4.width = gk.width ∧ g4.players = gk.players ∧
      g4.areas = gk.areas ∧
      (∀ q, q ≠ (gk.fields y x).owner → g4.golden_used q = g3.golden_used q) ∧
      (Cap gk → (∀ p, ownF g4.fields p = ownF gk.fields p) ∧
        (∀ q, g4.player_areas q = gk.player_areas q) ∧
        (∀ q, g4.player_fields q = gk.player_fields q)) := by
  obtain ⟨g1', hg1', I1, d1, d2, d3, d4, hrej, hown1, _, hpf1, hoth1, _⟩ :=
    golden_move_frame I h1
  simp only [Option.some.injEq] at hg1'
  subst hg1'
  obtain ⟨hogp, hx, hy, hv, hvp, _⟩ := (golden_reject_false_iff gk pl x y).1 hrej
  obtain ⟨hpl, hple, _, _⟩ := (old_golden_possible_iff gk pl).1 hogp
  have hc : InGrid gk.height gk.width (y, x) := ⟨hy, hx⟩
  have hown3 : ∀ p, ownF g3.fields p = if p = (y, x) then pl else ownF gk.fields p := by
    intro p
    rw [e5]
    exact hown1 p
  have hfo3 : (g3.fields y x).owner = pl := by
    have := hown3 (y, x)
    rw [if_pos rfl] at this
    exact this
  obtain ⟨b, g4, h4, I4, hb, hS⟩ := golden_move_outcome hI3 (gk.fields y x).owner x y
  have hdims : g4.height = gk.height ∧ g4.width = gk.width ∧ g4.players = gk.players ∧
      g4.areas = gk.areas ∧
      (∀ q, q ≠ (gk.fields y x).owner → g4.golden_used q = g3.golden_used q) := by
    cases b with
    | false =>
      have S := hS rfl
      exact ⟨by rw [S.height, e1, d1], by rw [S.width, e2, d2], by rw [S.players, e3, d3],
        by rw [S.areas, e4, d4], fun q _ => S.gu q⟩
    | true =>
      obtain ⟨g4', hg4', _, c1, c2, c3, c4, _, _, _, _, _, cgu⟩ := golden_move_frame hI3 h4
      simp only [Option.some.injEq] at hg4'
      subst hg4'
      refine ⟨by rw [c1, e1, d1], by rw [c2, e2, d2], by rw [c3, e3, d3],
        by rw [c4, e4, d4], fun q hq => ?_⟩
      rw [cgu q, if_neg hq]
  obtain ⟨k1, k2, k3, k4, k5⟩ := hdims
  refine ⟨b, g4, h4, I4, k1, k2, k3, k4, k5, fun hcap => ?_⟩
  -- under the cap the reverse move succeeds
  have hcond : GoldenCond g3 (gk.fields y x).owner x y := by
    refine ⟨?_, ?_, ?_⟩
    · rw [golden_reject_false_iff, old_golden_possible_iff, hfo3, e2, e1, d1, d2, e3, d3]
      refine ⟨⟨hv, ?_, e8, pl, hple, fun e => hvp e.symm, ?_⟩, hx, hy, hpl,
        fun e => hvp e.symm, e8⟩
      · exact I.own_le (y, x) hc
      · rw [e7, hpf1]
        omega
    · intro R hR
      rw [hfo3] at hR
      have hR' : AreaReps gk pl R := by
        refine areaReps_congr (a := del_cell g3 x y) (b := gk) (by rw [← d1, ← e1]; rfl)
          (by rw [← d2, ← e2]; rfl) ?_ hR
        intro p
        rw [ownF_del_cell, hown3]
        by_cases hp : p = (y, x)
        · rw [if_pos hp, hp]
          constructor
          · intro h0; exact absurd h0.symm hpl
          · intro h0; exact absurd h0 hvp
        · rw [if_neg hp, if_neg hp]
      rw [areaReps_card I hR', e4, d4]
      exact le_trans (Nat.mod_le _ _) (hcap.2 pl hpl)
    · intro he
      by_contra hno
      obtain ⟨gr, _, R⟩ := rebuild_spec I hc hv
      have hRown := R.own
      have hRinv := R.inv
      obtain ⟨F3, A, B, hgr⟩ := R.shape
      subst hgr
      have Ur : UF gk.height gk.width F3 (Adj gk.height gk.width F3) := hRinv.uf
      have hempr : ownF F3 (y, x) = 0 := by
        have := hRown (y, x)
        rw [if_pos rfl] at this
        exact this
      have hownk : ∀ p, ownF gk.fields p
          = if p = (y, x) then (gk.fields y x).owner else ownF F3 p := by
        intro p
        by_cases hp : p = (y, x)
        · rw [if_pos hp, hp]; rfl
        · rw [if_neg hp]
          have := hRown p
          rw [if_neg hp] at this
          exact this.symm
      have hcount := touching_count Ur I.uf hc hempr hv hownk ∅
        (fun d hd => absurd hd (Finset.not_mem_empty d))
        (fun d hd => absurd hd (Finset.not_mem_empty d))
        (fun n hn hadj ho => by
          exfalso
          apply hno
          obtain ⟨i, hi, hni⟩ := (adjacent_iff_nbr I.hlt I.wlt hc hn).1 hadj
          have hnc : n ≠ (y, x) := fun e => hadj.ne e.symm
          refine ⟨i, hi, ?_, ?_⟩
          · rw [e1, e2, d1, d2, ← hni]; exact hn
          · rw [← hni, hown3, if_neg hnc]
            have := hownk n
            rw [if_neg hnc] at this
            rw [this]; exact ho)
      have U3 : UF gk.height gk.width g3.fields (Adj gk.height gk.width g3.fields) := by
        have := hI3.uf
        rw [e1, e2, d1, d2] at this
        exact this
      have hnr : nroots gk.height gk.width g3.fields (gk.fields y x).owner
          = nroots gk.height gk.width F3 (gk.fields y x).owner := by
        apply nroots_congr_player U3 Ur
        intro p
        rw [hown3]
        have := hRown p
        rw [show ownF F3 p = if p = (y, x) then 0 else ownF gk.fields p from this]
        by_cases hp : p = (y, x)
        · rw [if_pos hp, if_pos hp]
          constructor
          · intro h0; exact absurd h0 (fun e => hvp e.symm)
          · intro h0; exact absurd h0.symm hv
        · rw [if_neg hp, if_neg hp]
      have hpa3 := hI3.areas (gk.fields y x).owner hv
      rw [e1, e2, d1, d2, hnr] at hpa3
      have hcapv := hcap.2 (gk.fields y x).owner hv
      have halt := hcap.1
      rw [e4, d4] at he
      simp only [Finset.card_empty] at hcount
      rw [hpa3] at he
      have hlt : nroots gk.height gk.width F3 (gk.fields y x).owner < 4294967296 := by omega
      rw [Nat.mod_eq_of_lt hlt] at he
      omega
  have hbt : b = true := hb.2 hcond
  subst hbt
  obtain ⟨g4', hg4', _, c1, c2, _, _, _, cown, _, _, coth, _⟩ := golden_move_frame hI3 h4
  simp only [Option.some.injEq] at hg4'
  subst hg4'
  have hown4 : ∀ p, ownF g4.fields p = ownF gk.fields p := by
    intro p
    rw [cown p, hown3 p]
    by_cases hp : p = (y, x)
    · rw [if_pos hp, hp]; rfl
    · rw [if_neg hp, if_neg hp]
  refine ⟨hown4, ?_, ?_⟩
  · intro q
    by_cases hq : q = 0
    · rw [hq]
      have a := (coth 0 (fun e => hv e.symm) (by rw [hfo3]; exact fun e => hpl e.symm)).2
      have b' := (hoth1 0 (fun e => hpl e.symm) (fun e => hv e.symm)).2
      rw [a, e6, b']
    · exact (counters_of_owners I I4 k1 k2 hown4 q hq).2.1
  · intro q
    by_cases hq : q = 0
    · rw [hq, I4.fields0, I.fields0]
    · exact (counters_of_owners I I4 k1 k2 hown4 q hq).1

theorem cap_congr {g g' : gamma_t} (I : Inv g) (I' : Inv g') (S : SameObs g g')
    (hcap : Cap g) : Cap g' := by
  refine ⟨by rw [S.areas]; exact hcap.1, fun q hq => ?_⟩
  rw [S.height, S.width, S.areas, (counters_of_owners I I' S.height S.width S.own q hq).2.2]
  exact hcap.2 q hq

theorem inv_with_flags {g : gamma_t} (I : Inv g) (gu : Nat → Bool) :
    Inv { g with golden_used := gu } :=
  ⟨I.hlt, I.wlt, I.uf, I.own_le, I.areas, I.fields, I.fields0, I.coords⟩

/-- One step of the search loop keeps `ProbeInv`. -/
theorem probe_step {g : gamma_t} (I : Inv g) {pl : Nat} (i j : Nat) (hj : j < g.width)
    (s : gamma_t × Bool) (P : ProbeInv g pl (i * g.width + j) s) :
    ∃ s', golden_wont_exceed_areas_step pl i j s = some s' ∧
      ProbeInv g pl (i * g.width + j + 1) s' := by
  unfold golden_wont_exceed_areas_step
  simp only
  split
  · next hflag =>
    refine ⟨s, rfl, P.inv, P.height, P.width, P.players, P.areas, P.gu, ?_, P.found⟩
    intro hf
    rw [hflag] at hf
    exact absurd hf (by simp)
  · next hflag =>
    have hflag' : s.2 = false := by simpa using hflag
    obtain ⟨S, hnone⟩ := P.none_yet hflag'
    have hown : (s.1.fields i j).owner = (g.fields i j).owner := S.own (i, j)
    have hstep : ∀ (i' j' : Nat), j' < g.width → i' * g.width + j' < i * g.width + j + 1 →
        ¬ GoldenCond g pl j i → ¬ GoldenCond g pl j' i' := by
      intro i' j' hj' hlt hnew
      by_cases he : i' * g.width + j' = i * g.width + j
      · obtain ⟨ei, ej⟩ := idx_inj hj' hj he
        rw [ei, ej]
        exact hnew
      · exact hnone i' j' hj' (by omega)
    split
    · next hskip =>
      refine ⟨s, rfl, P.inv, P.height, P.width, P.players, P.areas, P.gu, ?_, P.found⟩
      intro _
      refine ⟨S, fun i' j' hj' hlt => hstep i' j' hj' hlt ?_⟩
      rintro ⟨hc, _⟩
      obtain ⟨_, _, _, h0, hp, _⟩ := (golden_reject_false_iff g pl j i).1 hc
      rw [hown] at hskip
      rcases hskip with hskip | hskip
      · exact hp hskip
      · exact h0 hskip
    · next hskip =>
      obtain ⟨b, g1, h1, I1, hb, hS1⟩ := golden_move_outcome P.inv pl j i
      rw [h1]
      cases b with
      | false =>
        have S1 := hS1 rfl
        refine ⟨(g1, false), rfl, I1, ?_, ?_, ?_, ?_, ?_, ?_, ?_⟩
        · exact S1.height.trans P.height
        · exact S1.width.trans P.width
        · exact S1.players.trans P.players
        · exact S1.areas.trans P.areas
        · intro q
          exact (S1.gu q).trans (P.gu q)
        · intro _
          refine ⟨S.trans_obs S1, fun i' j' hj' hlt => hstep i' j' hj' hlt ?_⟩
          intro hc
          have := hb.2 (goldenCond_congr S hc)
          exact absurd this (by simp)
        · intro hf
          exact absurd hf (by simp)
      | true =>
        simp only
        have hc1 : GoldenCond s.1 pl j i := hb.1 rfl
        obtain ⟨hogp, _, _, hv, hvp, hgupl⟩ := (golden_reject_false_iff s.1 pl j i).1 hc1.1
        obtain ⟨g1', hg1', _, d1, d2, d3, d4, _, _, _, _, _, hgu1⟩ :=
          golden_move_frame P.inv h1
        simp only [Option.some.injEq] at hg1'
        subst hg1'
        have hI3 := inv_with_flags (inv_with_flags I1 (set_at g1.golden_used pl false))
          (set_at (set_at g1.golden_used pl false) (s.1.fields i j).owner false)
        obtain ⟨b', g4, h4, I4, k1, k2, k3, k4, kgu, kcap⟩ :=
          probe_revert P.inv h1 hI3 rfl rfl rfl rfl rfl rfl rfl
            (by show set_at (set_at g1.golden_used pl false) (s.1.fields i j).owner false
                  (s.1.fields i j).owner = false
                rw [set_at_apply, if_pos rfl])
        simp only at h4
        rw [h4]
        have hflags : ∀ q, set_at g4.golden_used (s.1.fields i j).owner
            (set_at g1.golden_used pl false (s.1.fields i j).owner) q = g.golden_used q := by
          intro q
          rw [← P.gu q]
          by_cases hq : q = (s.1.fields i j).owner
          · rw [set_at_apply, if_pos hq, set_at_apply, if_neg hvp, hgu1, if_neg hvp, hq]
          · rw [set_at_apply, if_neg hq, kgu q hq]
            show set_at (set_at g1.golden_used pl false) (s.1.fields i j).owner false q = _
            rw [set_at_apply, if_neg hq, set_at_apply]
            by_cases hqp : q = pl
            · rw [if_pos hqp, hqp, hgupl]
            · rw [if_neg hqp, hgu1, if_neg hqp]
        refine ⟨_, rfl, inv_with_flags I4 _, ?_, ?_, ?_, ?_, hflags, ?_, ?_⟩
        · exact k1.trans P.height
        · exact k2.trans P.width
        · exact k3.trans P.players
        · exact k4.trans P.areas
        · intro hf
          exact absurd hf (by simp)
        · intro _
          refine ⟨⟨i, j, goldenCond_congr S.symm_obs hc1⟩, fun hcap => ?_⟩
          obtain ⟨a1, a2, a3⟩ := kcap (cap_congr I P.inv S hcap)
          exact ⟨k1.trans P.height, k2.trans P.width, k3.trans P.players, k4.trans P.areas,
            fun p => (a1 p).trans (S.own p), fun q => (a2 q).trans (S.pa q),
            fun q => (a3 q).trans (S.pf q), hflags⟩

/-- On a board that satisfies the invariant `gamma_golden_possible` returns. It
leaves the dimensions and every golden flag as they were. It answers `true`
exactly when the first checks pass and either the player is below the limit
or some cell admits a golden move. When no player has more than `areas` areas,
the board it leaves cannot be told from the board it was called on. -/
theorem golden_possible_spec {g : gamma_t} (I : Inv g) (pl : Nat) :
    ∃ b g', gamma_golden_possible (some g) pl = some (b, some g') ∧ Inv g' ∧
      g'.height = g.height ∧ g'.width = g.width ∧ g'.players = g.players ∧
      g'.areas = g.areas ∧ (∀ q, g'.golden_used q = g.golden_used q) ∧
      (b = true ↔ old_golden_possible (some g) pl = true ∧
        (g.player_areas pl < g.areas ∨ ∃ x y, GoldenCond g pl x y)) ∧
      (Cap g → SameObs g g') := by
  unfold gamma_golden_possible
  simp only
  split
  · next hogp =>
    refine ⟨false, g, rfl, I, rfl, rfl, rfl, rfl, fun _ => rfl, ?_, fun _ => SameObs.refl_obs g⟩
    constructor
    · intro h; exact absurd h (by simp)
    · rintro ⟨h, _⟩
      rw [h] at hogp
      exact absurd hogp (by simp)
  · next hogp =>
    have hogp' : old_golden_possible (some g) pl = true := by simpa using hogp
    split
    · next hlt =>
      exact ⟨true, g, rfl, I, rfl, rfl, rfl, rfl, fun _ => rfl,
        ⟨fun _ => ⟨hogp', Or.inl hlt⟩, fun _ => rfl⟩, fun _ => SameObs.refl_obs g⟩
    · next hlt =>
      unfold golden_wont_exceed_areas
      obtain ⟨s', hs', P⟩ := grid_foldlM_inv
        (fun s i j => golden_wont_exceed_areas_step pl i j s) (fun k s => ProbeInv g pl k s)
        g.height g.width (g, false)
        ⟨I, rfl, rfl, rfl, rfl, fun _ => rfl,
          fun _ => ⟨SameObs.refl_obs g, fun i j _ hk => absurd hk (by omega)⟩,
          fun h => absurd h (by simp)⟩
        (fun i j s _ hj hp => probe_step I i j hj s hp)
      rw [hs']
      refine ⟨s'.2, s'.1, rfl, P.inv, P.height, P.width, P.players, P.areas, P.gu, ?_, ?_⟩
      · constructor
        · intro hb
          obtain ⟨⟨i, j, hc⟩, _⟩ := P.found hb
          exact ⟨hogp', Or.inr ⟨j, i, hc⟩⟩
        · rintro ⟨_, h | ⟨x, y, hc⟩⟩
          · exact absurd h hlt
          · cases hb : s'.2 with
            | true => rfl
            | false =>
              exfalso
              obtain ⟨_, hnone⟩ := P.none_yet hb
              obtain ⟨_, hx, hy, _⟩ := (golden_reject_false_iff g pl x y).1 hc.1
              exact hnone y x hx (idx_lt hy hx) hc
      · intro hcap
        cases hb : s'.2 with
        | true => exact (P.found hb).2 hcap
        | false => exact (P.none_yet hb).1

/-- The partition of the cells by `find_root` is the same on two boards with
the invariant, the same size and the same owners. -/
theorem partition_of_owners {g g' : gamma_t} (I : Inv g) (I' : Inv g')
    (hh : g'.height = g.height) (hw : g'.width = g.width)
    (hown : ∀ p, ownF g'.fields p = ownF g.fields p) {p q : Nat × Nat}
    (hp : InGrid g.height g.width p) (hq : InGrid g.height g.width q) :
    ∃ rp rq rp' rq', find_root g.fields g.fuel p = some rp ∧
      find_root g.fields g.fuel q = some rq ∧
      find_root g'.fields g'.fuel p = some rp' ∧ find_root g'.fields g'.fuel q = some rq' ∧
      (rp' = rq' ↔ rp = rq) := by
  obtain ⟨rp, rq, h1, h2, h3⟩ := find_root_iff_path I hp hq
  obtain ⟨rp', rq', h1', h2', h3'⟩ := find_root_iff_path I' (p := p) (q := q)
    (by rw [hh, hw]; exact hp) (by rw [hh, hw]; exact hq)
  refine ⟨rp, rq, rp', rq', h1, h2, h1', h2', ?_⟩
  rw [h3, h3', hh, hw, adj_congr hown]

/-- C11. From every state reached from `gamma_new` by public calls,
`gamma_golden_move` returns, and when it returns false the observable state is
as before the call: the owner of every cell, `player_areas[q]`,
`player_fields[q]` and `golden_used[q]` for every `q` are unchanged, and two
cells of the board have the same `find_root` after the call exactly when they
had the same `find_root` before it. -/
theorem C11_golden_fail_observable (width height players areas : Nat)
    (hw : width < 4294967296) (hh : height < 4294967296) (calls : List Call) :
    ∃ s, run (gamma_new width height players areas) calls = some s ∧
      ∀ player x y, ∃ b s', gamma_golden_move s player x y = some (b, s') ∧
        (b = false →
          (s = none ∧ s' = none) ∨
          ∃ g g', s = some g ∧ s' = some g' ∧
            g'.height = g.height ∧ g'.width = g.width ∧
            (∀ i j, (g'.fields i j).owner = (g.fields i j).owner) ∧
            (∀ q, g'.player_areas q = g.player_areas q) ∧
            (∀ q, g'.player_fields q = g.player_fields q) ∧
            (∀ q, g'.golden_used q = g.golden_used q) ∧
            ∀ p q, InGrid g.height g.width p → InGrid g.height g.width q →
              ∃ rp rq rp' rq', find_root g.fields g.fuel p = some rp ∧
                find_root g.fields g.fuel q = some rq ∧
                find_root g'.fields g'.fuel p = some rp' ∧
                find_root g'.fields g'.fuel q = some rq' ∧
                (rp' = rq' ↔ rp = rq)) := by
  obtain ⟨s, hs, hI⟩ := reach_inv width height players areas hw hh calls
  refine ⟨s, hs, fun player x y => ?_⟩
  cases s with
  | none => exact ⟨false, none, rfl, fun _ => Or.inl ⟨rfl, rfl⟩⟩
  | some g =>
    have I := hI g rfl
    obtain ⟨b, g', hb, I', _, hS⟩ := golden_move_outcome I player x y
    refine ⟨b, some g', hb, fun hbf => Or.inr ?_⟩
    have S := hS hbf
    exact ⟨g, g', rfl, rfl, S.height, S.width, fun i j => S.own (i, j), S.pa, S.pf, S.gu,
      fun p q hp hq => partition_of_owners I I' S.height S.width S.own hp hq⟩

theorem C11_golden_fail_observable_witness :
    ∃ s, run (gamma_new 3 1 2 1) [Call.move 1 1 0, Call.move 1 0 0, Call.move 1 2 0] = some s ∧
      ∀ player x y, ∃ b s', gamma_golden_move s player x y = some (b, s') ∧
        (b = false →
          (s = none ∧ s' = none) ∨
          ∃ g g', s = some g ∧ s' = some g' ∧
            g'.height = g.height ∧ g'.width = g.width ∧
            (∀ i j, (g'.fields i j).owner = (g.fields i j).owner) ∧
            (∀ q, g'.player_areas q = g.player_areas q) ∧
            (∀ q, g'.player_fields q = g.player_fields q) ∧
            (∀ q, g'.golden_used q = g.golden_used q) ∧
            ∀ p q, InGrid g.height g.width p → InGrid g.height g.width q →
              ∃ rp rq rp' rq', find_root g.fields g.fuel p = some rp ∧
                find_root g.fields g.fuel q = some rq ∧
                find_root g'.fields g'.fuel p = some rp' ∧
                find_root g'.fields g'.fuel q = some rq' ∧
                (rp' = rq' ↔ rp = rq)) :=
  C11_golden_fail_observable 3 1 2 1 (by norm_num) (by norm_num) _

/-- C13. When `gamma_golden_move(g, player, x, y)` returns `true` on a board
reached from `gamma_new` by public calls and `q` was the owner of `(x, y)`:
`q` is a player other than `player`, the owner of `(x, y)` becomes `player`,
the owner of every other cell is unchanged, `player_fields[q]` decreases by
`1`, `player_fields[player]` increases by `1`, `golden_used[player]` is `true`,
`golden_used` of every other player is unchanged, and `player_fields[r]` and
`player_areas[r]` are unchanged for every `r` other than `player` and `q`. -/
theorem C13_golden_move_frame (width height players areas : Nat)
    (hw : width < 4294967296) (hh : height < 4294967296) (calls : List Call) :
    ∃ s, run (gamma_new width height players areas) calls = some s ∧
      ∀ player x y s', gamma_golden_move s player x y = some (true, s') →
        ∃ g g', s = some g ∧ s' = some g' ∧
          (g.fields y x).owner ≠ 0 ∧ (g.fields y x).owner ≠ player ∧
          (g'.fields y x).owner = player ∧
          (∀ i j, (i, j) ≠ (y, x) → (g'.fields i j).owner = (g.fields i j).owner) ∧
          g'.player_fields (g.fields y x).owner + 1 = g.player_fields (g.fields y x).owner ∧
          g'.player_fields player = g.player_fields player + 1 ∧
          g'.golden_used player = true ∧
          (∀ r, r ≠ player → g'.golden_used r = g.golden_used r) ∧
          (∀ r, r ≠ player → r ≠ (g.fields y x).owner →
            g'.player_fields r = g.player_fields r ∧ g'.player_areas r = g.player_areas r) := by
  obtain ⟨s, hs, hI⟩ := reach_inv width height players areas hw hh calls
  refine ⟨s, hs, fun player x y s' hm => ?_⟩
  cases s with
  | none => simp [gamma_golden_move] at hm
  | some g =>
    obtain ⟨g', hs', _, _, _, _, _, hrej, hown, hpfq, hpfp, hoth, hgu⟩ :=
      golden_move_frame (hI g rfl) hm
    obtain ⟨_, _, _, hv, hvp, _⟩ := (golden_reject_false_iff g player x y).1 hrej
    refine ⟨g, g', rfl, hs', hv, hvp, ?_, ?_, hpfq, hpfp, ?_, ?_, hoth⟩
    · have := hown (y, x)
      rw [if_pos rfl] at this
      exact this
    · intro i j hij
      have := hown (i, j)
      rw [if_neg hij] at this
      exact this
    · rw [hgu, if_pos rfl]
    · intro r hr
      rw [hgu, if_neg hr]

theorem C13_golden_move_frame_witness :
    ∃ s, run (gamma_new 3 2 2 2) [Call.move 1 0 0, Call.move 1 1 0] = some s ∧
      ∀ player x y s', gamma_golden_move s player x y = some (true, s') →
        ∃ g g', s = some g ∧ s' = some g' ∧
          (g.fields y x).owner ≠ 0 ∧ (g.fields y x).owner ≠ player ∧
          (g'.fields y x).owner = player ∧
          (∀ i j, (i, j) ≠ (y, x) → (g'.fields i j).owner = (g.fields i j).owner) ∧
          g'.player_fields (g.fields y x).owner + 1 = g.player_fields (g.fields y x).owner ∧
          g'.player_fields player = g.player_fields player + 1 ∧
          g'.golden_used player = true ∧
          (∀ r, r ≠ player → g'.golden_used r = g.golden_used r) ∧
          (∀ r, r ≠ player → r ≠ (g.fields y x).owner →
            g'.player_fields r = g.player_fields r ∧ g'.player_areas r = g.player_areas r) :=
  C13_golden_move_frame 3 2 2 2 (by norm_num) (by norm_num) _

/-! ## The golden flags along a sequence of calls -/

/-- A public call on a board that satisfies the invariant returns; a flag that
is set stays set, and the flag of `p` changes only in a golden move of `p`. -/
theorem call_flags {g : gamma_t} (I : Inv g) (c : Call) :
    ∃ g', call_state (some g) c = some (some g') ∧ Inv g' ∧
      ∀ p, (g.golden_used p = true → g'.golden_used p = true) ∧
        ((∀ x y, c ≠ Call.golden_move p x y) → g'.golden_used p = g.golden_used p) := by
  cases c with
  | move pl x y =>
    by_cases hmp : movie_possible (some g) pl x y = true
    · obtain ⟨F', u, h, _, _, _⟩ := gamma_move_ok I hmp
      obtain ⟨g', _, hs', hI', _, _, _, _, _, hgu, _⟩ := gamma_move_frame I h
      simp only [Option.some.injEq] at hs'
      refine ⟨g', ?_, hI', fun p => ⟨fun hp => by rw [hgu]; exact hp, fun _ => by rw [hgu]⟩⟩
      show (gamma_move (some g) pl x y).map (fun r => r.2) = _
      rw [h, hs']
      rfl
    · have hmp' : movie_possible (some g) pl x y = false := by simpa using hmp
      refine ⟨g, ?_, I, fun p => ⟨fun hp => hp, fun _ => rfl⟩⟩
      show (gamma_move (some g) pl x y).map (fun r => r.2) = _
      rw [gamma_move_false hmp']
      rfl
  | golden_move pl x y =>
    obtain ⟨b, g', h, hI', _, hS⟩ := golden_move_outcome I pl x y
    have hcall : call_state (some g) (Call.golden_move pl x y) = some (some g') := by
      show (gamma_golden_move (some g) pl x y).map (fun r => r.2) = _
      rw [h]
      rfl
    refine ⟨g', hcall, hI', fun p => ?_⟩
    cases b with
    | false =>
      have S := hS rfl
      exact ⟨fun hp => by rw [S.gu]; exact hp, fun _ => S.gu p⟩
    | true =>
      obtain ⟨g'', hs', _, _, _, _, _, _, _, _, _, _, hgu⟩ := golden_move_frame I h
      simp only [Option.some.injEq] at hs'
      subst hs'
      constructor
      · intro hp
        rw [hgu]
        split
        · rfl
        · exact hp
      · intro hne
        rw [hgu]
        split
        · next hpp => exact absurd (by rw [hpp]) (hne x y)
        · rfl
  | golden_possible pl =>
    obtain ⟨b, g', h, hI', _, _, _, _, hgu, _⟩ := golden_possible_spec I pl
    refine ⟨g', ?_, hI', fun p => ⟨fun hp => by rw [hgu]; exact hp, fun _ => hgu p⟩⟩
    show (gamma_golden_possible (some g) pl).map (fun r => r.2) = _
    rw [h]
    rfl
  | free_fields pl => exact ⟨g, rfl, I, fun p => ⟨fun hp => hp, fun _ => rfl⟩⟩
  | busy_fields pl => exact ⟨g, rfl, I, fun p => ⟨fun hp => hp, fun _ => rfl⟩⟩
  | board =>
    unfold call_state gamma_board
    simp only
    split
    · exact ⟨g, rfl, I, fun p => ⟨fun hp => hp, fun _ => rfl⟩⟩
    · split
      · exact ⟨_, rfl, inv_stable.mem g false I, fun p => ⟨fun hp => hp, fun _ => rfl⟩⟩
      · exact ⟨_, rfl, inv_stable.mem g false I, fun p => ⟨fun hp => hp, fun _ => rfl⟩⟩

/-- Along a sequence of public calls a flag that is set stays set, and the flag
of `p` is unchanged when the sequence holds no golden move of `p`. -/
theorem run_flags (calls : List Call) :
    ∀ (g : gamma_t), Inv g → ∃ g', run (some g) calls = some (some g') ∧ Inv g' ∧
      ∀ p, (g.golden_used p = true → g'.golden_used p = true) ∧
        ((∀ c, c ∈ calls → ∀ x y, c ≠ Call.golden_move p x y) →
          g'.golden_used p = g.golden_used p) := by
  induction calls with
  | nil => intro g I; exact ⟨g, rfl, I, fun p => ⟨fun hp => hp, fun _ => rfl⟩⟩
  | cons c cs ih =>
    intro g I
    obtain ⟨g1, h1, I1, hf1⟩ := call_flags I c
    obtain ⟨g2, h2, I2, hf2⟩ := ih g1 I1
    refine ⟨g2, ?_, I2, fun p => ⟨fun hp => (hf2 p).1 ((hf1 p).1 hp), fun hne => ?_⟩⟩
    · rw [run_cons, h1]
      exact h2
    · rw [(hf2 p).2 (fun c' hc' => hne c' (List.mem_cons_of_mem _ hc')),
        (hf1 p).2 (hne c (List.mem_cons_self _ _))]

/-- C14. On a board reached from `gamma_new` by public calls, for every player
`p`: whatever public calls follow, they return, and `golden_used[p]`, once
true, is true after them; and once a `gamma_golden_move` of `p` has returned
`true`, then after any further public calls `golden_used[p]` is true and every
`gamma_golden_move` of `p` returns `false` and leaves the board as it is, so at
most one golden move of `p` returns `true`. -/
theorem C14_golden_once (width height players areas : Nat)
    (hw : width < 4294967296) (hh : height < 4294967296) (calls : List Call) :
    ∃ s, run (gamma_new width height players areas) calls = some s ∧
      ∀ g, s = some g → ∀ p,
        (∀ later, ∃ g2, run (some g) later = some (some g2) ∧
          (g.golden_used p = true → g2.golden_used p = true)) ∧
        (∀ x y s1, gamma_golden_move (some g) p x y = some (true, s1) →
          ∀ later, ∃ g2, run s1 later = some (some g2) ∧ g2.golden_used p = true ∧
            ∀ x' y', gamma_golden_move (some g2) p x' y' = some (false, some g2)) := by
  obtain ⟨s, hs, hI⟩ := reach_inv width height players areas hw hh calls
  refine ⟨s, hs, fun g hg p => ⟨fun later => ?_, fun x y s1 hm later => ?_⟩⟩
  · obtain ⟨g2, h2, _, hf⟩ := run_flags later g (hI g hg)
    exact ⟨g2, h2, (hf p).1⟩
  · obtain ⟨g1, hs1, I1, _, _, _, _, _, _, _, _, _, hgu⟩ := golden_move_frame (hI g hg) hm
    subst hs1
    obtain ⟨g2, h2, I2, hf⟩ := run_flags later g1 I1
    have hp1 : g1.golden_used p = true := by rw [hgu, if_pos rfl]
    have hp2 := (hf p).1 hp1
    refine ⟨g2, h2, hp2, fun x' y' => ?_⟩
    unfold gamma_golden_move
    simp only [hp2, Bool.or_true, if_true]

theorem C14_golden_once_witness :
    ∃ s, run (gamma_new 3 2 2 2) [Call.move 1 0 0, Call.golden_move 2 0 0] = some s ∧
      ∀ g, s = some g → ∀ p,
        (∀ later, ∃ g2, run (some g) later = some (some g2) ∧
          (g.golden_used p = true → g2.golden_used p = true)) ∧
        (∀ x y s1, gamma_golden_move (some g) p x y = some (true, s1) →
          ∀ later, ∃ g2, run s1 later = some (some g2) ∧ g2.golden_used p = true ∧
            ∀ x' y', gamma_golden_move (some g2) p x' y' = some (false, some g2)) :=
  C14_golden_once 3 2 2 2 (by norm_num) (by norm_num) _

/-- A player that owns a cell of the board has a positive number of fields. -/
theorem player_fields_pos {g : gamma_t} (I : Inv g) {c : Nat × Nat}
    (hc : InGrid g.height g.width c) (hv : ownF g.fields c ≠ 0) :
    0 < g.player_fields (ownF g.fields c) := by
  rw [I.fields _ hv]
  unfold ncells
  exact Finset.card_pos.2 ⟨c, mem_cellSet.2 ⟨hc, rfl⟩⟩

/-- The first checks of the golden functions fail exactly when the player is
invalid, has used its golden move, or no other player owns a field. -/
theorem old_golden_possible_false_iff {g : gamma_t} (I : Inv g) (pl : Nat) :
    old_golden_possible (some g) pl = false ↔
      (pl = 0 ∨ pl > g.players ∨ g.golden_used pl = true ∨
        ∀ q, 1 ≤ q → q ≤ g.players → q ≠ pl → g.player_fields q = 0) := by
  constructor
  · intro h
    by_contra hc
    simp only [not_or] at hc
    obtain ⟨h1, h2, h3, h4⟩ := hc
    push_neg at h4
    obtain ⟨q, hq1, hq2, hq3, hq4⟩ := h4
    have : old_golden_possible (some g) pl = true := by
      rw [old_golden_possible_iff]
      exact ⟨h1, by omega, by simpa using h3, q, hq2, hq3, by omega⟩
    rw [this] at h
    exact absurd h (by simp)
  · intro h
    cases hb : old_golden_possible (some g) pl with
    | false => rfl
    | true =>
      exfalso
      obtain ⟨h1, h2, h3, i, hi, hne, hpos⟩ := (old_golden_possible_iff g pl).1 hb
      rcases h with h | h | h | h
      · exact h1 h
      · omega
      · rw [h3] at h; exact absurd h (by simp)
      · by_cases hi0 : i = 0
        · rw [hi0, I.fields0] at hpos
          omega
        · have := h i (by omega) hi hne
          omega

/-- C16. On a board reached from `gamma_new` by public calls,
`gamma_golden_possible(g, player)` returns. It returns `false` when `g` is null,
`player` is `0` or greater than `players`, `golden_used[player]` is true, or no
other player owns a field. Otherwise it returns `true` if
`player_areas[player] < areas`, and if not, it returns `true` exactly when some
cell of the board owned by another player is such that
`gamma_golden_move(g, player, x, y)` on the current board returns `true`. -/
theorem C16_golden_possible_result (width height players areas : Nat)
    (hw : width < 4294967296) (hh : height < 4294967296) (calls : List Call) :
    ∃ s, run (gamma_new width height players areas) calls = some s ∧
      ∀ player, ∃ b s', gamma_golden_possible s player = some (b, s') ∧
        (s = none → b = false) ∧
        ∀ g, s = some g →
          ((player = 0 ∨ player > g.players ∨ g.golden_used player = true ∨
              (∀ q, 1 ≤ q → q ≤ g.players → q ≠ player → g.player_fields q = 0)) →
            b = false) ∧
          (¬ (player = 0 ∨ player > g.players ∨ g.golden_used player = true ∨
              (∀ q, 1 ≤ q → q ≤ g.players → q ≠ player → g.player_fields q = 0)) →
            (g.player_areas player < g.areas → b = true) ∧
            (¬ g.player_areas player < g.areas →
              (b = true ↔ ∃ x y, x < g.width ∧ y < g.height ∧
                (g.fields y x).owner ≠ 0 ∧ (g.fields y x).owner ≠ player ∧
                ∃ s'', gamma_golden_move (some g) player x y = some (true, s'')))) := by
  obtain ⟨s, hs, hI⟩ := reach_inv width height players areas hw hh calls
  refine ⟨s, hs, fun player => ?_⟩
  cases s with
  | none => exact ⟨false, none, rfl, fun _ => rfl, fun g hg => absurd hg (by simp)⟩
  | some g =>
    have I := hI g rfl
    obtain ⟨b, g', h, _, _, _, _, _, _, hb, _⟩ := golden_possible_spec I player
    refine ⟨b, some g', h, fun hn => absurd hn (by simp), fun g0 hg0 => ?_⟩
    simp only [Option.some.injEq] at hg0
    subst hg0
    have hfalse := old_golden_possible_false_iff I player
    constructor
    · intro hr
      have := hfalse.2 hr
      cases hbb : b with
      | false => rfl
      | true =>
        rw [hbb] at hb
        have := (hb.1 rfl).1
        rw [hfalse.2 hr] at this
        exact absurd this (by simp)
    · intro hr
      have hogp : old_golden_possible (some g) player = true := by
        cases ho : old_golden_possible (some g) player with
        | true => rfl
        | false => exact absurd (hfalse.1 ho) hr
      constructor
      · intro hlt
        exact hb.2 ⟨hogp, Or.inl hlt⟩
      · intro hlt
        rw [hb]
        constructor
        · rintro ⟨_, h1 | ⟨x, y, hc⟩⟩
          · exact absurd h1 hlt
          · obtain ⟨_, hx, hy, hv, hvp, _⟩ := (golden_reject_false_iff g player x y).1 hc.1
            exact ⟨x, y, hx, hy, hv, hvp, (golden_move_true_iff I player x y).2 hc⟩
        · rintro ⟨x, y, _, _, _, _, hm⟩
          exact ⟨hogp, Or.inr ⟨x, y, (golden_move_true_iff I player x y).1 hm⟩⟩

theorem C16_golden_possible_result_witness :
    ∃ s, run (gamma_new 3 2 2 1) [Call.move 1 0 0, Call.move 2 2 0] = some s ∧
      ∀ player, ∃ b s', gamma_golden_possible s player = some (b, s') ∧
        (s = none → b = false) ∧
        ∀ g, s = some g →
          ((player = 0 ∨ player > g.players ∨ g.golden_used player = true ∨
              (∀ q, 1 ≤ q → q ≤ g.players → q ≠ player → g.player_fields q = 0)) →
            b = false) ∧
          (¬ (player = 0 ∨ player > g.players ∨ g.golden_used player = true ∨
              (∀ q, 1 ≤ q → q ≤ g.players → q ≠ player → g.player_fields q = 0)) →
            (g.player_areas player < g.areas → b = true) ∧
            (¬ g.player_areas player < g.areas →
              (b = true ↔ ∃ x y, x < g.width ∧ y < g.height ∧
                (g.fields y x).owner ≠ 0 ∧ (g.fields y x).owner ≠ player ∧
                ∃ s'', gamma_golden_move (some g) player x y = some (true, s'')))) :=
  C16_golden_possible_result 3 2 2 1 (by norm_num) (by norm_num) _

/-- C18. On a board reached from `gamma_new` by public calls, let `player` be a
valid player with `player_areas[player] < areas` and `golden_used[player]`
false, and `(x, y)` a cell of the board owned by another player `q`. Then the
rebuild of the territory of `q` without `(x, y)` returns a board `g3`, the
placement of `player` never fails, and `gamma_golden_move(g, player, x, y)`
returns `true` exactly when the rebuilt counter `player_areas[q]` of `g3` is at
most `areas`. That counter is the number of areas of `q` on the board without
the stone at `(x, y)`, as a 32-bit number. -/
theorem C18_golden_move_below_cap (width height players areas : Nat)
    (hw : width < 4294967296) (hh : height < 4294967296) (calls : List Call) :
    ∃ s, run (gamma_new width height players areas) calls = some s ∧
      ∀ g, s = some g → ∀ player x y, 1 ≤ player → player ≤ g.players →
        g.player_areas player < g.areas → g.golden_used player = false →
        x < g.width → y < g.height →
        (g.fields y x).owner ≠ 0 → (g.fields y x).owner ≠ player →
        ∃ g3 b s',
          golden_set_other_field_reps (cleared g (g.fields y x).owner x y)
            (g.fields y x).owner = some g3 ∧
          gamma_golden_move (some g) player x y = some (b, s') ∧
          (b = true ↔ g3.player_areas (g.fields y x).owner ≤ g.areas) ∧
          ∀ R, AreaReps (del_cell g x y) (g.fields y x).owner R →
            g3.player_areas (g.fields y x).owner = R.card % 4294967296 := by
  obtain ⟨s, hs, hI⟩ := reach_inv width height players areas hw hh calls
  refine ⟨s, hs, fun g hg player x y h1 h2 hlt hgu hx hy hv hvp => ?_⟩
  have I := hI g hg
  have hc : InGrid g.height g.width (y, x) := ⟨hy, hx⟩
  obtain ⟨g3, hg3, R⟩ := rebuild_spec I hc hv
  obtain ⟨hreps, hcard, hpa, _, _, _, _, _⟩ := rebuilt_reps R hv
  obtain ⟨b, g', hm, _, hb, _⟩ := golden_move_outcome I player x y
  have hcard' : ∀ D, AreaReps (del_cell g x y) (g.fields y x).owner D →
      g3.player_areas (g.fields y x).owner = D.card % 4294967296 := by
    intro D hD
    rw [hcard D hD]
    exact hpa
  refine ⟨g3, b, some g', hg3, hm, ?_, hcard'⟩
  rw [hb]
  constructor
  · rintro ⟨_, hc2, _⟩
    have := hc2 _ hreps
    rw [← hcard' _ hreps] at this
    exact this
  · intro hle
    refine ⟨?_, ?_, ?_⟩
    · rw [golden_reject_false_iff, old_golden_possible_iff]
      refine ⟨⟨by omega, h2, hgu, (g.fields y x).owner, I.own_le (y, x) hc, hvp, ?_⟩,
        hx, hy, hv, hvp, hgu⟩
      exact player_fields_pos I hc hv
    · intro D hD
      rw [← hcard' D hD]
      exact hle
    · intro he
      omega

theorem C18_golden_move_below_cap_witness :
    ∃ s, run (gamma_new 3 2 2 2) [Call.move 1 0 0, Call.move 1 1 0] = some s ∧
      ∀ g, s = some g → ∀ player x y, 1 ≤ player → player ≤ g.players →
        g.player_areas player < g.areas → g.golden_used player = false →
        x < g.width → y < g.height →
        (g.fields y x).owner ≠ 0 → (g.fields y x).owner ≠ player →
        ∃ g3 b s',
          golden_set_other_field_reps (cleared g (g.fields y x).owner x y)
            (g.fields y x).owner = some g3 ∧
          gamma_golden_move (some g) player x y = some (b, s') ∧
          (b = true ↔ g3.player_areas (g.fields y x).owner ≤ g.areas) ∧
          ∀ R, AreaReps (del_cell g x y) (g.fields y x).owner R →
            g3.player_areas (g.fields y x).owner = R.card % 4294967296 :=
  C18_golden_move_below_cap 3 2 2 2 (by norm_num) (by norm_num) _

/-! ## Counting the cells of the board -/

/-- Every cell of the board is empty or owned by one of the players. -/
theorem cells_sum {g : gamma_t} (I : Inv g) :
    ncells g.height g.width g.fields 0 +
      (Finset.range g.players).sum (fun k => ncells g.height g.width g.fields (k + 1))
      = g.height * g.width := by
  have h1 := Finset.card_eq_sum_card_fiberwise (s := gridSet g.height g.width)
    (t := Finset.range (g.players + 1)) (f := ownF g.fields)
    (fun p hp => Finset.mem_range.2 (by
      have := I.own_le p (mem_gridSet.1 hp)
      omega))
  rw [card_gridSet, Finset.sum_range_succ'] at h1
  unfold ncells cellSet
  rw [h1]
  ring

theorem board_lt {g : gamma_t} (I : Inv g) : g.height * g.width < 2 ^ 64 := by
  have h1 := I.hlt
  have h2 := I.wlt
  calc g.height * g.width < 4294967296 * 4294967296 := Nat.mul_lt_mul'' h1 h2
    _ = 2 ^ 64 := by norm_num

/-- The subtraction loop of `gamma_free_fields` never wraps: it leaves the
number of empty cells. -/
theorem free_fields_loop {g : gamma_t} (I : Inv g) :
    (List.range g.players).foldl (fun free_fields k =>
        (free_fields + 2 ^ 64 - g.player_fields (k + 1)) % 2 ^ 64)
        ((g.height * g.width) % 2 ^ 64)
      + (Finset.range g.players).sum (fun k => g.player_fields (k + 1))
      = g.height * g.width := by
  have hlt := board_lt I
  have hsum := cells_sum I
  have hpf : ∀ n, (Finset.range n).sum (fun k => g.player_fields (k + 1))
      = (Finset.range n).sum (fun k => ncells g.height g.width g.fields (k + 1)) := by
    intro n
    apply Finset.sum_congr rfl
    intro k _
    exact I.fields (k + 1) (by omega)
  have hmono : ∀ n, n ≤ g.players →
      (Finset.range n).sum (fun k => g.player_fields (k + 1)) ≤ g.height * g.width := by
    intro n hn
    have h1 : (Finset.range n).sum (fun k => g.player_fields (k + 1))
        ≤ (Finset.range g.players).sum (fun k => g.player_fields (k + 1)) :=
      Finset.sum_le_sum_of_subset (Finset.range_mono hn)
    rw [hpf g.players] at h1
    omega
  exact foldl_range_inv
    (fun free_fields k => (free_fields + 2 ^ 64 - g.player_fields (k + 1)) % 2 ^ 64)
    (fun k acc => acc + (Finset.range k).sum (fun j => g.player_fields (j + 1))
      = g.height * g.width)
    g.players ((g.height * g.width) % 2 ^ 64)
    (by simp only [Finset.range_zero, Finset.sum_empty, Nat.add_zero]
        exact Nat.mod_eq_of_lt hlt)
    (fun k acc hk hP => by
      have h1 := hmono (k + 1) (by omega)
      show (acc + 2 ^ 64 - g.player_fields (k + 1)) % 2 ^ 64
        + (Finset.range (k + 1)).sum (fun j => g.player_fields (j + 1)) = g.height * g.width
      have hP' : acc + (Finset.range k).sum (fun j => g.player_fields (j + 1))
        = g.height * g.width := hP
      rw [Finset.sum_range_succ] at h1 ⊢
      have h2 : g.player_fields (k + 1) ≤ acc := by omega
      have h3 : acc < 2 ^ 64 := by omega
      have h4 : (acc + 2 ^ 64 - g.player_fields (k + 1)) % 2 ^ 64
          = acc - g.player_fields (k + 1) := by
        have e : acc + 2 ^ 64 - g.player_fields (k + 1)
            = (acc - g.player_fields (k + 1)) + 2 ^ 64 := by omega
        rw [e, Nat.add_mod_right]
        exact Nat.mod_eq_of_lt (by omega)
      rw [h4]
      omega)

/-- The result of `gamma_free_fields` for a valid player that is not at the
limit of areas. -/
theorem free_fields_below {g : gamma_t} (I : Inv g) {p : Nat} (h1 : 1 ≤ p)
    (h2 : p ≤ g.players) (hne : g.player_areas p ≠ g.areas) :
    gamma_free_fields (some g) p
        + (Finset.range g.players).sum (fun k => g.player_fields (k + 1))
      = g.width * g.height ∧
    gamma_free_fields (some g) p = ncells g.height g.width g.fields 0 := by
  have hloop := free_fields_loop I
  have hval : gamma_free_fields (some g) p
      = (List.range g.players).foldl (fun free_fields k =>
        (free_fields + 2 ^ 64 - g.player_fields (k + 1)) % 2 ^ 64)
        ((g.height * g.width) % 2 ^ 64) := by
    unfold gamma_free_fields
    simp only [EMPTY]
    rw [if_neg (by omega), if_neg hne]
  rw [hval]
  refine ⟨by rw [hloop, Nat.mul_comm], ?_⟩
  have hsum := cells_sum I
  have hpf : (Finset.range g.players).sum (fun k => g.player_fields (k + 1))
      = (Finset.range g.players).sum (fun k => ncells g.height g.width g.fields (k + 1)) := by
    apply Finset.sum_congr rfl
    intro k _
    exact I.fields (k + 1) (by omega)
  rw [hpf] at hloop
  omega

/-- C19. `gamma_busy_fields(g, player)` is `0` when `g` is null, `player` is `0`
or `player > players`, and `player_fields[player]` otherwise; on every board
reached from `gamma_new` by public calls the value returned for a valid player
is the number of cells of the board owned by that player. -/
theorem C19_busy_fields (width height players areas : Nat)
    (hw : width < 4294967296) (hh : height < 4294967296) (calls : List Call) :
    (∀ player, gamma_busy_fields none player = 0) ∧
    (∀ (g : gamma_t) player, (player = 0 ∨ player > g.players) →
      gamma_busy_fields (some g) player = 0) ∧
    (∀ (g : gamma_t) player, 1 ≤ player → player ≤ g.players →
      gamma_busy_fields (some g) player = g.player_fields player) ∧
    ∃ s, run (gamma_new width height players areas) calls = some s ∧
      ∀ g, s = some g → ∀ player, 1 ≤ player → player ≤ g.players →
        gamma_busy_fields s player = ncells g.height g.width g.fields player := by
  have h2 : ∀ (g : gamma_t) player, (player = 0 ∨ player > g.players) →
      gamma_busy_fields (some g) player = 0 := by
    intro g player hp
    unfold gamma_busy_fields
    simp only [EMPTY]
    rw [if_pos hp]
  have h3 : ∀ (g : gamma_t) player, 1 ≤ player → player ≤ g.players →
      gamma_busy_fields (some g) player = g.player_fields player := by
    intro g player hp1 hp2
    unfold gamma_busy_fields
    simp only [EMPTY]
    rw [if_neg (by omega)]
  refine ⟨fun _ => rfl, h2, h3, ?_⟩
  obtain ⟨s, hs, hI⟩ := reach_inv width height players areas hw hh calls
  refine ⟨s, hs, fun g hg player hp1 hp2 => ?_⟩
  subst hg
  rw [h3 g player hp1 hp2]
  exact (hI g rfl).fields player (by omega)

theorem C19_busy_fields_witness :
    (∀ player, gamma_busy_fields none player = 0) ∧
    (∀ (g : gamma_t) player, (player = 0 ∨ player > g.players) →
      gamma_busy_fields (some g) player = 0) ∧
    (∀ (g : gamma_t) player, 1 ≤ player → player ≤ g.players →
      gamma_busy_fields (some g) player = g.player_fields player) ∧
    ∃ s, run (gamma_new 3 2 2 2) [Call.move 1 0 0, Call.move 2 1 0, Call.move 1 2 1]
        = some s ∧
      ∀ g, s = some g → ∀ player, 1 ≤ player → player ≤ g.players →
        gamma_busy_fields s player = ncells g.height g.width g.fields player :=
  C19_busy_fields 3 2 2 2 (by norm_num) (by norm_num) _

/-- C20. On every board reached from `gamma_new` by public calls and for every
valid player `p` with `player_areas[p] < areas`, the 64-bit computation of
`gamma_free_fields(g, p)` never wraps (`width * height < 2 ^ 64`): the result
plus the sum of `player_fields[q]` over `q` in `1..players` is
`width * height`, and the result is the number of empty cells. For a null
board or an invalid player the result is `0`. -/
theorem C20_free_fields_sum (width height players areas : Nat)
    (hw : width < 4294967296) (hh : height < 4294967296) (calls : List Call) :
    ∃ s, run (gamma_new width height players areas) calls = some s ∧
      ∀ p, (s = none → gamma_free_fields s p = 0) ∧
        ∀ g, s = some g →
          ((p = 0 ∨ p > g.players) → gamma_free_fields s p = 0) ∧
          (1 ≤ p → p ≤ g.players → g.player_areas p < g.areas →
            g.width * g.height < 2 ^ 64 ∧
            gamma_free_fields s p
                + (Finset.range g.players).sum (fun k => g.player_fields (k + 1))
              = g.width * g.height ∧
            gamma_free_fields s p = ncells g.height g.width g.fields 0) := by
  obtain ⟨s, hs, hI⟩ := reach_inv width height players areas hw hh calls
  refine ⟨s, hs, fun p => ⟨fun hn => ?_, fun g hg => ⟨fun hp => ?_, fun h1 h2 hlt => ?_⟩⟩⟩
  · rw [hn]
    rfl
  · subst hg
    unfold gamma_free_fields
    simp only [EMPTY]
    rw [if_pos hp]
  · subst hg
    have I := hI g rfl
    obtain ⟨a, b⟩ := free_fields_below I h1 h2 (by omega)
    refine ⟨?_, a, b⟩
    rw [Nat.mul_comm]
    exact board_lt I

theorem C20_free_fields_sum_witness :
    ∃ s, run (gamma_new 3 2 2 2) [Call.move 1 0 0, Call.move 2 1 0, Call.move 1 2 1]
        = some s ∧
      ∀ p, (s = none → gamma_free_fields s p = 0) ∧
        ∀ g, s = some g →
          ((p = 0 ∨ p > g.players) → gamma_free_fields s p = 0) ∧
          (1 ≤ p → p ≤ g.players → g.player_areas p < g.areas →
            g.width * g.height < 2 ^ 64 ∧
            gamma_free_fields s p
                + (Finset.range g.players).sum (fun k => g.player_fields (k + 1))
              = g.width * g.height ∧
            gamma_free_fields s p = ncells g.height g.width g.fields 0) :=
  C20_free_fields_sum 3 2 2 2 (by norm_num) (by norm_num) _

/-! ## Golden moves on boards on which no counter can wrap -/

theorem CapInv.to_cap {g : gamma_t} (C : CapInv g) : Cap g := ⟨C.alt, C.cap⟩

/-- When no counter can wrap, `gamma_golden_move` returns `true` exactly when
the player is valid and has not used its golden move, the cell is on the board
and owned by another player, that player has at most `areas` areas without the
cell, and the player is below the limit or owns a neighbour of the cell. -/
theorem golden_move_iff_of_noWrap (width height players areas : Nat)
    (hw : width < 4294967296) (hh : height < 4294967296) (ha : areas < 4294967296)
    (hn : areas + 3 < 4294967296 ∨ height * width < 4294967296) (calls : List Call) :
    ∃ s, run (gamma_new width height players areas) calls = some s ∧
      ∀ g, s = some g → ∀ player x y, ∃ b s',
        gamma_golden_move s player x y = some (b, s') ∧
        (b = true ↔ 1 ≤ player ∧ player ≤ g.players ∧ g.golden_used player = false ∧
          x < g.width ∧ y < g.height ∧
          (g.fields y x).owner ≠ 0 ∧ (g.fields y x).owner ≠ player ∧
          (∃ R, AreaReps (del_cell g x y) (g.fields y x).owner R ∧ R.card ≤ g.areas) ∧
          (g.player_areas player < g.areas ∨
            ∃ c, InGrid g.height g.width c ∧ Adjacent (y, x) c ∧
              (g.fields c.1 c.2).owner = player)) := by
  obtain ⟨s, hs, hC⟩ := reach_capInv width height players areas hw hh ha hn calls
  refine ⟨s, hs, fun g hg player x y => ?_⟩
  subst hg
  have C := hC g rfl
  have I := C.inv
  obtain ⟨b, g', hm, _, hb, _⟩ := golden_move_outcome I player x y
  refine ⟨b, some g', hm, ?_⟩
  rw [hb]
  constructor
  · rintro ⟨hrej, hc2, hc3⟩
    obtain ⟨hogp, hx, hy, hv, hvp, hgu⟩ := (golden_reject_false_iff g player x y).1 hrej
    obtain ⟨hpl, hple, _, _⟩ := (old_golden_possible_iff g player).1 hogp
    have hc : InGrid g.height g.width (y, x) := ⟨hy, hx⟩
    refine ⟨by omega, hple, hgu, hx, hy, hv, hvp, ?_, ?_⟩
    · rcases golden_move_cases I player x y with
        ⟨hr, _⟩ | ⟨_, g3, R, hle3, _⟩
      · rw [hrej] at hr
        exact absurd hr (by simp)
      · obtain ⟨hreps, hcard, _, _, _, _, _, _⟩ := rebuilt_reps R hv
        refine ⟨_, hreps, ?_⟩
        have h1 := hc2 _ hreps
        have e : (rootSet g.height g.width g3.fields (g.fields y x).owner).card
            = nroots g.height g.width g3.fields (g.fields y x).owner := rfl
        rw [e] at h1 ⊢
        have hlt : nroots g.height g.width g3.fields (g.fields y x).owner < 4294967296 := by
          rcases C.nowrap with hnw | hnw
          · have := C.cap (g.fields y x).owner hv
            omega
          · have a1 := nroots_le_ncells g.height g.width g3.fields (g.fields y x).owner
            have a2 := ncells_le g.height g.width g3.fields (g.fields y x).owner
            omega
        rw [Nat.mod_eq_of_lt hlt] at h1
        exact h1
    · by_cases hlt : g.player_areas player < g.areas
      · exact Or.inl hlt
      · right
        have hle : g.player_areas player ≤ g.areas := by
          rw [C.counter player hpl]
          exact C.cap player hpl
        obtain ⟨i, hi, hin, hio⟩ := hc3 (by omega)
        exact ⟨nbr (y, x) i, hin, (adjacent_iff_nbr I.hlt I.wlt hc hin).2 ⟨i, hi, rfl⟩, hio⟩
  · rintro ⟨h1, h2, hgu, hx, hy, hv, hvp, ⟨R, hR, hRle⟩, hnb⟩
    have hc : InGrid g.height g.width (y, x) := ⟨hy, hx⟩
    refine ⟨?_, ?_, ?_⟩
    · rw [golden_reject_false_iff, old_golden_possible_iff]
      exact ⟨⟨by omega, h2, hgu, (g.fields y x).owner, I.own_le (y, x) hc, hvp,
        player_fields_pos I hc hv⟩, hx, hy, hv, hvp, hgu⟩
    · intro D hD
      obtain ⟨g3, _, Rb⟩ := rebuild_spec I hc hv
      obtain ⟨_, hcard, _, _, _, _, _, _⟩ := rebuilt_reps Rb hv
      rw [hcard D hD, ← hcard R hR]
      exact le_trans (Nat.mod_le _ _) hRle
    · intro he
      rcases hnb with hlt | ⟨c, hcg, hadj, hco⟩
      · omega
      · obtain ⟨i, hi, hci⟩ := (adjacent_iff_nbr I.hlt I.wlt hc hcg).1 hadj
        exact ⟨i, hi, by rw [← hci]; exact hcg, by rw [← hci]; exact hco⟩

/-- When no counter can wrap, `gamma_golden_possible` returns and leaves a board
that cannot be told from the board it was called on. -/
theorem golden_possible_pure_of_noWrap (width height players areas : Nat)
    (hw : width < 4294967296) (hh : height < 4294967296) (ha : areas < 4294967296)
    (hn : areas + 3 < 4294967296 ∨ height * width < 4294967296) (calls : List Call) :
    ∃ s, run (gamma_new width height players areas) calls = some s ∧
      ∀ g, s = some g → ∀ player, ∃ b g',
        gamma_golden_possible s player = some (b, some g') ∧ SameObs g g' := by
  obtain ⟨s, hs, hC⟩ := reach_capInv width height players areas hw hh ha hn calls
  refine ⟨s, hs, fun g hg player => ?_⟩
  subst hg
  have C := hC g rfl
  obtain ⟨b, g', h, _, _, _, _, _, _, _, hS⟩ := golden_possible_spec C.inv player
  exact ⟨b, g', h, hS C.to_cap⟩

/-! ## The board above the limit -/

theorem overOwn_one (p : Nat × Nat) : overOwn p = 1 ↔ p = (1, 1) := by
  constructor
  · intro h
    obtain ⟨r, c⟩ := p
    simp only [overOwn, wrapOwn, splitOwn, armsOwn, upd, isoOwn, Prod.mk.injEq] at h ⊢
    split_ifs at h <;> omega
  · intro h
    rw [h]
    decide

theorem wrapCalls_no_golden_two (c : Call)
    (hc : c ∈ wrapCalls ++ [Call.move 2 5 0]) (x y : Nat) : c ≠ Call.golden_move 2 x y := by
  intro he
  subst he
  simp [wrapCalls, isoCalls] at hc

/-- The calls `wrapCalls` followed by the move of player 2 to `(0, 5)` return
and end on a board above the limit. -/
theorem over_reach :
    ∃ g, run (gamma_new 4294967295 3 2 4294967293) (wrapCalls ++ [Call.move 2 5 0])
        = some (some g) ∧ Over g := by
  obtain ⟨g0, hrun, W⟩ := wrapped_reach
  obtain ⟨g', hm, _, _, hpa⟩ := bridge_move W
  obtain ⟨g'', _, hs', hI', _, hh, hw, ha, hp, _, hown, _, _, _⟩ := gamma_move_frame W.inv hm
  simp only [Option.some.injEq] at hs'
  subst hs'
  have hrun' : run (gamma_new 4294967295 3 2 4294967293) (wrapCalls ++ [Call.move 2 5 0])
      = some (some g') := by
    rw [run_snoc hrun]
    exact call_move_true hm
  refine ⟨g', hrun', hI', by rw [hh, W.h], by rw [hw, W.w], by rw [hp, W.pl],
    by rw [ha, W.ar], ?_, hpa, ?_⟩
  · intro p
    rw [hown p]
    unfold overOwn upd
    split
    · rfl
    · exact W.own p
  · obtain ⟨gi, hgi, _⟩ := track_new
    have Ii := gamma_new_inv (by norm_num) (by norm_num) hgi
    obtain ⟨_, _, _, _, _, _, _, hgu0⟩ := gamma_new_some hgi
    obtain ⟨g2, h2, _, hf⟩ := run_flags (wrapCalls ++ [Call.move 2 5 0]) gi Ii
    rw [hgi, h2] at hrun'
    simp only [Option.some.injEq] at hrun'
    subst hrun'
    rw [(hf 2).2 (fun c hc x y => wrapCalls_no_golden_two c hc x y)]
    exact hgu0 2

/-- On the board above the limit the probe of player 2 at `(1, 1)` succeeds and
the golden move of player 1 that should take the cell back fails: the loop
step leaves the cell to player 2 and player 1 without fields. -/
theorem probe_over {g : gamma_t} (O : Over g) :
    ∃ s', golden_wont_exceed_areas_step 2 1 1 (g, false) = some s' ∧ s'.2 = true ∧
      ownF s'.1.fields (1, 1) = 2 := by
  have I := O.inv
  have hown11 : (g.fields 1 1).owner = 1 := by
    have := O.own (1, 1)
    rw [show overOwn (1, 1) = 1 by decide] at this
    exact this
  have hc : InGrid g.height g.width (1, 1) := by
    rw [O.h, O.w]; exact ⟨by norm_num, by norm_num⟩
  have hv : ownF g.fields (1, 1) ≠ 0 := by
    show (g.fields 1 1).owner ≠ 0
    rw [hown11]; decide
  -- the probe succeeds
  have hcond : GoldenCond g 2 1 1 := by
    refine ⟨?_, ?_, ?_⟩
    · rw [golden_reject_false_iff, old_golden_possible_iff, hown11, O.pl, O.w, O.h]
      refine ⟨⟨by decide, le_refl _, O.gu2, 1, by norm_num, by decide, ?_⟩, by norm_num,
        by norm_num, by decide, by decide, O.gu2⟩
      have := player_fields_pos I hc hv
      rw [show ownF g.fields (1, 1) = 1 from hown11] at this
      exact this
    · intro R hR
      rw [hown11] at hR
      have hemp : R = ∅ := by
        apply Finset.eq_empty_of_forall_not_mem
        intro c hcR
        have h1 := (hR.1 c hcR).2
        have h2 : ownF (del_cell g 1 1).fields c = 1 := h1
        rw [ownF_del_cell] at h2
        split at h2
        · exact absurd h2 (by decide)
        · next hne =>
          rw [O.own] at h2
          exact hne ((overOwn_one c).1 h2)
      rw [hemp]
      simp
    · intro he
      rw [O.pa2, O.ar] at he
      exact absurd he (by norm_num)
  obtain ⟨b, g1, h1, I1, hb, _⟩ := golden_move_outcome I 2 1 1
  have hbt : b = true := hb.2 hcond
  subst hbt
  obtain ⟨g1', hg1', _, d1, d2, d3, d4, _, hown1, hpf1, _, _, hgu1⟩ := golden_move_frame I h1
  simp only [Option.some.injEq] at hg1'
  subst hg1'
  have hI3 := inv_with_flags (inv_with_flags I1 (set_at g1.golden_used 2 false))
    (set_at (set_at g1.golden_used 2 false) (g.fields 1 1).owner false)
  obtain ⟨b', g4, h4, I4, hb', hS'⟩ := golden_move_outcome hI3 (g.fields 1 1).owner 1 1
  -- the way back fails the check of the limit
  have hown3 : ∀ p, ownF g1.fields p = if p = (1, 1) then 2 else ownF g.fields p := hown1
  have hnot : ∀ g3 : gamma_t, g3.height = g1.height → g3.width = g1.width →
      g3.areas = g1.areas → g3.fields = g1.fields →
      ¬ GoldenCond g3 (g.fields 1 1).owner 1 1 := by
    intro g3 e1 e2 e4 e5 hcon
    obtain ⟨_, hc2, _⟩ := hcon
    have hfo : (g3.fields 1 1).owner = 2 := by
      rw [e5]
      have := hown3 (1, 1)
      rw [if_pos rfl] at this
      exact this
    have hR : AreaReps g 2 (rootSet g.height g.width g.fields 2) := areaReps_rootSet I 2
    have hR' := areaReps_congr (a := g) (b := del_cell g3 1 1)
      (e1.trans d1) (e2.trans d2) (fun p => by
        rw [ownF_del_cell, e5, hown3 p]
        by_cases hp : p = (1, 1)
        · rw [if_pos hp, hp]
          rw [show ownF g.fields (1, 1) = 1 from hown11]
          simp
        · rw [if_neg hp, if_neg hp]) hR
    rw [hfo] at hc2
    have := hc2 _ hR'
    have e : (rootSet g.height g.width g.fields 2).card
        = nroots g.height g.width g.fields 2 := rfl
    rw [e, ← I.areas 2 (by decide), O.pa2, e4, d4, O.ar] at this
    omega
  have hbf : b' = false := by
    cases hbb : b' with
    | false => rfl
    | true =>
      exfalso
      rw [hbb] at hb'
      refine absurd (hb'.1 rfl) ?_
      exact hnot _ rfl rfl rfl rfl
  subst hbf
  have S := hS' rfl
  unfold golden_wont_exceed_areas_step
  simp only [Bool.false_eq_true, if_false]
  rw [if_neg (by rw [hown11]; decide), h1]
  simp only
  simp only at h4
  rw [h4]
  refine ⟨_, rfl, rfl, ?_⟩
  show ownF g4.fields (1, 1) = 2
  rw [S.own]
  show ownF g1.fields (1, 1) = 2
  rw [hown3, if_pos rfl]

/-- On the board above the limit `gamma_golden_possible` for player 2 returns
`true` and leaves the cell `(1, 1)`, which belonged to player 1, to player 2. -/
theorem golden_possible_over {g : gamma_t} (O : Over g) :
    ∃ g', gamma_golden_possible (some g) 2 = some (true, some g') ∧
      (g.fields 1 1).owner = 1 ∧ (g'.fields 1 1).owner = 2 := by
  have I := O.inv
  have hown11 : (g.fields 1 1).owner = 1 := by
    have := O.own (1, 1)
    rw [show overOwn (1, 1) = 1 by decide] at this
    exact this
  have hc : InGrid g.height g.width (1, 1) := by
    rw [O.h, O.w]; exact ⟨by norm_num, by norm_num⟩
  have hv : ownF g.fields (1, 1) ≠ 0 := by
    show (g.fields 1 1).owner ≠ 0
    rw [hown11]; decide
  have hogp : old_golden_possible (some g) 2 = true := by
    rw [old_golden_possible_iff, O.pl]
    refine ⟨by decide, le_refl _, O.gu2, 1, by norm_num, by decide, ?_⟩
    have := player_fields_pos I hc hv
    rw [show ownF g.fields (1, 1) = 1 from hown11] at this
    exact this
  obtain ⟨sp, hsp, hsp2, hspo⟩ := probe_over O
  unfold gamma_golden_possible
  simp only [hogp, Bool.not_true, Bool.false_eq_true, if_false]
  rw [if_neg (by rw [O.pa2, O.ar]; norm_num)]
  unfold golden_wont_exceed_areas
  obtain ⟨s', hs', hQ⟩ := grid_foldlM_inv
    (fun s i j => golden_wont_exceed_areas_step 2 i j s)
    (fun k s => (k ≤ g.width + 1 → s = (g, false)) ∧
      (g.width + 1 < k → s.2 = true ∧ ownF s.1.fields (1, 1) = 2))
    g.height g.width (g, false)
    ⟨fun _ => rfl, fun h => absurd h (by omega)⟩
    (fun i j s _ hj hQ => by
      by_cases hk : i * g.width + j ≤ g.width + 1
      · have hs := hQ.1 hk
        subst hs
        by_cases he : i * g.width + j = g.width + 1
        · have hij : i = 1 ∧ j = 1 := by
            have hw1 : 1 < g.width := by rw [O.w]; norm_num
            exact idx_inj hj hw1 (by rw [he]; ring)
          rw [hij.1, hij.2]
          refine ⟨sp, hsp, fun h => absurd h (by omega), fun _ => ⟨hsp2, hspo⟩⟩
        · refine ⟨(g, false), ?_, fun _ => rfl, fun h => absurd h (by omega)⟩
          show golden_wont_exceed_areas_step 2 i j (g, false) = some (g, false)
          unfold golden_wont_exceed_areas_step
          simp only [Bool.false_eq_true, if_false]
          have hne : (i, j) ≠ (1, 1) := by
            intro hh
            simp only [Prod.mk.injEq] at hh
            apply he
            rw [hh.1, hh.2]
            ring
          have h1 : (g.fields i j).owner = 2 ∨ (g.fields i j).owner = EMPTY := by
            have hoo := O.own (i, j)
            have hone := overOwn_one (i, j)
            have hle := I.own_le (i, j) ⟨by
              by_contra hc'
              have : g.height ≤ i := by omega
              have h3 : 3 * g.width ≤ i * g.width := by
                rw [O.h] at this
                exact Nat.mul_le_mul_right _ this
              have hw1 : 1 < g.width := by rw [O.w]; norm_num
              omega, hj⟩
            rw [O.pl] at hle
            have hv1 : ownF g.fields (i, j) ≠ 1 := by
              rw [hoo]
              intro h1
              exact hne (hone.1 h1)
            have hcases : ownF g.fields (i, j) = 2 ∨ ownF g.fields (i, j) = 0 := by omega
            exact hcases
          rw [if_pos h1]
      · have hs := hQ.2 (by omega)
        refine ⟨s, ?_, fun h => absurd h (by omega), fun _ => hs⟩
        show golden_wont_exceed_areas_step 2 i j s = some s
        unfold golden_wont_exceed_areas_step
        simp only
        rw [if_pos hs.1])
  rw [hs']
  have hfin := hQ.2 (by rw [O.h, O.w]; norm_num)
  refine ⟨s'.1, ?_, hown11, hfin.2⟩
  show some (s'.2, some s'.1) = _
  rw [hfin.1]

/-- C12 fails on a board of `3` rows and `2 ^ 32 - 1` columns with two players
and the area limit `2 ^ 32 - 3`: after player 2 has taken `2 ^ 32 - 4` isolated
cells and the cross around `(1, 1)`, the cell `(1, 1)` belongs to player 2,
player 2 has `2 ^ 32` areas without it (one for each cell of `R`), which is
more than `areas`, and yet `gamma_golden_move(g, 1, 1, 1)` returns `true`. -/
theorem C12_golden_move_above_limit :
    ∃ g g' R, run (gamma_new 4294967295 3 2 4294967293)
        (isoCalls 4294967292 ++ [Call.move 2 1 0, Call.move 2 1 1, Call.move 2 1 2,
          Call.move 2 0 1, Call.move 2 2 1]) = some (some g) ∧
      g.areas = 4294967293 ∧ (g.fields 1 1).owner = 2 ∧
      AreaReps (del_cell g 1 1) 2 R ∧ R.card = 4294967296 ∧
      gamma_golden_move (some g) 1 1 1 = some (true, some g') := by
  obtain ⟨g, hrun, T⟩ := track_arms
  obtain ⟨g', hm, W⟩ := golden_wraps T
  obtain ⟨hR, hcard⟩ := wrapped_reps W
  have hown11 : (g.fields 1 1).owner = 2 := by
    have := T.own (1, 1)
    rw [show armsOwn (1, 1) = 2 by decide] at this
    exact this
  refine ⟨g, g', _, hrun, T.ar, hown11, ?_, hcard, hm⟩
  refine areaReps_congr (a := g') (b := del_cell g 1 1) (by rw [W.h]; exact T.h)
    (by rw [W.w]; exact T.w) ?_ hR
  intro p
  rw [W.own, ownF_del_cell, T.own]
  unfold wrapOwn splitOwn upd
  by_cases hp : p = (1, 1)
  · rw [if_pos hp, if_pos hp]
    simp
  · simp only [if_neg hp]

/-- C15 fails on a board of `3` rows and `2 ^ 32 - 1` columns with two players
and the area limit `2 ^ 32 - 3`: after the calls `wrapCalls` and the move of
player 2 to `(5, 0)`, which leave `player_areas[2]` above the limit,
`gamma_golden_possible(g, 2)` returns `true` and the cell `(1, 1)`, owned by
player 1 before the call, is owned by player 2 after it. -/
theorem C15_golden_possible_changes_board :
    ∃ g g', run (gamma_new 4294967295 3 2 4294967293) (wrapCalls ++ [Call.move 2 5 0])
        = some (some g) ∧
      gamma_golden_possible (some g) 2 = some (true, some g') ∧
      (g.fields 1 1).owner = 1 ∧ (g'.fields 1 1).owner = 2 := by
  obtain ⟨g, hrun, O⟩ := over_reach
  obtain ⟨g', h, h1, h2⟩ := golden_possible_over O
  exact ⟨g, g', hrun, h, h1, h2⟩

/-! ## A stone whose removal splits no area -/

theorem stepsTo_of_path {α : Type} {E : α → α → Prop} {a b : α}
    (h : Relation.ReflTransGen E a b) : ∃ n, StepsTo E n a b := by
  induction h with
  | refl => exact ⟨0, rfl⟩
  | tail _ hbc ih =>
    obtain ⟨n, hn⟩ := ih
    exact ⟨n + 1, _, hn, hbc⟩

theorem path_of_stepsTo {α : Type} {E : α → α → Prop} {a : α} :
    ∀ (n : Nat) (b : α), StepsTo E n a b → Relation.ReflTransGen E a b := by
  intro n
  induction n with
  | zero =>
    intro b h
    have : a = b := h
    rw [this]
  | succ n ih =>
    intro b h
    obtain ⟨m, hm, hmb⟩ := h
    exact Relation.ReflTransGen.tail (ih m hm) hmb

/-- Among the finitely many cells reached from `r` there is one, the farthest
from `r`, such that every other one is reached from `r` without passing
through it. -/
theorem exists_far_vertex {α : Type} (E : α → α → Prop) (r : α) (S : Finset α)
    (hS : ∀ u, Relation.ReflTransGen E r u → u ∈ S) :
    ∃ v, Relation.ReflTransGen E r v ∧
      ∀ u, Relation.ReflTransGen E r u → u ≠ v →
        Relation.ReflTransGen (fun a b => E a b ∧ a ≠ v ∧ b ≠ v) r u := by
  classical
  let d : α → Nat := fun u =>
    if h : ∃ n, StepsTo E n r u then Nat.find h else 0
  have hd : ∀ u (h : ∃ n, StepsTo E n r u), d u = Nat.find h := by
    intro u h
    show (if h : ∃ n, StepsTo E n r u then Nat.find h else 0) = _
    rw [dif_pos h]
  have hspec : ∀ u, Relation.ReflTransGen E r u → StepsTo E (d u) r u := by
    intro u hu
    have h := stepsTo_of_path hu
    rw [hd u h]
    exact Nat.find_spec h
  have hmin : ∀ u n, StepsTo E n r u → d u ≤ n := by
    intro u n hn
    have h : ∃ n, StepsTo E n r u := ⟨n, hn⟩
    rw [hd u h]
    exact Nat.find_min' h hn
  let T := S.filter (fun u => Relation.ReflTransGen E r u)
  have hT : ∀ u, u ∈ T ↔ Relation.ReflTransGen E r u := by
    intro u
    constructor
    · intro hu
      exact (Finset.mem_filter.1 hu).2
    · intro hu
      exact Finset.mem_filter.2 ⟨hS u hu, hu⟩
  have hne : T.Nonempty := ⟨r, (hT r).2 Relation.ReflTransGen.refl⟩
  obtain ⟨v, hvT, hvmax⟩ := Finset.exists_max_image T d hne
  refine ⟨v, (hT v).1 hvT, ?_⟩
  have key : ∀ n u, d u = n → Relation.ReflTransGen E r u → u ≠ v →
      Relation.ReflTransGen (fun a b => E a b ∧ a ≠ v ∧ b ≠ v) r u := by
    intro n
    induction n using Nat.strong_induction_on with
    | _ n ih =>
      intro u hdu hu huv
      have hsp := hspec u hu
      rw [hdu] at hsp
      cases n with
      | zero =>
        have : r = u := hsp
        rw [this]
      | succ m =>
        obtain ⟨w, hw, hwu⟩ := hsp
        have hdw : d w ≤ m := hmin w m hw
        have hwr : Relation.ReflTransGen E r w := path_of_stepsTo m w hw
        have hmax := hvmax u ((hT u).2 hu)
        have hwv : w ≠ v := by
          intro e
          rw [e] at hdw
          omega
        have h1 := ih (d w) (by omega) w rfl hwr hwv
        exact Relation.ReflTransGen.tail h1 ⟨hwu, hwv, huv⟩
  intro u hu huv
  exact key (d u) u rfl hu huv

/-- A player that owns a cell owns a cell whose removal does not raise the
number of its areas. -/
theorem exists_safe_cell {g : gamma_t} (I : Inv g) {q : Nat} (hq : q ≠ 0)
    {r : Nat × Nat} (hr : InGrid g.height g.width r) (hro : ownF g.fields r = q) :
    ∃ x y, x < g.width ∧ y < g.height ∧ (g.fields y x).owner = q ∧
      ∀ g3, Rebuilt g q x y g3 →
        nroots g.height g.width g3.fields q ≤ nroots g.height g.width g.fields q := by
  have hgrid : ∀ u, Relation.ReflTransGen (Adj g.height g.width g.fields) r u →
      u ∈ gridSet g.height g.width := by
    intro u hu
    apply mem_gridSet.2
    exact ((I.uf.sameRoot_of_eqvGen (eqvGen_iff_path.2 hu)).1).1 hr
  obtain ⟨v, hv, hfar⟩ := exists_far_vertex (Adj g.height g.width g.fields) r
    (gridSet g.height g.width) hgrid
  have hvg : InGrid g.height g.width v := mem_gridSet.1 (hgrid v hv)
  have hvo : ownF g.fields v = q := by
    rw [← eqvGen_own I.uf.eown (eqvGen_iff_path.2 hv)]
    exact hro
  refine ⟨v.2, v.1, hvg.2, hvg.1, hvo, fun g3 R => ?_⟩
  have hRown := R.own
  have hRinv := R.inv
  obtain ⟨F3, A, B, hg3⟩ := R.shape
  subst hg3
  have hown3 : ∀ p, ownF F3 p = if p = v then 0 else ownF g.fields p := hRown
  have U3 : UF g.height g.width F3 (Adj g.height g.width F3) := hRinv.uf
  have hemp : ownF F3 v = 0 := by rw [hown3, if_pos rfl]
  have hownk : ∀ p, ownF g.fields p = if p = v then q else ownF F3 p := by
    intro p
    by_cases hp : p = v
    · rw [if_pos hp, hp]; exact hvo
    · rw [if_neg hp, hown3, if_neg hp]
  -- every neighbour of `v` owned by `q` is joined to `r` on the rebuilt board
  have hmono : ∀ a b, (Adj g.height g.width g.fields a b ∧ a ≠ v ∧ b ≠ v) →
      Adj g.height g.width F3 a b := by
    rintro a b ⟨⟨ga, gb, hadj, ho, hne⟩, hav, hbv⟩
    refine ⟨ga, gb, hadj, ?_, ?_⟩
    · rw [hown3, hown3, if_neg hav, if_neg hbv]; exact ho
    · rw [hown3, if_neg hav]; exact hne
  have hnb : ∀ n, InGrid g.height g.width n → Adjacent v n → ownF F3 n = q →
      Relation.EqvGen (Adj g.height g.width F3) r n := by
    intro n hn hadj ho
    have hnv : n ≠ v := fun e => hadj.ne e.symm
    have hon : ownF g.fields n = q := by rw [hownk, if_neg hnv]; exact ho
    have hvn : Adj g.height g.width g.fields v n :=
      ⟨hvg, hn, hadj, by rw [hvo, hon], by rw [hvo]; exact hq⟩
    have h1 := hfar n (Relation.ReflTransGen.tail hv hvn) hnv
    have h2 : Relation.ReflTransGen (Adj g.height g.width F3) r n :=
      Relation.ReflTransGen.mono hmono h1
    exact eqvGen_iff_path.2 h2
  obtain ⟨D, hD1, hD2, hD3⟩ := touchReps_exists
    { g with fields := F3, player_areas := A, player_fields := B } q v.2 v.1
  have hDle : D.card ≤ 1 := by
    apply Finset.card_le_one.2
    intro a ha b hb
    apply hD2 a ha b hb
    apply eqvGen_iff_path.1
    have ea := hnb a (hD1 a ha).1 (hD1 a ha).2.1 (hD1 a ha).2.2
    have eb := hnb b (hD1 b hb).1 (hD1 b hb).2.1 (hD1 b hb).2.2
    exact Relation.EqvGen.trans _ _ _ (Relation.EqvGen.symm _ _ ea) eb
  have hcount := touching_count U3 I.uf (c := v) hvg hemp hq hownk D hD1
    (fun d hd e he hde => hD2 d hd e he (eqvGen_iff_path.1 hde))
    (fun n hn hadj ho => by
      obtain ⟨d, hd, hnd⟩ := hD3 n hn hadj ho
      exact ⟨d, hd, eqvGen_iff_path.2 hnd⟩)
  show nroots g.height g.width F3 q ≤ nroots g.height g.width g.fields q
  omega

/-- On a board on which no player has more than `areas` areas, a player that
passes the first checks and is below the limit has a golden move. -/
theorem golden_cond_exists {g : gamma_t} (I : Inv g) (hcap : Cap g) {pl : Nat}
    (hogp : old_golden_possible (some g) pl = true) (hlt : g.player_areas pl < g.areas) :
    ∃ x y, GoldenCond g pl x y := by
  obtain ⟨hpl, hple, hgu, i, hi, hne, hpos⟩ := (old_golden_possible_iff g pl).1 hogp
  have hi0 : i ≠ 0 := by
    intro e
    rw [e, I.fields0] at hpos
    omega
  rw [I.fields i hi0] at hpos
  obtain ⟨r, hr⟩ := Finset.card_pos.1 hpos
  obtain ⟨hrg, hro⟩ := mem_cellSet.1 hr
  obtain ⟨x, y, hx, hy, hown, hsafe⟩ := exists_safe_cell I hi0 hrg hro
  have hc : InGrid g.height g.width (y, x) := ⟨hy, hx⟩
  have hv : ownF g.fields (y, x) ≠ 0 := by
    show (g.fields y x).owner ≠ 0
    rw [hown]; exact hi0
  refine ⟨x, y, ?_, ?_, ?_⟩
  · rw [golden_reject_false_iff]
    exact ⟨hogp, hx, hy, by rw [hown]; exact hi0, by rw [hown]; exact hne, hgu⟩
  · intro R hR
    obtain ⟨g3, _, Rb⟩ := rebuild_spec I hc hv
    have Rb' : Rebuilt g (g.fields y x).owner x y g3 := Rb
    obtain ⟨_, hcard, _, _, _, _, _, _⟩ := rebuilt_reps Rb' hv
    rw [hcard R hR]
    rw [hown] at Rb' ⊢
    exact le_trans (Nat.mod_le _ _) (le_trans (hsafe g3 Rb') (hcap.2 i hi0))
  · intro he
    omega

/-- When no counter can wrap, `gamma_golden_possible` answers `true` exactly
when some golden move of the player would return `true`. -/
theorem golden_possible_iff_move_of_noWrap (width height players areas : Nat)
    (hw : width < 4294967296) (hh : height < 4294967296) (ha : areas < 4294967296)
    (hn : areas + 3 < 4294967296 ∨ height * width < 4294967296) (calls : List Call) :
    ∃ s, run (gamma_new width height players areas) calls = some s ∧
      ∀ g, s = some g → ∀ p, ∃ b s', gamma_golden_possible s p = some (b, s') ∧
        (b = true ↔ ∃ x y s'', gamma_golden_move s p x y = some (true, s'')) := by
  obtain ⟨s, hs, hC⟩ := reach_capInv width height players areas hw hh ha hn calls
  refine ⟨s, hs, fun g hg p => ?_⟩
  subst hg
  have C := hC g rfl
  have I := C.inv
  obtain ⟨b, g', h, _, _, _, _, _, _, hb, _⟩ := golden_possible_spec I p
  refine ⟨b, some g', h, ?_⟩
  rw [hb]
  constructor
  · rintro ⟨hogp, hlt | ⟨x, y, hc⟩⟩
    · obtain ⟨x, y, hc⟩ := golden_cond_exists I C.to_cap hogp hlt
      obtain ⟨s'', hs''⟩ := (golden_move_true_iff I p x y).2 hc
      exact ⟨x, y, s'', hs''⟩
    · obtain ⟨s'', hs''⟩ := (golden_move_true_iff I p x y).2 hc
      exact ⟨x, y, s'', hs''⟩
  · rintro ⟨x, y, s'', hs''⟩
    have hc := (golden_move_true_iff I p x y).1 ⟨s'', hs''⟩
    exact ⟨((golden_reject_false_iff g p x y).1 hc.1).1, Or.inr ⟨x, y, hc⟩⟩

/-! ## A board on which the query and the moves disagree

The board has `5` rows and `2 ^ 32 - 1` columns, three players and the area
limit `2 ^ 32 - 3`.  Players 1 and 2 each build `2 ^ 32 - 3` areas, one of them
a cross of five cells, and each makes a golden move on the centre of the cross
of the other: both counters wrap.  Player 2 then closes two squares of four
cells.  In the end player 1 has `2 ^ 32` single-cell areas and player 2 has
`2 ^ 32 - 1` areas, none of which is split by the removal of a cell, so that
every golden move of player 3 fails the check of the limit, while
`gamma_golden_possible` answers `true` for player 3 without looking. -/

theorem isoSet2_apart (p q : Nat × Nat) (hadj : Adjacent p q) (hp : IsoSet2 p)
    (hq : IsoSet2 q) : False := by
  obtain ⟨r, c⟩ := p
  obtain ⟨r', c'⟩ := q
  unfold IsoSet2 at hp hq
  unfold Adjacent at hadj
  simp only [Prod.mk.injEq] at hp hq hadj
  omega

theorem isoSet1_apart (p q : Nat × Nat) (hadj : Adjacent p q) (hp : IsoSet1 p)
    (hq : IsoSet1 q) : False := by
  obtain ⟨r, c⟩ := p
  obtain ⟨r', c'⟩ := q
  unfold IsoSet1 at hp hq
  unfold Adjacent at hadj
  simp only [Prod.mk.injEq] at hp hq hadj
  omega

theorem upd_eq_of_ne {O : Nat × Nat → Nat} {c p : Nat × Nat} {v a : Nat} (hva : v ≠ a)
    (h : upd O c v p = a) : O p = a ∧ p ≠ c := by
  unfold upd at h
  split at h
  · exact absurd h hva
  · next hpc => exact ⟨h, hpc⟩

theorem upd_eq_cases {O : Nat × Nat → Nat} {c p : Nat × Nat} {v a : Nat}
    (h : upd O c v p = a) : p = c ∨ O p = a := by
  unfold upd at h
  split at h
  · next hpc => exact Or.inl hpc
  · exact Or.inr h

/-- The counter and the number of trees of a player whose cells are pairwise
non-adjacent. -/
theorem duo_counter {g : gamma_t} {O : Nat × Nat → Nat} (T : DuoC g O) {z : Nat}
    (hpl : z ≠ 0) (hiso : ∀ p q, Adjacent p q → O p = z → O q = z → False) :
    g.player_areas z = g.player_fields z % 4294967296 ∧
      nroots g.height g.width g.fields z = g.player_fields z := by
  have hiso' : ∀ p q, Adjacent p q → ownF g.fields p = z → ownF g.fields q = z → False := by
    intro p q hadj hp hq
    rw [T.own] at hp hq
    exact hiso p q hadj hp hq
  refine ⟨iso_counter T.inv hpl hiso', ?_⟩
  rw [nroots_eq_ncells_of_isolated T.inv.uf hiso', T.inv.fields z hpl]

/-- A possible move along the calls `duoCalls`. -/
theorem duo_move {g : gamma_t} {O : Nat × Nat → Nat} (T : DuoC g O) {z x y : Nat}
    (hpl : z = 1 ∨ z = 2) (hx : x < 4294967295) (hy : y < 5) (hemp : O (y, x) = 0)
    (hcap : g.player_areas z = 4294967293 → ∃ i, i < 4 ∧ nbCond g z (y, x) i) :
    ∃ g', gamma_move (some g) z x y = some (true, some g') ∧
      DuoC g' (upd O (y, x) z) ∧
      g'.player_fields z = g.player_fields z + 1 ∧
      (∀ q, q ≠ z → g'.player_fields q = g.player_fields q) ∧
      (∀ q, q ≠ z → g'.player_areas q = g.player_areas q) ∧
      (∀ q, g'.golden_used q = g.golden_used q) ∧
      (∀ D, TouchReps g z x y D →
        nroots g'.height g'.width g'.fields z + D.card
          = nroots g.height g.width g.fields z + 1) := by
  have hmp : movie_possible (some g) z x y = true := by
    rw [movie_possible_iff]
    refine ⟨by omega, by rw [T.pl]; omega, by rw [T.w]; exact hx, by rw [T.h]; exact hy,
      ?_, ?_⟩
    · have := T.own (y, x)
      rw [hemp] at this
      exact this
    · intro hh
      rw [T.ar] at hh
      exact hcap hh
  obtain ⟨F', u, hm, _, _, _⟩ := gamma_move_ok T.inv hmp
  obtain ⟨g', u', hs', hI', _, hh, hw, ha, hp, hgu, hown, hpf, hpa, _⟩ :=
    gamma_move_frame T.inv hm
  obtain ⟨g'', hs'', _, hD⟩ := move_counter_update T.inv hm
  rw [hs'] at hs''
  simp only [Option.some.injEq] at hs''
  subst hs''
  refine ⟨g', by rw [hm, hs'], ⟨hI', by rw [hh, T.h], by rw [hw, T.w], by rw [hp, T.pl],
    by rw [ha, T.ar], ?_⟩, ?_, ?_, ?_, ?_, ?_⟩
  · intro p
    rw [hown p]
    unfold upd
    split
    · rfl
    · exact T.own p
  · rw [hpf, set_at_apply, if_pos rfl]
  · intro q hq
    rw [hpf, set_at_apply, if_neg hq]
  · intro q hq
    rw [hpa, set_at_apply, if_neg hq]
  · intro q
    rw [hgu]
  · intro D hDr
    rw [hh, hw]
    exact (hD D hDr).2.2

/-- A golden move along the calls `duoCalls` on a cell of a player whose other
cells are pairwise non-adjacent and number `2 ^ 32`: the rebuilt counter wraps
and the move succeeds. -/
theorem duo_golden {g : gamma_t} {O : Nat × Nat → Nat} (T : DuoC g O) {z v x y : Nat}
    (hpl : z = 1 ∨ z = 2) (hv : v = 1 ∨ v = 2) (hne : v ≠ z)
    (hx : x < 4294967295) (hy : y < 5) (hown : O (y, x) = v)
    (hgu : g.golden_used z = false)
    (hiso : ∀ p q, Adjacent p q → upd O (y, x) 0 p = v → upd O (y, x) 0 q = v → False)
    (hwrap : g.player_fields v = 4294967297)
    (hcnt : g.player_areas z ≠ 4294967293) :
    ∃ g', gamma_golden_move (some g) z x y = some (true, some g') ∧
      DuoC g' (upd O (y, x) z) ∧
      g'.player_fields v = 4294967296 ∧
      g'.player_fields z = g.player_fields z + 1 ∧
      g'.player_areas v = 0 ∧
      (∀ r, r ≠ z → g'.golden_used r = g.golden_used r) := by
  have I := T.inv
  have hc : InGrid g.height g.width (y, x) := by
    rw [T.h, T.w]; exact ⟨hy, hx⟩
  have hfo : (g.fields y x).owner = v := by
    have := T.own (y, x)
    rw [hown] at this
    exact this
  have hv0 : v ≠ 0 := by omega
  have hvf : ownF g.fields (y, x) ≠ 0 := by
    show (g.fields y x).owner ≠ 0
    rw [hfo]; exact hv0
  obtain ⟨g3, _, R⟩ := rebuild_spec I hc hvf
  have R' : Rebuilt g v x y g3 := by
    have : Rebuilt g (g.fields y x).owner x y g3 := R
    rw [hfo] at this
    exact this
  obtain ⟨_, hcard, hpa3, h3h, h3w, _, _, _⟩ := rebuilt_reps R' hv0
  have hiso3 : ∀ p q, Adjacent p q → ownF g3.fields p = v → ownF g3.fields q = v → False := by
    intro p q hadj hp hq
    rw [R'.own] at hp hq
    apply hiso p q hadj
    · unfold upd
      rw [T.own] at hp
      exact hp
    · unfold upd
      rw [T.own] at hq
      exact hq
  have hnr3 : nroots g.height g.width g3.fields v = 4294967296 := by
    have U3 := R'.inv.uf
    rw [h3h, h3w] at U3
    rw [nroots_eq_ncells_of_isolated U3 hiso3]
    have := R'.inv.fields v hv0
    rw [h3h, h3w] at this
    rw [← this]
    have := R'.pf
    omega
  have hcond : GoldenCond g z x y := by
    refine ⟨?_, ?_, ?_⟩
    · rw [golden_reject_false_iff, old_golden_possible_iff, hfo, T.pl, T.w, T.h]
      refine ⟨⟨by omega, by omega, hgu, v, by omega, hne, by omega⟩, hx, hy, hv0, hne, hgu⟩
    · intro D hD
      rw [hfo] at hD
      rw [hcard D hD, hnr3, T.ar]
      norm_num
    · intro he
      rw [T.ar] at he
      exact absurd he hcnt
  obtain ⟨b, g', hm, _, hb, _⟩ := golden_move_outcome I z x y
  have hbt : b = true := hb.2 hcond
  subst hbt
  obtain ⟨g1', hg1', I', d1, d2, d3, d4, _, hown', hpfv, hpfp, hoth, hflag⟩ :=
    golden_move_frame I hm
  simp only [Option.some.injEq] at hg1'
  subst hg1'
  rw [hfo] at hpfv
  refine ⟨g', hm, ⟨I', by rw [d1, T.h], by rw [d2, T.w], by rw [d3, T.pl],
    by rw [d4, T.ar], ?_⟩, by omega, hpfp, ?_, ?_⟩
  · intro p
    rw [hown' p]
    unfold upd
    split
    · rfl
    · exact T.own p
  · -- the counter of the evicted player is the wrapped number of its cells
    have hiso' : ∀ p q, Adjacent p q → ownF g'.fields p = v → ownF g'.fields q = v →
        False := by
      intro p q hadj hp hq
      rw [hown'] at hp hq
      apply hiso p q hadj
      · unfold upd
        split
        · next hpc =>
          rw [if_pos hpc] at hp
          exact absurd hp.symm hne
        · next hpc =>
          rw [if_neg hpc, T.own] at hp
          exact hp
      · unfold upd
        split
        · next hpc =>
          rw [if_pos hpc] at hq
          exact absurd hq.symm hne
        · next hpc =>
          rw [if_neg hpc, T.own] at hq
          exact hq
    rw [iso_counter I' hv0 hiso']
    have : g'.player_fields v = 4294967296 := by omega
    rw [this]
  · intro r hr
    rw [hflag r, if_neg hr]

/-- A neighbour of the right owner, as the check of the limit in
`movie_possible` wants it. -/
theorem duo_nb {g : gamma_t} {O : Nat × Nat → Nat} (T : DuoC g O) {pl : Nat}
    {c n : Nat × Nat} (i : Nat) (hi : i < 4) (hn : nbr c i = n) (h1 : n.1 < 5)
    (h2 : n.2 < 4294967295) (ho : O n = pl) : ∃ i, i < 4 ∧ nbCond g pl c i := by
  refine ⟨i, hi, ?_, ?_⟩
  · rw [hn, T.h, T.w]; exact ⟨h1, h2⟩
  · rw [hn, T.own]; exact ho

theorem duoBase_zero (p : Nat × Nat) : duoBase 0 p = 0 := by
  unfold duoBase
  split
  · omega
  · rfl

theorem duoBase_succ (k : Nat) (hk : k < 4294967288) :
    upd (duoBase k) (2 * (k / 2147483644), 8 + 2 * (k % 2147483644)) 2 = duoBase (k + 1) := by
  funext p
  obtain ⟨r, c⟩ := p
  simp only [upd, duoBase, Prod.mk.injEq]
  split_ifs <;> first | rfl | (exfalso; omega)

theorem duoBase_two {k : Nat} {p : Nat × Nat} (h : duoBase k p = 2) :
    (p.1 = 0 ∨ p.1 = 2) ∧ 8 ≤ p.2 ∧ p.2 % 2 = 0 := by
  unfold duoBase at h
  split at h
  · next hc => exact ⟨hc.1, hc.2.1, hc.2.2.1⟩
  · exact absurd h (by decide)

theorem duoBase_values (k : Nat) (p : Nat × Nat) : duoBase k p = 0 ∨ duoBase k p = 2 := by
  unfold duoBase
  split
  · exact Or.inr rfl
  · exact Or.inl rfl

theorem duoCalls2_succ (k : Nat) :
    duoCalls2 (k + 1) = duoCalls2 k ++
      [Call.move 2 (8 + 2 * (k % 2147483644)) (2 * (k / 2147483644))] := by
  unfold duoCalls2
  rw [List.range_succ, List.map_append]
  rfl

theorem duoCalls1_succ (k : Nat) :
    duoCalls1 (k + 1) = duoCalls1 k ++
      [Call.move 1 (9 + 2 * (k % 2147483643)) (2 * (k / 2147483643))] := by
  unfold duoCalls1
  rw [List.range_succ, List.map_append]
  rfl

/-- The empty board of the scenario. -/
theorem duo_new : ∃ g, gamma_new 4294967295 5 3 4294967293 = some g ∧ DuoC g (duoBase 0) ∧
    (∀ q, g.player_fields q = 0) ∧ (∀ q, g.golden_used q = false) := by
  have hex : ∃ g, gamma_new 4294967295 5 3 4294967293 = some g := by
    simp [gamma_new, UINT32_MAX]
  obtain ⟨g, hg⟩ := hex
  refine ⟨g, hg, ?_⟩
  have I := gamma_new_inv (by norm_num) (by norm_num) hg
  obtain ⟨h1, h2, h3, h4, h5, _, h7, h8⟩ := gamma_new_some hg
  refine ⟨⟨I, h1, h2, h3, h4, ?_⟩, h7, h8⟩
  intro p
  rw [h5, duoBase_zero]
  exact ownF_init_fields _ _ p

/-- The flag of a player who made no golden move among the calls is not set. -/
theorem duo_flag {calls : List Call} {g : gamma_t}
    (hrun : run (gamma_new 4294967295 5 3 4294967293) calls = some (some g)) (p : Nat)
    (hno : ∀ c, c ∈ calls → ∀ x y, c ≠ Call.golden_move p x y) :
    g.golden_used p = false := by
  obtain ⟨g0, hg0, T0, _, hgu0⟩ := duo_new
  obtain ⟨g2, h2, _, hf⟩ := run_flags calls g0 T0.inv
  rw [hg0, h2] at hrun
  simp only [Option.some.injEq] at hrun
  subst hrun
  rw [(hf p).2 hno]
  exact hgu0 p

/-- The board after the first `k` isolated stones of player 2. -/
theorem duo_iso2 (k : Nat) (hk : k ≤ 4294967288) :
    ∃ g, run (gamma_new 4294967295 5 3 4294967293) (duoCalls2 k) = some (some g) ∧
      DuoC g (duoBase k) ∧ g.player_fields 2 = k ∧
      (∀ q, q ≠ 2 → g.player_fields q = 0) ∧ (∀ q, q ≠ 2 → g.player_areas q = 0) := by
  induction k with
  | zero =>
    obtain ⟨g, hg, T, hpf, _⟩ := duo_new
    refine ⟨g, ?_, T, hpf 2, fun q _ => hpf q, fun q _ => ?_⟩
    · rw [hg]
      rfl
    · exact (gamma_new_some hg).2.2.2.2.2.1 q
  | succ k ih =>
    obtain ⟨g, hrun, T, hpf, hoth, hpa⟩ := ih (by omega)
    have hcnt := (duo_counter T (z := 2) (by decide) (by
      intro p q hadj hp hq
      obtain ⟨r, c⟩ := p
      obtain ⟨r', c'⟩ := q
      have h1 := duoBase_two hp
      have h2 := duoBase_two hq
      unfold Adjacent at hadj
      simp only at h1 h2 hadj
      omega)).1
    rw [hpf] at hcnt
    obtain ⟨g', hm, T', hpf', hoth', hpa', _, _⟩ := duo_move T (z := 2)
      (x := 8 + 2 * (k % 2147483644)) (y := 2 * (k / 2147483644))
      (Or.inr rfl) (by omega) (by omega)
      (by unfold duoBase; split
          · omega
          · rfl)
      (by intro h; omega)
    refine ⟨g', ?_, ?_, by rw [hpf', hpf], fun q hq => by rw [hoth' q hq, hoth q hq],
      fun q hq => by rw [hpa' q hq, hpa q hq]⟩
    · rw [duoCalls2_succ, run_snoc hrun]
      exact call_move_true hm
    · rw [duoBase_succ k (by omega)] at T'
      exact T'

/-- The counter of a player with fewer cells than the limit is not at the limit. -/
theorem duo_below {g : gamma_t} {O : Nat × Nat → Nat} (T : DuoC g O) {pl : Nat}
    (hpl : pl ≠ 0) (hlt : g.player_fields pl < 4294967293) :
    g.player_areas pl ≠ 4294967293 := by
  have h1 := T.inv.areas pl hpl
  have h2 := nroots_le_ncells g.height g.width g.fields pl
  have h3 := T.inv.fields pl hpl
  have h4 : nroots g.height g.width g.fields pl % 4294967296
      = nroots g.height g.width g.fields pl := Nat.mod_eq_of_lt (by omega)
  omega

/-- The board after player 2 has built its position. -/
theorem duo_reachA :
    ∃ g, run (gamma_new 4294967295 5 3 4294967293) duoCallsA = some (some g) ∧
      DuoC g duoOwnA ∧ g.player_fields 2 = 4294967297 ∧
      (∀ q, q ≠ 2 → g.player_fields q = 0) ∧ (∀ q, q ≠ 2 → g.player_areas q = 0) := by
  obtain ⟨g0, hrun, T0, f0, o0, a0⟩ := duo_iso2 4294967288 (le_refl _)
  obtain ⟨g1, hm1, T1, f1, o1, a1, _, _⟩ := duo_move T0 (z := 2) (x := 0) (y := 3)
    (Or.inr rfl) (by norm_num) (by norm_num) (by decide)
    (fun h => absurd h (duo_below T0 (by decide) (by omega)))
  obtain ⟨g2, hm2, T2, f2, o2, a2, _, _⟩ := duo_move T1 (z := 2) (x := 1) (y := 4)
    (Or.inr rfl) (by norm_num) (by norm_num) (by decide)
    (fun h => absurd h (duo_below T1 (by decide) (by omega)))
  obtain ⟨g3, hm3, T3, f3, o3, a3, _, _⟩ := duo_move T2 (z := 2) (x := 3) (y := 3)
    (Or.inr rfl) (by norm_num) (by norm_num) (by decide)
    (fun h => absurd h (duo_below T2 (by decide) (by omega)))
  obtain ⟨g4, hm4, T4, f4, o4, a4, _, _⟩ := duo_move T3 (z := 2) (x := 4) (y := 4)
    (Or.inr rfl) (by norm_num) (by norm_num) (by decide)
    (fun h => absurd h (duo_below T3 (by decide) (by omega)))
  obtain ⟨g5, hm5, T5, f5, o5, a5, _, _⟩ := duo_move T4 (z := 2) (x := 5) (y := 0)
    (Or.inr rfl) (by norm_num) (by norm_num) (by decide)
    (fun h => absurd h (duo_below T4 (by decide) (by omega)))
  obtain ⟨g6, hm6, T6, f6, o6, a6, _, _⟩ := duo_move T5 (z := 2) (x := 5) (y := 1)
    (Or.inr rfl) (by norm_num) (by norm_num) (by decide)
    (fun _ => duo_nb T5 (n := (0, 5)) 3 (by norm_num) (by decide) (by norm_num)
      (by norm_num) (by decide))
  obtain ⟨g7, hm7, T7, f7, o7, a7, _, _⟩ := duo_move T6 (z := 2) (x := 5) (y := 2)
    (Or.inr rfl) (by norm_num) (by norm_num) (by decide)
    (fun _ => duo_nb T6 (n := (1, 5)) 3 (by norm_num) (by decide) (by norm_num)
      (by norm_num) (by decide))
  obtain ⟨g8, hm8, T8, f8, o8, a8, _, _⟩ := duo_move T7 (z := 2) (x := 4) (y := 1)
    (Or.inr rfl) (by norm_num) (by norm_num) (by decide)
    (fun _ => duo_nb T7 (n := (1, 5)) 0 (by norm_num) (by decide) (by norm_num)
      (by norm_num) (by decide))
  obtain ⟨g9, hm9, T9, f9, o9, a9, _, _⟩ := duo_move T8 (z := 2) (x := 6) (y := 1)
    (Or.inr rfl) (by norm_num) (by norm_num) (by decide)
    (fun _ => duo_nb T8 (n := (1, 5)) 1 (by norm_num) (by decide) (by norm_num)
      (by norm_num) (by decide))
  refine ⟨g9, ?_, T9, by omega, fun q hq => ?_, fun q hq => ?_⟩
  · unfold duoCallsA
    rw [run_append, hrun]
    show run (some g0) _ = _
    rw [run_cons, call_move_true hm1]
    show run (some g1) _ = _
    rw [run_cons, call_move_true hm2]
    show run (some g2) _ = _
    rw [run_cons, call_move_true hm3]
    show run (some g3) _ = _
    rw [run_cons, call_move_true hm4]
    show run (some g4) _ = _
    rw [run_cons, call_move_true hm5]
    show run (some g5) _ = _
    rw [run_cons, call_move_true hm6]
    show run (some g6) _ = _
    rw [run_cons, call_move_true hm7]
    show run (some g7) _ = _
    rw [run_cons, call_move_true hm8]
    show run (some g8) _ = _
    rw [run_cons, call_move_true hm9]
    rfl
  · rw [o9 q hq, o8 q hq, o7 q hq, o6 q hq, o5 q hq, o4 q hq, o3 q hq, o2 q hq, o1 q hq,
      o0 q hq]
  · rw [a9 q hq, a8 q hq, a7 q hq, a6 q hq, a5 q hq, a4 q hq, a3 q hq, a2 q hq, a1 q hq,
      a0 q hq]

theorem duoOwnA_two {p : Nat × Nat} (h : duoOwnA p = 2) : IsoSet2 p ∨ p = (1, 5) := by
  unfold duoOwnA at h
  unfold IsoSet2
  rcases upd_eq_cases h with h | h
  · simp [h]
  rcases upd_eq_cases h with h | h
  · simp [h]
  rcases upd_eq_cases h with h | h
  · simp [h]
  rcases upd_eq_cases h with h | h
  · simp [h]
  rcases upd_eq_cases h with h | h
  · simp [h]
  rcases upd_eq_cases h with h | h
  · simp [h]
  rcases upd_eq_cases h with h | h
  · simp [h]
  rcases upd_eq_cases h with h | h
  · simp [h]
  rcases upd_eq_cases h with h | h
  · simp [h]
  exact Or.inl (Or.inl (duoBase_two h))

theorem duoOwnA_values (p : Nat × Nat) : duoOwnA p = 0 ∨ duoOwnA p = 2 := by
  unfold duoOwnA upd
  split_ifs <;> first | exact Or.inr rfl | exact duoBase_values _ p

theorem duoOwnA_odd {p : Nat × Nat} (h1 : p.1 = 0 ∨ p.1 = 2 ∨ p.1 = 4) (h2 : 9 ≤ p.2)
    (h3 : p.2 % 2 = 1) : duoOwnA p = 0 := by
  rcases duoOwnA_values p with h | h
  · exact h
  · exfalso
    obtain ⟨r, c⟩ := p
    have := duoOwnA_two h
    unfold IsoSet2 at this
    simp only [Prod.mk.injEq] at this h1 h2 h3
    omega

theorem duoGrid_zero : duoGrid 0 = duoOwnA := by
  funext p
  unfold duoGrid
  split
  · omega
  · rfl

theorem duoGrid_succ (k : Nat) (hk : k < 4294967291) :
    upd (duoGrid k) (2 * (k / 2147483643), 9 + 2 * (k % 2147483643)) 1 = duoGrid (k + 1) := by
  funext p
  obtain ⟨r, c⟩ := p
  simp only [upd, duoGrid, Prod.mk.injEq]
  split_ifs <;> first | rfl | (exfalso; omega)

theorem duoGrid_one {k : Nat} {p : Nat × Nat} (h : duoGrid k p = 1) :
    (p.1 = 0 ∨ p.1 = 2 ∨ p.1 = 4) ∧ 9 ≤ p.2 ∧ p.2 % 2 = 1 := by
  unfold duoGrid at h
  split at h
  · next hc => exact ⟨hc.1, hc.2.1, hc.2.2.1⟩
  · rcases duoOwnA_values p with h' | h'
    · rw [h'] at h; exact absurd h (by decide)
    · rw [h'] at h; exact absurd h (by decide)

theorem duoGrid_two {k : Nat} {p : Nat × Nat} (h : duoGrid k p = 2) : duoOwnA p = 2 := by
  unfold duoGrid at h
  split at h
  · exact absurd h (by decide)
  · exact h

theorem duoGrid_values (k : Nat) (p : Nat × Nat) :
    duoGrid k p = 0 ∨ duoGrid k p = 1 ∨ duoGrid k p = 2 := by
  unfold duoGrid
  split
  · exact Or.inr (Or.inl rfl)
  · rcases duoOwnA_values p with h | h
    · exact Or.inl h
    · exact Or.inr (Or.inr h)

/-- The board after the first `k` isolated stones of player 1. -/
theorem duo_iso1 (k : Nat) (hk : k ≤ 4294967291) :
    ∃ g, run (gamma_new 4294967295 5 3 4294967293) (duoCallsA ++ duoCalls1 k)
        = some (some g) ∧
      DuoC g (duoGrid k) ∧ g.player_fields 1 = k ∧ g.player_fields 2 = 4294967297 ∧
      g.player_fields 3 = 0 ∧ g.player_areas 3 = 0 := by
  induction k with
  | zero =>
    obtain ⟨g, hg, T, hpf, ho, ha⟩ := duo_reachA
    refine ⟨g, ?_, ?_, ho 1 (by decide), hpf, ho 3 (by decide), ha 3 (by decide)⟩
    · show run _ (duoCallsA ++ []) = _
      rw [List.append_nil]
      exact hg
    · rw [duoGrid_zero]
      exact T
  | succ k ih =>
    obtain ⟨g, hrun, T, hpf1, hpf2, hpf3, hpa3⟩ := ih (by omega)
    obtain ⟨g', hm, T', hpf', hoth', hpa', _, _⟩ := duo_move T (z := 1)
      (x := 9 + 2 * (k % 2147483643)) (y := 2 * (k / 2147483643))
      (Or.inl rfl) (by omega) (by omega)
      (by unfold duoGrid; split
          · omega
          · exact duoOwnA_odd (by simp only; omega) (by simp only; omega)
              (by simp only; omega))
      (fun h => absurd h (duo_below T (by decide) (by omega)))
    refine ⟨g', ?_, ?_, by rw [hpf', hpf1], by rw [hoth' 2 (by decide), hpf2],
      by rw [hoth' 3 (by decide), hpf3], by rw [hpa' 3 (by decide), hpa3]⟩
    · rw [duoCalls1_succ, isoCalls_assoc, run_snoc hrun]
      exact call_move_true hm
    · rw [duoGrid_succ k (by omega)] at T'
      exact T'

theorem run_append_some {s : Option gamma_t} {l1 l2 : List Call} {g : gamma_t}
    (h : run s l1 = some (some g)) : run s (l1 ++ l2) = run (some g) l2 := by
  rw [run_append, h]
  rfl

theorem duoGrid_iso2 {p : Nat × Nat} (h : upd (duoGrid 4294967291) (1, 5) 0 p = 2) :
    IsoSet2 p := by
  obtain ⟨h1, h2⟩ := upd_eq_of_ne (by decide) h
  rcases duoOwnA_two (duoGrid_two h1) with h3 | h3
  · exact h3
  · exact absurd h3 h2

theorem duoOwnB_one {p : Nat × Nat} (h : duoOwnB p = 1) : IsoSet1 p := by
  unfold duoOwnB at h
  unfold IsoSet1
  rcases upd_eq_cases h with h | h
  · simp [h]
  · exact Or.inl (duoGrid_one h)

theorem duoOwnB_two {p : Nat × Nat} (h : duoOwnB p = 2) : IsoSet2 p := by
  unfold duoOwnB at h
  obtain ⟨h1, h2⟩ := upd_eq_of_ne (by decide) h
  rcases duoOwnA_two (duoGrid_two h1) with h3 | h3
  · exact h3
  · exact absurd h3 h2

theorem duoOwnB_values (p : Nat × Nat) : duoOwnB p = 0 ∨ duoOwnB p = 1 ∨ duoOwnB p = 2 := by
  unfold duoOwnB upd
  split
  · exact Or.inr (Or.inl rfl)
  · exact duoGrid_values _ p

theorem duoOwnC_iso1 {p : Nat × Nat} (h : upd duoOwnC (1, 1) 0 p = 1) : IsoSet1 p := by
  obtain ⟨h1, h2⟩ := upd_eq_of_ne (by decide) h
  unfold duoOwnC at h1
  rcases upd_eq_cases h1 with h | h
  · unfold IsoSet1; simp [h]
  rcases upd_eq_cases h with h | h
  · unfold IsoSet1; simp [h]
  rcases upd_eq_cases h with h | h
  · unfold IsoSet1; simp [h]
  rcases upd_eq_cases h with h | h
  · exact absurd h h2
  rcases upd_eq_cases h with h | h
  · unfold IsoSet1; simp [h]
  exact duoOwnB_one h

theorem duoOwnD_one {p : Nat × Nat} (h : duoOwnD p = 1) : IsoSet1 p := by
  apply duoOwnC_iso1
  unfold duoOwnD at h
  obtain ⟨h1, h2⟩ := upd_eq_of_ne (v := 2) (a := 1) (by decide) h
  unfold upd
  rw [if_neg h2]
  exact h1

theorem duoOwnD_two {p : Nat × Nat} (h : duoOwnD p = 2) : IsoSet2 p := by
  unfold duoOwnD at h
  rcases upd_eq_cases h with h | h
  · unfold IsoSet2; simp [h]
  unfold duoOwnC at h
  obtain ⟨h, _⟩ := upd_eq_of_ne (v := 1) (a := 2) (by decide) h
  obtain ⟨h, _⟩ := upd_eq_of_ne (v := 1) (a := 2) (by decide) h
  obtain ⟨h, _⟩ := upd_eq_of_ne (v := 1) (a := 2) (by decide) h
  obtain ⟨h, _⟩ := upd_eq_of_ne (v := 1) (a := 2) (by decide) h
  obtain ⟨h, _⟩ := upd_eq_of_ne (v := 1) (a := 2) (by decide) h
  exact duoOwnB_two h

theorem duoOwnC_values (p : Nat × Nat) : duoOwnC p = 0 ∨ duoOwnC p = 1 ∨ duoOwnC p = 2 := by
  unfold duoOwnC upd
  split_ifs <;> first | exact Or.inr (Or.inl rfl) | exact duoOwnB_values p

theorem duoOwnD_values (p : Nat × Nat) : duoOwnD p = 0 ∨ duoOwnD p = 1 ∨ duoOwnD p = 2 := by
  unfold duoOwnD upd
  split
  · exact Or.inr (Or.inr rfl)
  · exact duoOwnC_values p

/-- The two golden moves: from the board on which both players have their
isolated stones to the board on which both counters have wrapped. -/
theorem duo_mid {g0 : gamma_t} (T0 : DuoC g0 (duoGrid 4294967291))
    (hpf1 : g0.player_fields 1 = 4294967291) (hpf2 : g0.player_fields 2 = 4294967297)
    (hgu1 : g0.golden_used 1 = false) (hgu2 : g0.golden_used 2 = false) :
    ∃ g, run (some g0) [Call.golden_move 1 5 1, Call.move 1 1 0, Call.move 1 1 1,
        Call.move 1 1 2, Call.move 1 0 1, Call.move 1 2 1, Call.golden_move 2 1 1]
        = some (some g) ∧
      DuoC g duoOwnD ∧ g.player_fields 1 = 4294967296 ∧ g.player_fields 2 = 4294967297 := by
  obtain ⟨g1, hm1, T1, f1, e1, a1, u1⟩ := duo_golden T0 (z := 1) (v := 2) (x := 5) (y := 1)
    (Or.inl rfl) (Or.inr rfl) (by decide) (by norm_num) (by norm_num) (by decide) hgu1
    (fun p q hadj hp hq => isoSet2_apart p q hadj (duoGrid_iso2 hp) (duoGrid_iso2 hq))
    hpf2 (duo_below T0 (by decide) (by omega))
  have T1' : DuoC g1 duoOwnB := T1
  obtain ⟨g2, hm2, T2, f2, o2, a2, u2, _⟩ := duo_move T1' (z := 1) (x := 1) (y := 0)
    (Or.inl rfl) (by norm_num) (by norm_num) (by decide)
    (fun h => absurd h (duo_below T1' (by decide) (by omega)))
  obtain ⟨g3, hm3, T3, f3, o3, a3, u3, _⟩ := duo_move T2 (z := 1) (x := 1) (y := 1)
    (Or.inl rfl) (by norm_num) (by norm_num) (by decide)
    (fun _ => duo_nb T2 (n := (0, 1)) 3 (by norm_num) (by decide) (by norm_num)
      (by norm_num) (by decide))
  obtain ⟨g4, hm4, T4, f4, o4, a4, u4, _⟩ := duo_move T3 (z := 1) (x := 1) (y := 2)
    (Or.inl rfl) (by norm_num) (by norm_num) (by decide)
    (fun _ => duo_nb T3 (n := (1, 1)) 3 (by norm_num) (by decide) (by norm_num)
      (by norm_num) (by decide))
  obtain ⟨g5, hm5, T5, f5, o5, a5, u5, _⟩ := duo_move T4 (z := 1) (x := 0) (y := 1)
    (Or.inl rfl) (by norm_num) (by norm_num) (by decide)
    (fun _ => duo_nb T4 (n := (1, 1)) 0 (by norm_num) (by decide) (by norm_num)
      (by norm_num) (by decide))
  obtain ⟨g6, hm6, T6, f6, o6, a6, u6, _⟩ := duo_move T5 (z := 1) (x := 2) (y := 1)
    (Or.inl rfl) (by norm_num) (by norm_num) (by decide)
    (fun _ => duo_nb T5 (n := (1, 1)) 1 (by norm_num) (by decide) (by norm_num)
      (by norm_num) (by decide))
  have T6' : DuoC g6 duoOwnC := T6
  have hpa2 : g6.player_areas 2 = 0 := by
    rw [a6 2 (by decide), a5 2 (by decide), a4 2 (by decide), a3 2 (by decide),
      a2 2 (by decide), a1]
  have hfl2 : g6.golden_used 2 = false := by
    rw [u6, u5, u4, u3, u2, u1 2 (by decide), hgu2]
  have hf1 : g6.player_fields 1 = 4294967297 := by omega
  have hf2 : g6.player_fields 2 = 4294967296 := by
    rw [o6 2 (by decide), o5 2 (by decide), o4 2 (by decide), o3 2 (by decide),
      o2 2 (by decide), f1]
  obtain ⟨g7, hm7, T7, f7, e7, _, _⟩ := duo_golden T6' (z := 2) (v := 1) (x := 1) (y := 1)
    (Or.inr rfl) (Or.inl rfl) (by decide) (by norm_num) (by norm_num) (by decide) hfl2
    (fun p q hadj hp hq => isoSet1_apart p q hadj (duoOwnC_iso1 hp) (duoOwnC_iso1 hq))
    hf1 (by rw [hpa2]; decide)
  refine ⟨g7, ?_, T7, f7, by omega⟩
  rw [run_cons, call_golden_true hm1]
  show run (some g1) _ = _
  rw [run_cons, call_move_true hm2]
  show run (some g2) _ = _
  rw [run_cons, call_move_true hm3]
  show run (some g3) _ = _
  rw [run_cons, call_move_true hm4]
  show run (some g4) _ = _
  rw [run_cons, call_move_true hm5]
  show run (some g5) _ = _
  rw [run_cons, call_move_true hm6]
  show run (some g6) _ = _
  rw [run_cons, call_golden_true hm7]
  rfl

/-- Two adjacent cells of player 2 are joined by an edge. -/
theorem duo_adj {g : gamma_t} {O : Nat × Nat → Nat} (T : DuoC g O) {a b : Nat × Nat}
    (ha : a.1 < 5 ∧ a.2 < 4294967295) (hb : b.1 < 5 ∧ b.2 < 4294967295)
    (hadj : Adjacent a b) (hoa : O a = 2) (hob : O b = 2) :
    Adj 5 4294967295 g.fields a b := by
  refine ⟨ha, hb, hadj, ?_, ?_⟩
  · rw [T.own, T.own, hoa, hob]
  · rw [T.own, hoa]; decide

/-- The areas of player 2 that touch a cell, given on the owner grid. -/
theorem duo_touch {g : gamma_t} {O : Nat × Nat → Nat} (T : DuoC g O) {x y : Nat}
    (D : Finset (Nat × Nat))
    (h1 : ∀ d, d ∈ D → (d.1 < 5 ∧ d.2 < 4294967295) ∧ Adjacent (y, x) d ∧ O d = 2)
    (h2 : ∀ d, d ∈ D → ∀ e, e ∈ D →
      Relation.ReflTransGen (Adj 5 4294967295 g.fields) d e → d = e)
    (h3 : ∀ n, n.1 < 5 → n.2 < 4294967295 → Adjacent (y, x) n → O n = 2 →
      ∃ d, d ∈ D ∧ Relation.ReflTransGen (Adj 5 4294967295 g.fields) n d) :
    TouchReps g 2 x y D := by
  unfold TouchReps
  rw [T.h, T.w]
  refine ⟨?_, h2, ?_⟩
  · intro d hd
    obtain ⟨a, b, c⟩ := h1 d hd
    refine ⟨a, b, ?_⟩
    have := T.own d
    rw [c] at this
    exact this
  · intro n hn hadj ho
    have ho' : ownF g.fields n = 2 := ho
    rw [T.own] at ho'
    exact h3 n hn.1 hn.2 hadj ho'

/-- A cell without a neighbour of its owner is connected to itself only. -/
theorem duo_lonely {g : gamma_t} {O : Nat × Nat → Nat} (T : DuoC g O) {c e : Nat × Nat}
    (hc : ∀ q, Adjacent c q → O q = O c → False)
    (h : Relation.ReflTransGen (Adj 5 4294967295 g.fields) c e) : c = e := by
  have hiso : ∀ p q, Adj 5 4294967295 g.fields p q → p ≠ c ∧ q ≠ c := by
    intro p q hpq
    obtain ⟨_, _, hadj, ho, _⟩ := hpq
    rw [T.own, T.own] at ho
    constructor
    · intro hp
      subst hp
      exact hc q hadj ho.symm
    · intro hq
      subst hq
      exact hc p hadj.symm_adj ho
  exact ((eqvGen_isolated hiso (eqvGen_iff_path.2 h)).1 rfl).symm

/-- The two squares of player 2 are closed: from the board on which both
counters have wrapped to the final board. -/
theorem duo_end {g0 : gamma_t} (T0 : DuoC g0 duoOwnD)
    (hpf1 : g0.player_fields 1 = 4294967296) (hpf2 : g0.player_fields 2 = 4294967297) :
    ∃ g, run (some g0) [Call.move 2 1 3, Call.move 2 0 4, Call.move 2 4 3, Call.move 2 3 4]
        = some (some g) ∧
      DuoC g duoOwn ∧ g.player_fields 1 = 4294967296 ∧
      nroots g.height g.width g.fields 2 = 4294967295 := by
  have hiso0 : ∀ p q, Adjacent p q → duoOwnD p = 2 → duoOwnD q = 2 → False :=
    fun p q hadj hp hq => isoSet2_apart p q hadj (duoOwnD_two hp) (duoOwnD_two hq)
  have hn0 := (duo_counter T0 (z := 2) (by decide) hiso0).2
  rw [hpf2] at hn0
  -- the cell (3, 1)
  obtain ⟨g1, hm1, T1, _, o1, _, _, c1⟩ := duo_move T0 (z := 2) (x := 1) (y := 3)
    (Or.inr rfl) (by norm_num) (by norm_num) (by decide)
    (fun _ => duo_nb T0 (n := (3, 0)) 1 (by norm_num) (by decide) (by norm_num)
      (by norm_num) (by decide))
  have hD1 : TouchReps g0 2 1 3 {(3, 0), (4, 1)} := by
    apply duo_touch T0
    · intro d hd
      simp only [Finset.mem_insert, Finset.mem_singleton] at hd
      rcases hd with hd | hd <;> subst hd <;> decide
    · intro d hd e _ hde
      have hd' : ownF g0.fields d = 2 := by
        rw [T0.own]
        simp only [Finset.mem_insert, Finset.mem_singleton] at hd
        rcases hd with hd | hd <;> subst hd <;> decide
      refine isolated_eqv ?_ hd' (eqvGen_iff_path.2 hde)
      intro p q hadj hp hq
      rw [T0.own] at hp hq
      exact hiso0 p q hadj hp hq
    · intro n hn1 hn2 hadj ho
      have hI := duoOwnD_two ho
      refine ⟨n, ?_, Relation.ReflTransGen.refl⟩
      obtain ⟨r, c⟩ := n
      unfold IsoSet2 at hI
      unfold Adjacent at hadj
      simp only [Finset.mem_insert, Finset.mem_singleton, Prod.mk.injEq] at hI hadj hn1 hn2 ⊢
      omega
  have hn1 := c1 _ hD1
  rw [hn0, Finset.card_pair (by decide)] at hn1
  -- the cell (4, 0)
  have htwo1 : ∀ p, upd duoOwnD (3, 1) 2 p = 2 → p = (3, 1) ∨ IsoSet2 p := by
    intro p hp
    rcases upd_eq_cases hp with h | h
    · exact Or.inl h
    · exact Or.inr (duoOwnD_two h)
  obtain ⟨g2, hm2, T2, _, o2, _, _, c2⟩ := duo_move T1 (z := 2) (x := 0) (y := 4)
    (Or.inr rfl) (by norm_num) (by norm_num) (by decide)
    (fun _ => duo_nb T1 (n := (4, 1)) 0 (by norm_num) (by decide) (by norm_num)
      (by norm_num) (by decide))
  have hD2 : TouchReps g1 2 0 4 {(3, 0)} := by
    apply duo_touch T1
    · intro d hd
      simp only [Finset.mem_singleton] at hd
      subst hd
      decide
    · intro d hd e he _
      simp only [Finset.mem_singleton] at hd he
      rw [hd, he]
    · intro n hn1 hn2 hadj ho
      refine ⟨(3, 0), Finset.mem_singleton_self _, ?_⟩
      have hcases : n = (3, 0) ∨ n = (4, 1) := by
        rcases htwo1 n ho with h | hI
        · subst h
          exact absurd hadj (by decide)
        · obtain ⟨r, c⟩ := n
          unfold IsoSet2 at hI
          unfold Adjacent at hadj
          simp only [Prod.mk.injEq] at hI hadj hn1 hn2 ⊢
          omega
      rcases hcases with h | h
      · rw [h]
      · rw [h]
        exact Relation.ReflTransGen.head
          (duo_adj T1 (a := (4, 1)) (b := (3, 1)) (by decide) (by decide) (by decide)
            (by decide) (by decide))
          (Relation.ReflTransGen.single
            (duo_adj T1 (a := (3, 1)) (b := (3, 0)) (by decide) (by decide) (by decide)
              (by decide) (by decide)))
  have hn2 := c2 _ hD2
  rw [Finset.card_singleton] at hn2
  -- the cell (3, 4)
  have htwo2 : ∀ p, upd (upd duoOwnD (3, 1) 2) (4, 0) 2 p = 2 →
      p = (4, 0) ∨ p = (3, 1) ∨ IsoSet2 p := by
    intro p hp
    rcases upd_eq_cases hp with h | h
    · exact Or.inl h
    · exact Or.inr (htwo1 p h)
  obtain ⟨g3, hm3, T3, _, o3, _, _, c3⟩ := duo_move T2 (z := 2) (x := 4) (y := 3)
    (Or.inr rfl) (by norm_num) (by norm_num) (by decide)
    (fun _ => duo_nb T2 (n := (3, 3)) 1 (by norm_num) (by decide) (by norm_num)
      (by norm_num) (by decide))
  have hD3 : TouchReps g2 2 4 3 {(3, 3), (4, 4)} := by
    apply duo_touch T2
    · intro d hd
      simp only [Finset.mem_insert, Finset.mem_singleton] at hd
      rcases hd with hd | hd <;> subst hd <;> decide
    · intro d hd e _ hde
      apply duo_lonely T2 ?_ hde
      intro q hadj ho
      have hd2 : upd (upd duoOwnD (3, 1) 2) (4, 0) 2 d = 2 := by
        simp only [Finset.mem_insert, Finset.mem_singleton] at hd
        rcases hd with hd | hd <;> subst hd <;> decide
      rw [hd2] at ho
      have hq := htwo2 q ho
      obtain ⟨r, c⟩ := q
      unfold IsoSet2 at hq
      unfold Adjacent at hadj
      simp only [Finset.mem_insert, Finset.mem_singleton] at hd
      rcases hd with hd | hd <;> subst hd <;>
        simp only [Prod.mk.injEq] at hq hadj <;> omega
    · intro n hn1 hn2 hadj ho
      refine ⟨n, ?_, Relation.ReflTransGen.refl⟩
      have hq := htwo2 n ho
      obtain ⟨r, c⟩ := n
      unfold IsoSet2 at hq
      unfold Adjacent at hadj
      simp only [Finset.mem_insert, Finset.mem_singleton, Prod.mk.injEq] at hq hadj hn1 hn2 ⊢
      omega
  have hn3 := c3 _ hD3
  rw [Finset.card_pair (by decide)] at hn3
  -- the cell (4, 3)
  have htwo3 : ∀ p, upd (upd (upd duoOwnD (3, 1) 2) (4, 0) 2) (3, 4) 2 p = 2 →
      p = (3, 4) ∨ p = (4, 0) ∨ p = (3, 1) ∨ IsoSet2 p := by
    intro p hp
    rcases upd_eq_cases hp with h | h
    · exact Or.inl h
    · exact Or.inr (htwo2 p h)
  obtain ⟨g4, hm4, T4, _, o4, _, _, c4⟩ := duo_move T3 (z := 2) (x := 3) (y := 4)
    (Or.inr rfl) (by norm_num) (by norm_num) (by decide)
    (fun _ => duo_nb T3 (n := (4, 4)) 0 (by norm_num) (by decide) (by norm_num)
      (by norm_num) (by decide))
  have hD4 : TouchReps g3 2 3 4 {(3, 3)} := by
    apply duo_touch T3
    · intro d hd
      simp only [Finset.mem_singleton] at hd
      subst hd
      decide
    · intro d hd e he _
      simp only [Finset.mem_singleton] at hd he
      rw [hd, he]
    · intro n hn1 hn2 hadj ho
      refine ⟨(3, 3), Finset.mem_singleton_self _, ?_⟩
      have hcases : n = (3, 3) ∨ n = (4, 4) := by
        have hq := htwo3 n ho
        obtain ⟨r, c⟩ := n
        unfold IsoSet2 at hq
        unfold Adjacent at hadj
        simp only [Prod.mk.injEq] at hq hadj hn1 hn2 ⊢
        omega
      rcases hcases with h | h
      · rw [h]
      · rw [h]
        exact Relation.ReflTransGen.head
          (duo_adj T3 (a := (4, 4)) (b := (3, 4)) (by decide) (by decide) (by decide)
            (by decide) (by decide))
          (Relation.ReflTransGen.single
            (duo_adj T3 (a := (3, 4)) (b := (3, 3)) (by decide) (by decide) (by decide)
              (by decide) (by decide)))
  have hn4 := c4 _ hD4
  rw [Finset.card_singleton] at hn4
  refine ⟨g4, ?_, T4, ?_, by omega⟩
  · rw [run_cons, call_move_true hm1]
    show run (some g1) _ = _
    rw [run_cons, call_move_true hm2]
    show run (some g2) _ = _
    rw [run_cons, call_move_true hm3]
    show run (some g3) _ = _
    rw [run_cons, call_move_true hm4]
    rfl
  · rw [o4 1 (by decide), o3 1 (by decide), o2 1 (by decide), o1 1 (by decide), hpf1]

theorem duoOwn_block {p : Nat × Nat} (h : DuoBlock p) : duoOwn p = 2 := by
  obtain ⟨r, c⟩ := p
  obtain ⟨h1, h2⟩ := h
  simp only at h1 h2
  rcases h1 with h1 | h1 <;> rcases h2 with h2 | h2 | h2 | h2 <;> subst h1 <;> subst h2 <;>
    decide

theorem duoOwn_one {p : Nat × Nat} (h : duoOwn p = 1) : IsoSet1 p := by
  unfold duoOwn at h
  obtain ⟨h, _⟩ := upd_eq_of_ne (v := 2) (a := 1) (by decide) h
  obtain ⟨h, _⟩ := upd_eq_of_ne (v := 2) (a := 1) (by decide) h
  obtain ⟨h, _⟩ := upd_eq_of_ne (v := 2) (a := 1) (by decide) h
  obtain ⟨h, _⟩ := upd_eq_of_ne (v := 2) (a := 1) (by decide) h
  exact duoOwnD_one h

theorem duoOwn_two {p : Nat × Nat} (h : duoOwn p = 2) : DuoBlock p ∨ IsoSet2 p := by
  unfold duoOwn at h
  rcases upd_eq_cases h with h | h
  · left; rw [h]; unfold DuoBlock; simp
  rcases upd_eq_cases h with h | h
  · left; rw [h]; unfold DuoBlock; simp
  rcases upd_eq_cases h with h | h
  · left; rw [h]; unfold DuoBlock; simp
  rcases upd_eq_cases h with h | h
  · left; rw [h]; unfold DuoBlock; simp
  exact Or.inr (duoOwnD_two h)

theorem duoOwn_values (p : Nat × Nat) : duoOwn p = 0 ∨ duoOwn p = 1 ∨ duoOwn p = 2 := by
  unfold duoOwn upd
  split_ifs <;> first | exact Or.inr (Or.inr rfl) | exact duoOwnD_values p

/-- Two adjacent cells of player 2 on the final grid lie in one of the squares. -/
theorem duoOwn_adj {c d : Nat × Nat} (hadj : Adjacent c d) (hc : duoOwn c = 2)
    (hd : duoOwn d = 2) :
    (c.1 = 3 ∨ c.1 = 4) ∧ (d.1 = 3 ∨ d.1 = 4) ∧
      ((c.2 ≤ 1 ∧ d.2 ≤ 1) ∨ (3 ≤ c.2 ∧ c.2 ≤ 4 ∧ 3 ≤ d.2 ∧ d.2 ≤ 4)) := by
  have h1 := duoOwn_two hc
  have h2 := duoOwn_two hd
  obtain ⟨r, c⟩ := c
  obtain ⟨r', c'⟩ := d
  unfold DuoBlock IsoSet2 at h1 h2
  unfold Adjacent at hadj
  simp only [Prod.mk.injEq] at h1 h2 hadj ⊢
  omega

/-- A player without cells has no areas. -/
theorem duo_third {g : gamma_t} {O : Nat × Nat → Nat} (T : DuoC g O)
    (hO : ∀ p, O p ≠ 3) : g.player_areas 3 = 0 := by
  have h1 := T.inv.areas 3 (by decide)
  have h2 := nroots_le_ncells g.height g.width g.fields 3
  have h3 : ncells g.height g.width g.fields 3 = 0 := by
    unfold ncells
    rw [Finset.card_eq_zero]
    apply Finset.eq_empty_of_forall_not_mem
    intro p hp
    have := (mem_cellSet.1 hp).2
    rw [T.own] at this
    exact hO p this
  rw [h1]
  have : nroots g.height g.width g.fields 3 = 0 := by omega
  rw [this]

/-- On a board with the final owner grid on which the cells of player 1 number
`2 ^ 32` and the areas of player 2 number `2 ^ 32 - 1`, no golden move of
player 3 passes the check of the limit. -/
theorem duo_no_golden {g : gamma_t} (T : DuoC g duoOwn)
    (hpf1 : g.player_fields 1 = 4294967296)
    (hn2 : nroots g.height g.width g.fields 2 = 4294967295) (x y : Nat) :
    ¬ GoldenCond g 3 x y := by
  intro hcond
  obtain ⟨hrej, hchk, _⟩ := hcond
  obtain ⟨_, hx, hy, hv, hv3, _⟩ := (golden_reject_false_iff g 3 x y).1 hrej
  have I := T.inv
  have hc : InGrid g.height g.width (y, x) := ⟨hy, hx⟩
  have hown : (g.fields y x).owner = duoOwn (y, x) := T.own (y, x)
  obtain ⟨g3, _, R⟩ := rebuild_spec I hc hv
  have R' : Rebuilt g (g.fields y x).owner x y g3 := R
  obtain ⟨hreps, _, _, h3h, h3w, _, _, _⟩ := rebuilt_reps R' hv
  have hle := hchk _ hreps
  rw [T.ar] at hle
  change nroots g.height g.width g3.fields (g.fields y x).owner % 4294967296
    ≤ 4294967293 at hle
  -- the areas of the owner that touch the cell
  obtain ⟨D, hD1, hD2, hD3⟩ := touchReps_exists g3 (g.fields y x).owner x y
  rw [h3h, h3w] at hD1 hD2 hD3
  have U3 := R'.inv.uf
  rw [h3h, h3w] at U3
  have hcount := touching_count U3 I.uf (c := (y, x)) hc
    (by rw [R'.own, if_pos rfl]) hv
    (fun p => by
      rw [R'.own p]
      by_cases hp : p = (y, x)
      · rw [if_pos hp, hp]; rfl
      · rw [if_neg hp, if_neg hp])
    D (fun d hd => hD1 d hd)
    (fun d hd e he hde => hD2 d hd e he (eqvGen_iff_path.1 hde))
    (fun n hn hadj ho => by
      obtain ⟨d, hd, hnd⟩ := hD3 n hn hadj ho
      exact ⟨d, hd, eqvGen_iff_path.2 hnd⟩)
  -- a touching cell is a cell of the owner on the final grid
  have hmem : ∀ d, d ∈ D → (d.1 < 5 ∧ d.2 < 4294967295) ∧ Adjacent (y, x) d ∧
      duoOwn d = duoOwn (y, x) ∧ d ≠ (y, x) := by
    intro d hd
    obtain ⟨a, b, c⟩ := hD1 d hd
    rw [T.h, T.w] at a
    have hne : d ≠ (y, x) := fun h => b.ne h.symm
    have c' : ownF g3.fields d = (g.fields y x).owner := c
    rw [R'.own, if_neg hne, T.own, hown] at c'
    exact ⟨a, b, c', hne⟩
  rcases duoOwn_values (y, x) with h0 | h1 | h2
  · rw [hown] at hv
    exact hv h0
  · -- a cell of player 1: the other cells are 2 ^ 32 - 1 areas
    rw [hown, h1] at hle hcount
    have hD : D = ∅ := by
      apply Finset.eq_empty_of_forall_not_mem
      intro d hd
      obtain ⟨_, b, c, _⟩ := hmem d hd
      rw [h1] at c
      exact isoSet1_apart (y, x) d b (duoOwn_one h1) (duoOwn_one c)
    have hn1 := (duo_counter T (z := 1) (by decide)
      (fun p q hadj hp hq => isoSet1_apart p q hadj (duoOwn_one hp) (duoOwn_one hq))).2
    rw [hD, Finset.card_empty] at hcount
    omega
  · -- a cell of player 2: the other cells are 2 ^ 32 - 2 or 2 ^ 32 - 1 areas
    rw [hown, h2] at hle hcount
    have hD : D.card ≤ 1 := by
      rw [Finset.card_le_one]
      intro d hd e he
      by_contra hde
      obtain ⟨ad, bd, cd, nd⟩ := hmem d hd
      obtain ⟨ae, be, ce, ne⟩ := hmem e he
      rw [h2] at cd ce
      have kd := duoOwn_adj bd h2 cd
      have ke := duoOwn_adj be h2 ce
      -- the fourth cell of the square
      have hopp : ∃ o : Nat × Nat, DuoBlock o ∧ o ≠ (y, x) ∧ Adjacent d o ∧ Adjacent o e := by
        obtain ⟨r, c⟩ := d
        obtain ⟨r', c'⟩ := e
        refine ⟨(7 - y, if x ≤ 1 then 1 - x else 7 - x), ?_⟩
        unfold DuoBlock
        unfold Adjacent at bd be ⊢
        simp only [Prod.mk.injEq, ne_eq] at kd ke bd be hde ⊢
        have hy' : y = 3 ∨ y = 4 := kd.1
        have hx' : x = 0 ∨ x = 1 ∨ x = 3 ∨ x = 4 := by omega
        have hr : r = 3 ∨ r = 4 := kd.2.1
        have hr' : r' = 3 ∨ r' = 4 := ke.2.1
        rcases hy' with hy' | hy' <;> rcases hx' with hx' | hx' | hx' | hx' <;>
          subst hy' <;> subst hx' <;> rcases hr with hr | hr <;> rcases hr' with hr' | hr' <;>
          subst hr <;> subst hr' <;> split_ifs <;> omega
      obtain ⟨o, ho1, ho2, ho3, ho4⟩ := hopp
      have hoin : o.1 < 5 ∧ o.2 < 4294967295 := by
        obtain ⟨r, c⟩ := o
        unfold DuoBlock at ho1
        simp only at ho1 ⊢
        omega
      have T3 : DuoC g3 (upd duoOwn (y, x) 0) :=
        ⟨R'.inv, by rw [h3h, T.h], by rw [h3w, T.w], by
          obtain ⟨_, _, _, _, _, _, hp, _⟩ := rebuilt_reps R' hv
          rw [hp, T.pl], by
          obtain ⟨_, _, _, _, _, ha, _, _⟩ := rebuilt_reps R' hv
          rw [ha, T.ar], fun p => by
          rw [R'.own p]
          unfold upd
          split
          · rfl
          · exact T.own p⟩
      have hd3 : upd duoOwn (y, x) 0 d = 2 := by
        unfold upd; rw [if_neg nd]; exact cd
      have he3 : upd duoOwn (y, x) 0 e = 2 := by
        unfold upd; rw [if_neg ne]; exact ce
      have ho3' : upd duoOwn (y, x) 0 o = 2 := by
        unfold upd; rw [if_neg ho2]; exact duoOwn_block ho1
      have hpath : Relation.ReflTransGen (Adj g.height g.width g3.fields) d e := by
        rw [T.h, T.w]
        exact Relation.ReflTransGen.head (duo_adj T3 ad hoin ho3 hd3 ho3')
          (Relation.ReflTransGen.single (duo_adj T3 hoin ae ho4 ho3' he3))
      exact hde (hD2 d hd e he hpath)
    rw [hn2] at hcount
    omega

theorem duoCalls_no_golden (p : Nat) (c : Call)
    (hc : c ∈ duoCallsA ++ duoCalls1 4294967291) (x y : Nat) :
    c ≠ Call.golden_move p x y := by
  intro he
  subst he
  simp [duoCallsA, duoCalls2, duoCalls1] at hc

theorem duoCalls_no_golden_three (c : Call) (hc : c ∈ duoCalls) (x y : Nat) :
    c ≠ Call.golden_move 3 x y := by
  intro he
  subst he
  unfold duoCalls at hc
  rw [List.mem_append] at hc
  rcases hc with hc | hc
  · simp [duoCallsA, duoCalls2, duoCalls1] at hc
  · simp at hc

theorem duoCalls_split : duoCalls = (duoCallsA ++ duoCalls1 4294967291) ++
    ([Call.golden_move 1 5 1, Call.move 1 1 0, Call.move 1 1 1, Call.move 1 1 2,
      Call.move 1 0 1, Call.move 1 2 1, Call.golden_move 2 1 1] ++
     [Call.move 2 1 3, Call.move 2 0 4, Call.move 2 4 3, Call.move 2 3 4]) := rfl

/-- The calls `duoCalls` return and end on the final board: the cells of
player 1 number `2 ^ 32`, the areas of player 2 number `2 ^ 32 - 1`, and
player 3 has made no golden move. -/
theorem duo_reach :
    ∃ g, run (gamma_new 4294967295 5 3 4294967293) duoCalls = some (some g) ∧
      DuoC g duoOwn ∧ g.player_fields 1 = 4294967296 ∧
      nroots g.height g.width g.fields 2 = 4294967295 ∧ g.golden_used 3 = false := by
  obtain ⟨g0, hrun0, T0, f1, f2, _, _⟩ := duo_iso1 4294967291 (le_refl _)
  have hno := duoCalls_no_golden
  obtain ⟨g1, hrun1, T1, e1, e2⟩ := duo_mid T0 f1 f2 (duo_flag hrun0 1 (hno 1))
    (duo_flag hrun0 2 (hno 2))
  obtain ⟨g2, hrun2, T2, d1, d2⟩ := duo_end T1 e1 e2
  have hrun : run (gamma_new 4294967295 5 3 4294967293) duoCalls = some (some g2) := by
    rw [duoCalls_split, run_append_some hrun0, run_append_some hrun1]
    exact hrun2
  refine ⟨g2, hrun, T2, d1, d2, ?_⟩
  exact duo_flag hrun 3 duoCalls_no_golden_three

/-- C17 fails on a board of `5` rows and `2 ^ 32 - 1` columns with three
players and the area limit `2 ^ 32 - 3`: after the calls `duoCalls`, in which
players 1 and 2 each make a golden move that wraps the area counter of the
other, `gamma_golden_possible(g, 3)` returns `true` and leaves the board as it
is, and yet `gamma_golden_move(g, 3, x, y)` returns `false` for all `x`, `y`. -/
theorem C17_golden_possible_without_move :
    ∃ g, run (gamma_new 4294967295 5 3 4294967293) duoCalls = some (some g) ∧
      gamma_golden_possible (some g) 3 = some (true, some g) ∧
      ∀ x y, ∃ g', gamma_golden_move (some g) 3 x y = some (false, some g') := by
  obtain ⟨g, hrun, T, hpf1, hn2, hgu⟩ := duo_reach
  refine ⟨g, hrun, ?_, ?_⟩
  · have hogp : old_golden_possible (some g) 3 = true := by
      rw [old_golden_possible_iff, T.pl]
      exact ⟨by decide, le_refl _, hgu, 1, by decide, by decide, by rw [hpf1]; decide⟩
    have hO : ∀ p, duoOwn p ≠ 3 := by
      intro p hp
      rcases duoOwn_values p with h | h | h <;> rw [h] at hp <;> exact absurd hp (by decide)
    have hlt : g.player_areas 3 < g.areas := by
      rw [duo_third T hO, T.ar]
      decide
    unfold gamma_golden_possible
    simp only [hogp, Bool.not_true, Bool.false_eq_true, if_false, if_pos hlt]
  · intro x y
    obtain ⟨b, g', hm, _, hb, _⟩ := golden_move_outcome T.inv 3 x y
    cases b with
    | false => exact ⟨g', hm⟩
    | true => exact absurd (hb.1 rfl) (duo_no_golden T hpf1 hn2 x y)

/-! ## `gamma_free_fields` at the limit of areas -/

/-- The cells that pass a test, among the first `k` cells in row-major order,
are at most `k`. -/
theorem card_prefix_le (h w k : Nat) (P : Nat × Nat → Prop) [DecidablePred P] :
    ((gridSet h w).filter (fun p => P p ∧ p.2 < w ∧ p.1 * w + p.2 < k)).card ≤ k := by
  have hsub : (gridSet h w).filter (fun p => P p ∧ p.2 < w ∧ p.1 * w + p.2 < k)
      ⊆ (Finset.range k).image (fun n => (n / w, n % w)) := by
    intro p hp
    rw [Finset.mem_filter] at hp
    rw [Finset.mem_image]
    have hp2 := hp.2.2.1
    refine ⟨p.1 * w + p.2, Finset.mem_range.2 hp.2.2.2, ?_⟩
    have hw0 : 0 < w := by omega
    apply Prod.ext
    · show (p.1 * w + p.2) / w = p.1
      rw [Nat.mul_comm, Nat.mul_add_div hw0, Nat.div_eq_of_lt hp2]
      omega
    · show (p.1 * w + p.2) % w = p.2
      rw [Nat.mul_comm, Nat.mul_add_mod, Nat.mod_eq_of_lt hp2]
  calc _ ≤ ((Finset.range k).image (fun n => (n / w, n % w))).card :=
        Finset.card_le_card hsub
    _ ≤ (Finset.range k).card := Finset.card_image_le
    _ = k := Finset.card_range _

/-- A counting loop over the cells of the board, in 64-bit arithmetic, leaves
the number of cells that pass the test. -/
theorem grid_count (h w : Nat) (hlt : h * w < 2 ^ 64) (P : Nat → Nat → Prop)
    [∀ i j, Decidable (P i j)] :
    (List.range h).foldl (fun c i =>
      (List.range w).foldl (fun c j => if P i j then (c + 1) % 2 ^ 64 else c) c) 0
      = ((gridSet h w).filter (fun p => P p.1 p.2)).card := by
  have key := grid_foldl_inv
    (fun (c : Nat) i j => if P i j then (c + 1) % 2 ^ 64 else c)
    (fun k c => c = ((gridSet h w).filter
      (fun p => P p.1 p.2 ∧ p.2 < w ∧ p.1 * w + p.2 < k)).card)
    h w 0
    (by
      show 0 = _
      refine (Finset.card_eq_zero.2 ?_).symm
      rw [Finset.filter_eq_empty_iff]
      intro p _
      omega)
    (by
      intro i j c hi hj hc
      show (if P i j then (c + 1) % 2 ^ 64 else c) = _
      have hmem : (i, j) ∈ gridSet h w := mem_gridSet.2 ⟨hi, hj⟩
      have hne : ∀ p : Nat × Nat, p.2 < w → p ≠ (i, j) → p.1 * w + p.2 ≠ i * w + j := by
        intro p hp hpc e
        have := idx_inj hp hj e
        exact hpc (Prod.ext this.1 this.2)
      have hle := card_prefix_le h w (i * w + j) (fun p => P p.1 p.2)
      have hidx := idx_lt hi hj
      have hc' : c = ((gridSet h w).filter
          (fun p => P p.1 p.2 ∧ p.2 < w ∧ p.1 * w + p.2 < i * w + j)).card := hc
      by_cases hP : P i j
      · rw [if_pos hP, hc']
        have hstep : ((gridSet h w).filter
            (fun p => P p.1 p.2 ∧ p.2 < w ∧ p.1 * w + p.2 < i * w + j + 1)).card
            = ((gridSet h w).filter
              (fun p => P p.1 p.2 ∧ p.2 < w ∧ p.1 * w + p.2 < i * w + j)).card + 1 := by
          apply card_filter_add_one hmem
          · intro hh
            exact absurd hh.2.2 (by simp)
          · exact ⟨hP, hj, by simp⟩
          · intro p hpc
            constructor
            · rintro ⟨a, b, c⟩
              have := hne p b hpc
              exact ⟨a, b, by omega⟩
            · rintro ⟨a, b, c⟩
              exact ⟨a, b, by omega⟩
        rw [hstep]
        exact Nat.mod_eq_of_lt (by omega)
      · rw [if_neg hP, hc']
        apply card_filter_same
        intro p hp
        by_cases hpc : p = (i, j)
        · subst hpc
          constructor
          · rintro ⟨a, _⟩
            exact absurd a hP
          · rintro ⟨a, _⟩
            exact absurd a hP
        · constructor
          · rintro ⟨a, b, c⟩
            exact ⟨a, b, by omega⟩
          · rintro ⟨a, b, c⟩
            have := hne p b hpc
            exact ⟨a, b, by omega⟩)
  rw [key]
  apply card_filter_same
  intro p hp
  have := mem_gridSet.1 hp
  have := idx_lt this.1 this.2
  constructor
  · exact fun a => a.1
  · exact fun a => ⟨a, (mem_gridSet.1 hp).2, this⟩

/-- The test made by `free_fields_full_areas` on a cell of the board. -/
theorem free_test_iff {g : gamma_t} (hh : g.height < 4294967296) (hw : g.width < 4294967296)
    (p : Nat) {c : Nat × Nat} (hc : InGrid g.height g.width c) :
    ((g.fields c.1 c.2).owner = EMPTY ∧
      (List.range 4).any (fun dir =>
        good_coords g (add_u32 c.2 (delta_x dir)) (add_u32 c.1 (delta_y dir)) &&
        decide ((g.fields (add_u32 c.1 (delta_y dir)) (add_u32 c.2 (delta_x dir))).owner
          = p)) = true) ↔ free_cell g p c := by
  unfold free_cell
  simp only [EMPTY, List.any_eq_true, List.mem_range, Bool.and_eq_true, decide_eq_true_eq]
  constructor
  · rintro ⟨h0, i, hi, h3, h4⟩
    have hin : InGrid g.height g.width (nbr c i) := (good_coords_iff g _ _).1 h3
    exact ⟨h0, nbr c i, mem_gridSet.2 hin, (adjacent_iff_nbr hh hw hc hin).2 ⟨i, hi, rfl⟩, h4⟩
  · rintro ⟨h0, n, hn, hadj, ho⟩
    have hin := mem_gridSet.1 hn
    obtain ⟨i, hi, hni⟩ := (adjacent_iff_nbr hh hw hc hin).1 hadj
    subst hni
    exact ⟨h0, i, hi, (good_coords_iff g _ _).2 hin, ho⟩

/-- The result of `free_fields_full_areas`: the number of the empty cells that
have a 4-neighbour on the board owned by the player. -/
theorem free_fields_full_eq {g : gamma_t} (hh : g.height < 4294967296)
    (hw : g.width < 4294967296) (p : Nat) :
    free_fields_full_areas g p = ((gridSet g.height g.width).filter (free_cell g p)).card := by
  have hlt : g.height * g.width < 2 ^ 64 :=
    calc g.height * g.width < 4294967296 * 4294967296 := Nat.mul_lt_mul'' hh hw
      _ = 2 ^ 64 := by norm_num
  unfold free_fields_full_areas
  rw [grid_count g.height g.width hlt (fun i j => (g.fields i j).owner = EMPTY ∧
      (List.range 4).any (fun dir =>
        good_coords g (add_u32 j (delta_x dir)) (add_u32 i (delta_y dir)) &&
        decide ((g.fields (add_u32 i (delta_y dir)) (add_u32 j (delta_x dir))).owner
          = p)) = true)]
  apply card_filter_same
  intro c hc
  exact free_test_iff hh hw p (mem_gridSet.1 hc)

/-- On a board whose sides are 32-bit numbers, an empty cell of the board has a
neighbour owned by `p` exactly when one of the four tests of `movie_possible`
succeeds. -/
theorem free_cell_iff {g : gamma_t} (hh : g.height < 4294967296) (hw : g.width < 4294967296)
    (p : Nat) {c : Nat × Nat} (hc : InGrid g.height g.width c) :
    free_cell g p c ↔ ownF g.fields c = 0 ∧ ∃ i, i < 4 ∧ nbCond g p c i := by
  unfold free_cell
  constructor
  · rintro ⟨h0, n, hn, hadj, ho⟩
    have hin := mem_gridSet.1 hn
    obtain ⟨i, hi, hni⟩ := (adjacent_iff_nbr hh hw hc hin).1 hadj
    subst hni
    exact ⟨h0, i, hi, hin, ho⟩
  · rintro ⟨h0, i, hi, hin, ho⟩
    exact ⟨h0, nbr c i, mem_gridSet.2 hin, (adjacent_iff_nbr hh hw hc hin).2 ⟨i, hi, rfl⟩, ho⟩

/-- C21. On a board whose sides are 32-bit numbers, for every valid player `p`
with `player_areas[p] == areas`, `gamma_free_fields(g, p)` is the number of
the empty cells of the board that have at least one 4-neighbour on the board
owned by `p`; being the size of a set of cells, it counts such a cell once,
whatever the number of its neighbours owned by `p`. -/
theorem C21_free_fields_at_limit (g : gamma_t) (p : Nat) (hh : g.height < 4294967296)
    (hw : g.width < 4294967296) (h1 : 1 ≤ p) (h2 : p ≤ g.players)
    (ha : g.player_areas p = g.areas) :
    gamma_free_fields (some g) p
      = ((gridSet g.height g.width).filter (free_cell g p)).card := by
  unfold gamma_free_fields
  simp only [EMPTY]
  rw [if_neg (by omega), if_pos ha]
  exact free_fields_full_eq hh hw p

theorem C21_free_fields_at_limit_witness :
    gamma_free_fields (some sampleBoard) 1
      = ((gridSet sampleBoard.height sampleBoard.width).filter
          (free_cell sampleBoard 1)).card :=
  C21_free_fields_at_limit sampleBoard 1 (by decide) (by decide) (by decide) (by decide)
    (by decide)

/-- C22. On every board reached from `gamma_new` by public calls and for every
valid player `p`, `gamma_free_fields(g, p)` is the number of the cells `(x, y)`
of the board for which `movie_possible(g, p, x, y)` is true; `movie_possible`
is false outside the board and is true exactly where `gamma_move(g, p, x, y)`
returns `true`; so `gamma_free_fields(g, p) == 0` exactly when no `gamma_move`
of `p` succeeds. -/
theorem C22_free_fields_counts_moves (width height players areas : Nat)
    (hw : width < 4294967296) (hh : height < 4294967296) (calls : List Call) :
    ∃ s, run (gamma_new width height players areas) calls = some s ∧
      ∀ g, s = some g → ∀ p, 1 ≤ p → p ≤ g.players →
        gamma_free_fields s p = ((gridSet g.height g.width).filter
          (fun c => movie_possible s p c.2 c.1 = true)).card ∧
        (∀ x y, movie_possible s p x y = true → (y, x) ∈ gridSet g.height g.width) ∧
        (∀ x y, movie_possible s p x y = true ↔
          ∃ s', gamma_move s p x y = some (true, s')) ∧
        (gamma_free_fields s p = 0 ↔
          ∀ x y, ¬ ∃ s', gamma_move s p x y = some (true, s')) := by
  obtain ⟨s, hs, hI⟩ := reach_inv width height players areas hw hh calls
  refine ⟨s, hs, fun g hg p h1 h2 => ?_⟩
  subst hg
  have I := hI g rfl
  have hcount : gamma_free_fields (some g) p = ((gridSet g.height g.width).filter
      (fun c => movie_possible (some g) p c.2 c.1 = true)).card := by
    by_cases ha : g.player_areas p = g.areas
    · have hval : gamma_free_fields (some g) p = free_fields_full_areas g p := by
        unfold gamma_free_fields
        simp only [EMPTY]
        rw [if_neg (by omega), if_pos ha]
      rw [hval, free_fields_full_eq I.hlt I.wlt p]
      apply card_filter_same
      intro c hc
      have hin := mem_gridSet.1 hc
      rw [movie_possible_iff, free_cell_iff I.hlt I.wlt p hin]
      constructor
      · rintro ⟨h0, hn⟩
        exact ⟨by omega, h2, hin.2, hin.1, h0, fun _ => hn⟩
      · rintro ⟨_, _, _, _, h0, hn⟩
        exact ⟨h0, hn ha⟩
    · rw [(free_fields_below I h1 h2 ha).2]
      unfold ncells cellSet
      apply card_filter_same
      intro c hc
      have hin := mem_gridSet.1 hc
      rw [movie_possible_iff]
      constructor
      · intro h0
        exact ⟨by omega, h2, hin.2, hin.1, h0, fun hh' => absurd hh' ha⟩
      · rintro ⟨_, _, _, _, h0, _⟩
        exact h0
  have hgrid : ∀ x y, movie_possible (some g) p x y = true →
      (y, x) ∈ gridSet g.height g.width := by
    intro x y hmp
    obtain ⟨_, _, hx, hy, _⟩ := (movie_possible_iff g p x y).1 hmp
    exact mem_gridSet.2 ⟨hy, hx⟩
  have hmove : ∀ x y, movie_possible (some g) p x y = true ↔
      ∃ s', gamma_move (some g) p x y = some (true, s') := by
    intro x y
    constructor
    · intro hmp
      obtain ⟨F', u, h, _⟩ := gamma_move_ok I hmp
      exact ⟨_, h⟩
    · rintro ⟨s', hs'⟩
      by_contra hmp
      have hf : movie_possible (some g) p x y = false := by
        cases hb : movie_possible (some g) p x y with
        | false => rfl
        | true => exact absurd hb hmp
      rw [gamma_move_false hf] at hs'
      simp at hs'
  refine ⟨hcount, hgrid, hmove, ?_⟩
  rw [hcount, Finset.card_eq_zero, Finset.filter_eq_empty_iff]
  constructor
  · intro hnone x y hex
    have hmp := (hmove x y).2 hex
    exact hnone (hgrid x y hmp) hmp
  · intro hnone c _ hmp
    exact hnone c.2 c.1 ((hmove c.2 c.1).1 hmp)

theorem C22_free_fields_counts_moves_witness :
    ∃ s, run (gamma_new 3 2 2 1) [Call.move 1 0 0, Call.move 2 2 1] = some s ∧
      ∀ g, s = some g → ∀ p, 1 ≤ p → p ≤ g.players →
        gamma_free_fields s p = ((gridSet g.height g.width).filter
          (fun c => movie_possible s p c.2 c.1 = true)).card ∧
        (∀ x y, movie_possible s p x y = true → (y, x) ∈ gridSet g.height g.width) ∧
        (∀ x y, movie_possible s p x y = true ↔
          ∃ s', gamma_move s p x y = some (true, s')) ∧
        (gamma_free_fields s p = 0 ↔
          ∀ x y, ¬ ∃ s', gamma_move s p x y = some (true, s')) :=
  C22_free_fields_counts_moves 3 2 2 1 (by norm_num) (by norm_num) _

/-- C23. With every allocation succeeding, `gamma_new(width, height, players,
areas)` returns `NULL` exactly when `width`, `height`, `players` or `areas` is
`0` or `players` is `2 ^ 32 - 1`; otherwise it returns a board whose getters
return `width`, `height` and `players`, on which every cell is empty, is its
own representative with rank `0` (so `find_root` returns the cell itself), and
`player_areas[p] == 0`, `player_fields[p] == 0`, `golden_used[p] == false` for
every `p` in `0..players`. -/
theorem C23_gamma_new (width height players areas : Nat) :
    (gamma_new width height players areas = none ↔
      width = 0 ∨ height = 0 ∨ players = 0 ∨ areas = 0 ∨ players = 4294967295) ∧
    ∀ g, gamma_new width height players areas = some g →
      gamma_get_width g = width ∧ gamma_get_height g = height ∧
      gamma_get_players g = players ∧ g.areas = areas ∧
      (∀ i j, i < height → j < width →
        (g.fields i j).owner = EMPTY ∧ (g.fields i j).rep = (i, j) ∧
        (g.fields i j).rank = 0 ∧ find_root g.fields g.fuel (i, j) = some (i, j)) ∧
      (∀ p, p ≤ players →
        g.player_areas p = 0 ∧ g.player_fields p = 0 ∧ g.golden_used p = false) := by
  constructor
  · unfold gamma_new
    simp only [UINT32_MAX]
    constructor
    · intro h
      by_contra hcon
      simp only [not_or] at hcon
      obtain ⟨a, b, c, d, e⟩ := hcon
      rw [if_neg (by simp [a, b, c, d]), if_neg e] at h
      simp at h
    · intro h
      by_cases h1 : width = 0 ∨ height = 0 ∨ players = 0 ∨ areas = 0
      · rw [if_pos h1]
      · rw [if_neg h1]
        have e : players = 4294967295 := by
          rcases h with h | h | h | h | h
          · exact absurd (Or.inl h) h1
          · exact absurd (Or.inr (Or.inl h)) h1
          · exact absurd (Or.inr (Or.inr (Or.inl h))) h1
          · exact absurd (Or.inr (Or.inr (Or.inr h))) h1
          · exact h
        rw [if_pos e]
  · intro g hg
    obtain ⟨a1, a2, a3, a4, a5, a6, a7, a8⟩ := gamma_new_some hg
    refine ⟨a2, a1, a3, a4, ?_, fun p _ => ⟨a6 p, a7 p, a8 p⟩⟩
    intro i j hi hj
    have hin : InGrid height width (i, j) := ⟨hi, hj⟩
    have hcell : g.fields i j = initialize_field (i, j) i j EMPTY := by
      rw [a5, initialize_fields_eq]
      simp only
      rw [if_pos hin]
    have hrep : (g.fields i j).rep = (i, j) := by rw [hcell]; rfl
    refine ⟨by rw [hcell]; rfl, hrep, by rw [hcell]; rfl, ?_⟩
    have hfuel : g.fuel = (height * width - 1) + 1 := by
      unfold gamma_t.fuel
      rw [a1, a2]
      have := idx_lt hi hj
      omega
    rw [hfuel]
    unfold find_root
    rw [if_pos hrep]

/-! ## Empty cells are fresh nodes of the forest -/

/-- The neighbour loop at a cell of `pl` leaves the cells of the other owners,
the empty cells among them, as they are. -/
theorem nb_loop_other {g : gamma_t} {pl x y : Nat} {F' : Nat → Nat → field_t} {u : Nat}
    (hpl : pl ≠ 0)
    (N : NbInv { g with fields := set_cell g.fields y x (set_field (g.fields y x) x y pl) }
      (Adj g.height g.width g.fields) pl (y, x) 4 F' u)
    {p : Nat × Nat} (h0 : ownF F' p = 0) :
    p ≠ (y, x) ∧ F' p.1 p.2 = g.fields p.1 p.2 := by
  have h1 := (N.frame.1 p.1 p.2).1
  have h0' : (F' p.1 p.2).owner = 0 := h0
  rw [h0'] at h1
  have h2 := N.frame.2 p.1 p.2 (Or.inl (by
    rw [← h1]
    exact fun h => hpl h.symm))
  have hne : p ≠ (y, x) := by
    intro hp
    have h3 : ownF (set_cell g.fields y x (set_field (g.fields y x) x y pl)) p = 0 := h1.symm
    rw [ownF_set_field, if_pos hp] at h3
    exact hpl h3
  refine ⟨hne, ?_⟩
  rw [h2]
  show set_cell g.fields y x (set_field (g.fields y x) x y pl) p.1 p.2 = _
  rw [set_cell_apply, if_neg]
  intro hh
  exact hne (Prod.ext hh.1 hh.2)

theorem invR_stable : Stable InvR where
  move := by
    intro g pl x y J
    have I := J.inv
    by_cases hmp : movie_possible (some g) pl x y = true
    · obtain ⟨F', u, h, N, hI, _⟩ := gamma_move_ok I hmp
      obtain ⟨hpl, _⟩ := (movie_possible_iff g pl x y).1 hmp
      refine ⟨_, _, h, hI, ?_⟩
      intro p hp h0
      have h0' : ownF F' p = 0 := h0
      obtain ⟨_, he⟩ := nb_loop_other hpl N h0'
      show (F' p.1 p.2).rank = 0
      rw [he]
      apply J.fresh p hp
      show (g.fields p.1 p.2).owner = 0
      rw [← he]
      exact h0'
    · refine ⟨false, g, ?_, J⟩
      unfold gamma_move
      simp [hmp]
  golden := by
    intro g pl x y J
    have I := J.inv
    rcases golden_move_cases I pl x y with
      ⟨_, h⟩ | ⟨hrej, g3, R, _, ⟨_, g', h, hf⟩ | ⟨_, g', h, hok⟩⟩
    · exact ⟨_, _, h, J⟩
    · refine ⟨_, _, h, hf.inv, ?_⟩
      obtain ⟨_, _, _, hv, _, _⟩ := (golden_reject_false_iff g pl x y).1 hrej
      obtain ⟨F', hg'⟩ := hf.shape
      have hfr := hf.frame
      subst hg'
      intro p hp h0
      have h1 := (hfr.1 p.1 p.2).1
      have h0' : (F' p.1 p.2).owner = 0 := h0
      have h2 : F' p.1 p.2 = g.fields p.1 p.2 := hfr.2 p.1 p.2 (Or.inl (by
        have h1' : (F' p.1 p.2).owner = (g.fields p.1 p.2).owner := h1
        rw [← h1', h0']
        exact fun hh => hv hh.symm))
      show (F' p.1 p.2).rank = 0
      rw [h2]
      apply J.fresh p hp
      show (g.fields p.1 p.2).owner = 0
      rw [← h2]
      exact h0'
    · refine ⟨_, _, h, hok.inv, ?_⟩
      obtain ⟨hogp, _, _, hv, _, _⟩ := (golden_reject_false_iff g pl x y).1 hrej
      obtain ⟨hpl, _⟩ := (old_golden_possible_iff g pl).1 hogp
      obtain ⟨F', u, N, hg'⟩ := hok.shape
      obtain ⟨F3, A, B, hg3⟩ := R.shape
      have hown := R.own
      have hoth := R.other
      subst hg3
      subst hg'
      intro p hp h0
      have h0' : ownF F' p = 0 := h0
      obtain ⟨hne, he⟩ := nb_loop_other hpl N h0'
      have h3 : ownF F3 p = 0 := by
        show (F3 p.1 p.2).owner = 0
        have : (F' p.1 p.2).owner = 0 := h0
        rw [he] at this
        exact this
      have h4 : ownF g.fields p = 0 := by
        have := hown p
        rw [if_neg hne] at this
        rw [← this]
        exact h3
      have h5 : F3 p.1 p.2 = g.fields p.1 p.2 := hoth p.1 p.2 (Or.inl (by
        have : (g.fields p.1 p.2).owner = 0 := h4
        rw [this]
        exact fun hh => hv hh.symm))
      show (F' p.1 p.2).rank = 0
      rw [he]
      show (F3 p.1 p.2).rank = 0
      rw [h5]
      exact J.fresh p hp h4
  used := fun g gu J => ⟨inv_stable.used g gu J.inv, J.fresh⟩
  mem := fun g b J => ⟨inv_stable.mem g b J.inv, J.fresh⟩

/-- The board made by `gamma_new` has fresh empty cells. -/
theorem gamma_new_invR {width height players areas : Nat} {g : gamma_t}
    (hw : width < 4294967296) (hh : height < 4294967296)
    (hg : gamma_new width height players areas = some g) : InvR g := by
  refine ⟨gamma_new_inv hw hh hg, ?_⟩
  obtain ⟨a1, a2, _, _, a5, _⟩ := gamma_new_some hg
  intro p hp _
  rw [a1, a2] at hp
  rw [a5, initialize_fields_eq]
  simp only
  rw [if_pos hp]
  rfl

theorem reach_invR (width height players areas : Nat)
    (hw : width < 4294967296) (hh : height < 4294967296) (calls : List Call) :
    ∃ s, run (gamma_new width height players areas) calls = some s ∧
      ∀ g, s = some g → InvR g :=
  reach_stable invR_stable (fun _ hg => gamma_new_invR hw hh hg) calls

/-- On a board that satisfies the invariant no cell of the board has an empty
cell other than itself as its representative. -/
theorem empty_not_parent {g : gamma_t} (I : Inv g) {p q : Nat × Nat}
    (hp : ownF g.fields p = 0) (hq : InGrid g.height g.width q)
    (hrep : (g.fields q.1 q.2).rep = p) : q = p := by
  have h1 := I.uf.own_rep hq
  have hrep' : repF g.fields q = p := hrep
  rw [hrep', hp] at h1
  have h2 := I.uf.empty_self hq h1.symm
  rw [← h2]
  exact hrep'

/-! ## `gamma_move` and `restore_move` -/

/-- The neighbour loop of `gamma_move` is the neighbour loop of `restore_move`
with the flag `connected` carried along. -/
theorem move_loop_proj (pl x y : Nat) :
    ∀ (l : List Nat) (g : gamma_t) (conn : Bool) (u : Nat),
      (l.foldlM (gamma_move_step pl x y) (g, conn, u)).map (fun s => (s.1, s.2.2))
        = l.foldlM (restore_move_step pl x y) (g, u) := by
  intro l
  induction l with
  | nil => intro g conn u; rfl
  | cons a l ih =>
    intro g conn u
    rw [List.foldlM_cons, List.foldlM_cons, gamma_move_step_eq]
    cases h : restore_move_step pl x y (g, u) a with
    | none => rfl
    | some r => exact ih r.1 _ r.2

/-- A possible move on a board that satisfies the invariant is the insertion
made by `restore_move`. -/
theorem move_eq_restore {g : gamma_t} (I : Inv g) {pl x y : Nat}
    (hmp : movie_possible (some g) pl x y = true) :
    ∃ g', gamma_move (some g) pl x y = some (true, some g') ∧
      restore_move g pl x y = some g' := by
  obtain ⟨hpl, hple, hx, hy, hemp, _⟩ := (movie_possible_iff g pl x y).1 hmp
  have hc : InGrid g.height g.width (y, x) := ⟨hy, hx⟩
  have hempty : ownF g.fields (y, x) = 0 := hemp
  have U0 := uf_set_field_empty (a := pl) I.uf hempty
  have hown : ownF (set_cell g.fields y x (set_field (g.fields y x) x y pl)) (y, x) = pl := by
    rw [ownF_set_field, if_pos rfl]
  obtain ⟨F', u, conn, hloop, N, hconn⟩ := gamma_move_loop_spec
    (g := { g with fields := set_cell g.fields y x (set_field (g.fields y x) x y pl) })
    U0 hc hown hpl
  have hloop' := move_loop_proj pl x y (List.range 4)
    { g with fields := set_cell g.fields y x (set_field (g.fields y x) x y pl) } false 0
  rw [hloop] at hloop'
  have hpos : conn = true → 1 ≤ u := fun hcn =>
    nb_united_pos I.hlt I.wlt I.uf hc hempty N (hconn.1 hcn)
  have hzero : conn = false → u = 0 := by
    intro hcn
    by_contra hu
    have hnone : ¬ ∃ i, i < 4 ∧
        nbCond { g with fields := set_cell g.fields y x (set_field (g.fields y x) x y pl) }
          pl (y, x) i := by
      rw [← hconn, hcn]; simp
    have hcount := N.count pl
    simp only [if_true] at hcount
    have U' : UF g.height g.width F' (Adj g.height g.width g.fields) := by
      refine N.uf.of_iff ?_
      intro p q
      simp only [Estar]
      constructor
      · rintro (h1 | ⟨_, i, hi, rfl, h3, h4⟩)
        · exact h1
        · exact absurd ⟨i, hi, h3, h4⟩ hnone
      · exact fun h1 => Or.inl h1
    have := nroots_unique U0 U' (fun p => N.frame.ownF p) pl
    omega
  refine ⟨inserted g pl F' u, ?_, ?_⟩
  · unfold gamma_move
    simp only [hmp, Bool.not_true, Bool.false_eq_true, if_false, hloop]
    congr 3
    unfold inserted
    congr 1
    funext q
    simp only [set_at_apply]
    by_cases hq : q = pl
    · simp only [hq, if_true]
      unfold areas_after sub_united
      cases conn with
      | true =>
        have := hpos rfl
        simp only [Bool.not_true, Bool.false_eq_true, if_false]
        have hu : u > 0 := by omega
        simp only [hu, if_true]
        omega
      | false =>
        have := hzero rfl
        subst this
        simp
    · simp [hq]
  · unfold restore_move
    simp only [← hloop', Option.map_some']
    unfold inserted
    congr 2
    funext q
    simp only [set_at_apply]
    by_cases hq : q = pl
    · simp only [hq, if_true]
      unfold areas_after sub_united
      by_cases hu : u = 0
      · subst hu
        simp
      · have hu' : u > 0 := by omega
        simp only [hu, hu', if_false, if_true]
        omega
    · simp [hq]

/-- C28. On every board reached from `gamma_new` by public calls, whenever
`movie_possible(g, player, x, y)` holds the cell `(x, y)` is a fresh node (its
own representative, of rank `0`), and `gamma_move(g, player, x, y)` returns
`true` and leaves exactly the board that `restore_move(g, player, x, y)`
leaves: the two boards are equal in every field (owners, representatives,
ranks, `player_areas`, `player_fields`). -/
theorem C28_move_is_restore (width height players areas : Nat)
    (hw : width < 4294967296) (hh : height < 4294967296) (calls : List Call) :
    ∃ s, run (gamma_new width height players areas) calls = some s ∧
      ∀ g, s = some g → ∀ player x y, movie_possible s player x y = true →
        ((g.fields y x).rep = (y, x) ∧ (g.fields y x).rank = 0) ∧
        ∃ g', gamma_move s player x y = some (true, some g') ∧
          restore_move g player x y = some g' := by
  obtain ⟨s, hs, hJ⟩ := reach_invR width height players areas hw hh calls
  refine ⟨s, hs, fun g hg player x y hmp => ?_⟩
  subst hg
  have J := hJ g rfl
  obtain ⟨_, _, hx, hy, hemp, _⟩ := (movie_possible_iff g player x y).1 hmp
  have hc : InGrid g.height g.width (y, x) := ⟨hy, hx⟩
  exact ⟨⟨J.inv.uf.empty_self hc hemp, J.fresh (y, x) hc hemp⟩, move_eq_restore J.inv hmp⟩

theorem C28_move_is_restore_witness :
    ∃ s, run (gamma_new 3 2 2 2) [Call.move 1 0 0, Call.move 1 1 0, Call.golden_move 2 1 0]
        = some s ∧
      ∀ g, s = some g → ∀ player x y, movie_possible s player x y = true →
        ((g.fields y x).rep = (y, x) ∧ (g.fields y x).rank = 0) ∧
        ∃ g', gamma_move s player x y = some (true, some g') ∧
          restore_move g player x y = some g' :=
  C28_move_is_restore 3 2 2 2 (by norm_num) (by norm_num) _

/-- C30. On every board reached from `gamma_new` by public calls, every empty
cell of the board is a singleton node of the forest: it is its own
representative, its rank is `0`, and no other cell of the board has it as
representative; so the cell on which `gamma_move` places a token (a cell for
which `movie_possible` holds) is a singleton at that moment. -/
theorem C30_empty_cells_singleton (width height players areas : Nat)
    (hw : width < 4294967296) (hh : height < 4294967296) (calls : List Call) :
    ∃ s, run (gamma_new width height players areas) calls = some s ∧
      ∀ g, s = some g →
        (∀ i j, i < g.height → j < g.width → (g.fields i j).owner = EMPTY →
          (g.fields i j).rep = (i, j) ∧ (g.fields i j).rank = 0 ∧
          ∀ a b, a < g.height → b < g.width → (g.fields a b).rep = (i, j) →
            (a, b) = (i, j)) ∧
        (∀ player x y, movie_possible s player x y = true →
          (g.fields y x).rep = (y, x) ∧ (g.fields y x).rank = 0 ∧
          ∀ a b, a < g.height → b < g.width → (g.fields a b).rep = (y, x) →
            (a, b) = (y, x)) := by
  obtain ⟨s, hs, hJ⟩ := reach_invR width height players areas hw hh calls
  refine ⟨s, hs, fun g hg => ?_⟩
  subst hg
  have J := hJ g rfl
  have key : ∀ i j, i < g.height → j < g.width → (g.fields i j).owner = EMPTY →
      (g.fields i j).rep = (i, j) ∧ (g.fields i j).rank = 0 ∧
      ∀ a b, a < g.height → b < g.width → (g.fields a b).rep = (i, j) →
        (a, b) = (i, j) := by
    intro i j hi hj h0
    have hc : InGrid g.height g.width (i, j) := ⟨hi, hj⟩
    refine ⟨J.inv.uf.empty_self hc h0, J.fresh (i, j) hc h0, ?_⟩
    intro a b ha hb hrep
    exact empty_not_parent J.inv (p := (i, j)) (q := (a, b)) h0 ⟨ha, hb⟩ hrep
  refine ⟨key, fun player x y hmp => ?_⟩
  obtain ⟨_, _, hx, hy, hemp, _⟩ := (movie_possible_iff g player x y).1 hmp
  exact key y x hy hx hemp

theorem C30_empty_cells_singleton_witness :
    ∃ s, run (gamma_new 3 2 2 2) [Call.move 1 0 0, Call.move 1 1 0, Call.golden_move 2 1 0]
        = some s ∧
      ∀ g, s = some g →
        (∀ i j, i < g.height → j < g.width → (g.fields i j).owner = EMPTY →
          (g.fields i j).rep = (i, j) ∧ (g.fields i j).rank = 0 ∧
          ∀ a b, a < g.height → b < g.width → (g.fields a b).rep = (i, j) →
            (a, b) = (i, j)) ∧
        (∀ player x y, movie_possible s player x y = true →
          (g.fields y x).rep = (y, x) ∧ (g.fields y x).rank = 0 ∧
          ∀ a b, a < g.height → b < g.width → (g.fields a b).rep = (y, x) →
            (a, b) = (y, x)) :=
  C30_empty_cells_singleton 3 2 2 2 (by norm_num) (by norm_num) _

/-! ## The rebuild of a territory from scratch -/

/-- The reset of the territory of `v` followed by the replay of its cells, on a
board that satisfies the invariant: the owners are unchanged, the forest
represents adjacency again, `player_fields[v]` is the number of cells of `v`
and `player_areas[v]` is the number of its trees modulo `2 ^ 32`. -/
theorem rebuild_plain {g : gamma_t} (I : Inv g) {v : Nat} (hv : v ≠ 0) :
    ∃ g3, golden_set_other_field_reps (golden_reset_field_reps g v) v = some g3 ∧
      g3.height = g.height ∧ g3.width = g.width ∧
      (∀ p, ownF g3.fields p = ownF g.fields p) ∧
      UF g.height g.width g3.fields (Adj g.height g.width g.fields) ∧
      g3.player_areas v = nroots g.height g.width g3.fields v % 4294967296 ∧
      g3.player_fields v = ncells g.height g.width g.fields v := by
  rw [golden_reset_eq]
  have U1 := uf_reset (v := v) I.uf
  have hnr := nroots_reset (h := g.height) (w := g.width) (F := g.fields) v
  have hnc1 : ∀ q, ncells g.height g.width (reset_fields g.height g.width g.fields v) q
      = ncells g.height g.width g.fields q := by
    intro q
    unfold ncells cellSet
    apply card_filter_same
    intro p _
    rw [ownF_reset]
  set F2 := reset_fields g.height g.width g.fields v with hF2
  set g2 : gamma_t := { g with
        fields := F2
        player_areas := set_at g.player_areas v 0
        player_fields := set_at g.player_fields v 0 } with hg2
  have hown2 : ∀ p, ownF F2 p = ownF g.fields p := fun p => ownF_reset _ _ _ _ _
  have hcoords2 : ∀ i j, (F2 i j).x = (g.fields i j).x ∧ (F2 i j).y = (g.fields i j).y := by
    intro i j
    rw [hF2]
    unfold reset_fields
    split <;> simp_all
  have R0 : ReplayInv g2 v 0 g2 := by
    refine ⟨⟨F2, _, _, rfl⟩, ?_, FrameUF.refl _ _ _ _, fun _ _ => rfl, fun _ _ => rfl, ?_,
      ?_, ?_⟩
    · refine U1.of_iff ?_
      intro p q
      simp only [notOwned, Erep, Adj]
      constructor
      · rintro ⟨⟨h1, h2, h3, h4, h5⟩, h6⟩
        refine ⟨⟨h1, h2, h3, ?_, ?_⟩, ?_⟩
        · show ownF F2 p = ownF F2 q
          rw [hown2, hown2]; exact h4
        · show ownF F2 p ≠ 0
          rw [hown2]; exact h5
        · intro hp
          have hp' : ownF F2 p = v := hp
          rw [hown2] at hp'
          exact absurd hp' h6
      · rintro ⟨⟨h1, h2, h3, h4, h5⟩, h6⟩
        have h4' : ownF F2 p = ownF F2 q := h4
        have h5' : ownF F2 p ≠ 0 := h5
        rw [hown2, hown2] at h4'
        rw [hown2] at h5'
        refine ⟨⟨h1, h2, h3, h4', h5'⟩, ?_⟩
        intro hpv
        have : ownF F2 p = v := by rw [hown2]; exact hpv
        rcases h6 this with hh | hh <;> omega
    · show (set_at g.player_areas v 0 v + unproc g.height g.width F2 v 0) % 4294967296
        = nroots g.height g.width F2 v % 4294967296
      rw [set_at_apply, if_pos rfl, unproc_zero]
      have e2 := hnc1 v
      have e3 := hnr.1
      omega
    · show set_at g.player_areas v 0 v < 4294967296
      rw [set_at_apply, if_pos rfl]; omega
    · show set_at g.player_fields v 0 v = proc g.height g.width F2 v 0
      rw [set_at_apply, if_pos rfl, proc_zero]
  have hcoordsv : ∀ p, InGrid g2.height g2.width p → ownF g2.fields p = v →
      (g2.fields p.1 p.2).x = p.2 ∧ (g2.fields p.1 p.2).y = p.1 := by
    intro p hp hpv
    have hpv' : ownF F2 p = v := hpv
    have h1 := hcoords2 p.1 p.2
    show (F2 p.1 p.2).x = p.2 ∧ (F2 p.1 p.2).y = p.1
    rw [h1.1, h1.2]
    apply I.coords p hp
    rw [hown2] at hpv'
    rw [hpv']; exact hv
  obtain ⟨g3, hg3, R⟩ := replay_spec (g := g2) I.hlt I.wlt hv hcoordsv R0
  refine ⟨g3, hg3, ?_⟩
  obtain ⟨F3, A, B, rfl⟩ := R.shape
  have hown3 : ∀ p, ownF F3 p = ownF g.fields p := by
    intro p
    rw [← hown2]
    exact R.frame.ownF p
  have U3 : UF g.height g.width F3 (Adj g.height g.width g.fields) := by
    refine R.uf.of_iff ?_
    intro p q
    simp only [Erep, Adj]
    constructor
    · rintro ⟨⟨h1, h2, h3, h4, h5⟩, _⟩
      refine ⟨h1, h2, h3, ?_, ?_⟩
      · rw [← hown2, ← hown2]; exact h4
      · rw [← hown2]; exact h5
    · rintro ⟨h1, h2, h3, h4, h5⟩
      rw [← hown2, ← hown2] at h4
      rw [← hown2] at h5
      exact ⟨⟨h1, h2, h3, h4, h5⟩, fun _ => Or.inl (idx_lt h1.1 h1.2)⟩
  have hpa := R.pa
  have hpalt := R.pa_lt
  have hpf := R.pf
  simp only at hpa hpalt hpf
  rw [unproc_all] at hpa
  rw [proc_all] at hpf
  refine ⟨rfl, rfl, hown3, U3, ?_, ?_⟩
  · show A v = nroots g.height g.width F3 v % 4294967296
    omega
  · show B v = ncells g.height g.width g.fields v
    rw [hpf]
    exact hnc1 v

/-- The counters after the rebuild in terms of the areas: `player_areas[v]` is
the number of areas of `v` modulo `2 ^ 32`. -/
theorem rebuild_counts {g : gamma_t} (I : Inv g) {v : Nat} (hv : v ≠ 0) :
    ∃ g3, golden_set_other_field_reps (golden_reset_field_reps g v) v = some g3 ∧
      (∀ i j, (g3.fields i j).owner = (g.fields i j).owner) ∧
      g3.player_fields v = ncells g.height g.width g.fields v ∧
      ∀ R, AreaReps g v R → g3.player_areas v = R.card % 4294967296 := by
  obtain ⟨g3, h, _, _, hown, U3, hpa, hpf⟩ := rebuild_plain I hv
  refine ⟨g3, h, fun i j => hown (i, j), hpf, fun R hR => ?_⟩
  obtain ⟨r1, r2, r3⟩ := hR
  have hcard : R.card = nroots g.height g.width g3.fields v := by
    apply Nat.le_antisymm
    · apply card_le_nroots U3
      · intro p hp
        exact ⟨(r1 p hp).1, (hown p).trans (r1 p hp).2⟩
      · intro p hp r hr hpr
        exact r2 p hp r hr (eqvGen_iff_path.1 hpr)
    · apply nroots_le_card U3
      intro p hp ho
      obtain ⟨d, hd, hpd⟩ := r3 p hp ((hown p).symm.trans ho)
      exact ⟨d, hd, eqvGen_iff_path.2 hpd⟩
  rw [hpa, hcard]

/-- C27 fails on the board of `3` rows and `2 ^ 32 - 1` columns with two players
and the area limit `2 ^ 32 - 3` reached by the calls `wrapCalls`: the cells of
player 2 form `2 ^ 32` areas (one for each cell of `R`), and
`golden_reset_field_reps(g, 2)` followed by `golden_set_other_field_reps(g, 2)`
ends with `player_areas[2] == 0`, the 32-bit counter having wrapped, not with
the number of areas. -/
theorem C27_rebuild_wraps :
    ∃ g g' R, run (gamma_new 4294967295 3 2 4294967293) wrapCalls = some (some g) ∧
      golden_set_other_field_reps (golden_reset_field_reps g 2) 2 = some g' ∧
      AreaReps g 2 R ∧ R.card = 4294967296 ∧ g'.player_areas 2 = 0 := by
  obtain ⟨g, hrun, W⟩ := wrapped_reach
  obtain ⟨g', h, _, _, hpa⟩ := rebuild_counts W.inv (v := 2) (by decide)
  obtain ⟨hR, hcard⟩ := wrapped_reps W
  refine ⟨g, g', _, hrun, h, hR, hcard, ?_⟩
  rw [hpa _ hR, hcard]

/-- The rebuild where the counter does not wrap. On every board reached from
`gamma_new` by public calls and for every player `q ≥ 1`,
`golden_reset_field_reps(g, q)` followed by `golden_set_other_field_reps(g, q)`
returns, leaves the owner of every cell as it was, and ends with
`player_fields[q]` equal to the number of cells of `q`; the code leaves in
`player_areas[q]` the number of areas of `q` reduced modulo `2 ^ 32` (`R` holds
one cell of each area), which is the number of areas when this is below
`2 ^ 32`. -/
theorem rebuild_counts_reach (width height players areas : Nat)
    (hw : width < 4294967296) (hh : height < 4294967296) (calls : List Call) :
    ∃ s, run (gamma_new width height players areas) calls = some s ∧
      ∀ g, s = some g → ∀ q, 1 ≤ q →
        ∃ g', golden_set_other_field_reps (golden_reset_field_reps g q) q = some g' ∧
          (∀ i j, (g'.fields i j).owner = (g.fields i j).owner) ∧
          g'.player_fields q = ncells g.height g.width g.fields q ∧
          ∀ R, AreaReps g q R →
            g'.player_areas q = R.card % 4294967296 ∧
            (R.card < 4294967296 → g'.player_areas q = R.card) := by
  obtain ⟨s, hs, hI⟩ := reach_inv width height players areas hw hh calls
  refine ⟨s, hs, fun g hg q hq => ?_⟩
  obtain ⟨g', h, hown, hpf, hpa⟩ := rebuild_counts (hI g hg) (v := q) (by omega)
  refine ⟨g', h, hown, hpf, fun R hR => ⟨hpa R hR, fun hlt => ?_⟩⟩
  rw [hpa R hR]
  exact Nat.mod_eq_of_lt hlt

theorem rebuild_counts_reach_example :
    ∃ s, run (gamma_new 3 2 2 2) [Call.move 1 0 0, Call.move 1 2 0, Call.move 1 1 0]
        = some s ∧
      ∀ g, s = some g → ∀ q, 1 ≤ q →
        ∃ g', golden_set_other_field_reps (golden_reset_field_reps g q) q = some g' ∧
          (∀ i j, (g'.fields i j).owner = (g.fields i j).owner) ∧
          g'.player_fields q = ncells g.height g.width g.fields q ∧
          ∀ R, AreaReps g q R →
            g'.player_areas q = R.card % 4294967296 ∧
            (R.card < 4294967296 → g'.player_areas q = R.card) :=
  rebuild_counts_reach 3 2 2 2 (by norm_num) (by norm_num) _

/-! ## Taking back a golden move -/

/-- On the board above the limit the golden move of player 2 at `(1, 1)`
succeeds, and the golden move of player 1 that should take the cell back, made
with the flag of player 1 cleared, fails the check of the limit. -/
theorem over_undo_fails {g : gamma_t} (O : Over g) :
    ∃ g1 g2, (g.fields 1 1).owner = 1 ∧
      gamma_golden_move (some g) 2 1 1 = some (true, some g1) ∧
      gamma_golden_move (some { g1 with golden_used := set_at g1.golden_used 1 false }) 1 1 1
        = some (false, some g2) := by
  have I := O.inv
  have hown11 : (g.fields 1 1).owner = 1 := by
    have := O.own (1, 1)
    rw [show overOwn (1, 1) = 1 by decide] at this
    exact this
  have hc : InGrid g.height g.width (1, 1) := by
    rw [O.h, O.w]; exact ⟨by norm_num, by norm_num⟩
  have hv : ownF g.fields (1, 1) ≠ 0 := by
    show (g.fields 1 1).owner ≠ 0
    rw [hown11]; decide
  have hcond : GoldenCond g 2 1 1 := by
    refine ⟨?_, ?_, ?_⟩
    · rw [golden_reject_false_iff, old_golden_possible_iff, hown11, O.pl, O.w, O.h]
      refine ⟨⟨by decide, le_refl _, O.gu2, 1, by norm_num, by decide, ?_⟩, by norm_num,
        by norm_num, by decide, by decide, O.gu2⟩
      have := player_fields_pos I hc hv
      rw [show ownF g.fields (1, 1) = 1 from hown11] at this
      exact this
    · intro R hR
      rw [hown11] at hR
      have hemp : R = ∅ := by
        apply Finset.eq_empty_of_forall_not_mem
        intro c hcR
        have h1 := (hR.1 c hcR).2
        have h2 : ownF (del_cell g 1 1).fields c = 1 := h1
        rw [ownF_del_cell] at h2
        split at h2
        · exact absurd h2 (by decide)
        · next hne =>
          rw [O.own] at h2
          exact hne ((overOwn_one c).1 h2)
      rw [hemp]
      simp
    · intro he
      rw [O.pa2, O.ar] at he
      exact absurd he (by norm_num)
  obtain ⟨b, g1, h1, I1, hb, _⟩ := golden_move_outcome I 2 1 1
  have hbt : b = true := hb.2 hcond
  subst hbt
  obtain ⟨g1', hg1', _, d1, d2, d3, d4, _, hown1, hpf1, _, _, hgu1⟩ := golden_move_frame I h1
  simp only [Option.some.injEq] at hg1'
  subst hg1'
  have hI3 := inv_with_flags I1 (set_at g1.golden_used 1 false)
  obtain ⟨b', g4, h4, I4, hb', hS'⟩ := golden_move_outcome hI3 1 1 1
  have hown3 : ∀ p, ownF g1.fields p = if p = (1, 1) then 2 else ownF g.fields p := hown1
  have hnot : ∀ g3 : gamma_t, g3.height = g1.height → g3.width = g1.width →
      g3.areas = g1.areas → g3.fields = g1.fields → ¬ GoldenCond g3 1 1 1 := by
    intro g3 e1 e2 e4 e5 hcon
    obtain ⟨_, hc2, _⟩ := hcon
    have hfo : (g3.fields 1 1).owner = 2 := by
      rw [e5]
      have := hown3 (1, 1)
      rw [if_pos rfl] at this
      exact this
    have hR : AreaReps g 2 (rootSet g.height g.width g.fields 2) := areaReps_rootSet I 2
    have hR' := areaReps_congr (a := g) (b := del_cell g3 1 1)
      (e1.trans d1) (e2.trans d2) (fun p => by
        rw [ownF_del_cell, e5, hown3 p]
        by_cases hp : p = (1, 1)
        · rw [if_pos hp, hp]
          rw [show ownF g.fields (1, 1) = 1 from hown11]
          simp
        · rw [if_neg hp, if_neg hp]) hR
    rw [hfo] at hc2
    have := hc2 _ hR'
    have e : (rootSet g.height g.width g.fields 2).card
        = nroots g.height g.width g.fields 2 := rfl
    rw [e, ← I.areas 2 (by decide), O.pa2, e4, d4, O.ar] at this
    omega
  have hbf : b' = false := by
    cases hbb : b' with
    | false => rfl
    | true =>
      exfalso
      rw [hbb] at hb'
      refine absurd (hb'.1 rfl) ?_
      exact hnot _ rfl rfl rfl rfl
  subst hbf
  exact ⟨g1, g4, hown11, h1, h4⟩

/-- When no counter can wrap, a successful golden move can be taken back: on
every board reached from `gamma_new`, after a golden move of `p` at `(x, y)`
that returned `true`, the golden move of the former owner of the cell at
`(x, y)`, made with the flag of that owner cleared, returns `true` and gives
back the owners, `player_areas` and `player_fields` of the board before the
first golden move. -/
theorem golden_undo_of_noWrap (width height players areas : Nat)
    (hw : width < 4294967296) (hh : height < 4294967296) (ha : areas < 4294967296)
    (hn : areas + 3 < 4294967296 ∨ height * width < 4294967296) (calls : List Call) :
    ∃ s, run (gamma_new width height players areas) calls = some s ∧
      ∀ g, s = some g → ∀ p x y g1, gamma_golden_move s p x y = some (true, some g1) →
        ∃ g2, gamma_golden_move
            (some { g1 with golden_used := set_at g1.golden_used (g.fields y x).owner false })
            (g.fields y x).owner x y = some (true, some g2) ∧
          (∀ i j, (g2.fields i j).owner = (g.fields i j).owner) ∧
          (∀ q, g2.player_areas q = g.player_areas q) ∧
          (∀ q, g2.player_fields q = g.player_fields q) := by
  obtain ⟨s, hs, hC⟩ := reach_capInv width height players areas hw hh ha hn calls
  refine ⟨s, hs, fun g hg p x y g1 h1 => ?_⟩
  subst hg
  have C := hC g rfl
  have I := C.inv
  obtain ⟨g1', hg1', I1, _, _, _, _, hrej, hown1, _, _, _, _⟩ := golden_move_frame I h1
  simp only [Option.some.injEq] at hg1'
  subst hg1'
  obtain ⟨_, _, _, _, hvp, _⟩ := (golden_reject_false_iff g p x y).1 hrej
  have hI3 := inv_with_flags I1 (set_at g1.golden_used (g.fields y x).owner false)
  obtain ⟨b, g4, h4, _, _, _, _, _, _, hcap⟩ := probe_revert I h1 hI3 rfl rfl rfl rfl rfl rfl rfl
    (by
      show set_at g1.golden_used (g.fields y x).owner false (g.fields y x).owner = false
      rw [set_at_apply, if_pos rfl])
  obtain ⟨hown, hpa, hpf⟩ := hcap C.to_cap
  have hbt : b = true := by
    cases hb : b with
    | true => rfl
    | false =>
      exfalso
      subst hb
      obtain ⟨b', g4', h4', _, _, hS⟩ := golden_move_outcome hI3 (g.fields y x).owner x y
      rw [h4] at h4'
      simp only [Option.some.injEq, Prod.mk.injEq] at h4'
      obtain ⟨hb', hg'⟩ := h4'
      subst hg'
      have S := hS hb'.symm
      have e1 := S.own (y, x)
      rw [hown (y, x)] at e1
      have e2 : ownF g1.fields (y, x) = p := by
        rw [hown1, if_pos rfl]
      have e3 : ownF g.fields (y, x) = p := e1.trans e2
      exact hvp e3
  subst hbt
  exact ⟨g4, h4, fun i j => hown (i, j), hpa, hpf⟩

/-- C29 fails on a board of `3` rows and `2 ^ 32 - 1` columns with two players
and the area limit `2 ^ 32 - 3`: after the calls `wrapCalls` and the move of
player 2 to `(5, 0)`, which leave `player_areas[2]` above the limit, the cell
`(1, 1)` belongs to player 1, `gamma_golden_move(g, 2, 1, 1)` returns `true`,
and in the resulting state with `golden_used[1]` cleared
`gamma_golden_move(g, 1, 1, 1)` returns `false`. -/
theorem C29_golden_undo_fails :
    ∃ g g1 g2, run (gamma_new 4294967295 3 2 4294967293) (wrapCalls ++ [Call.move 2 5 0])
        = some (some g) ∧
      (g.fields 1 1).owner = 1 ∧
      gamma_golden_move (some g) 2 1 1 = some (true, some g1) ∧
      gamma_golden_move (some { g1 with golden_used := set_at g1.golden_used 1 false }) 1 1 1
        = some (false, some g2) := by
  obtain ⟨g, hrun, O⟩ := over_reach
  obtain ⟨g1, g2, h0, h1, h2⟩ := over_undo_fails O
  exact ⟨g, g1, g2, hrun, h0, h1, h2⟩

/-! ## The example scenario of the specification -/

/-- A possible move along the calls of the example. -/
theorem ex_move {g : gamma_t} {O : Nat × Nat → Nat} (T : ExC g O) {z x y : Nat}
    (hpl : z = 1 ∨ z = 2) (hx : x < 5) (hy : y < 5) (hemp : O (y, x) = 0)
    (hcap : g.player_areas z ≠ 2) :
    ∃ g', gamma_move (some g) z x y = some (true, some g') ∧
      ExC g' (upd O (y, x) z) ∧
      g'.player_fields z = g.player_fields z + 1 ∧
      (∀ q, q ≠ z → g'.player_fields q = g.player_fields q) ∧
      (∀ q, g'.golden_used q = g.golden_used q) := by
  have hmp : movie_possible (some g) z x y = true := by
    rw [movie_possible_iff]
    refine ⟨by omega, by rw [T.pl]; omega, by rw [T.w]; exact hx, by rw [T.h]; exact hy,
      ?_, ?_⟩
    · have := T.own (y, x)
      rw [hemp] at this
      exact this
    · intro hh
      rw [T.ar] at hh
      exact absurd hh hcap
  obtain ⟨F', u, hm, _, _, _⟩ := gamma_move_ok T.inv hmp
  obtain ⟨g', u', hs', hI', _, hh, hw, ha, hp, hgu, hown, hpf, hpa, _⟩ :=
    gamma_move_frame T.inv hm
  refine ⟨g', by rw [hm, hs'], ⟨hI', by rw [hh, T.h], by rw [hw, T.w], by rw [hp, T.pl],
    by rw [ha, T.ar], ?_⟩, ?_, ?_, ?_⟩
  · intro p
    rw [hown p]
    unfold upd
    split
    · rfl
    · exact T.own p
  · rw [hpf, set_at_apply, if_pos rfl]
  · intro q hq
    rw [hpf, set_at_apply, if_neg hq]
  · intro q
    rw [hgu]

/-- The counter of a player with fewer than two cells is not at the limit. -/
theorem ex_below {g : gamma_t} {O : Nat × Nat → Nat} (T : ExC g O) {z : Nat}
    (hz : z ≠ 0) (hlt : g.player_fields z < 2) : g.player_areas z ≠ 2 := by
  have h1 := T.inv.areas z hz
  have h2 := nroots_le_ncells g.height g.width g.fields z
  have h3 := T.inv.fields z hz
  have h4 : nroots g.height g.width g.fields z % 4294967296
      = nroots g.height g.width g.fields z := Nat.mod_eq_of_lt (by omega)
  omega

/-- The counter of a player whose areas are given by representatives. -/
theorem ex_counter {g : gamma_t} {O : Nat × Nat → Nat} (T : ExC g O) {z : Nat}
    (hz : z ≠ 0) {R : Finset (Nat × Nat)} (hR : AreaReps g z R) (hlt : R.card < 4294967296) :
    g.player_areas z = R.card := by
  rw [T.inv.areas z hz, ← areaReps_card T.inv hR]
  exact Nat.mod_eq_of_lt hlt

/-- Two adjacent cells of a player are joined by an edge. -/
theorem ex_adj {g : gamma_t} {O : Nat × Nat → Nat} (T : ExC g O) {a b : Nat × Nat}
    (ha : a.1 < 5 ∧ a.2 < 5) (hb : b.1 < 5 ∧ b.2 < 5)
    (hadj : Adjacent a b) (hab : O a = O b) (h0 : O a ≠ 0) :
    Adj g.height g.width g.fields a b := by
  rw [T.h, T.w]
  refine ⟨ha, hb, hadj, ?_, ?_⟩
  · rw [T.own, T.own, hab]
  · rw [T.own]; exact h0

/-- A cell without a neighbour of its owner is connected to itself only. -/
theorem ex_lonely {g : gamma_t} {O : Nat × Nat → Nat} (T : ExC g O) {c e : Nat × Nat}
    (hc : ∀ q, Adjacent c q → O q = O c → False)
    (h : Relation.ReflTransGen (Adj g.height g.width g.fields) c e) : c = e := by
  have hiso : ∀ p q, Adj g.height g.width g.fields p q → p ≠ c ∧ q ≠ c := by
    intro p q hpq
    obtain ⟨_, _, hadj, ho, _⟩ := hpq
    rw [T.own, T.own] at ho
    constructor
    · intro hp
      subst hp
      exact hc q hadj ho.symm
    · intro hq
      subst hq
      exact hc p hadj.symm_adj ho
  exact ((eqvGen_isolated hiso (eqvGen_iff_path.2 h)).1 rfl).symm

/-- The empty board of the example. -/
theorem ex_new : ∃ g, gamma_new 5 5 2 2 = some g ∧ ExC g (fun _ => 0) ∧
    (∀ q, g.player_fields q = 0) ∧ (∀ q, g.golden_used q = false) := by
  have hex : ∃ g, gamma_new 5 5 2 2 = some g := by
    simp [gamma_new, UINT32_MAX]
  obtain ⟨g, hg⟩ := hex
  refine ⟨g, hg, ?_⟩
  have I := gamma_new_inv (by norm_num) (by norm_num) hg
  obtain ⟨h1, h2, h3, h4, h5, _, h7, h8⟩ := gamma_new_some hg
  refine ⟨⟨I, h1, h2, h3, h4, ?_⟩, h7, h8⟩
  intro p
  rw [h5]
  exact ownF_init_fields _ _ p

theorem upd_one_cases {O : Nat × Nat → Nat} {c p : Nat × Nat} {v a : Nat}
    (h : upd O c v p = a) : (p = c ∧ v = a) ∨ (p ≠ c ∧ O p = a) := by
  unfold upd at h
  split at h
  · next hpc => exact Or.inl ⟨hpc, h⟩
  · next hpc => exact Or.inr ⟨hpc, h⟩

/-- The cells of player 1 on the grid of the example. -/
theorem exOwn_one {p : Nat × Nat} (h : exOwn p = 1) : p = (0, 0) ∨ p = (1, 0) ∨ p = (2, 2) := by
  unfold exOwn at h
  rcases upd_one_cases h with ⟨h1, _⟩ | ⟨_, h⟩
  · exact Or.inr (Or.inr h1)
  rcases upd_one_cases h with ⟨h1, _⟩ | ⟨_, h⟩
  · exact Or.inr (Or.inl h1)
  rcases upd_one_cases h with ⟨_, h1⟩ | ⟨_, h⟩
  · exact absurd h1 (by decide)
  rcases upd_one_cases h with ⟨h1, _⟩ | ⟨_, h⟩
  · exact Or.inl h1
  exact absurd h (by decide)

/-- The calls of the example return and end on the board with the grid `exOwn`,
on which player 1 has two areas, player 2 has one cell and no golden move has
been made. -/
theorem ex_reach :
    ∃ g, run (gamma_new 5 5 2 2) exCalls = some (some g) ∧ ExC g exOwn ∧
      g.player_areas 1 = 2 ∧ g.player_fields 2 = 1 ∧ g.golden_used 1 = false := by
  obtain ⟨g0, hg0, T0, f0, u0⟩ := ex_new
  obtain ⟨g1, hm1, T1, f1, o1, u1⟩ := ex_move T0 (z := 1) (x := 0) (y := 0)
    (Or.inl rfl) (by norm_num) (by norm_num) rfl (ex_below T0 (by decide) (by rw [f0]; decide))
  obtain ⟨g2, hm2, T2, f2, o2, u2⟩ := ex_move T1 (z := 2) (x := 4) (y := 4)
    (Or.inr rfl) (by norm_num) (by norm_num) (by decide)
    (ex_below T1 (by decide) (by rw [o1 2 (by decide), f0]; decide))
  obtain ⟨g3, hm3, T3, f3, o3, u3⟩ := ex_move T2 (z := 1) (x := 0) (y := 1)
    (Or.inl rfl) (by norm_num) (by norm_num) (by decide)
    (ex_below T2 (by decide) (by rw [o2 1 (by decide), f1, f0]; decide))
  -- before the fourth move player 1 has one area
  have hR3 : AreaReps g3 1 {(0, 0)} := by
    refine ⟨?_, ?_, ?_⟩
    · intro c hc
      simp only [Finset.mem_singleton] at hc
      subst hc
      rw [T3.h, T3.w]
      refine ⟨by decide, ?_⟩
      have := T3.own (0, 0)
      exact this.trans (by decide)
    · intro c hc d hd _
      simp only [Finset.mem_singleton] at hc hd
      rw [hc, hd]
    · intro c hc ho
      refine ⟨(0, 0), Finset.mem_singleton_self _, ?_⟩
      have ho' : ownF g3.fields c = 1 := ho
      rw [T3.own] at ho'
      rcases upd_one_cases ho' with ⟨h1, _⟩ | ⟨_, ho'⟩
      · rw [h1]
        exact Relation.ReflTransGen.single
          (ex_adj T3 (a := (1, 0)) (b := (0, 0)) (by decide) (by decide) (by decide)
            (by decide) (by decide))
      rcases upd_one_cases ho' with ⟨_, h1⟩ | ⟨_, ho'⟩
      · exact absurd h1 (by decide)
      rcases upd_one_cases ho' with ⟨h1, _⟩ | ⟨_, ho'⟩
      · rw [h1]
      · exact absurd ho' (by decide)
  have hc3 : g3.player_areas 1 = 1 := by
    rw [ex_counter T3 (by decide) hR3 (by simp)]
    rfl
  obtain ⟨g4, hm4, T4, f4, o4, u4⟩ := ex_move T3 (z := 1) (x := 2) (y := 2)
    (Or.inl rfl) (by norm_num) (by norm_num) (by decide) (by rw [hc3]; decide)
  have T4' : ExC g4 exOwn := T4
  -- after it player 1 has two areas
  have hR4 : AreaReps g4 1 {(0, 0), (2, 2)} := by
    refine ⟨?_, ?_, ?_⟩
    · intro c hc
      simp only [Finset.mem_insert, Finset.mem_singleton] at hc
      rw [T4.h, T4.w]
      rcases hc with hc | hc
      · subst hc
        exact ⟨by decide, (T4'.own (0, 0)).trans (by decide)⟩
      · subst hc
        exact ⟨by decide, (T4'.own (2, 2)).trans (by decide)⟩
    · intro c hc d hd hcd
      have hlone : ∀ e, Relation.ReflTransGen (Adj g4.height g4.width g4.fields) (2, 2) e →
          (2, 2) = e := by
        intro e he
        apply ex_lonely T4' ?_ he
        intro q hadj ho
        rw [show exOwn (2, 2) = 1 by decide] at ho
        obtain ⟨r, c⟩ := q
        have := exOwn_one ho
        unfold Adjacent at hadj
        simp only [Prod.mk.injEq] at this hadj
        omega
      simp only [Finset.mem_insert, Finset.mem_singleton] at hc hd
      rcases hc with hc | hc <;> rcases hd with hd | hd
      · rw [hc, hd]
      · subst hc; subst hd
        exact (hlone _ (Relation.ReflTransGen.symmetric (adj_symmetric _ _ _) hcd)).symm
      · subst hc; subst hd
        exact hlone _ hcd
      · rw [hc, hd]
    · intro c hc ho
      have ho' : ownF g4.fields c = 1 := ho
      rw [T4'.own] at ho'
      rcases exOwn_one ho' with h1 | h1 | h1
      · exact ⟨(0, 0), by simp, by rw [h1]⟩
      · refine ⟨(0, 0), by simp, ?_⟩
        rw [h1]
        exact Relation.ReflTransGen.single
          (ex_adj T4' (a := (1, 0)) (b := (0, 0)) (by decide) (by decide) (by decide)
            (by decide) (by decide))
      · exact ⟨(2, 2), by simp, by rw [h1]⟩
  have hc4 : g4.player_areas 1 = 2 := by
    rw [ex_counter T4' (by decide) hR4 (by rw [Finset.card_pair (by decide)]; norm_num),
      Finset.card_pair (by decide)]
  -- the fifth move is rejected
  have hmp5 : movie_possible (some g4) 1 4 0 = false := by
    cases hb : movie_possible (some g4) 1 4 0 with
    | false => rfl
    | true =>
      exfalso
      obtain ⟨_, _, _, _, _, hnb⟩ := (movie_possible_iff g4 1 4 0).1 hb
      obtain ⟨i, hi, hin, ho⟩ := hnb (by rw [hc4, T4.ar])
      rw [T4'.own] at ho
      have := exOwn_one ho
      have hcases : i = 0 ∨ i = 1 ∨ i = 2 ∨ i = 3 := by omega
      rcases hcases with rfl | rfl | rfl | rfl
      · rw [show nbr (0, 4) 0 = (0, 5) by decide] at this
        simp at this
      · rw [show nbr (0, 4) 1 = (0, 3) by decide] at this
        simp at this
      · rw [show nbr (0, 4) 2 = (1, 4) by decide] at this
        simp at this
      · rw [show nbr (0, 4) 3 = (4294967295, 4) by decide] at this
        simp at this
  have hm5 := gamma_move_false hmp5
  refine ⟨g4, ?_, T4', hc4, ?_, ?_⟩
  · unfold exCalls
    rw [hg0, run_cons, call_move_true hm1]
    show run (some g1) _ = _
    rw [run_cons, call_move_true hm2]
    show run (some g2) _ = _
    rw [run_cons, call_move_true hm3]
    show run (some g3) _ = _
    rw [run_cons, call_move_true hm4]
    show run (some g4) _ = _
    rw [run_single]
    show (gamma_move (some g4) 1 4 0).map (fun r => r.2) = _
    rw [hm5]
    rfl
  · rw [o4 2 (by decide), o3 2 (by decide), f2, o1 2 (by decide), f0]
  · rw [u4, u3, u2, u1, u0]

/-- On the board of the example the golden move of player 1 to `(4, 4)` fails:
player 1 is at the limit and owns no neighbour of the cell. -/
theorem ex_golden {g : gamma_t} (T : ExC g exOwn) (hpa : g.player_areas 1 = 2) :
    ∃ g', gamma_golden_move (some g) 1 4 4 = some (false, some g') ∧ SameObs g g' := by
  obtain ⟨b, g', hm, _, hb, hS⟩ := golden_move_outcome T.inv 1 4 4
  cases b with
  | false => exact ⟨g', hm, hS rfl⟩
  | true =>
    exfalso
    obtain ⟨_, _, hnb⟩ := hb.1 rfl
    obtain ⟨i, hi, hin, ho⟩ := hnb (by rw [hpa, T.ar])
    rw [T.own] at ho
    have := exOwn_one ho
    have hcases : i = 0 ∨ i = 1 ∨ i = 2 ∨ i = 3 := by omega
    rcases hcases with rfl | rfl | rfl | rfl
    · rw [show nbr (4, 4) 0 = (4, 5) by decide] at this
      simp at this
    · rw [show nbr (4, 4) 1 = (4, 3) by decide] at this
      simp at this
    · rw [show nbr (4, 4) 2 = (5, 4) by decide] at this
      simp at this
    · rw [show nbr (4, 4) 3 = (3, 4) by decide] at this
      simp at this

/-- C26 as stated fails: in the example scenario on the board
`gamma_new(5, 5, 2, 2)`, after `move(1,0,0)`, `move(2,4,4)`, `move(1,0,1)`,
`move(1,2,2)` and the rejected `move(1,4,0)` (the calls `exCalls`), the call
`gamma_golden_move(g, 1, 4, 4)` returns `false`, not `true`. -/
theorem C26_example_golden_fails :
    ∃ g s', run (gamma_new 5 5 2 2) exCalls = some (some g) ∧
      gamma_golden_move (some g) 1 4 4 = some (false, s') := by
  obtain ⟨g, hrun, T, hpa, _, _⟩ := ex_reach
  obtain ⟨g', hm, _⟩ := ex_golden T hpa
  exact ⟨g, _, hrun, hm⟩

/-- C26, amended. In the example scenario on the board `gamma_new(5, 5, 2, 2)`,
after `move(1,0,0)`, `move(2,4,4)`, `move(1,0,1)`, `move(1,2,2)` and
`move(1,4,0)`, which is rejected and leaves the board as it is, player 1 is at
the limit of `2` areas and the cell `(4, 4)` belongs to player 2; the call
`gamma_golden_move(g, 1, 4, 4)` returns `false`, after which `golden_used[1]`
is `false`, the cell `(4, 4)` belongs to player 2 and
`gamma_busy_fields(g, 2) == 1`. -/
theorem C26_example_scenario :
    ∃ g g', run (gamma_new 5 5 2 2) exCalls = some (some g) ∧
      gamma_move (some g) 1 4 0 = some (false, some g) ∧
      g.player_areas 1 = 2 ∧ g.areas = 2 ∧ (g.fields 4 4).owner = 2 ∧
      gamma_golden_move (some g) 1 4 4 = some (false, some g') ∧
      g'.golden_used 1 = false ∧ (g'.fields 4 4).owner = 2 ∧
      gamma_busy_fields (some g') 2 = 1 := by
  obtain ⟨g, hrun, T, hpa, hpf, hgu⟩ := ex_reach
  obtain ⟨g', hm, S⟩ := ex_golden T hpa
  have hown : (g.fields 4 4).owner = 2 := (T.own (4, 4)).trans (by decide)
  have hmp : movie_possible (some g) 1 4 0 = false := by
    cases hb : movie_possible (some g) 1 4 0 with
    | false => rfl
    | true =>
      exfalso
      obtain ⟨_, _, _, _, _, hnb⟩ := (movie_possible_iff g 1 4 0).1 hb
      obtain ⟨i, hi, hin, ho⟩ := hnb (by rw [hpa, T.ar])
      rw [T.own] at ho
      have := exOwn_one ho
      have hcases : i = 0 ∨ i = 1 ∨ i = 2 ∨ i = 3 := by omega
      rcases hcases with rfl | rfl | rfl | rfl
      · rw [show nbr (0, 4) 0 = (0, 5) by decide] at this
        simp at this
      · rw [show nbr (0, 4) 1 = (0, 3) by decide] at this
        simp at this
      · rw [show nbr (0, 4) 2 = (1, 4) by decide] at this
        simp at this
      · rw [show nbr (0, 4) 3 = (4294967295, 4) by decide] at this
        simp at this
  refine ⟨g, g', hrun, gamma_move_false hmp, hpa, T.ar, hown, hm, ?_, ?_, ?_⟩
  · rw [S.gu, hgu]
  · have := S.own (4, 4)
    exact this.trans hown
  · unfold gamma_busy_fields
    simp only [EMPTY]
    rw [if_neg (by rw [S.players, T.pl]; decide), S.pf, hpf]

/-! ## The text of the board -/

theorem digitChar_eq : ∀ d, d < 10 → Nat.digitChar d = Char.ofNat (d + 48) := by decide

theorem decimal_loop_eq (fuel : Nat) :
    ∀ (n : Nat) (acc : List Char), decimal_loop fuel n acc = Nat.toDigitsCore 10 fuel n acc := by
  induction fuel with
  | zero => intro n acc; rfl
  | succ fuel ih =>
    intro n acc
    unfold decimal_loop Nat.toDigitsCore
    simp only
    by_cases hn : n < 10
    · have h0 : n / 10 = 0 := Nat.div_eq_of_lt hn
      rw [if_pos hn, if_pos h0, Nat.mod_eq_of_lt hn, digitChar_eq n hn]
    · have h0 : ¬ n / 10 = 0 := by omega
      rw [if_neg hn, if_neg h0, ih, digitChar_eq (n % 10) (Nat.mod_lt _ (by norm_num))]

/-- The text printed for `%u` is the decimal representation of the number. -/
theorem decimal_eq (n : Nat) : decimal n = Nat.toDigits 10 n :=
  decimal_loop_eq (n + 1) n []

theorem toDigitsCore_len (f : Nat) :
    ∀ (n : Nat) (ds : List Char), n < f →
      (Nat.toDigitsCore 10 f n ds).length = ds.length + Nat.log 10 n + 1 := by
  induction f with
  | zero => intro n ds h; omega
  | succ f ih =>
    intro n ds h
    unfold Nat.toDigitsCore
    simp only
    by_cases h0 : n / 10 = 0
    · rw [if_pos h0]
      have hn : n < 10 := by omega
      rw [Nat.log_of_lt hn]
      rfl
    · rw [if_neg h0]
      have hn : 10 ≤ n := by omega
      rw [ih (n / 10) _ (by omega), Nat.log_of_one_lt_of_le (by norm_num) hn]
      simp only [List.length_cons]
      omega

/-- The number of decimal digits of `n`. -/
theorem toDigits_len (n : Nat) : (Nat.toDigits 10 n).length = Nat.log 10 n + 1 := by
  unfold Nat.toDigits
  rw [toDigitsCore_len (n + 1) n [] (by omega)]
  simp

theorem logarithm_loop_eq (f : Nat) :
    ∀ (n c : Nat), 1 ≤ n → n ≤ f → logarithm_loop f n c = c + Nat.log 10 n + 1 := by
  induction f with
  | zero => intro n c h1 h2; omega
  | succ f ih =>
    intro n c h1 h2
    unfold logarithm_loop
    rw [if_pos (by omega)]
    simp only [LOG_BASE]
    by_cases hn : n < 10
    · have h0 : n / 10 = 0 := Nat.div_eq_of_lt hn
      rw [h0, Nat.log_of_lt hn]
      cases f with
      | zero => rfl
      | succ f => unfold logarithm_loop; rw [if_neg (by omega)]
    · have hn' : 10 ≤ n := by omega
      rw [ih (n / 10) (c + 1) (by omega) (by omega), Nat.log_of_one_lt_of_le (by norm_num) hn']
      omega

/-- Source `logarithm` returns the number of decimal digits of a positive number. -/
theorem logarithm_eq {n : Nat} (hn : 1 ≤ n) : logarithm n = (Nat.toDigits 10 n).length := by
  unfold logarithm
  rw [logarithm_loop_eq n n 0 hn (le_refl _), toDigits_len]
  omega

theorem length_flatMap_range (n k : Nat) (cell : Nat → List Char)
    (hlen : ∀ j, j < n → (cell j).length = k) :
    ((List.range n).flatMap cell).length = n * k := by
  induction n with
  | zero => simp
  | succ n ih =>
    rw [List.range_succ, List.flatMap_append, List.length_append,
      ih (fun j hj => hlen j (by omega))]
    simp only [List.flatMap_cons, List.flatMap_nil, List.append_nil]
    rw [hlen n (by omega)]
    ring

/-- The inner loop of the printing functions appends the texts of the cells of
one row. -/
theorem print_inner (w k : Nat) (cell : Nat → List Char)
    (hlen : ∀ j, j < w → (cell j).length = k) (pre : List Char)
    (hb : pre.length + w * k < 2 ^ 64) :
    (List.range w).foldl
        (fun (s : List Char × Nat) j => (write_at s.1 s.2 (cell j), (s.2 + k) % 2 ^ 64))
        (pre, pre.length)
      = (pre ++ (List.range w).flatMap cell, pre.length + w * k) := by
  have key := foldl_range_inv
    (fun (s : List Char × Nat) j => (write_at s.1 s.2 (cell j), (s.2 + k) % 2 ^ 64))
    (fun n s => n ≤ w → s = (pre ++ (List.range n).flatMap cell, pre.length + n * k))
    w (pre, pre.length) (by intro _; simp) (by
      intro n s hn hP _
      have hs := hP (by omega)
      subst hs
      have hl : ((List.range n).flatMap cell).length = n * k :=
        length_flatMap_range n k cell (fun j hj => hlen j (by omega))
      have hle : (n + 1) * k ≤ w * k := Nat.mul_le_mul_right k (by omega)
      show (write_at (pre ++ (List.range n).flatMap cell) (pre.length + n * k) (cell n),
        (pre.length + n * k + k) % 2 ^ 64) = _
      have e1 : write_at (pre ++ (List.range n).flatMap cell) (pre.length + n * k) (cell n)
          = pre ++ (List.range (n + 1)).flatMap cell := by
        unfold write_at
        rw [List.take_of_length_le (by rw [List.length_append, hl]), List.range_succ,
          List.flatMap_append, List.append_assoc]
        simp
      have e2 : (pre.length + n * k + k) % 2 ^ 64 = pre.length + (n + 1) * k := by
        have : pre.length + n * k + k = pre.length + (n + 1) * k := by ring
        rw [this]
        exact Nat.mod_eq_of_lt (by omega)
      rw [e1, e2])
  exact key (le_refl _)

/-- The two loops of the printing functions write the texts of the cells row
by row, each row followed by a newline; `position` ends at the length of the
text. -/
theorem print_loop (h w k : Nat) (cell : Nat → Nat → List Char)
    (hlen : ∀ i j, i < h → j < w → (cell i j).length = k)
    (hb : h * (w * k + 1) < 2 ^ 64) :
    (List.range h).foldl (fun (s : List Char × Nat) i =>
        let s := (List.range w).foldl
          (fun (s : List Char × Nat) j =>
            (write_at s.1 s.2 (cell i j), (s.2 + k) % 2 ^ 64)) s
        (write_at s.1 s.2 ['\n'], (s.2 + 1) % 2 ^ 64)) ([], 0)
      = ((List.range h).flatMap (fun i => (List.range w).flatMap (cell i) ++ ['\n']),
          h * (w * k + 1)) := by
  have key := foldl_range_inv
    (fun (s : List Char × Nat) i =>
        let s := (List.range w).foldl
          (fun (s : List Char × Nat) j =>
            (write_at s.1 s.2 (cell i j), (s.2 + k) % 2 ^ 64)) s
        (write_at s.1 s.2 ['\n'], (s.2 + 1) % 2 ^ 64))
    (fun n s => n ≤ h →
      s = ((List.range n).flatMap (fun i => (List.range w).flatMap (cell i) ++ ['\n']),
        n * (w * k + 1)))
    h ([], 0) (by intro _; simp) (by
      intro n s hn hP _
      have hs := hP (by omega)
      subst hs
      have hl : ((List.range n).flatMap
          (fun i => (List.range w).flatMap (cell i) ++ ['\n'])).length = n * (w * k + 1) := by
        apply length_flatMap_range
        intro i hi
        rw [List.length_append, length_flatMap_range w k (cell i)
          (fun j hj => hlen i j (by omega) hj)]
        rfl
      have hle : (n + 1) * (w * k + 1) ≤ h * (w * k + 1) :=
        Nat.mul_le_mul_right _ (by omega)
      have hexp : (n + 1) * (w * k + 1) = n * (w * k + 1) + w * k + 1 := by ring
      set T := (List.range n).flatMap
        (fun i => (List.range w).flatMap (cell i) ++ ['\n']) with hT
      have hin := print_inner w k (cell n) (fun j hj => hlen n j hn hj) T (by omega)
      rw [hl] at hin
      show (write_at ((List.range w).foldl
          (fun (s : List Char × Nat) j =>
            (write_at s.1 s.2 (cell n j), (s.2 + k) % 2 ^ 64)) (T, n * (w * k + 1))).1
        ((List.range w).foldl
          (fun (s : List Char × Nat) j =>
            (write_at s.1 s.2 (cell n j), (s.2 + k) % 2 ^ 64)) (T, n * (w * k + 1))).2 ['\n'],
        (((List.range w).foldl
          (fun (s : List Char × Nat) j =>
            (write_at s.1 s.2 (cell n j), (s.2 + k) % 2 ^ 64)) (T, n * (w * k + 1))).2 + 1)
          % 2 ^ 64) = _
      rw [hin]
      have hl2 : (T ++ (List.range w).flatMap (cell n)).length = n * (w * k + 1) + w * k := by
        rw [List.length_append, hl, length_flatMap_range w k (cell n)
          (fun j hj => hlen n j hn hj)]
      have e1 : write_at (T ++ (List.range w).flatMap (cell n)) (n * (w * k + 1) + w * k) ['\n']
          = (List.range (n + 1)).flatMap
              (fun i => (List.range w).flatMap (cell i) ++ ['\n']) := by
        unfold write_at
        rw [List.take_of_length_le (by rw [hl2]), List.range_succ, List.flatMap_append,
          ← hT, List.append_assoc]
        simp
      have e2 : (n * (w * k + 1) + w * k + 1) % 2 ^ 64 = (n + 1) * (w * k + 1) := by
        rw [← hexp]
        exact Nat.mod_eq_of_lt (by omega)
      rw [e1, e2])
  exact key (le_refl _)

theorem flatMap_range_congr (n : Nat) (f f' : Nat → List Char)
    (h : ∀ i, i < n → f i = f' i) : (List.range n).flatMap f = (List.range n).flatMap f' := by
  induction n with
  | zero => rfl
  | succ n ih =>
    rw [List.range_succ, List.flatMap_append, List.flatMap_append,
      ih (fun i hi => h i (by omega))]
    simp only [List.flatMap_cons, List.flatMap_nil, List.append_nil]
    rw [h n (by omega)]

theorem logarithm_little {p : Nat} (hp : p ≤ 9) : ¬ logarithm p > 1 := by
  by_cases h0 : p = 0
  · subst h0
    decide
  · rw [logarithm_eq (by omega), toDigits_len, Nat.log_of_lt (by omega)]
    omega

theorem logarithm_many {p : Nat} (hp : 9 < p) : logarithm p > 1 := by
  rw [logarithm_eq (by omega), toDigits_len]
  have : 1 ≤ Nat.log 10 p := by
    rw [Nat.log_of_one_lt_of_le (by norm_num) (by omega)]
    omega
  omega

theorem digits_le_ten {p : Nat} (hp : p < 4294967296) : (Nat.toDigits 10 p).length ≤ 10 := by
  rw [toDigits_len]
  by_cases h0 : p = 0
  · subst h0
    simp
  · have := Nat.log_lt_of_lt_pow (b := 10) (x := 10) h0 (by omega)
    omega

theorem digits_mono {a b : Nat} (h : a ≤ b) :
    (Nat.toDigits 10 a).length ≤ (Nat.toDigits 10 b).length := by
  rw [toDigits_len, toDigits_len]
  have := Nat.log_mono_right (b := 10) h
  omega

theorem format_width_eq {d : Nat} (h : d ≤ 10) : format_width d = d + 1 := by
  unfold format_width
  split
  · rfl
  · split
    · omega
    · omega

/-- The text of a cell printed by `print_many_players`. -/
theorem many_cell_eq {d owner : Nat} (hd : d ≤ 10)
    (ho : (Nat.toDigits 10 owner).length ≤ d) :
    (if owner = EMPTY then right_justify (format_width d) ['.']
      else right_justify (format_width d) (decimal owner)) = many_cell d owner ∧
    (many_cell d owner).length = d + 1 := by
  unfold many_cell right_justify
  rw [format_width_eq hd, decimal_eq]
  simp only [EMPTY]
  by_cases h0 : owner = 0
  · rw [if_pos h0, if_pos h0]
    simp
  · rw [if_neg h0, if_neg h0]
    refine ⟨rfl, ?_⟩
    rw [List.length_append, List.length_replicate]
    omega

/-- The text of a cell printed by `print_little_players`. -/
theorem little_cell_eq {owner : Nat} (ho : owner ≤ 9) :
    [if owner ≠ EMPTY then Char.ofNat ((owner + 48) % 256) else '.'] = little_cell owner ∧
    (little_cell owner).length = 1 := by
  unfold little_cell
  simp only [EMPTY]
  by_cases h0 : owner = 0
  · rw [if_pos h0, if_neg (by simpa using h0)]
    exact ⟨rfl, rfl⟩
  · rw [if_neg h0, if_pos h0, digitChar_eq owner (by omega), Nat.mod_eq_of_lt (by omega)]
    exact ⟨rfl, rfl⟩

/-- The text returned by `gamma_board` for at most nine players. -/
theorem board_text_little {g : gamma_t} (hh : g.height < 4294967296)
    (hw : g.width < 4294967296)
    (hown : ∀ i j, i < g.height → j < g.width → (g.fields i j).owner ≤ 9)
    (hp : g.players ≤ 9) (hm : g.no_memory = false) :
    (gamma_board (some g)).1 = some (board_text g little_cell) ∧
    (board_text g little_cell).length = g.height * (g.width + 1) ∧
    (print_little_players { g with no_memory := false } ([], 0)).2
      = g.height * (g.width + 1) := by
  have hb : g.height * (g.width * 1 + 1) < 2 ^ 64 := by
    have h1 : g.width * 1 + 1 ≤ 4294967296 := by omega
    calc g.height * (g.width * 1 + 1) ≤ 4294967295 * 4294967296 :=
          Nat.mul_le_mul (by omega) h1
      _ < 2 ^ 64 := by norm_num
  have hin : ∀ i j, i < g.height → j < g.width →
      (g.fields (g.height - 1 - i) j).owner ≤ 9 :=
    fun i j hi hj => hown _ j (by omega) hj
  have key := print_loop g.height g.width 1
    (fun i j => [if (g.fields (g.height - 1 - i) j).owner ≠ EMPTY then
      Char.ofNat (((g.fields (g.height - 1 - i) j).owner + 48) % 256) else '.'])
    (fun _ _ _ _ => rfl) hb
  have hcongr : (List.range g.height).flatMap (fun i => (List.range g.width).flatMap
      (fun j => [if (g.fields (g.height - 1 - i) j).owner ≠ EMPTY then
        Char.ofNat (((g.fields (g.height - 1 - i) j).owner + 48) % 256) else '.']) ++ ['\n'])
      = board_text g little_cell := by
    unfold board_text
    apply flatMap_range_congr
    intro i hi
    rw [flatMap_range_congr g.width _ (fun j => little_cell (g.fields (g.height - 1 - i) j).owner)
      (fun j hj => (little_cell_eq (hin i j hi hj)).1)]
  have hlen : (board_text g little_cell).length = g.height * (g.width + 1) := by
    unfold board_text
    rw [length_flatMap_range g.height (g.width + 1)]
    intro i hi
    rw [List.length_append, length_flatMap_range g.width 1 _
      (fun j hj => (little_cell_eq (hin i j hi hj)).2)]
    simp
  have hprint : print_little_players { g with no_memory := false } ([], 0)
      = (board_text g little_cell, g.height * (g.width + 1)) := by
    have e : print_little_players { g with no_memory := false } ([], 0)
        = (fun s : List Char × Nat => (s.1.take s.2, s.2))
          ((List.range g.height).foldl (fun (s : List Char × Nat) i =>
            let s := (List.range g.width).foldl
              (fun (s : List Char × Nat) j =>
                (write_at s.1 s.2 [if (g.fields (g.height - 1 - i) j).owner ≠ EMPTY then
                  Char.ofNat (((g.fields (g.height - 1 - i) j).owner + 48) % 256) else '.'],
                  (s.2 + 1) % 2 ^ 64)) s
            (write_at s.1 s.2 ['\n'], (s.2 + 1) % 2 ^ 64)) ([], 0)) := rfl
    rw [e, key, hcongr]
    simp only [Nat.mul_one]
    rw [← hlen, List.take_length]
  refine ⟨?_, hlen, by rw [hprint]⟩
  unfold gamma_board
  simp only [hm, Bool.false_eq_true, if_false]
  rw [if_neg (logarithm_little hp), hprint]

/-- The text returned by `gamma_board` for more than nine players, when the
position in the buffer stays below `2 ^ 64`. -/
theorem board_text_many {g : gamma_t}
    (hown : ∀ i j, i < g.height → j < g.width → (g.fields i j).owner ≤ g.players)
    (hp : 9 < g.players) (hp2 : g.players < 4294967296) (hm : g.no_memory = false)
    (hb : g.height * (g.width * ((Nat.toDigits 10 g.players).length + 1) + 1) < 2 ^ 64) :
    (gamma_board (some g)).1
      = some (board_text g (many_cell (Nat.toDigits 10 g.players).length)) ∧
    (board_text g (many_cell (Nat.toDigits 10 g.players).length)).length
      = g.height * (g.width * ((Nat.toDigits 10 g.players).length + 1) + 1) := by
  set d := (Nat.toDigits 10 g.players).length with hd
  have hsize : logarithm g.players = d := logarithm_eq (by omega)
  have hd10 : d ≤ 10 := digits_le_ten hp2
  have hin : ∀ i j, i < g.height → j < g.width →
      (Nat.toDigits 10 (g.fields (g.height - 1 - i) j).owner).length ≤ d :=
    fun i j hi hj => digits_mono (hown _ j (by omega) hj)
  have key := print_loop g.height g.width (d + 1)
    (fun i j => if (g.fields (g.height - 1 - i) j).owner = EMPTY then
        right_justify (format_width d) ['.']
      else right_justify (format_width d) (decimal (g.fields (g.height - 1 - i) j).owner))
    (fun i j hi hj => by
      show (if (g.fields (g.height - 1 - i) j).owner = EMPTY then
        right_justify (format_width d) ['.']
        else right_justify (format_width d)
          (decimal (g.fields (g.height - 1 - i) j).owner)).length = d + 1
      rw [(many_cell_eq hd10 (hin i j hi hj)).1]
      exact (many_cell_eq hd10 (hin i j hi hj)).2) hb
  have hcongr : (List.range g.height).flatMap (fun i => (List.range g.width).flatMap
      (fun j => if (g.fields (g.height - 1 - i) j).owner = EMPTY then
          right_justify (format_width d) ['.']
        else right_justify (format_width d)
          (decimal (g.fields (g.height - 1 - i) j).owner)) ++ ['\n'])
      = board_text g (many_cell d) := by
    unfold board_text
    apply flatMap_range_congr
    intro i hi
    rw [flatMap_range_congr g.width _
      (fun j => many_cell d (g.fields (g.height - 1 - i) j).owner)
      (fun j hj => (many_cell_eq hd10 (hin i j hi hj)).1)]
  have hlen : (board_text g (many_cell d)).length = g.height * (g.width * (d + 1) + 1) := by
    unfold board_text
    rw [length_flatMap_range g.height (g.width * (d + 1) + 1)]
    intro i hi
    rw [List.length_append, length_flatMap_range g.width (d + 1) _
      (fun j hj => (many_cell_eq hd10 (hin i j hi hj)).2)]
    simp
  have hprint : print_many_players { g with no_memory := false } d ([], 0)
      = (board_text g (many_cell d), g.height * (g.width * (d + 1) + 1)) := by
    have e : print_many_players { g with no_memory := false } d ([], 0)
        = (fun s : List Char × Nat => (s.1.take s.2, s.2))
          ((List.range g.height).foldl (fun (s : List Char × Nat) i =>
            let s := (List.range g.width).foldl
              (fun (s : List Char × Nat) j =>
                (write_at s.1 s.2 (if (g.fields (g.height - 1 - i) j).owner = EMPTY then
                    right_justify (format_width d) ['.']
                  else right_justify (format_width d)
                    (decimal (g.fields (g.height - 1 - i) j).owner)),
                  (s.2 + (d + 1)) % 2 ^ 64)) s
            (write_at s.1 s.2 ['\n'], (s.2 + 1) % 2 ^ 64)) ([], 0)) := rfl
    rw [e, key, hcongr]
    simp only
    rw [← hlen, List.take_length]
  refine ⟨?_, hlen⟩
  unfold gamma_board
  simp only [hm, Bool.false_eq_true, if_false]
  rw [if_pos (logarithm_many hp), hsize, hprint]

theorem gamma_new_memory {width height players areas : Nat} {g : gamma_t}
    (hg : gamma_new width height players areas = some g) : g.no_memory = false := by
  unfold gamma_new at hg
  split at hg
  · exact absurd hg (by simp)
  · split at hg
    · exact absurd hg (by simp)
    · simp only [Option.some.injEq] at hg
      subst hg
      rfl

/-- For at most nine players, when twice the number of cells is below `2 ^ 32`
the text of the board with its final `NUL` fits the buffer that `gamma_board`
requests. -/
theorem board_fits_little {g : gamma_t} (hh : g.height < 4294967296) (hp1 : 1 ≤ g.players)
    (hp : g.players ≤ 9) (hsmall : 2 * (g.width * g.height) < 4294967296) :
    g.height * (g.width + 1) + 1 ≤ gamma_board_ptr_size g := by
  unfold gamma_board_ptr_size
  have hsize : logarithm g.players = 1 := by
    rw [logarithm_eq hp1, toDigits_len, Nat.log_of_lt (by omega)]
  rw [hsize]
  have e1 : g.width * g.height % 4294967296 = g.width * g.height :=
    Nat.mod_eq_of_lt (by omega)
  have e2 : g.width * g.height * (1 + 1) % 4294967296 = g.width * g.height * (1 + 1) :=
    Nat.mod_eq_of_lt (by omega)
  rw [e1, e2]
  have e3 : (g.width * g.height * (1 + 1) * 1 + 1 + g.height) % 2 ^ 64
      = g.width * g.height * (1 + 1) * 1 + 1 + g.height := Nat.mod_eq_of_lt (by omega)
  rw [e3]
  have : g.height * (g.width + 1) = g.width * g.height + g.height := by ring
  omega

/-- For more than nine players, when the number of cells times the width of a
cell is below `2 ^ 32` the text of the board with its final `NUL` fills the
buffer that `gamma_board` requests. -/
theorem board_fits_many {g : gamma_t} (hh : g.height < 4294967296) (hp : 9 < g.players)
    (hsmall : g.width * g.height * ((Nat.toDigits 10 g.players).length + 1) < 4294967296) :
    g.height * (g.width * ((Nat.toDigits 10 g.players).length + 1) + 1) + 1
      = gamma_board_ptr_size g := by
  unfold gamma_board_ptr_size
  rw [logarithm_eq (by omega)]
  set d := (Nat.toDigits 10 g.players).length with hd
  have hle : g.width * g.height ≤ g.width * g.height * (d + 1) :=
    Nat.le_mul_of_pos_right _ (by omega)
  have e1 : g.width * g.height % 4294967296 = g.width * g.height :=
    Nat.mod_eq_of_lt (by omega)
  have e2 : g.width * g.height * (d + 1) % 4294967296 = g.width * g.height * (d + 1) :=
    Nat.mod_eq_of_lt hsmall
  rw [e1, e2]
  have e3 : (g.width * g.height * (d + 1) * 1 + 1 + g.height) % 2 ^ 64
      = g.width * g.height * (d + 1) * 1 + 1 + g.height := Nat.mod_eq_of_lt (by omega)
  rw [e3]
  ring

/-- The board made by `gamma_new` has empty cells only. -/
theorem gamma_new_empty {width height players areas : Nat} {g : gamma_t}
    (hg : gamma_new width height players areas = some g) (i j : Nat) :
    (g.fields i j).owner = 0 := by
  obtain ⟨_, _, _, _, a5, _⟩ := gamma_new_some hg
  rw [a5]
  exact ownF_init_fields height width (i, j)

/-- C24 fails on the board `gamma_new(65536, 32768, 9, 1)`: the text that
`gamma_board` writes has `32768 * 65537 = 2147516416` characters, as the claim
says, and the buffer that `gamma_board` requests for it has `32769` bytes,
the product `width * height * 2` being taken in 32-bit arithmetic. -/
theorem C24_board_exceeds_buffer :
    ∃ g text, gamma_new 65536 32768 9 1 = some g ∧
      (gamma_board (some g)).1 = some text ∧ text = board_text g little_cell ∧
      text.length = 2147516416 ∧ gamma_board_ptr_size g = 32769 := by
  have hex : ∃ g, gamma_new 65536 32768 9 1 = some g := by
    simp [gamma_new, UINT32_MAX]
  obtain ⟨g, hg⟩ := hex
  obtain ⟨a1, a2, a3, _⟩ := gamma_new_some hg
  obtain ⟨h1, h2, _⟩ := board_text_little (g := g) (by rw [a1]; norm_num) (by rw [a2]; norm_num)
    (fun i j _ _ => by rw [gamma_new_empty hg]; omega) (by rw [a3]) (gamma_new_memory hg)
  refine ⟨g, _, hg, h1, rfl, ?_, ?_⟩
  · rw [h2, a1, a2]
  · unfold gamma_board_ptr_size
    rw [a1, a2, a3, show logarithm 9 = 1 by decide]
    norm_num

/-- C25 fails on the board `gamma_new(65536, 32768, 10, 1)`: the number of
players has two decimal digits, the text that `gamma_board` writes has
`32768 * (65536 * 3 + 1) = 6442483712` characters, as the claim says, and the
buffer that `gamma_board` requests for it has `2147516417` bytes, the product
`width * height * 3` being taken in 32-bit arithmetic. -/
theorem C25_board_exceeds_buffer :
    ∃ g text, gamma_new 65536 32768 10 1 = some g ∧
      (gamma_board (some g)).1 = some text ∧ text = board_text g (many_cell 2) ∧
      text.length = 6442483712 ∧ gamma_board_ptr_size g = 2147516417 := by
  have hex : ∃ g, gamma_new 65536 32768 10 1 = some g := by
    simp [gamma_new, UINT32_MAX]
  obtain ⟨g, hg⟩ := hex
  obtain ⟨a1, a2, a3, _⟩ := gamma_new_some hg
  have hd : (Nat.toDigits 10 g.players).length = 2 := by
    rw [a3]
    decide
  obtain ⟨h1, h2⟩ := board_text_many (g := g)
    (fun i j _ _ => by rw [gamma_new_empty hg]; omega) (by rw [a3]; norm_num)
    (by rw [a3]; norm_num) (gamma_new_memory hg) (by rw [hd, a1, a2]; norm_num)
  rw [hd] at h1 h2
  refine ⟨g, _, hg, h1, rfl, ?_, ?_⟩
  · rw [h2, a1, a2]
  · unfold gamma_board_ptr_size
    rw [a1, a2, a3, show logarithm 10 = 2 by decide]
    norm_num

/-! ## Union by rank: the rank of a root bounds the height and the size of its tree -/

theorem RankInv.acyc {h w : Nat} {F : Nat → Nat → field_t} (R : RankInv h w F)
    {p : Nat × Nat} (hp : InGrid h w p) : ∃ r, RootOf F p r := by
  obtain ⟨r, n, h1, h2, _⟩ := R.depth p hp
  exact ⟨r, n, h1, h2⟩

theorem mem_treeSet {h w : Nat} {F : Nat → Nat → field_t}
    (hclosed : ∀ p, InGrid h w p → InGrid h w (repF F p)) {r p : Nat × Nat} :
    p ∈ treeSet h w F r ↔ InGrid h w p ∧ RootOf F p r := by
  unfold treeSet
  rw [Finset.mem_filter, mem_gridSet]
  constructor
  · rintro ⟨h1, h2⟩
    exact ⟨h1, find_root_sound _ _ _ h2⟩
  · rintro ⟨h1, h2⟩
    exact ⟨h1, find_root_eq hclosed h1 h2⟩

theorem treeSet_card_le (h w : Nat) (F : Nat → Nat → field_t) (r : Nat × Nat) :
    (treeSet h w F r).card ≤ h * w := by
  unfold treeSet
  calc ((gridSet h w).filter _).card ≤ (gridSet h w).card := Finset.card_filter_le _ _
    _ = h * w := card_gridSet h w

/-- The rank of a root is below the number of bits of the cell count. -/
theorem RankInv.rank_lt {h w : Nat} {F : Nat → Nat → field_t} (R : RankInv h w F)
    (hsz : h * w < 2 ^ 64) {r : Nat × Nat} (hr : InGrid h w r) (hroot : repF F r = r) :
    rankF F r < 64 := by
  have h1 := R.size r hr hroot
  have h2 := treeSet_card_le h w F r
  have h3 : 2 ^ rankF F r < 2 ^ 64 := by omega
  exact (Nat.pow_lt_pow_iff_right (by norm_num)).1 h3

/-- The chain of a cell whose root is not the attached root is not changed by the link. -/
theorem iterate_link_other {F F' : Nat → Nat → field_t} {rc rp : Nat × Nat}
    (hrc : repF F rc = rc)
    (hrep : ∀ p, repF F' p = if p = rc then rp else repF F p) {r : Nat × Nat} (hne : r ≠ rc) :
    ∀ (n : Nat) (c : Nat × Nat), (repF F)^[n] c = r → (repF F')^[n] c = r := by
  intro n
  induction n with
  | zero => intro c hc; exact hc
  | succ n ih =>
    intro c hc
    rw [Function.iterate_succ_apply] at hc ⊢
    have hcr : c ≠ rc := by
      rintro rfl
      rw [hrc, Function.iterate_fixed hrc] at hc
      exact hne hc.symm
    rw [hrep, if_neg hcr]
    exact ih _ hc

/-- The chain of a cell whose root is the attached root is one step longer after the link. -/
theorem iterate_link_child {F F' : Nat → Nat → field_t} {rc rp : Nat × Nat}
    (hrp : repF F rp = rp) (hne : rc ≠ rp)
    (hrep : ∀ p, repF F' p = if p = rc then rp else repF F p) :
    ∀ (n : Nat) (c : Nat × Nat), (repF F)^[n] c = rc → (repF F')^[n + 1] c = rp := by
  have hrp' : repF F' rp = rp := by rw [hrep, if_neg (Ne.symm hne), hrp]
  intro n
  induction n with
  | zero =>
    intro c hc
    simp only [Function.iterate_zero, id_eq] at hc
    subst hc
    simp [hrep]
  | succ n ih =>
    intro c hc
    rw [Function.iterate_succ_apply] at hc ⊢
    by_cases hcr : c = rc
    · subst hcr
      rw [hrep, if_pos rfl, Function.iterate_fixed hrp']
    · rw [hrep, if_neg hcr]
      exact ih _ hc

/-- The roots of the forest after the root `rc` has been attached under `rp`. -/
theorem rootOf_link_iff {h w : Nat} {F F' : Nat → Nat → field_t} {rc rp : Nat × Nat}
    (hac : ∀ p, InGrid h w p → ∃ r, RootOf F p r)
    (hrc : repF F rc = rc) (hrp : repF F rp = rp) (hne : rc ≠ rp)
    (hrep : ∀ p, repF F' p = if p = rc then rp else repF F p)
    {p r' : Nat × Nat} (hp : InGrid h w p) :
    RootOf F' p r' ↔ ∃ r, RootOf F p r ∧ r' = if r = rc then rp else r := by
  constructor
  · intro hr'
    obtain ⟨r, hr⟩ := hac p hp
    exact ⟨r, hr, hr'.unique (link_rootOf' hrc hrp hne hrep hr)⟩
  · rintro ⟨r, hr, rfl⟩
    exact link_rootOf' hrc hrp hne hrep hr

/-- Attaching a root `rc` under a root `rp` of rank not smaller, with the rank
of `rp` raised by one on a tie, keeps the forest balanced by rank. -/
theorem RankInv.attach {h w : Nat} {F F' : Nat → Nat → field_t} (R : RankInv h w F)
    {rc rp : Nat × Nat} (hrcg : InGrid h w rc) (hrpg : InGrid h w rp)
    (hrc : repF F rc = rc) (hrp : repF F rp = rp) (hne : rc ≠ rp)
    (hle : rankF F rc ≤ rankF F rp)
    (hrep : ∀ p, repF F' p = if p = rc then rp else repF F p)
    (hrank : ∀ p, rankF F' p =
      if p = rp ∧ rankF F rc = rankF F rp then rankF F rp + 1 else rankF F p) :
    RankInv h w F' := by
  have hrp' : repF F' rp = rp := by rw [hrep, if_neg (Ne.symm hne), hrp]
  have hcl' : ∀ p, InGrid h w p → InGrid h w (repF F' p) := by
    intro p hp
    rw [hrep]
    split
    · exact hrpg
    · exact R.closed p hp
  have hmono : ∀ p, rankF F p ≤ rankF F' p := by
    intro p
    rw [hrank]
    split <;> rename_i hc
    · rw [hc.1]; omega
    · exact le_refl _
  refine ⟨hcl', ?_, ?_⟩
  · intro p hp
    obtain ⟨r, n, h1, h2, h3⟩ := R.depth p hp
    by_cases hr : r = rc
    · subst hr
      refine ⟨rp, n + 1, iterate_link_child hrp hne hrep n p h1, hrp', ?_⟩
      rw [hrank]
      split <;> rename_i hc
      · omega
      · have : rankF F r ≠ rankF F rp := fun e => hc ⟨rfl, e⟩
        omega
    · refine ⟨r, n, iterate_link_other hrc hrep hr n p h1, ?_, le_trans h3 (hmono r)⟩
      rw [hrep, if_neg hr, h2]
  · intro r' hr'g hr'
    have hr'c : r' ≠ rc := by
      rintro rfl
      rw [hrep, if_pos rfl] at hr'
      exact hne hr'.symm
    have hr'F : repF F r' = r' := by
      rw [hrep, if_neg hr'c] at hr'
      exact hr'
    have hmem : ∀ p, p ∈ treeSet h w F' r' ↔
        p ∈ treeSet h w F r' ∨ (r' = rp ∧ p ∈ treeSet h w F rc) := by
      intro p
      rw [mem_treeSet hcl', mem_treeSet R.closed, mem_treeSet R.closed]
      constructor
      · rintro ⟨hp, hpr⟩
        obtain ⟨r, hr, e⟩ := (rootOf_link_iff (fun q hq => R.acyc hq) hrc hrp hne hrep hp).1 hpr
        by_cases hrr : r = rc
        · rw [if_pos hrr] at e
          subst hrr
          exact Or.inr ⟨e, hp, hr⟩
        · rw [if_neg hrr] at e
          subst e
          exact Or.inl ⟨hp, hr⟩
      · rintro (⟨hp, hpr⟩ | ⟨e, hp, hpr⟩)
        · refine ⟨hp, (rootOf_link_iff (fun q hq => R.acyc hq) hrc hrp hne hrep hp).2
            ⟨r', hpr, ?_⟩⟩
          rw [if_neg hr'c]
        · refine ⟨hp, (rootOf_link_iff (fun q hq => R.acyc hq) hrc hrp hne hrep hp).2
            ⟨rc, hpr, ?_⟩⟩
          rw [if_pos rfl, e]
    by_cases hr'p : r' = rp
    · subst hr'p
      have hset : treeSet h w F' r' = treeSet h w F r' ∪ treeSet h w F rc := by
        ext p
        rw [hmem, Finset.mem_union]
        simp
      have hdis : Disjoint (treeSet h w F r') (treeSet h w F rc) := by
        rw [Finset.disjoint_left]
        intro p h1 h2
        rw [mem_treeSet R.closed] at h1 h2
        exact hne (h2.2.unique h1.2)
      rw [hset, Finset.card_union_of_disjoint hdis]
      have s1 := R.size r' hr'g hr'F
      have s2 := R.size rc hrcg hrc
      rw [hrank]
      split <;> rename_i hc
      · rw [hc.2] at s2
        rw [pow_succ]
        omega
      · omega
    · have hset : treeSet h w F' r' = treeSet h w F r' := by
        ext p
        rw [hmem]
        simp [hr'p]
      rw [hset, hrank, if_neg (fun hc => hr'p hc.1)]
      exact R.size r' hr'g hr'F

/-! ## `unite` on a forest balanced by rank -/

theorem rankF_set_cell (F : Nat → Nat → field_t) (i j : Nat) (v : field_t) (p : Nat × Nat) :
    rankF (set_cell F i j v) p = if p = (i, j) then v.rank else rankF F p := by
  unfold rankF set_cell
  by_cases hp : p = (i, j)
  · subst hp; simp
  · have : ¬ (p.1 = i ∧ p.2 = j) := fun hh => hp (Prod.ext hh.1 hh.2)
    simp [hp, this]

theorem set_cell_keep (F : Nat → Nat → field_t) (r : Nat × Nat) (v : field_t)
    (hv : v.owner = (F r.1 r.2).owner ∧ v.x = (F r.1 r.2).x ∧ v.y = (F r.1 r.2).y)
    (i j : Nat) :
    (set_cell F r.1 r.2 v i j).owner = (F i j).owner ∧
      (set_cell F r.1 r.2 v i j).x = (F i j).x ∧ (set_cell F r.1 r.2 v i j).y = (F i j).y := by
  rw [set_cell_apply]
  by_cases hij : i = r.1 ∧ j = r.2
  · obtain ⟨rfl, rfl⟩ := hij
    rw [if_pos ⟨rfl, rfl⟩]
    exact hv
  · rw [if_neg hij]
    exact ⟨rfl, rfl, rfl⟩

/-- A forest balanced by rank stays balanced when `unite` links two of its roots. -/
theorem UniteShape.rankInv {h w : Nat} {F F' : Nat → Nat → field_t} {ra rb : Nat × Nat}
    (S : UniteShape F ra rb F') (R : RankInv h w F)
    (hrag : InGrid h w ra) (hrbg : InGrid h w rb)
    (hra : repF F ra = ra) (hrb : repF F rb = rb) : RankInv h w F' := by
  by_cases hne : ra = rb
  · rw [S.same hne]
    exact R
  · by_cases hlt : rankF F ra < rankF F rb
    · refine R.attach hrag hrbg hra hrb hne (by omega) ?_ ?_
      · intro p
        rw [S.rep hne, if_pos hlt]
      · intro p
        rw [S.rank hne, if_neg (fun hc => by omega), if_neg (fun hc => by omega)]
    · refine R.attach hrbg hrag hrb hra (Ne.symm hne) (by omega) ?_ ?_
      · intro p
        rw [S.rep hne, if_neg hlt]
      · intro p
        rw [S.rank hne]
        by_cases hc : p = ra ∧ rankF F ra = rankF F rb
        · rw [if_pos hc, if_pos ⟨hc.1, hc.2.symm⟩]
        · rw [if_neg hc, if_neg (fun hc' => hc ⟨hc'.1, hc'.2.symm⟩)]

/-- Source `unite` on the copies of two cells `a`, `b` of a board whose forest
is balanced by rank: both searches return the roots of the cells of the
board, the call returns, it writes what `UniteShape` says, and the forest
stays balanced by rank. -/
theorem unite_rank {h w : Nat} {F : Nat → Nat → field_t} (R : RankInv h w F)
    (hsz : h * w < 2 ^ 64) {a b : Nat × Nat} (ha : InGrid h w a) (hb : InGrid h w b) :
    ∃ F' ra rb, find_root F (h * w) a = some ra ∧ find_root F (h * w) b = some rb ∧
      InGrid h w ra ∧ InGrid h w rb ∧
      unite (h * w) F (F a.1 a.2) (F b.1 b.2) = some F' ∧
      UniteShape F ra rb F' ∧ RankInv h w F' := by
  obtain ⟨ra, hra⟩ := R.acyc ha
  obtain ⟨rb, hrb⟩ := R.acyc hb
  have hrag := hra.inGrid R.closed ha
  have hrbg := hrb.inGrid R.closed hb
  have fa : find_root F (h * w) (F a.1 a.2).rep = some ra :=
    find_root_eq R.closed (R.closed a ha) hra.rep
  have fb : find_root F (h * w) (F b.1 b.2).rep = some rb :=
    find_root_eq R.closed (R.closed b hb) hrb.rep
  have key : ∃ F', unite (h * w) F (F a.1 a.2) (F b.1 b.2) = some F' ∧
      UniteShape F ra rb F' := by
    unfold unite
    rw [fa, fb]
    simp only
    by_cases hne : ra = rb
    · rw [if_pos hne]
      exact ⟨F, rfl, fun _ => rfl, fun _ _ => ⟨rfl, rfl, rfl⟩, fun h => absurd hne h,
        fun h => absurd hne h⟩
    · rw [if_neg hne]
      have hne' : ¬ rb = ra := fun e => hne e.symm
      by_cases hgt : (F ra.1 ra.2).rank > (F rb.1 rb.2).rank
      · rw [if_pos hgt]
        refine ⟨_, rfl, fun h => absurd h hne, ?_, fun _ p => ?_, fun _ p => ?_⟩
        · exact set_cell_keep F rb _ ⟨rfl, rfl, rfl⟩
        · have : ¬ rankF F ra < rankF F rb := by unfold rankF; omega
          rw [if_neg this, repF_set_cell]
        · have : ¬ (p = ra ∧ rankF F ra = rankF F rb) := by unfold rankF; omega
          rw [if_neg this, rankF_set_cell]
          split
          · rename_i hp
            rw [hp]
            rfl
          · rfl
      · rw [if_neg hgt]
        by_cases hlt : (F ra.1 ra.2).rank < (F rb.1 rb.2).rank
        · rw [if_pos hlt]
          refine ⟨_, rfl, fun h => absurd h hne, ?_, fun _ p => ?_, fun _ p => ?_⟩
          · exact set_cell_keep F ra _ ⟨rfl, rfl, rfl⟩
          · have : rankF F ra < rankF F rb := hlt
            rw [if_pos this, repF_set_cell]
          · have : ¬ (p = ra ∧ rankF F ra = rankF F rb) := by unfold rankF; omega
            rw [if_neg this, rankF_set_cell]
            split
            · rename_i hp
              rw [hp]
              rfl
            · rfl
        · rw [if_neg hlt]
          have heq : rankF F ra = rankF F rb := by unfold rankF; omega
          have h64 := R.rank_lt hsz hrag hra.root
          have hcell : set_cell F rb.1 rb.2 { F rb.1 rb.2 with rep := ra } ra.1 ra.2 =
              F ra.1 ra.2 := by
            rw [set_cell_apply, if_neg]
            rintro ⟨e1, e2⟩
            exact hne (Prod.ext e1 e2)
          refine ⟨_, rfl, fun h => absurd h hne, ?_, fun _ p => ?_, fun _ p => ?_⟩
          · intro i j
            have k1 := set_cell_keep F rb { F rb.1 rb.2 with rep := ra } ⟨rfl, rfl, rfl⟩
            have k2 := set_cell_keep (set_cell F rb.1 rb.2 { F rb.1 rb.2 with rep := ra }) ra
              { set_cell F rb.1 rb.2 { F rb.1 rb.2 with rep := ra } ra.1 ra.2 with
                rank := ((set_cell F rb.1 rb.2 { F rb.1 rb.2 with rep := ra } ra.1 ra.2).rank
                  + 1) % 2 ^ 64 } ⟨rfl, rfl, rfl⟩ i j
            exact ⟨k2.1.trans (k1 i j).1, k2.2.1.trans (k1 i j).2.1,
              k2.2.2.trans (k1 i j).2.2⟩
          · have : ¬ rankF F ra < rankF F rb := by omega
            rw [if_neg this, repF_set_cell, repF_set_cell]
            by_cases hp : p = ra
            · subst hp
              rw [if_pos (by simp), if_neg hne]
              rw [hcell]
              rfl
            · rw [if_neg (by simpa using hp)]
          · rw [rankF_set_cell, rankF_set_cell]
            by_cases hp : p = ra
            · subst hp
              rw [if_pos (by simp), if_pos ⟨rfl, heq⟩, hcell]
              show ((F p.1 p.2).rank + 1) % 2 ^ 64 = rankF F p + 1
              have : (F p.1 p.2).rank < 64 := h64
              unfold rankF
              omega
            · have hn : ¬ (p = ra ∧ rankF F ra = rankF F rb) := fun hc => hp hc.1
              rw [if_neg hn, if_neg (by simpa using hp)]
              by_cases hp' : p = rb
              · rw [if_pos (by simpa using hp'), hp']
                rfl
              · rw [if_neg (by simpa using hp')]
  obtain ⟨F', hu, S⟩ := key
  exact ⟨F', ra, rb, find_root_eq R.closed ha hra, find_root_eq R.closed hb hrb, hrag, hrbg,
    hu, S, S.rankInv R hrag hrbg hra.root hrb.root⟩

/-! ## The moves keep the forest balanced by rank -/

theorem find_root_congr {F F' : Nat → Nat → field_t} (hrep : ∀ p, repF F' p = repF F p) :
    ∀ (fuel : Nat) (c : Nat × Nat), find_root F' fuel c = find_root F fuel c := by
  intro fuel
  induction fuel with
  | zero => intro c; rfl
  | succ fuel ih =>
    intro c
    have h1 : (F' c.1 c.2).rep = (F c.1 c.2).rep := hrep c
    simp only [find_root, h1, ih]

/-- The balance depends on the representatives and ranks only. -/
theorem RankInv.of_same_links {h w : Nat} {F F' : Nat → Nat → field_t} (R : RankInv h w F)
    (hrep : ∀ p, repF F' p = repF F p) (hrank : ∀ p, rankF F' p = rankF F p) :
    RankInv h w F' := by
  have e : repF F' = repF F := funext hrep
  have et : ∀ r, treeSet h w F' r = treeSet h w F r := by
    intro r
    unfold treeSet
    congr 1
    funext p
    rw [find_root_congr hrep]
  refine ⟨?_, ?_, ?_⟩
  · intro p hp
    rw [e]
    exact R.closed p hp
  · intro p hp
    obtain ⟨r, n, h1, h2, h3⟩ := R.depth p hp
    refine ⟨r, n, ?_, ?_, ?_⟩
    · rw [e]; exact h1
    · rw [e]; exact h2
    · rw [hrank]; exact h3
  · intro r hr hroot
    rw [et, hrank]
    rw [e] at hroot
    exact R.size r hr hroot

theorem rankF_set_field (F : Nat → Nat → field_t) (x y pl : Nat) (p : Nat × Nat) :
    rankF (set_cell F y x (set_field (F y x) x y pl)) p = rankF F p := by
  rw [rankF_set_cell]
  by_cases hp : p = (y, x)
  · subst hp; simp [set_field, rankF]
  · simp [hp]

theorem RankG.set_field {H W : Nat} {g : gamma_t} (R : RankG H W g) (x y pl : Nat) :
    RankG H W { g with fields := set_cell g.fields y x (set_field (g.fields y x) x y pl) } :=
  ⟨R.1, R.2.1, R.2.2.of_same_links (repF_set_field g.fields x y pl) (rankF_set_field g.fields x y pl)⟩

/-- A loop keeps what each of its iterations that return keeps. -/
theorem foldlM_keeps {σ α : Type} (f : σ → α → Option σ) (P : σ → Prop) :
    ∀ (l : List α), (∀ s a s', a ∈ l → P s → f s a = some s' → P s') →
      ∀ s s', P s → l.foldlM f s = some s' → P s' := by
  intro l
  induction l with
  | nil =>
    intro _ s s' hs h
    simp only [List.foldlM_nil, Option.pure_def, Option.some.injEq] at h
    rw [← h]
    exact hs
  | cons a l ih =>
    intro hstep s s' hs h
    rw [List.foldlM_cons] at h
    cases hf : f s a with
    | none =>
      rw [hf] at h
      simp at h
    | some s1 =>
      rw [hf] at h
      simp only [Option.bind_eq_bind, Option.some_bind] at h
      exact ih (fun s a s' ha => hstep s a s' (List.mem_cons_of_mem _ ha)) s1 s'
        (hstep s a s1 (List.mem_cons_self _ _) hs hf) h

/-- One iteration of the neighbour loop of `restore_move` keeps the balance. -/
theorem restore_move_step_rank {H W pl x y i : Nat} (hsz : H * W < 2 ^ 64)
    (hc : InGrid H W (y, x)) {s s' : gamma_t × Nat} (R : RankG H W s.1)
    (h : restore_move_step pl x y s i = some s') : RankG H W s'.1 := by
  unfold restore_move_step at h
  simp only at h
  split at h
  · rename_i hcond
    rw [Bool.and_eq_true] at hcond
    have hn : InGrid H W (add_u32 y (delta_y i), add_u32 x (delta_x i)) := by
      have := (good_coords_iff s.1 _ _).1 hcond.1
      rw [R.1, R.2.1] at this
      exact this
    obtain ⟨F', ra, rb, _, _, _, _, hu, _, R'⟩ := unite_rank R.2.2 hsz hc hn
    have hfuel : s.1.fuel = H * W := by
      unfold gamma_t.fuel
      rw [R.1, R.2.1]
    rw [hfuel, hu] at h
    split at h
    · rename_i a b fields e1 e2 e3
      simp only [Option.some.injEq] at h e3
      subst h
      subst e3
      exact ⟨R.1, R.2.1, R'⟩
    · exact absurd h (by simp)
  · simp only [Option.some.injEq] at h
    subst h
    exact R

/-- One iteration of the neighbour loop of `gamma_move` keeps the balance. -/
theorem gamma_move_step_rank {H W pl x y i : Nat} (hsz : H * W < 2 ^ 64)
    (hc : InGrid H W (y, x)) {s s' : gamma_t × Bool × Nat} (R : RankG H W s.1)
    (h : gamma_move_step pl x y s i = some s') : RankG H W s'.1 := by
  unfold gamma_move_step at h
  simp only at h
  split at h
  · rename_i hcond
    rw [Bool.and_eq_true] at hcond
    have hn : InGrid H W (add_u32 y (delta_y i), add_u32 x (delta_x i)) := by
      have := (good_coords_iff s.1 _ _).1 hcond.1
      rw [R.1, R.2.1] at this
      exact this
    obtain ⟨F', ra, rb, _, _, _, _, hu, _, R'⟩ := unite_rank R.2.2 hsz hc hn
    have hfuel : s.1.fuel = H * W := by
      unfold gamma_t.fuel
      rw [R.1, R.2.1]
    rw [hfuel, hu] at h
    split at h
    · rename_i a b fields e1 e2 e3
      simp only [Option.some.injEq] at h e3
      subst h
      subst e3
      exact ⟨R.1, R.2.1, R'⟩
    · exact absurd h (by simp)
  · simp only [Option.some.injEq] at h
    subst h
    exact R

/-- Source `restore_move` keeps the forest balanced by rank. -/
theorem restore_move_rank {H W pl x y : Nat} (hsz : H * W < 2 ^ 64)
    (hc : InGrid H W (y, x)) {g g' : gamma_t} (R : RankG H W g)
    (h : restore_move g pl x y = some g') : RankG H W g' := by
  unfold restore_move at h
  simp only at h
  split at h
  · exact absurd h (by simp)
  · rename_i g2 u hloop
    have R2 : RankG H W g2 :=
      foldlM_keeps (restore_move_step pl x y) (fun s => RankG H W s.1) (List.range 4)
        (fun s a s' _ hs hf => restore_move_step_rank hsz hc hs hf) _ (g2, u)
        (R.set_field x y pl) hloop
    simp only [Option.some.injEq] at h
    subst h
    exact R2

/-- Source `gamma_move` keeps the forest balanced by rank. -/
theorem gamma_move_rank {H W pl x y : Nat} (hsz : H * W < 2 ^ 64)
    {g g' : gamma_t} {b : Bool} (R : RankG H W g)
    (h : gamma_move (some g) pl x y = some (b, some g')) : RankG H W g' := by
  by_cases hmp : movie_possible (some g) pl x y = true
  · obtain ⟨_, _, hx, hy, _⟩ := (movie_possible_iff g pl x y).1 hmp
    have hc : InGrid H W (y, x) := by
      rw [← R.1, ← R.2.1]
      exact ⟨hy, hx⟩
    unfold gamma_move at h
    simp only [hmp, Bool.not_true, Bool.false_eq_true, if_false] at h
    split at h
    · exact absurd h (by simp)
    · rename_i g2 conn u hloop
      have R2 : RankG H W g2 :=
        foldlM_keeps (gamma_move_step pl x y) (fun s => RankG H W s.1) (List.range 4)
          (fun s a s' _ hs hf => gamma_move_step_rank hsz hc hs hf) _ (g2, conn, u)
          (R.set_field x y pl) hloop
      simp only [Option.some.injEq, Prod.mk.injEq] at h
      obtain ⟨_, h⟩ := h
      subst h
      exact R2
  · have hmp' : movie_possible (some g) pl x y = false := by simpa using hmp
    rw [gamma_move_false hmp'] at h
    simp only [Option.some.injEq, Prod.mk.injEq] at h
    obtain ⟨_, h⟩ := h
    subst h
    exact R

/-- Source `golden_set_other_field_reps` keeps the forest balanced by rank. -/
theorem golden_set_other_rank {H W v : Nat} (hsz : H * W < 2 ^ 64)
    {g g' : gamma_t} (R : RankG H W g)
    (h : golden_set_other_field_reps g v = some g') : RankG H W g' := by
  unfold golden_set_other_field_reps at h
  refine foldlM_keeps _ (RankG H W) (List.range g.height) ?_ g g' R h
  intro s i s' hi hs hrow
  rw [List.mem_range, R.1] at hi
  refine foldlM_keeps _ (RankG H W) (List.range s.width) ?_ s s' hs hrow
  intro t j t' hj ht hcell
  rw [List.mem_range, hs.2.1] at hj
  split at hcell
  · exact restore_move_rank hsz ⟨hi, hj⟩ ht hcell
  · simp only [Option.some.injEq] at hcell
    subst hcell
    exact ht

/-! ## The reset of a territory and the golden move keep the balance -/

theorem rankF_reset (h w : Nat) (F : Nat → Nat → field_t) (v : Nat) (p : Nat × Nat) :
    rankF (reset_fields h w F v) p = if InGrid h w p ∧ ownF F p = v then 0 else rankF F p := by
  unfold rankF reset_fields ownF
  split <;> rfl

/-- Along a chain of representatives the owner does not change. -/
theorem own_iterate {h w : Nat} {F : Nat → Nat → field_t}
    (hclosed : ∀ p, InGrid h w p → InGrid h w (repF F p))
    (hown : ∀ p, InGrid h w p → ownF F (repF F p) = ownF F p) :
    ∀ (n : Nat) (p : Nat × Nat), InGrid h w p → ownF F ((repF F)^[n] p) = ownF F p := by
  intro n
  induction n with
  | zero => intro p _; rfl
  | succ n ih =>
    intro p hp
    rw [Function.iterate_succ_apply, ih _ (hclosed p hp), hown p hp]

/-- The reset of the cells of `v` does not change the chains of the other cells. -/
theorem iterate_reset {h w : Nat} {F : Nat → Nat → field_t} {v : Nat}
    (hclosed : ∀ p, InGrid h w p → InGrid h w (repF F p))
    (hown : ∀ p, InGrid h w p → ownF F (repF F p) = ownF F p) :
    ∀ (n : Nat) (p : Nat × Nat), InGrid h w p → ownF F p ≠ v →
      (repF (reset_fields h w F v))^[n] p = (repF F)^[n] p := by
  intro n
  induction n with
  | zero => intro p _ _; rfl
  | succ n ih =>
    intro p hp hv
    rw [Function.iterate_succ_apply, Function.iterate_succ_apply, repF_reset,
      if_neg (fun hc => hv hc.2)]
    exact ih _ (hclosed p hp) (by rw [hown p hp]; exact hv)

/-- The forest stays balanced by rank when every cell of `v` is made a root of rank `0`. -/
theorem RankInv.reset {h w : Nat} {F : Nat → Nat → field_t} (R : RankInv h w F)
    (hown : ∀ p, InGrid h w p → ownF F (repF F p) = ownF F p) (v : Nat) :
    RankInv h w (reset_fields h w F v) := by
  have hcl' : ∀ p, InGrid h w p → InGrid h w (repF (reset_fields h w F v) p) := by
    intro p hp
    rw [repF_reset]
    split
    · exact hp
    · exact R.closed p hp
  refine ⟨hcl', ?_, ?_⟩
  · intro p hp
    by_cases hv : ownF F p = v
    · refine ⟨p, 0, rfl, ?_, Nat.zero_le _⟩
      rw [repF_reset, if_pos ⟨hp, hv⟩]
    · obtain ⟨r, n, h1, h2, h3⟩ := R.depth p hp
      have hrg : InGrid h w r := by
        rw [← h1]
        exact iterate_inGrid R.closed hp n
      have hrv : ownF F r ≠ v := by
        rw [← h1, own_iterate R.closed hown n p hp]
        exact hv
      refine ⟨r, n, ?_, ?_, ?_⟩
      · rw [iterate_reset R.closed hown n p hp hv]
        exact h1
      · rw [repF_reset, if_neg (fun hc => hrv hc.2)]
        exact h2
      · rw [rankF_reset, if_neg (fun hc => hrv hc.2)]
        exact h3
  · intro r hr hroot
    by_cases hv : ownF F r = v
    · rw [rankF_reset, if_pos ⟨hr, hv⟩]
      have : r ∈ treeSet h w (reset_fields h w F v) r :=
        (mem_treeSet hcl').2 ⟨hr, RootOf.self hroot⟩
      have := Finset.card_pos.2 ⟨r, this⟩
      simpa using this
    · have hroot' : repF F r = r := by
        rw [repF_reset, if_neg (fun hc => hv hc.2)] at hroot
        exact hroot
      rw [rankF_reset, if_neg (fun hc => hv hc.2)]
      refine le_trans (R.size r hr hroot') (Finset.card_le_card ?_)
      intro p hp
      rw [mem_treeSet R.closed] at hp
      rw [mem_treeSet hcl']
      refine ⟨hp.1, ?_⟩
      obtain ⟨n, hn, _⟩ := hp.2
      have hpv : ownF F p ≠ v := by
        rw [← own_iterate R.closed hown n p hp.1, hn]
        exact hv
      exact ⟨n, by rw [iterate_reset R.closed hown n p hp.1 hpv]; exact hn, hroot⟩

theorem size_lt_of_sides {h w : Nat} (hh : h < 4294967296) (hw : w < 4294967296) :
    h * w < 2 ^ 64 := by
  have h1 : h * w ≤ 4294967295 * 4294967295 := Nat.mul_le_mul (by omega) (by omega)
  have h2 : 4294967295 * 4294967295 < 2 ^ 64 := by norm_num
  omega

/-- The board in the middle of `gamma_golden_move` is balanced by rank. -/
theorem cleared_rank {g : gamma_t} (I : Inv g) (R : RankInv g.height g.width g.fields)
    (v x y : Nat) : RankG g.height g.width (cleared g v x y) := by
  rw [cleared_eq]
  refine ⟨rfl, rfl, ?_⟩
  have R1 := R.reset (fun p hp => I.uf.own_rep hp) v
  refine R1.of_same_links ?_ ?_
  · intro p
    rw [repF_set_cell]
    by_cases hp : p = (y, x)
    · subst hp; simp [repF]
    · simp [hp]
  · intro p
    rw [rankF_set_cell]
    by_cases hp : p = (y, x)
    · subst hp; simp [rankF]
    · simp [hp]

/-- Source `gamma_golden_move` keeps the forest balanced by rank. -/
theorem golden_move_rank {g g' : gamma_t} (I : Inv g)
    (R : RankInv g.height g.width g.fields) {pl x y : Nat} {b : Bool}
    (h : gamma_golden_move (some g) pl x y = some (b, some g')) :
    RankG g.height g.width g' := by
  have hsz := size_lt_of_sides I.hlt I.wlt
  by_cases hrej : golden_reject g pl x y = true
  · have : gamma_golden_move (some g) pl x y = some (false, some g) := by
      unfold gamma_golden_move
      unfold golden_reject at hrej
      simp only [hrej, if_true]
    rw [this] at h
    simp only [Option.some.injEq, Prod.mk.injEq] at h
    obtain ⟨_, h⟩ := h
    subst h
    exact ⟨rfl, rfl, R⟩
  · have hrej' : golden_reject g pl x y = false := by simpa using hrej
    obtain ⟨_, hx, hy, hv, _, _⟩ := (golden_reject_false_iff g pl x y).1 hrej'
    have hc : InGrid g.height g.width (y, x) := ⟨hy, hx⟩
    obtain ⟨g3, hg3, _⟩ := rebuild_spec I hc hv
    have R3 : RankG g.height g.width g3 := golden_set_other_rank hsz (cleared_rank I R _ x y) hg3
    have hg3' : golden_set_other_field_reps
        { golden_reset_field_reps g (g.fields y x).owner with
          fields := set_cell (golden_reset_field_reps g (g.fields y x).owner).fields y x
            { (golden_reset_field_reps g (g.fields y x).owner).fields y x with owner := EMPTY } }
        (g.fields y x).owner = some g3 := hg3
    have hstart : gamma_golden_move (some g) pl x y =
        (if g3.player_areas (g.fields y x).owner > g3.areas then
          (restore_move g3 (g.fields y x).owner x y).map (fun g4 => (false, some g4))
        else
          match gamma_move (some g3) pl x y with
          | none => none
          | some (true, some g4) =>
            some (true, some { g4 with golden_used := set_at g4.golden_used pl true })
          | some (true, none) => some (true, none)
          | some (false, some g4) =>
            (restore_move g4 (g.fields y x).owner x y).map (fun g5 => (false, some g5))
          | some (false, none) => some (false, none)) := by
      unfold gamma_golden_move
      have : (!old_golden_possible (some g) pl || !good_coords g x y ||
          decide ((g.fields y x).owner = EMPTY) || decide ((g.fields y x).owner = pl) ||
          g.golden_used pl) = false := hrej'
      simp only [this, Bool.false_eq_true, if_false, hg3'] <;> rfl
    rw [hstart] at h
    split at h
    · cases hr : restore_move g3 (g.fields y x).owner x y with
      | none =>
        rw [hr] at h
        simp at h
      | some g4 =>
        rw [hr] at h
        simp only [Option.map_some', Option.some.injEq, Prod.mk.injEq] at h
        obtain ⟨_, h⟩ := h
        subst h
        exact restore_move_rank hsz hc R3 hr
    · split at h
      · exact absurd h (by simp)
      · rename_i g4 hm
        have R4 := gamma_move_rank hsz R3 hm
        simp only [Option.some.injEq, Prod.mk.injEq] at h
        obtain ⟨_, h⟩ := h
        subst h
        exact R4
      · simp at h
      · rename_i g4 hm
        have R4 := gamma_move_rank hsz R3 hm
        cases hr : restore_move g4 (g.fields y x).owner x y with
        | none =>
          rw [hr] at h
          simp at h
        | some g5 =>
          rw [hr] at h
          simp only [Option.map_some', Option.some.injEq, Prod.mk.injEq] at h
          obtain ⟨_, h⟩ := h
          subst h
          exact restore_move_rank hsz hc R4 hr
      · simp at h

theorem invK_stable : Stable InvK where
  move := by
    intro g pl x y J
    obtain ⟨b, g', h, I'⟩ := inv_stable.move g pl x y J.inv
    have R' := gamma_move_rank (size_lt_of_sides J.inv.hlt J.inv.wlt) ⟨rfl, rfl, J.bal⟩ h
    refine ⟨b, g', h, I', ?_⟩
    have := R'.2.2
    rw [← R'.1, ← R'.2.1] at this
    exact this
  golden := by
    intro g pl x y J
    obtain ⟨b, g', h, I'⟩ := inv_stable.golden g pl x y J.inv
    have R' := golden_move_rank J.inv J.bal h
    refine ⟨b, g', h, I', ?_⟩
    have := R'.2.2
    rw [← R'.1, ← R'.2.1] at this
    exact this
  used := fun g gu J => ⟨inv_stable.used g gu J.inv, J.bal⟩
  mem := fun g b J => ⟨inv_stable.mem g b J.inv, J.bal⟩

/-- The forest made by `initialize_fields` is balanced by rank. -/
theorem rankInv_fresh (h w : Nat) : RankInv h w (initialize_fields h w) := by
  have hrep : ∀ p, InGrid h w p → repF (initialize_fields h w) p = p :=
    fun p hp => repF_init_fields hp
  have hcl : ∀ p, InGrid h w p → InGrid h w (repF (initialize_fields h w) p) := by
    intro p hp
    rw [hrep p hp]
    exact hp
  have hrank : ∀ p, InGrid h w p → rankF (initialize_fields h w) p = 0 := by
    intro p hp
    rw [initialize_fields_eq]
    unfold rankF
    simp only
    rw [if_pos hp]
    rfl
  refine ⟨hcl, ?_, ?_⟩
  · intro p hp
    exact ⟨p, 0, rfl, hrep p hp, Nat.zero_le _⟩
  · intro r hr hroot
    rw [hrank r hr]
    have : r ∈ treeSet h w (initialize_fields h w) r :=
      (mem_treeSet hcl).2 ⟨hr, RootOf.self hroot⟩
    have := Finset.card_pos.2 ⟨r, this⟩
    simpa using this

theorem gamma_new_invK {width height players areas : Nat} {g : gamma_t}
    (hw : width < 4294967296) (hh : height < 4294967296)
    (hg : gamma_new width height players areas = some g) : InvK g := by
  refine ⟨gamma_new_inv hw hh hg, ?_⟩
  obtain ⟨a1, a2, _, _, a5, _⟩ := gamma_new_some hg
  rw [a1, a2, a5]
  exact rankInv_fresh height width

/-- Every board reached from `gamma_new` by public calls, which always return,
satisfies the invariant and has a forest balanced by rank. -/
theorem reach_invK (width height players areas : Nat)
    (hw : width < 4294967296) (hh : height < 4294967296) (calls : List Call) :
    ∃ s, run (gamma_new width height players areas) calls = some s ∧
      ∀ g, s = some g → InvK g :=
  reach_stable invK_stable (fun _ hg => gamma_new_invK hw hh hg) calls

/-! ## What `unite` does to the partition of the cells by root -/

/-- A chain that comes back to its start after `n > 0` steps starts at a root. -/
theorem root_of_cycle {F : Nat → Nat → field_t} {c r : Nat × Nat} (hr : RootOf F c r)
    {n : Nat} (hn : 0 < n) (hcyc : (repF F)^[n] c = c) : repF F c = c := by
  obtain ⟨m, hm, hroot⟩ := hr
  have h1 : (repF F)^[n * m] c = c := by
    have : Function.IsPeriodicPt (repF F) n c := hcyc
    exact this.mul_const m
  have h2 : (repF F)^[n * m] c = r := by
    have e : n * m = (n * m - m) + m := by
      have : m ≤ n * m := Nat.le_mul_of_pos_left m hn
      omega
    rw [e, Function.iterate_add_apply, hm, Function.iterate_fixed hroot]
  have : c = r := h1.symm.trans h2
  rw [this]
  exact hroot

/-- The root that `unite` attaches and the root under which it is attached. -/
theorem UniteShape.linked {F F' : Nat → Nat → field_t} {ra rb : Nat × Nat}
    (S : UniteShape F ra rb F') (hne : ra ≠ rb) :
    ∃ rc rp, ((rc = ra ∧ rp = rb) ∨ (rc = rb ∧ rp = ra)) ∧
      ∀ p, repF F' p = if p = rc then rp else repF F p := by
  by_cases hlt : rankF F ra < rankF F rb
  · refine ⟨ra, rb, Or.inl ⟨rfl, rfl⟩, fun p => ?_⟩
    rw [S.rep hne, if_pos hlt]
  · refine ⟨rb, ra, Or.inr ⟨rfl, rfl⟩, fun p => ?_⟩
    rw [S.rep hne, if_neg hlt]

/-- Source `unite` on the copies of two cells `a`, `b` of a board whose forest
is balanced by rank merges the trees of `a` and `b` and no others. -/
theorem unite_partition {h w : Nat} {F : Nat → Nat → field_t} (R : RankInv h w F)
    (hsz : h * w < 2 ^ 64) {a b : Nat × Nat} (ha : InGrid h w a) (hb : InGrid h w b) :
    ∃ F' ra rb, find_root F (h * w) a = some ra ∧ find_root F (h * w) b = some rb ∧
      unite (h * w) F (F a.1 a.2) (F b.1 b.2) = some F' ∧
      UniteShape F ra rb F' ∧ RankInv h w F' ∧
      (∃ r, find_root F' (h * w) a = some r ∧ find_root F' (h * w) b = some r) ∧
      (∀ p, InGrid h w p → ∃ r, find_root F' (h * w) p = some r) ∧
      (∀ p q, InGrid h w p → InGrid h w q →
        (find_root F' (h * w) p = find_root F' (h * w) q ↔
          (find_root F (h * w) p = find_root F (h * w) q ∨
            (find_root F (h * w) p = some ra ∧ find_root F (h * w) q = some rb) ∨
            (find_root F (h * w) p = some rb ∧ find_root F (h * w) q = some ra)))) := by
  obtain ⟨F', ra, rb, fa, fb, hrag, hrbg, hu, S, R'⟩ := unite_rank R hsz ha hb
  have hra : repF F ra = ra := (find_root_sound _ _ _ fa).root
  have hrb : repF F rb = rb := (find_root_sound _ _ _ fb).root
  have htot : ∀ p, InGrid h w p → ∃ r, find_root F' (h * w) p = some r := by
    intro p hp
    obtain ⟨r, hr⟩ := R'.acyc hp
    exact ⟨r, find_root_eq R'.closed hp hr⟩
  refine ⟨F', ra, rb, fa, fb, hu, S, R', ?_, htot, ?_⟩
  · by_cases hne : ra = rb
    · rw [S.same hne]
      exact ⟨ra, fa, hne ▸ fb⟩
    · obtain ⟨rc, rp, hcase, hrep⟩ := S.linked hne
      have hrc : repF F rc = rc := by
        rcases hcase with ⟨e, _⟩ | ⟨e, _⟩ <;> rw [e] <;> assumption
      have hrp : repF F rp = rp := by
        rcases hcase with ⟨_, e⟩ | ⟨_, e⟩ <;> rw [e] <;> assumption
      have hcp : rc ≠ rp := by
        rcases hcase with ⟨e1, e2⟩ | ⟨e1, e2⟩ <;> rw [e1, e2]
        · exact hne
        · exact Ne.symm hne
      have ka := link_rootOf' hrc hrp hcp hrep (find_root_sound _ _ _ fa)
      have kb := link_rootOf' hrc hrp hcp hrep (find_root_sound _ _ _ fb)
      refine ⟨rp, ?_, ?_⟩
      · rw [find_root_eq R'.closed ha ka]
        rcases hcase with ⟨e1, e2⟩ | ⟨e1, e2⟩
        · rw [if_pos e1.symm]
        · rw [if_neg (by rw [e1]; exact hne), e2]
      · rw [find_root_eq R'.closed hb kb]
        rcases hcase with ⟨e1, e2⟩ | ⟨e1, e2⟩
        · rw [if_neg (by rw [e1]; exact Ne.symm hne), e2]
        · rw [if_pos e1.symm]
  · intro p q hp hq
    obtain ⟨r1, hr1⟩ := R.acyc hp
    obtain ⟨r2, hr2⟩ := R.acyc hq
    rw [find_root_eq R.closed hp hr1, find_root_eq R.closed hq hr2]
    by_cases hne : ra = rb
    · rw [S.same hne, find_root_eq R.closed hp hr1, find_root_eq R.closed hq hr2]
      simp only [Option.some.injEq]
      constructor
      · exact fun e => Or.inl e
      · rintro (e | ⟨e1, e2⟩ | ⟨e1, e2⟩)
        · exact e
        · rw [e1, e2, hne]
        · rw [e1, e2, hne]
    · obtain ⟨rc, rp, hcase, hrep⟩ := S.linked hne
      have hrc : repF F rc = rc := by
        rcases hcase with ⟨e, _⟩ | ⟨e, _⟩ <;> rw [e] <;> assumption
      have hrp : repF F rp = rp := by
        rcases hcase with ⟨_, e⟩ | ⟨_, e⟩ <;> rw [e] <;> assumption
      have hcp : rc ≠ rp := by
        rcases hcase with ⟨e1, e2⟩ | ⟨e1, e2⟩ <;> rw [e1, e2]
        · exact hne
        · exact Ne.symm hne
      rw [find_root_eq R'.closed hp (link_rootOf' hrc hrp hcp hrep hr1),
        find_root_eq R'.closed hq (link_rootOf' hrc hrp hcp hrep hr2)]
      simp only [Option.some.injEq]
      have hmid : ((if r1 = rc then rp else r1) = (if r2 = rc then rp else r2)) ↔
          (r1 = r2 ∨ (r1 = rc ∧ r2 = rp) ∨ (r1 = rp ∧ r2 = rc)) := by
        by_cases h1 : r1 = rc
        · by_cases h2 : r2 = rc
          · rw [if_pos h1, if_pos h2]
            exact ⟨fun _ => Or.inl (h1.trans h2.symm), fun _ => rfl⟩
          · rw [if_pos h1, if_neg h2]
            constructor
            · exact fun e => Or.inr (Or.inl ⟨h1, e.symm⟩)
            · rintro (e | ⟨_, e⟩ | ⟨_, e⟩)
              · exact absurd (e.symm.trans h1) h2
              · exact e.symm
              · exact absurd e h2
        · by_cases h2 : r2 = rc
          · rw [if_neg h1, if_pos h2]
            constructor
            · exact fun e => Or.inr (Or.inr ⟨e, h2⟩)
            · rintro (e | ⟨e, _⟩ | ⟨e, _⟩)
              · exact absurd (e.trans h2) h1
              · exact absurd e h1
              · exact e
          · rw [if_neg h1, if_neg h2]
            constructor
            · exact fun e => Or.inl e
            · rintro (e | ⟨e, _⟩ | ⟨_, e⟩)
              · exact e
              · exact absurd e h1
              · exact absurd e h2
      rw [hmid]
      rcases hcase with ⟨e1, e2⟩ | ⟨e1, e2⟩
      · rw [e1, e2]
      · rw [e1, e2]
        constructor
        · rintro (e | e | e)
          · exact Or.inl e
          · exact Or.inr (Or.inr e)
          · exact Or.inr (Or.inl e)
        · rintro (e | e | e)
          · exact Or.inl e
          · exact Or.inr (Or.inr e)
          · exact Or.inr (Or.inl e)

/-- C31. On every board reached from `gamma_new` by public calls, `unite`
called with the copies of two cells `a`, `b` of the board returns and works on
the cells of the board. With `ra` and `rb` the roots that `find_root` returns
for `a` and `b`: afterwards `find_root` returns one root for `a` and `b`, it
returns on every cell, and two cells have the same root exactly when they had
the same root before or one was in the tree of `a` and the other in the tree
of `b`; the grid is not written when `ra = rb`; when the ranks of the roots
differ the root of lower rank gets the other root as its representative and no
rank changes; on a tie `rb` gets `ra` as its representative and the rank of
`ra` grows by exactly one; no other `rep` or `rank` and no `owner`, `x` or `y`
is written. The ranks on such a board are below `64` (`RankInv.rank_lt`), so
the 64-bit increment does not wrap; `unite_partition` states the same for every
grid whose forest is balanced by rank, which covers the grids on which the
moves call `unite`. -/
theorem C31_unite_joins_trees (width height players areas : Nat)
    (hw : width < 4294967296) (hh : height < 4294967296) (calls : List Call) :
    ∃ s, run (gamma_new width height players areas) calls = some s ∧
      ∀ g, s = some g → ∀ a b, InGrid g.height g.width a → InGrid g.height g.width b →
        ∃ F' ra rb, find_root g.fields g.fuel a = some ra ∧
          find_root g.fields g.fuel b = some rb ∧
          unite g.fuel g.fields (g.fields a.1 a.2) (g.fields b.1 b.2) = some F' ∧
          (∃ r, find_root F' g.fuel a = some r ∧ find_root F' g.fuel b = some r) ∧
          (∀ p, InGrid g.height g.width p → ∃ r, find_root F' g.fuel p = some r) ∧
          (∀ p q, InGrid g.height g.width p → InGrid g.height g.width q →
            (find_root F' g.fuel p = find_root F' g.fuel q ↔
              (find_root g.fields g.fuel p = find_root g.fields g.fuel q ∨
                (find_root g.fields g.fuel p = some ra ∧
                  find_root g.fields g.fuel q = some rb) ∨
                (find_root g.fields g.fuel p = some rb ∧
                  find_root g.fields g.fuel q = some ra)))) ∧
          (ra = rb → F' = g.fields) ∧
          (∀ i j, (F' i j).owner = (g.fields i j).owner ∧ (F' i j).x = (g.fields i j).x ∧
            (F' i j).y = (g.fields i j).y) ∧
          (ra ≠ rb → (g.fields ra.1 ra.2).rank > (g.fields rb.1 rb.2).rank → ∀ i j,
            (F' i j).rep = (if (i, j) = rb then ra else (g.fields i j).rep) ∧
            (F' i j).rank = (g.fields i j).rank) ∧
          (ra ≠ rb → (g.fields ra.1 ra.2).rank < (g.fields rb.1 rb.2).rank → ∀ i j,
            (F' i j).rep = (if (i, j) = ra then rb else (g.fields i j).rep) ∧
            (F' i j).rank = (g.fields i j).rank) ∧
          (ra ≠ rb → (g.fields ra.1 ra.2).rank = (g.fields rb.1 rb.2).rank → ∀ i j,
            (F' i j).rep = (if (i, j) = rb then ra else (g.fields i j).rep) ∧
            (F' i j).rank = (if (i, j) = ra then (g.fields ra.1 ra.2).rank + 1
              else (g.fields i j).rank)) := by
  obtain ⟨s, hs, hJ⟩ := reach_invK width height players areas hw hh calls
  refine ⟨s, hs, fun g hg a b ha hb => ?_⟩
  have J := hJ g hg
  have hsz := size_lt_of_sides J.inv.hlt J.inv.wlt
  obtain ⟨F', ra, rb, fa, fb, hu, S, _, h1, h2, h3⟩ := unite_partition J.bal hsz ha hb
  refine ⟨F', ra, rb, fa, fb, hu, h1, h2, h3, S.same, S.keep, ?_, ?_, ?_⟩
  · intro hne hgt i j
    have k1 := S.rep hne (i, j)
    have k2 := S.rank hne (i, j)
    have n1 : ¬ rankF g.fields ra < rankF g.fields rb := by unfold rankF; omega
    have n2 : ¬ ((i, j) = ra ∧ rankF g.fields ra = rankF g.fields rb) := by
      unfold rankF; omega
    rw [if_neg n1] at k1
    rw [if_neg n2] at k2
    exact ⟨k1, k2⟩
  · intro hne hlt i j
    have k1 := S.rep hne (i, j)
    have k2 := S.rank hne (i, j)
    have n1 : rankF g.fields ra < rankF g.fields rb := hlt
    have n2 : ¬ ((i, j) = ra ∧ rankF g.fields ra = rankF g.fields rb) := by
      unfold rankF; omega
    rw [if_pos n1] at k1
    rw [if_neg n2] at k2
    exact ⟨k1, k2⟩
  · intro hne heq i j
    have k1 := S.rep hne (i, j)
    have k2 := S.rank hne (i, j)
    have n1 : ¬ rankF g.fields ra < rankF g.fields rb := by unfold rankF; omega
    rw [if_neg n1] at k1
    refine ⟨k1, ?_⟩
    by_cases hij : (i, j) = ra
    · rw [if_pos ⟨hij, heq⟩] at k2
      rw [if_pos hij]
      exact k2
    · rw [if_neg (fun hc => hij hc.1)] at k2
      rw [if_neg hij]
      exact k2

theorem C31_unite_joins_trees_witness :
    ∃ s, run (gamma_new 3 2 2 2) [Call.move 1 0 0, Call.move 1 2 0, Call.move 1 1 0]
        = some s ∧
      ∀ g, s = some g → ∀ a b, InGrid g.height g.width a → InGrid g.height g.width b →
        ∃ F' ra rb, find_root g.fields g.fuel a = some ra ∧
          find_root g.fields g.fuel b = some rb ∧
          unite g.fuel g.fields (g.fields a.1 a.2) (g.fields b.1 b.2) = some F' ∧
          (∃ r, find_root F' g.fuel a = some r ∧ find_root F' g.fuel b = some r) ∧
          (∀ p, InGrid g.height g.width p → ∃ r, find_root F' g.fuel p = some r) ∧
          (∀ p q, InGrid g.height g.width p → InGrid g.height g.width q →
            (find_root F' g.fuel p = find_root F' g.fuel q ↔
              (find_root g.fields g.fuel p = find_root g.fields g.fuel q ∨
                (find_root g.fields g.fuel p = some ra ∧
                  find_root g.fields g.fuel q = some rb) ∨
                (find_root g.fields g.fuel p = some rb ∧
                  find_root g.fields g.fuel q = some ra)))) ∧
          (ra = rb → F' = g.fields) ∧
          (∀ i j, (F' i j).owner = (g.fields i j).owner ∧ (F' i j).x = (g.fields i j).x ∧
            (F' i j).y = (g.fields i j).y) ∧
          (ra ≠ rb → (g.fields ra.1 ra.2).rank > (g.fields rb.1 rb.2).rank → ∀ i j,
            (F' i j).rep = (if (i, j) = rb then ra else (g.fields i j).rep) ∧
            (F' i j).rank = (g.fields i j).rank) ∧
          (ra ≠ rb → (g.fields ra.1 ra.2).rank < (g.fields rb.1 rb.2).rank → ∀ i j,
            (F' i j).rep = (if (i, j) = ra then rb else (g.fields i j).rep) ∧
            (F' i j).rank = (g.fields i j).rank) ∧
          (ra ≠ rb → (g.fields ra.1 ra.2).rank = (g.fields rb.1 rb.2).rank → ∀ i j,
            (F' i j).rep = (if (i, j) = rb then ra else (g.fields i j).rep) ∧
            (F' i j).rank = (if (i, j) = ra then (g.fields ra.1 ra.2).rank + 1
              else (g.fields i j).rank)) :=
  C31_unite_joins_trees 3 2 2 2 (by norm_num) (by norm_num) _

/-- C32. On every board reached from `gamma_new` by public calls the
representatives form an acyclic forest: a chain of representatives that comes
back to its start cell after one or more steps starts at a cell that is its
own representative. So `find_root` returns on every cell `c` of the board; the
cell `r` it returns is on the board and is its own representative,
`find_root` of `r` is `r`, and `r` has the owner of `c`. -/
theorem C32_find_root_returns_root (width height players areas : Nat)
    (hw : width < 4294967296) (hh : height < 4294967296) (calls : List Call) :
    ∃ s, run (gamma_new width height players areas) calls = some s ∧
      ∀ g, s = some g → ∀ c, InGrid g.height g.width c →
        (∀ n, 0 < n → (repF g.fields)^[n] c = c → (g.fields c.1 c.2).rep = c) ∧
        ∃ r, find_root g.fields g.fuel c = some r ∧ InGrid g.height g.width r ∧
          (g.fields r.1 r.2).rep = r ∧ find_root g.fields g.fuel r = some r ∧
          (g.fields r.1 r.2).owner = (g.fields c.1 c.2).owner := by
  obtain ⟨s, hs, hI⟩ := reach_inv width height players areas hw hh calls
  refine ⟨s, hs, fun g hg c hc => ?_⟩
  have I := hI g hg
  obtain ⟨r, hr⟩ := I.uf.acyc c hc
  have hrg := hr.inGrid I.uf.closed hc
  refine ⟨fun n hn hcyc => root_of_cycle hr hn hcyc, r, find_root_eq I.uf.closed hc hr, hrg,
    hr.root, find_root_eq I.uf.closed hrg (RootOf.self hr.root), I.uf.own_root hc hr⟩

theorem C32_find_root_returns_root_witness :
    ∃ s, run (gamma_new 3 2 2 2) [Call.move 1 0 0, Call.move 1 2 0, Call.move 1 1 0,
        Call.golden_move 2 1 0] = some s ∧
      ∀ g, s = some g → ∀ c, InGrid g.height g.width c →
        (∀ n, 0 < n → (repF g.fields)^[n] c = c → (g.fields c.1 c.2).rep = c) ∧
        ∃ r, find_root g.fields g.fuel c = some r ∧ InGrid g.height g.width r ∧
          (g.fields r.1 r.2).rep = r ∧ find_root g.fields g.fuel r = some r ∧
          (g.fields r.1 r.2).owner = (g.fields c.1 c.2).owner :=
  C32_find_root_returns_root 3 2 2 2 (by norm_num) (by norm_num) _

/-- C33. On every board reached from `gamma_new` by public calls, for every
cell `r` of the board that is its own representative, with rank `k`: every
cell `c` for which `find_root` returns `r` reaches `r` in at most `k` steps
along the representatives, and the tree of `r`, the set of these cells, has
at least `2 ^ k` cells. The tree of `r` is the territory of each of its cells,
the cells joined to it by a path of adjacent cells of one owner, so on a
territory of `n` cells `find_root` reaches the root in at most `floor (log2 n)`
steps: it returns the root with `floor (log2 n) + 1` nested calls. -/
theorem C33_rank_bounds_depth (width height players areas : Nat)
    (hw : width < 4294967296) (hh : height < 4294967296) (calls : List Call) :
    ∃ s, run (gamma_new width height players areas) calls = some s ∧
      ∀ g, s = some g → ∀ r, InGrid g.height g.width r → (g.fields r.1 r.2).rep = r →
        2 ^ (g.fields r.1 r.2).rank ≤ (treeSet g.height g.width g.fields r).card ∧
        ∀ c, InGrid g.height g.width c → find_root g.fields g.fuel c = some r →
          (∃ n, n ≤ (g.fields r.1 r.2).rank ∧ (repF g.fields)^[n] c = r) ∧
          (∀ q, q ∈ treeSet g.height g.width g.fields r ↔
            Relation.ReflTransGen (Adj g.height g.width g.fields) c q) ∧
          (∃ n, n ≤ Nat.log 2 (treeSet g.height g.width g.fields r).card ∧
            (repF g.fields)^[n] c = r) ∧
          find_root g.fields (Nat.log 2 (treeSet g.height g.width g.fields r).card + 1) c
            = some r := by
  obtain ⟨s, hs, hJ⟩ := reach_invK width height players areas hw hh calls
  refine ⟨s, hs, fun g hg r hr hroot => ?_⟩
  have J := hJ g hg
  have hsize := J.bal.size r hr hroot
  refine ⟨hsize, fun c hc hfc => ?_⟩
  have hcr : RootOf g.fields c r := find_root_sound _ _ _ hfc
  obtain ⟨r', n, h1, h2, h3⟩ := J.bal.depth c hc
  have e : r' = r := RootOf.unique ⟨n, h1, h2⟩ hcr
  subst e
  have hlog : n ≤ Nat.log 2 (treeSet g.height g.width g.fields r').card :=
    le_trans h3 (Nat.le_log_of_pow_le (by norm_num) hsize)
  refine ⟨⟨n, h3, h1⟩, fun q => ?_, ⟨n, hlog, h1⟩,
    find_root_of_iterate hroot n _ c h1 (by omega)⟩
  rw [mem_treeSet J.bal.closed]
  constructor
  · rintro ⟨hq, hqr⟩
    obtain ⟨rp, rq, k1, k2, k3⟩ := find_root_iff_path J.inv hc hq
    apply k3.1
    have e1 : rp = r' := by
      rw [hfc] at k1
      exact (Option.some.inj k1).symm
    have e2 : rq = r' := by
      have := find_root_eq J.bal.closed hq hqr
      have k2' : find_root g.fields (g.height * g.width) q = some rq := k2
      rw [this] at k2'
      exact (Option.some.inj k2').symm
    rw [e1, e2]
  · intro hpath
    have hq : InGrid g.height g.width q := by
      rcases Relation.ReflTransGen.cases_tail hpath with e | ⟨m, _, hm⟩
      · rw [e]; exact hc
      · exact hm.2.1
    obtain ⟨rp, rq, k1, k2, k3⟩ := find_root_iff_path J.inv hc hq
    have e := k3.2 hpath
    refine ⟨hq, ?_⟩
    have e1 : rp = r' := by
      rw [hfc] at k1
      exact (Option.some.inj k1).symm
    rw [← e1, e]
    exact find_root_sound _ _ _ k2

theorem C33_rank_bounds_depth_witness :
    ∃ s, run (gamma_new 5 1 1 5) [Call.move 1 0 0, Call.move 1 1 0, Call.move 1 4 0,
        Call.move 1 3 0, Call.move 1 2 0] = some s ∧
      ∀ g, s = some g → ∀ r, InGrid g.height g.width r → (g.fields r.1 r.2).rep = r →
        2 ^ (g.fields r.1 r.2).rank ≤ (treeSet g.height g.width g.fields r).card ∧
        ∀ c, InGrid g.height g.width c → find_root g.fields g.fuel c = some r →
          (∃ n, n ≤ (g.fields r.1 r.2).rank ∧ (repF g.fields)^[n] c = r) ∧
          (∀ q, q ∈ treeSet g.height g.width g.fields r ↔
            Relation.ReflTransGen (Adj g.height g.width g.fields) c q) ∧
          (∃ n, n ≤ Nat.log 2 (treeSet g.height g.width g.fields r).card ∧
            (repF g.fields)^[n] c = r) ∧
          find_root g.fields (Nat.log 2 (treeSet g.height g.width g.fields r).card + 1) c
            = some r :=
  C33_rank_bounds_depth 5 1 1 5 (by norm_num) (by norm_num) _

/-! ## `find_root` only reads the forest -/

/-- The grid after `find_root` is the grid before it. -/
theorem find_root_st_eq (fields : Nat → Nat → field_t) :
    ∀ (fuel : Nat) (c : Nat × Nat),
      find_root_st fields fuel c = (find_root fields fuel c).map (fun r => (r, fields)) := by
  intro fuel
  induction fuel with
  | zero => intro c; rfl
  | succ fuel ih =>
    intro c
    by_cases hc : (fields c.1 c.2).rep = c
    · simp only [find_root_st, find_root, hc, if_true, Option.map_some']
    · simp only [find_root_st, find_root, hc, if_false]
      exact ih _

/-- C34 as stated fails: on the `5 × 1` board, after player 1 took the cells
`0`, `1`, `4`, `3`, `2` in this order, the cell `(0, 0)` is two steps away from
its root `(0, 3)`: its representative is `(0, 1)`, whose representative is
`(0, 3)`. `find_root` of `(0, 0)` returns `(0, 3)`, and in the grid after the
call the representative of `(0, 0)` is still `(0, 1)`, no nearer to the root. -/
theorem C34_find_root_keeps_links :
    ∃ g F', run (gamma_new 5 1 1 5) [Call.move 1 0 0, Call.move 1 1 0, Call.move 1 4 0,
        Call.move 1 3 0, Call.move 1 2 0] = some (some g) ∧
      (g.fields 0 0).rep = (0, 1) ∧ (g.fields 0 1).rep = (0, 3) ∧
      (g.fields 0 3).rep = (0, 3) ∧
      find_root_st g.fields g.fuel (0, 0) = some ((0, 3), F') ∧
      (F' 0 0).rep = (0, 1) ∧ (F' 0 1).rep = (0, 3) := by
  have key : (match run (gamma_new 5 1 1 5) [Call.move 1 0 0, Call.move 1 1 0,
      Call.move 1 4 0, Call.move 1 3 0, Call.move 1 2 0] with
      | some (some g) =>
        (match find_root_st g.fields g.fuel (0, 0) with
          | some (r, F') =>
            decide ((g.fields 0 0).rep = (0, 1) ∧ (g.fields 0 1).rep = (0, 3) ∧
              (g.fields 0 3).rep = (0, 3) ∧ r = (0, 3) ∧
              (F' 0 0).rep = (0, 1) ∧ (F' 0 1).rep = (0, 3))
          | none => false)
      | _ => false) = true := by decide
  split at key
  · next g hg =>
    split at key
    · next r F' hf =>
      have k : (g.fields 0 0).rep = (0, 1) ∧ (g.fields 0 1).rep = (0, 3) ∧
          (g.fields 0 3).rep = (0, 3) ∧ r = (0, 3) ∧
          (F' 0 0).rep = (0, 1) ∧ (F' 0 1).rep = (0, 3) := by simpa using key
      obtain ⟨k1, k2, k3, k4, k5, k6⟩ := k
      subst k4
      exact ⟨g, F', hg, k1, k2, k3, hf, k5, k6⟩
    · exact absurd key (by simp)
  · exact absurd key (by simp)

/-- C34, amended. `find_root` does no path shortening: it only reads the
forest. On every board reached from `gamma_new` by public calls and for every
cell `c` of the board, `find_root` returns the root of `c`, and the grid after
the call is the grid before it: every representative, that of `c` included,
and every rank is as it was, so the partition by root is unchanged and a cell
that is two or more steps away from its root stays as far from it. -/
theorem C34_find_root_reads_only (width height players areas : Nat)
    (hw : width < 4294967296) (hh : height < 4294967296) (calls : List Call) :
    ∃ s, run (gamma_new width height players areas) calls = some s ∧
      ∀ g, s = some g → ∀ c, InGrid g.height g.width c →
        ∃ r, find_root g.fields g.fuel c = some r ∧ (g.fields r.1 r.2).rep = r ∧
          find_root_st g.fields g.fuel c = some (r, g.fields) := by
  obtain ⟨s, hs, hI⟩ := reach_inv width height players areas hw hh calls
  refine ⟨s, hs, fun g hg c hc => ?_⟩
  have I := hI g hg
  obtain ⟨r, hr⟩ := I.uf.acyc c hc
  have hf : find_root g.fields g.fuel c = some r := find_root_eq I.uf.closed hc hr
  refine ⟨r, hf, hr.root, ?_⟩
  rw [find_root_st_eq, hf]
  rfl

theorem C34_find_root_reads_only_witness :
    ∃ s, run (gamma_new 5 1 1 5) [Call.move 1 0 0, Call.move 1 1 0, Call.move 1 4 0,
        Call.move 1 3 0, Call.move 1 2 0] = some s ∧
      ∀ g, s = some g → ∀ c, InGrid g.height g.width c →
        ∃ r, find_root g.fields g.fuel c = some r ∧ (g.fields r.1 r.2).rep = r ∧
          find_root_st g.fields g.fuel c = some (r, g.fields) :=
  C34_find_root_reads_only 5 1 1 5 (by norm_num) (by norm_num) _

/-- C36 fails on the board `gamma_new(65536, 65536, 1, 1)`: the product
`width * height * 2`, taken in 32-bit arithmetic, is `0`, so the buffer that
`gamma_board` requests has `0 + 1 + 65536 = 65537` bytes, and the text that
`print_little_players` writes has `65536 * (65536 * 1 + 1) = 4295032832`
characters, ended by one more byte. -/
theorem C36_buffer_smaller_than_text :
    ∃ g text, gamma_new 65536 65536 1 1 = some g ∧
      (gamma_board (some g)).1 = some text ∧
      text.length + 1 = g.height * (g.width * 1 + 1) + 1 ∧
      text.length + 1 = 4295032833 ∧
      gamma_board_ptr_size g = 65537 ∧
      gamma_board_ptr_size g < text.length + 1 := by
  have hex : ∃ g, gamma_new 65536 65536 1 1 = some g := by
    simp [gamma_new, UINT32_MAX]
  obtain ⟨g, hg⟩ := hex
  obtain ⟨a1, a2, a3, _⟩ := gamma_new_some hg
  obtain ⟨h1, h2, _⟩ := board_text_little (g := g) (by rw [a1]; norm_num) (by rw [a2]; norm_num)
    (fun i j _ _ => by rw [gamma_new_empty hg]; omega) (by rw [a3]; norm_num)
    (gamma_new_memory hg)
  have hsize : gamma_board_ptr_size g = 65537 := by
    unfold gamma_board_ptr_size
    rw [a1, a2, a3, show logarithm 1 = 1 by decide]
    norm_num
  refine ⟨g, _, hg, h1, ?_, ?_, hsize, ?_⟩
  · rw [h2, a1, a2]
  · rw [h2, a1, a2]
  · rw [hsize, h2, a1, a2]
    norm_num

/-! ## `batch_mode.c`: reading a number from the standard input -/

/-! ## `read_uint32` on a token -/

theorem getchar_cons (c : Nat) (l : List Nat) (b : Bool) :
    getchar ⟨c :: l, b⟩ = ((c : Int), ⟨l, b⟩) := rfl

theorem nat_ne_EOF (c : Nat) : (c : Int) ≠ EOF := by
  unfold EOF
  omega

/-- The loop of `read_white_chars` stops at the first byte that is not white. -/
theorem read_white_loop_spec (t : Nat) (more : List Nat) (ht : is_white t = false) :
    ∀ (whites : List Nat) (fuel : Nat), (∀ c ∈ whites, is_white (c : Int) = true) →
      whites.length + 1 ≤ fuel →
      read_white_loop fuel (getchar ⟨whites ++ t :: more, false⟩)
        = some ((t : Int), ⟨more, false⟩) := by
  intro whites
  induction whites with
  | nil =>
    intro fuel _ hf
    obtain ⟨f, rfl⟩ : ∃ f, fuel = f + 1 := ⟨fuel - 1, by omega⟩
    simp [getchar_cons, read_white_loop, feof, ht]
  | cons w ws ih =>
    intro fuel hw hf
    obtain ⟨f, rfl⟩ : ∃ f, fuel = f + 1 := ⟨fuel - 1, by omega⟩
    have h1 : is_white (w : Int) = true := hw w (List.mem_cons_self _ _)
    rw [List.cons_append, getchar_cons]
    simp only [read_white_loop, feof, h1, Bool.not_false, Bool.and_self, if_true]
    exact ih f (fun c hc => hw c (List.mem_cons_of_mem _ hc)) (by simpa using hf)

/-- Source `read_white_chars` in front of a token: the white bytes are read and
the first byte of the token is pushed back. -/
theorem read_white_chars_spec (whites : List Nat) (t : Nat) (more : List Nat)
    (hw : ∀ c ∈ whites, is_white (c : Int) = true) (ht : is_white t = false) :
    read_white_chars ⟨whites ++ t :: more, false⟩ = some ⟨t :: more, false⟩ := by
  unfold read_white_chars
  rw [read_white_loop_spec t more ht whites _ hw (by simp; omega)]
  simp only [Option.map_some', feof, Bool.not_false, if_true, Option.some.injEq]
  unfold ungetc
  rw [if_neg (nat_ne_EOF t)]
  simp

/-- Under the test of the loop the two statements give the number without a wrap. -/
theorem accumulate_exact {number : Nat} {c : Int} (hn : number ≤ UINT32_MAX)
    (h1 : 48 ≤ c) (h2 : c ≤ 57) :
    accumulate number c = number * 10 + (c - 48).toNat ∧
      number * 10 + (c - 48).toNat < 2 ^ 64 := by
  unfold accumulate BASE
  unfold UINT32_MAX at hn
  have h3 : (c - 48).toNat ≤ 9 := by omega
  have h4 : number * 10 + (c - 48).toNat < 2 ^ 64 := by
    have : (2 : Nat) ^ 64 = 18446744073709551616 := by norm_num
    omega
  refine ⟨?_, h4⟩
  have h5 : number * 10 < 2 ^ 64 := by omega
  rw [Nat.mod_eq_of_lt h5, Nat.mod_eq_of_lt h4]

theorem digits_from_ge (l : List Nat) : ∀ number, number ≤ digits_from number l := by
  induction l with
  | nil => intro number; exact le_refl _
  | cons c cs ih =>
    intro number
    have := ih (number * 10 + (c - 48))
    unfold digits_from at *
    simp only [List.foldl_cons]
    omega

theorem digits_from_cons (number c : Nat) (cs : List Nat) :
    digits_from number (c :: cs) = digits_from (number * 10 + (c - 48)) cs := rfl

/-- The loop ends when `*error` is set. -/
theorem read_loop_error (fuel number : Nat) (c : Int) (s : stdin_t) :
    read_uint32_loop (fuel + 1) (number, true, c, s) = some (number, true, c, s) := by
  simp [read_uint32_loop]

/-- The loop ends at the end of the input and at a white byte or newline. -/
theorem read_loop_exit (rest : List Nat)
    (hrest : ∀ c, rest.head? = some c → is_white (c : Int) = true ∨ c = 10)
    (fuel number : Nat) (error : Bool) :
    read_uint32_loop (fuel + 1) (number, error, (getchar ⟨rest, false⟩).1,
        (getchar ⟨rest, false⟩).2)
      = some (number, error, (getchar ⟨rest, false⟩).1, (getchar ⟨rest, false⟩).2) := by
  cases rest with
  | nil => simp [read_uint32_loop, getchar, EOF]
  | cons r rs =>
    rw [getchar_cons]
    rcases hrest r rfl with h | h
    · simp [read_uint32_loop, h]
    · subst h
      simp [read_uint32_loop]

/-- The loop of `read_uint32` on the bytes `c :: cs` of a token: it returns; it
ends without `*error` and with a number that fits in 32 bits exactly when the
bytes are digits that write such a number, and then this is the number. -/
theorem read_loop_spec (rest : List Nat)
    (hrest : ∀ c, rest.head? = some c → is_white (c : Int) = true ∨ c = 10) :
    ∀ (cs : List Nat) (c number fuel : Nat),
      (∀ d ∈ c :: cs, is_white (d : Int) = false ∧ d ≠ 10) → cs.length + 2 ≤ fuel →
      ∃ n' e' c' s', read_uint32_loop fuel (number, false, (c : Int), ⟨cs ++ rest, false⟩)
          = some (n', e', c', s') ∧
        ((e' = false ∧ n' ≤ UINT32_MAX) ↔
          ((∀ d ∈ c :: cs, is_digit d = true) ∧ digits_from number (c :: cs) ≤ UINT32_MAX)) ∧
        (e' = false → n' = digits_from number (c :: cs)) := by
  intro cs
  induction cs with
  | nil =>
    intro c number fuel htok hf
    obtain ⟨f, rfl⟩ : ∃ f, fuel = f + 2 := ⟨fuel - 2, by simp at hf; omega⟩
    obtain ⟨hcw, hc10⟩ := htok c (List.mem_cons_self _ _)
    have hc10' : (c : Int) ≠ 10 := by omega
    by_cases hg : (c : Int) ≥ 48 ∧ (c : Int) ≤ 57 ∧ number ≤ UINT32_MAX
    · have hacc := accumulate_exact hg.2.2 hg.1 hg.2.1
      have hstep : read_uint32_loop (f + 2) (number, false, (c : Int), ⟨[] ++ rest, false⟩)
          = read_uint32_loop (f + 1) (accumulate number c, false, (getchar ⟨rest, false⟩).1,
              (getchar ⟨rest, false⟩).2) := by
        simp [read_uint32_loop, nat_ne_EOF, hcw, hc10', hg]
      rw [hstep, read_loop_exit rest hrest]
      refine ⟨_, _, _, _, rfl, ?_, ?_⟩
      · have e : (c - 48 : Int).toNat = c - 48 := by omega
        rw [hacc.1, e, digits_from_cons]
        simp only [true_and, List.mem_singleton, forall_eq, digits_from, List.foldl_nil,
          is_digit, Bool.and_eq_true, decide_eq_true_eq]
        constructor
        · intro h
          exact ⟨⟨by omega, by omega⟩, h⟩
        · intro h
          exact h.2
      · intro _
        have e : (c - 48 : Int).toNat = c - 48 := by omega
        rw [hacc.1, e]
        rfl
    · have hstep : read_uint32_loop (f + 2) (number, false, (c : Int), ⟨[] ++ rest, false⟩)
          = read_uint32_loop (f + 1) (number, true, (c : Int), ⟨[] ++ rest, false⟩) := by
        simp only [read_uint32_loop, nat_ne_EOF, hcw, hc10', hg, if_false]
        simp [nat_ne_EOF, hc10']
      rw [hstep, read_loop_error]
      refine ⟨_, _, _, _, rfl, ?_, ?_⟩
      · constructor
        · intro h
          exact absurd h.1 (by simp)
        · rintro ⟨h1, h2⟩
          exfalso
          apply hg
          have h3 := h1 c (List.mem_cons_self _ _)
          simp only [is_digit, Bool.and_eq_true, decide_eq_true_eq] at h3
          have h4 := digits_from_ge [c] number
          exact ⟨by omega, by omega, le_trans h4 h2⟩
      · intro h
        exact absurd h (by simp)
  | cons c2 cs ih =>
    intro c number fuel htok hf
    obtain ⟨f, rfl⟩ : ∃ f, fuel = f + 1 := ⟨fuel - 1, by simp at hf; omega⟩
    obtain ⟨hcw, hc10⟩ := htok c (List.mem_cons_self _ _)
    have hc10' : (c : Int) ≠ 10 := by omega
    by_cases hg : (c : Int) ≥ 48 ∧ (c : Int) ≤ 57 ∧ number ≤ UINT32_MAX
    · have hacc := accumulate_exact hg.2.2 hg.1 hg.2.1
      have e : (c - 48 : Int).toNat = c - 48 := by omega
      have hstep : read_uint32_loop (f + 1)
          (number, false, (c : Int), ⟨(c2 :: cs) ++ rest, false⟩)
          = read_uint32_loop f (number * 10 + (c - 48), false, (c2 : Int),
              ⟨cs ++ rest, false⟩) := by
        rw [← e, ← hacc.1]
        simp [read_uint32_loop, nat_ne_EOF, hcw, hc10', hg, getchar_cons]
      obtain ⟨n', e', c', s', h1, h2, h3⟩ := ih c2 (number * 10 + (c - 48)) f
        (fun d hd => htok d (List.mem_cons_of_mem _ hd)) (by simp at hf ⊢; omega)
      refine ⟨n', e', c', s', by rw [hstep, h1], ?_, ?_⟩
      · rw [h2, digits_from_cons number c]
        have hd : is_digit c = true := by
          simp only [is_digit, Bool.and_eq_true, decide_eq_true_eq]
          omega
        constructor
        · rintro ⟨k1, k2⟩
          refine ⟨fun d hd' => ?_, k2⟩
          rcases List.mem_cons.1 hd' with rfl | hd'
          · exact hd
          · exact k1 d hd'
        · rintro ⟨k1, k2⟩
          exact ⟨fun d hd' => k1 d (List.mem_cons_of_mem _ hd'), k2⟩
      · intro he
        rw [h3 he, digits_from_cons number c]
    · obtain ⟨f', rfl⟩ : ∃ f', f = f' + 1 := ⟨f - 1, by simp at hf; omega⟩
      have hstep : read_uint32_loop (f' + 2)
          (number, false, (c : Int), ⟨(c2 :: cs) ++ rest, false⟩)
          = read_uint32_loop (f' + 1) (number, true, (c : Int),
              ⟨(c2 :: cs) ++ rest, false⟩) := by
        simp only [read_uint32_loop, nat_ne_EOF, hcw, hc10', hg, if_false]
        simp [nat_ne_EOF, hc10']
      rw [hstep, read_loop_error]
      refine ⟨_, _, _, _, rfl, ?_, ?_⟩
      · constructor
        · intro h
          exact absurd h.1 (by simp)
        · rintro ⟨h1, h2⟩
          exfalso
          apply hg
          have h3 := h1 c (List.mem_cons_self _ _)
          simp only [is_digit, Bool.and_eq_true, decide_eq_true_eq] at h3
          have h4 := digits_from_ge (c :: c2 :: cs) number
          exact ⟨by omega, by omega, le_trans h4 h2⟩
      · intro h
        exact absurd h (by simp)

/-- C37. Source `read_uint32`, called with `*error` false on an input that
consists of white characters, a non-empty token without a white character or
newline, and the rest of the input, which is empty or starts with a white
character or a newline, returns. If the token is a string of decimal digits
whose value is at most `2^32 - 1`, the call returns this value, whatever the
number of digits, and leaves `*error` false. If the value is above
`2^32 - 1` or a byte of the token is not a digit, the call sets `*error` and
returns `0`. The 64-bit `number` never wraps: when the test of the loop lets
the two statements `number *= BASE; number += c - '0';` run, they give
`number * 10 + (c - '0')`, which is below `2^64`. -/
theorem C37_read_uint32_token (whites token rest : List Nat)
    (hwhite : ∀ c ∈ whites, is_white (c : Int) = true)
    (htoken : ∀ c ∈ token, is_white (c : Int) = false ∧ c ≠ 10)
    (hne : token ≠ [])
    (hrest : ∀ c, rest.head? = some c → is_white (c : Int) = true ∨ c = 10) :
    (∃ v e s', read_uint32 false ⟨whites ++ token ++ rest, false⟩ = some (v, e, s') ∧
      ((∀ c ∈ token, is_digit c = true) → digits_value token ≤ 4294967295 →
        v = digits_value token ∧ e = false) ∧
      (((∀ c ∈ token, is_digit c = true) ∧ digits_value token > 4294967295) ∨
          (∃ c ∈ token, is_digit c = false) → v = 0 ∧ e = true)) ∧
    (∀ (number : Nat) (c : Int), number ≤ UINT32_MAX → 48 ≤ c → c ≤ 57 →
      accumulate number c = number * 10 + (c - 48).toNat ∧
        number * 10 + (c - 48).toNat < 2 ^ 64) := by
  refine ⟨?_, fun number c hn h1 h2 => accumulate_exact hn h1 h2⟩
  obtain ⟨t, ts, rfl⟩ := List.exists_cons_of_ne_nil hne
  have ht := htoken t (List.mem_cons_self _ _)
  have hin : whites ++ t :: ts ++ rest = whites ++ t :: (ts ++ rest) := by simp
  obtain ⟨n', e', c', s', hloop, hiff, hval⟩ :=
    read_loop_spec rest hrest ts t 0 ((ts ++ rest).length + 3) htoken (by simp; omega)
  have hrun : read_uint32 false ⟨whites ++ t :: ts ++ rest, false⟩ =
      (if (if n' > UINT32_MAX then true else e') = true then
        some (BLANK, (if n' > UINT32_MAX then true else e'),
          if c' = 10 then ungetc c' s' else s')
      else some (n' % 4294967296, (if n' > UINT32_MAX then true else e'),
          if c' = 10 then ungetc c' s' else s')) := by
    unfold read_uint32
    rw [hin, read_white_chars_spec whites t (ts ++ rest) hwhite ht.1]
    simp only [Bool.false_eq_true, if_false, getchar_cons]
    rw [hloop]
  by_cases hgood : e' = false ∧ n' ≤ UINT32_MAX
  · have hV := hiff.1 hgood
    have hn := hval hgood.1
    have hnot : ¬ n' > UINT32_MAX := by omega
    have hmod : n' % 4294967296 = n' := by
      apply Nat.mod_eq_of_lt
      have := hgood.2
      unfold UINT32_MAX at this
      omega
    refine ⟨n', false, (if c' = 10 then ungetc c' s' else s'), ?_, ?_, ?_⟩
    · rw [hrun, if_neg hnot, hgood.1]
      simp only [Bool.false_eq_true, if_false]
      rw [hmod]
    · intro _ _
      exact ⟨hn, rfl⟩
    · rintro (⟨_, h2⟩ | ⟨c, hc, hd⟩)
      · exfalso
        have := hV.2
        unfold UINT32_MAX at this
        unfold digits_value at h2
        omega
      · exfalso
        rw [hV.1 c hc] at hd
        exact absurd hd (by simp)
  · have herr : (if n' > UINT32_MAX then true else e') = true := by
      by_cases hn : n' > UINT32_MAX
      · rw [if_pos hn]
      · rw [if_neg hn]
        cases he : e' with
        | true => rfl
        | false => exact absurd ⟨he, by omega⟩ hgood
    refine ⟨0, true, (if c' = 10 then ungetc c' s' else s'), ?_, ?_, ?_⟩
    · rw [hrun, herr]
      simp only [if_true]
      rfl
    · intro h1 h2
      exfalso
      exact hgood (hiff.2 ⟨h1, h2⟩)
    · intro _
      exact ⟨rfl, rfl⟩

theorem C37_read_uint32_token_witness :
    (∃ v e s', read_uint32 false ⟨[32, 9] ++ [52, 50] ++ [10, 55], false⟩ = some (v, e, s') ∧
      ((∀ c ∈ [52, 50], is_digit c = true) → digits_value [52, 50] ≤ 4294967295 →
        v = digits_value [52, 50] ∧ e = false) ∧
      (((∀ c ∈ [52, 50], is_digit c = true) ∧ digits_value [52, 50] > 4294967295) ∨
          (∃ c ∈ [52, 50], is_digit c = false) → v = 0 ∧ e = true)) ∧
    (∀ (number : Nat) (c : Int), number ≤ UINT32_MAX → 48 ≤ c → c ≤ 57 →
      accumulate number c = number * 10 + (c - 48).toNat ∧
        number * 10 + (c - 48).toNat < 2 ^ 64) :=
  C37_read_uint32_token [32, 9] [52, 50] [10, 55] (by decide) (by decide) (by decide)
    (by decide)

/-! ## The cells examined by the neighbour loops -/

/-- One candidate: the wrapped sum passes `good_coords` exactly when the
integer sum is on the board, and then the two are equal. -/
theorem candidate_eq (g : gamma_t) (hw : g.width < 4294967296) (hh : g.height < 4294967296)
    {x y : Nat} (hx : x < g.width) (hy : y < g.height) (dx dy : Int) (p : Int × Int)
    (h1 : -1 ≤ dx) (h2 : dx ≤ 1) (h3 : -1 ≤ dy) (h4 : dy ≤ 1)
    (hp1 : p.1 = (x : Int) + dx) (hp2 : p.2 = (y : Int) + dy) :
    (if good_coords g (add_u32 x dx) (add_u32 y dy) then
        some (add_u32 y dy, add_u32 x dx) else none) =
      (if 0 ≤ p.1 ∧ p.1 < g.width ∧ 0 ≤ p.2 ∧ p.2 < g.height then
        some (p.2.toNat, p.1.toNat) else none) := by
  by_cases hc : 0 ≤ p.1 ∧ p.1 < g.width ∧ 0 ≤ p.2 ∧ p.2 < g.height
  · have e1 : add_u32 x dx = p.1.toNat := by
      unfold add_u32
      omega
    have e2 : add_u32 y dy = p.2.toNat := by
      unfold add_u32
      omega
    have hg : good_coords g (add_u32 x dx) (add_u32 y dy) = true := by
      rw [good_coords_iff, e1, e2]
      constructor
      · show p.2.toNat < g.height
        omega
      · show p.1.toNat < g.width
        omega
    rw [if_pos hg, if_pos hc, e1, e2]
  · have hg : ¬ good_coords g (add_u32 x dx) (add_u32 y dy) = true := by
      rw [good_coords_iff]
      rintro ⟨k1, k2⟩
      apply hc
      have k1' : add_u32 y dy < g.height := k1
      have k2' : add_u32 x dx < g.width := k2
      unfold add_u32 at k1' k2'
      omega
    rw [if_neg hg, if_neg hc]

theorem filterMap_four {α β : Type} (F : Nat → Option β) (G : α → Option β) (a0 a1 a2 a3 : α)
    (h0 : F 0 = G a0) (h1 : F 1 = G a1) (h2 : F 2 = G a2) (h3 : F 3 = G a3) :
    (List.range 4).filterMap F = [a0, a1, a2, a3].filterMap G := by
  have hr : List.range 4 = [0, 1, 2, 3] := by decide
  rw [hr]
  simp only [List.filterMap_cons, List.filterMap_nil, h0, h1, h2, h3]

/-- The cells that pass the test of the loops are the neighbours on the board. -/
theorem examined_eq (g : gamma_t) (hw : g.width < 4294967296) (hh : g.height < 4294967296)
    {x y : Nat} (hx : x < g.width) (hy : y < g.height) :
    examined g x y = neighbours g x y := by
  unfold examined neighbours
  apply filterMap_four
  · exact candidate_eq g hw hh hx hy 1 0 ((x : Int) + 1, (y : Int))
      (by omega) (by omega) (by omega) (by omega) rfl (by simp)
  · exact candidate_eq g hw hh hx hy (-1) 0 ((x : Int) - 1, (y : Int))
      (by omega) (by omega) (by omega) (by omega) (by simp; omega) (by simp)
  · exact candidate_eq g hw hh hx hy 0 1 ((x : Int), (y : Int) + 1)
      (by omega) (by omega) (by omega) (by omega) (by simp) rfl
  · exact candidate_eq g hw hh hx hy 0 (-1) ((x : Int), (y : Int) - 1)
      (by omega) (by omega) (by omega) (by omega) (by simp) (by simp; omega)

/-- A test over the guarded candidates is a test over the list of those that pass. -/
theorem any_guard (gd : Nat → Bool) (cell : Nat → Nat × Nat) (p : Nat × Nat → Bool) :
    ∀ (l : List Nat),
      l.any (fun i => gd i && p (cell i)) =
        (l.filterMap (fun i => if gd i then some (cell i) else none)).any p := by
  intro l
  induction l with
  | nil => rfl
  | cons i l ih =>
    rw [List.any_cons, List.filterMap_cons, ih]
    cases hg : gd i with
    | true => simp
    | false => simp

/-- A loop over the guarded candidates is a loop over the list of those that pass. -/
theorem foldlM_guard {σ : Type} (D : σ → Prop) (gd : Nat → Bool) (cell : Nat → Nat × Nat)
    (f : σ → Nat → Option σ) (v : σ → Nat × Nat → Option σ)
    (hD : ∀ s c s', D s → v s c = some s' → D s')
    (hf : ∀ s i, D s → f s i = if gd i then v s (cell i) else some s) :
    ∀ (l : List Nat) (s : σ), D s →
      l.foldlM f s = (l.filterMap (fun i => if gd i then some (cell i) else none)).foldlM v s := by
  intro l
  induction l with
  | nil => intro s _; rfl
  | cons i l ih =>
    intro s hs
    rw [List.foldlM_cons, List.filterMap_cons, hf s i hs]
    cases hg : gd i with
    | true =>
      simp only [if_true, List.foldlM_cons]
      cases hv : v s (cell i) with
      | none => rfl
      | some s1 =>
        simp only [Option.bind_eq_bind, Option.some_bind]
        exact ih s1 (hD s (cell i) s1 hs hv)
    | false =>
      simp only [Bool.false_eq_true, if_false, Option.bind_eq_bind, Option.some_bind]
      exact ih s hs

theorem foldl_range_congr {σ : Type} (f f' : σ → Nat → σ) :
    ∀ (n : Nat) (init : σ), (∀ k s, k < n → f s k = f' s k) →
      (List.range n).foldl f init = (List.range n).foldl f' init := by
  intro n
  induction n with
  | zero => intro init _; rfl
  | succ n ih =>
    intro init h
    rw [List.range_succ, List.foldl_append, List.foldl_append,
      ih init (fun k s hk => h k s (by omega))]
    simp only [List.foldl_cons, List.foldl_nil]
    exact h n _ (by omega)

/-! ## The neighbour loops run over the neighbours on the board -/

theorem neighbours_good (g : gamma_t) (x y : Nat) {c : Nat × Nat}
    (hc : c ∈ neighbours g x y) : good_coords g c.2 c.1 = true := by
  unfold neighbours at hc
  rw [List.mem_filterMap] at hc
  obtain ⟨p, _, hp⟩ := hc
  split at hp
  · rename_i hcond
    simp only [Option.some.injEq] at hp
    rw [← hp, good_coords_iff]
    constructor
    · show p.2.toNat < g.height
      omega
    · show p.1.toNat < g.width
      omega
  · exact absurd hp (by simp)

/-- The test of `movie_possible` for a player at the limit of areas runs over
the neighbours on the board. -/
theorem movie_test_eq (g : gamma_t) (hw : g.width < 4294967296) (hh : g.height < 4294967296)
    {x y : Nat} (hx : x < g.width) (hy : y < g.height) (player : Nat) :
    (List.range 4).any (fun i =>
        good_coords g (add_u32 x (delta_x i)) (add_u32 y (delta_y i)) &&
        decide ((g.fields (add_u32 y (delta_y i)) (add_u32 x (delta_x i))).owner = player)) =
      (neighbours g x y).any (fun c => decide ((g.fields c.1 c.2).owner = player)) := by
  rw [← examined_eq g hw hh hx hy]
  exact any_guard (fun i => good_coords g (add_u32 x (delta_x i)) (add_u32 y (delta_y i)))
    (fun i => (add_u32 y (delta_y i), add_u32 x (delta_x i)))
    (fun c => decide ((g.fields c.1 c.2).owner = player)) (List.range 4)

theorem good_coords_dims {g g' : gamma_t} (h1 : g'.height = g.height) (h2 : g'.width = g.width)
    (x y : Nat) : good_coords g' x y = good_coords g x y := by
  unfold good_coords
  rw [h1, h2]

/-- The neighbour loop of `restore_move` runs over the neighbours on the board. -/
theorem restore_loop_eq (g : gamma_t) (hw : g.width < 4294967296) (hh : g.height < 4294967296)
    {x y : Nat} (hx : x < g.width) (hy : y < g.height) (player : Nat) (s : gamma_t × Nat)
    (h1 : s.1.height = g.height) (h2 : s.1.width = g.width) :
    (List.range 4).foldlM (restore_move_step player x y) s =
      (neighbours g x y).foldlM (restore_visit player x y) s := by
  rw [← examined_eq g hw hh hx hy]
  refine foldlM_guard (fun (s : gamma_t × Nat) => s.1.height = g.height ∧ s.1.width = g.width)
    (fun i => good_coords g (add_u32 x (delta_x i)) (add_u32 y (delta_y i)))
    (fun i => (add_u32 y (delta_y i), add_u32 x (delta_x i)))
    (restore_move_step player x y) (restore_visit player x y) ?_ ?_ (List.range 4) s ⟨h1, h2⟩
  · intro t c t' ht hv
    unfold restore_visit at hv
    simp only at hv
    split at hv
    · split at hv
      · simp only [Option.some.injEq] at hv
        rw [← hv]
        exact ht
      · exact absurd hv (by simp)
    · simp only [Option.some.injEq] at hv
      rw [← hv]
      exact ht
  · intro t i ht
    unfold restore_move_step restore_visit
    simp only [good_coords_dims ht.1 ht.2]
    by_cases hg : good_coords g (add_u32 x (delta_x i)) (add_u32 y (delta_y i)) = true
    · by_cases ho : (t.1.fields (add_u32 y (delta_y i)) (add_u32 x (delta_x i))).owner = player
      · have hc : (good_coords g (add_u32 x (delta_x i)) (add_u32 y (delta_y i)) &&
            decide ((t.1.fields (add_u32 y (delta_y i)) (add_u32 x (delta_x i))).owner
              = player)) = true := by simp [hg, ho]
        rewrite [if_pos hc, if_pos hg, if_pos ho]
        rfl
      · have hc : ¬ (good_coords g (add_u32 x (delta_x i)) (add_u32 y (delta_y i)) &&
            decide ((t.1.fields (add_u32 y (delta_y i)) (add_u32 x (delta_x i))).owner
              = player)) = true := by simp [hg, ho]
        rewrite [if_neg hc, if_pos hg, if_neg ho]
        rfl
    · have hc : ¬ (good_coords g (add_u32 x (delta_x i)) (add_u32 y (delta_y i)) &&
          decide ((t.1.fields (add_u32 y (delta_y i)) (add_u32 x (delta_x i))).owner
            = player)) = true := by simp [hg]
      rewrite [if_neg hc, if_neg hg]
      rfl

/-- The neighbour loop of `gamma_move` runs over the neighbours on the board. -/
theorem gamma_loop_eq (g : gamma_t) (hw : g.width < 4294967296) (hh : g.height < 4294967296)
    {x y : Nat} (hx : x < g.width) (hy : y < g.height) (player : Nat)
    (s : gamma_t × Bool × Nat) (h1 : s.1.height = g.height) (h2 : s.1.width = g.width) :
    (List.range 4).foldlM (gamma_move_step player x y) s =
      (neighbours g x y).foldlM (gamma_visit player x y) s := by
  rw [← examined_eq g hw hh hx hy]
  refine foldlM_guard
    (fun (s : gamma_t × Bool × Nat) => s.1.height = g.height ∧ s.1.width = g.width)
    (fun i => good_coords g (add_u32 x (delta_x i)) (add_u32 y (delta_y i)))
    (fun i => (add_u32 y (delta_y i), add_u32 x (delta_x i)))
    (gamma_move_step player x y) (gamma_visit player x y) ?_ ?_ (List.range 4) s ⟨h1, h2⟩
  · intro t c t' ht hv
    unfold gamma_visit at hv
    simp only at hv
    split at hv
    · split at hv
      · simp only [Option.some.injEq] at hv
        rw [← hv]
        exact ht
      · exact absurd hv (by simp)
    · simp only [Option.some.injEq] at hv
      rw [← hv]
      exact ht
  · intro t i ht
    unfold gamma_move_step gamma_visit
    simp only [good_coords_dims ht.1 ht.2]
    by_cases hg : good_coords g (add_u32 x (delta_x i)) (add_u32 y (delta_y i)) = true
    · by_cases ho : (t.1.fields (add_u32 y (delta_y i)) (add_u32 x (delta_x i))).owner = player
      · have hc : (good_coords g (add_u32 x (delta_x i)) (add_u32 y (delta_y i)) &&
            decide ((t.1.fields (add_u32 y (delta_y i)) (add_u32 x (delta_x i))).owner
              = player)) = true := by simp [hg, ho]
        rewrite [if_pos hc, if_pos hg, if_pos ho]
        rfl
      · have hc : ¬ (good_coords g (add_u32 x (delta_x i)) (add_u32 y (delta_y i)) &&
            decide ((t.1.fields (add_u32 y (delta_y i)) (add_u32 x (delta_x i))).owner
              = player)) = true := by simp [hg, ho]
        rewrite [if_neg hc, if_pos hg, if_neg ho]
        rfl
    · have hc : ¬ (good_coords g (add_u32 x (delta_x i)) (add_u32 y (delta_y i)) &&
          decide ((t.1.fields (add_u32 y (delta_y i)) (add_u32 x (delta_x i))).owner
            = player)) = true := by simp [hg]
      rewrite [if_neg hc, if_neg hg]
      rfl

/-- The count of `free_fields_full_areas` runs over the neighbours on the board. -/
theorem free_fields_full_nb (g : gamma_t) (hw : g.width < 4294967296)
    (hh : g.height < 4294967296) (player : Nat) :
    free_fields_full_areas g player =
      (List.range g.height).foldl (fun free_count i =>
        (List.range g.width).foldl (fun free_count j =>
          if (g.fields i j).owner = EMPTY ∧
              (neighbours g j i).any (fun c => decide ((g.fields c.1 c.2).owner = player))
                = true
          then (free_count + 1) % 2 ^ 64 else free_count) free_count) 0 := by
  unfold free_fields_full_areas
  apply foldl_range_congr
  intro i s hi
  apply foldl_range_congr
  intro j t hj
  show (if (g.fields i j).owner = EMPTY ∧ (List.range 4).any (fun dir =>
      good_coords g (add_u32 j (delta_x dir)) (add_u32 i (delta_y dir)) &&
      decide ((g.fields (add_u32 i (delta_y dir)) (add_u32 j (delta_x dir))).owner = player))
      = true then (t + 1) % 2 ^ 64 else t) = _
  rw [movie_test_eq g hw hh hj hi player]

/-- C35. On a board whose sides are 32-bit numbers and for every cell `(x, y)`
of the board: the cells that pass the test `good_coords` in the neighbour
loops, whose coordinates are 32-bit unsigned sums, are exactly the cells of the
board among `(x + 1, y)`, `(x - 1, y)`, `(x, y + 1)`, `(x, y - 1)` computed in
integer arithmetic (`neighbours`), and each of them passes `good_coords`;
`x + 1` and `y + 1` do not wrap; `x - 1` at `x = 0` and `y - 1` at `y = 0` wrap
to `2^32 - 1`, which `good_coords` rejects; and `movie_possible`, the
neighbour loops of `gamma_move` and `restore_move`, and
`free_fields_full_areas` compute what the same loops over `neighbours`
compute, so they read and write the grid at the cell `(x, y)` and at cells of
`neighbours` only. -/
theorem C35_neighbours_in_bounds (g : gamma_t) (hw : g.width < 4294967296)
    (hh : g.height < 4294967296) :
    (∀ x y, x < g.width → y < g.height →
      examined g x y = neighbours g x y ∧
      (∀ c ∈ neighbours g x y, good_coords g c.2 c.1 = true) ∧
      add_u32 x 1 = x + 1 ∧ add_u32 y 1 = y + 1 ∧
      (x = 0 → add_u32 x (-1) = 4294967295 ∧ ∀ y', good_coords g 4294967295 y' = false) ∧
      (y = 0 → add_u32 y (-1) = 4294967295 ∧ ∀ x', good_coords g x' 4294967295 = false) ∧
      (∀ player, movie_possible (some g) player x y =
        if player = EMPTY ∨ player > g.players ∨ (g.fields y x).owner ≠ EMPTY then false
        else if g.player_areas player = g.areas then
          (neighbours g x y).any (fun c => decide ((g.fields c.1 c.2).owner = player))
        else true) ∧
      (∀ player (s : gamma_t × Bool × Nat), s.1.height = g.height → s.1.width = g.width →
        (List.range 4).foldlM (gamma_move_step player x y) s =
          (neighbours g x y).foldlM (gamma_visit player x y) s) ∧
      (∀ player (s : gamma_t × Nat), s.1.height = g.height → s.1.width = g.width →
        (List.range 4).foldlM (restore_move_step player x y) s =
          (neighbours g x y).foldlM (restore_visit player x y) s) ∧
      (∀ player, gamma_move (some g) player x y =
        if !movie_possible (some g) player x y then some (false, some g)
        else
          match (neighbours g x y).foldlM (gamma_visit player x y)
              ({ g with fields := set_cell g.fields y x (set_field (g.fields y x) x y player) },
                false, 0) with
          | none => none
          | some (g2, connected, united_areas) =>
            some (true, some
              { g2 with
                player_areas := set_at g2.player_areas player
                  (if united_areas > 0 then
                    sub_united (if !connected then (g2.player_areas player + 1) % 4294967296
                      else g2.player_areas player) united_areas
                  else if !connected then (g2.player_areas player + 1) % 4294967296
                    else g2.player_areas player)
                player_fields := set_at g2.player_fields player
                  ((g2.player_fields player + 1) % 2 ^ 64) })) ∧
      (∀ player, restore_move g player x y =
        match (neighbours g x y).foldlM (restore_visit player x y)
            ({ g with fields := set_cell g.fields y x (set_field (g.fields y x) x y player) },
              0) with
        | none => none
        | some (g2, united_areas) =>
          some
            { g2 with
              player_areas := set_at g2.player_areas player
                (if united_areas > 0 then
                  sub_united (if united_areas = 0 then (g2.player_areas player + 1) % 4294967296
                    else g2.player_areas player) united_areas
                else if united_areas = 0 then (g2.player_areas player + 1) % 4294967296
                  else g2.player_areas player)
              player_fields := set_at g2.player_fields player
                ((g2.player_fields player + 1) % 2 ^ 64) })) ∧
    (∀ player, free_fields_full_areas g player =
      (List.range g.height).foldl (fun free_count i =>
        (List.range g.width).foldl (fun free_count j =>
          if (g.fields i j).owner = EMPTY ∧
              (neighbours g j i).any (fun c => decide ((g.fields c.1 c.2).owner = player))
                = true
          then (free_count + 1) % 2 ^ 64 else free_count) free_count) 0) := by
  refine ⟨fun x y hx hy => ⟨examined_eq g hw hh hx hy, fun c hc => neighbours_good g x y hc,
    ?_, ?_, ?_, ?_, ?_, fun player s h1 h2 => gamma_loop_eq g hw hh hx hy player s h1 h2,
    fun player s h1 h2 => restore_loop_eq g hw hh hx hy player s h1 h2, ?_, ?_⟩,
    fun player => free_fields_full_nb g hw hh player⟩
  · unfold add_u32
    omega
  · unfold add_u32
    omega
  · intro h0
    subst h0
    refine ⟨by decide, fun y' => ?_⟩
    unfold good_coords
    have : ¬ 4294967295 < g.width := by omega
    simp [this]
  · intro h0
    subst h0
    refine ⟨by decide, fun x' => ?_⟩
    unfold good_coords
    have : ¬ 4294967295 < g.height := by omega
    simp [this]
  · intro player
    unfold movie_possible
    simp only
    rw [movie_test_eq g hw hh hx hy player]
    have e1 : ¬ x ≥ g.width := by omega
    have e2 : ¬ y ≥ g.height := by omega
    simp only [e1, e2, false_or]
  · intro player
    cases hmp : movie_possible (some g) player x y with
    | false =>
      rw [gamma_move_false hmp]
      rfl
    | true =>
      unfold gamma_move
      simp only [hmp, Bool.not_true, Bool.false_eq_true, if_false]
      rewrite [gamma_loop_eq g hw hh hx hy player _ rfl rfl]
      cases (neighbours g x y).foldlM (gamma_visit player x y)
          ({ g with fields := set_cell g.fields y x (set_field (g.fields y x) x y player) },
            false, 0) with
      | none => rfl
      | some r => rfl
  · intro player
    unfold restore_move
    simp only
    rewrite [restore_loop_eq g hw hh hx hy player _ rfl rfl]
    cases (neighbours g x y).foldlM (restore_visit player x y)
        ({ g with fields := set_cell g.fields y x (set_field (g.fields y x) x y player) },
          0) with
    | none => rfl
    | some r => rfl

theorem C35_neighbours_in_bounds_witness :
    (∀ x y, x < sampleBoard.width → y < sampleBoard.height →
      examined sampleBoard x y = neighbours sampleBoard x y ∧
      (∀ c ∈ neighbours sampleBoard x y, good_coords sampleBoard c.2 c.1 = true) ∧
      add_u32 x 1 = x + 1 ∧ add_u32 y 1 = y + 1 ∧
      (x = 0 → add_u32 x (-1) = 4294967295 ∧ ∀ y', good_coords sampleBoard 4294967295 y' = false) ∧
      (y = 0 → add_u32 y (-1) = 4294967295 ∧ ∀ x', good_coords sampleBoard x' 4294967295 = false) ∧
      (∀ player, movie_possible (some sampleBoard) player x y =
        if player = EMPTY ∨ player > sampleBoard.players ∨ (sampleBoard.fields y x).owner ≠ EMPTY then false
        else if sampleBoard.player_areas player = sampleBoard.areas then
          (neighbours sampleBoard x y).any (fun c => decide ((sampleBoard.fields c.1 c.2).owner = player))
        else true) ∧
      (∀ player (s : gamma_t × Bool × Nat), s.1.height = sampleBoard.height → s.1.width = sampleBoard.width →
        (List.range 4).foldlM (gamma_move_step player x y) s =
          (neighbours sampleBoard x y).foldlM (gamma_visit player x y) s) ∧
      (∀ player (s : gamma_t × Nat), s.1.height = sampleBoard.height → s.1.width = sampleBoard.width →
        (List.range 4).foldlM (restore_move_step player x y) s =
          (neighbours sampleBoard x y).foldlM (restore_visit player x y) s) ∧
      (∀ player, gamma_move (some sampleBoard) player x y =
        if !movie_possible (some sampleBoard) player x y then some (false, some sampleBoard)
        else
          match (neighbours sampleBoard x y).foldlM (gamma_visit player x y)
              ({ sampleBoard with fields := set_cell sampleBoard.fields y x (set_field (sampleBoard.fields y x) x y player) },
                false, 0) with
          | none => none
          | some (g2, connected, united_areas) =>
            some (true, some
              { g2 with
                player_areas := set_at g2.player_areas player
                  (if united_areas > 0 then
                    sub_united (if !connected then (g2.player_areas player + 1) % 4294967296
                      else g2.player_areas player) united_areas
                  else if !connected then (g2.player_areas player + 1) % 4294967296
                    else g2.player_areas player)
                player_fields := set_at g2.player_fields player
                  ((g2.player_fields player + 1) % 2 ^ 64) })) ∧
      (∀ player, restore_move sampleBoard player x y =
        match (neighbours sampleBoard x y).foldlM (restore_visit player x y)
            ({ sampleBoard with fields := set_cell sampleBoard.fields y x (set_field (sampleBoard.fields y x) x y player) },
              0) with
        | none => none
        | some (g2, united_areas) =>
          some
            { g2 with
              player_areas := set_at g2.player_areas player
                (if united_areas > 0 then
                  sub_united (if united_areas = 0 then (g2.player_areas player + 1) % 4294967296
                    else g2.player_areas player) united_areas
                else if united_areas = 0 then (g2.player_areas player + 1) % 4294967296
                  else g2.player_areas player)
              player_fields := set_at g2.player_fields player
                ((g2.player_fields player + 1) % 2 ^ 64) })) ∧
    (∀ player, free_fields_full_areas sampleBoard player =
      (List.range sampleBoard.height).foldl (fun free_count i =>
        (List.range sampleBoard.width).foldl (fun free_count j =>
          if (sampleBoard.fields i j).owner = EMPTY ∧
              (neighbours sampleBoard j i).any (fun c => decide ((sampleBoard.fields c.1 c.2).owner = player))
                = true
          then (free_count + 1) % 2 ^ 64 else free_count) free_count) 0) :=
  C35_neighbours_in_bounds sampleBoard (by decide) (by decide)

end Gamma
